import Mathlib

/-!
# The pull planner of reprepro (`src/pull.c`)

A shallow embedding of `pull.c`: the planning (steps two to four and their combination
`pull_prepare`), the typo checker run when `--fast` is not given, the per-package decision
callback `ud_decide_by_rule`, and the update itself (`pull_update`, `pull_checkupdate`).

Modelling conventions.

* The `next`-linked lists of rules, distributions, targets, pull distributions, pull targets
  and pull sources are Lean lists in link order.
* A pointer into one of the two input lists is the position of the pointee: a
  `struct pull_rule *` is an index into the rule list, a `struct distribution *` an index into
  the distribution list, a `struct target *` a pair (distribution index, index into that
  distribution's target list).  `NULL` is `none`.
* A function that can dereference a pointer outside its list, read an array outside its
  bounds or trip an `assert` returns an `Option`; `none` is that abort.
* `malloc` always succeeds.
* What the planning writes to `stderr` is a list of structured `message`s, threaded through
  the calls.
* `term` (compiled formulas) and `filterlist` belong to other modules: they are type
  parameters, and their evaluators are parameters of `ud_decide_by_rule`.
* During an update `pull.c` calls into the upgrade-list engine, the distribution module and
  the logger. Every such call is recorded, with the result `pull.c` reads from it, as an
  `event`; the other modules are an `engine`, which answers a call from the events so far.
  The field `status` of the distributions, the only field of a distribution an update
  writes, is kept apart as a list by position. The progress lines and the warnings about
  override files and tracking that an update prints are left out, except for the one
  progress line that dereferences a pointer that can be `NULL` (pull.c 684-686): there the
  update aborts when the global `verbose` is above 4 and the source has no source bucket.
-/

namespace Pull

/-! ## Declarations of other headers -/

/-- Modelled from the spec: the result codes of `error.h`, which is not among the sources; only
the codes that `pull.c` names, ordered in three levels no-op, changed, error. -/
inductive retvalue where
  | RET_NOTHING
  | RET_OK
  | RET_ERROR
  | RET_ERROR_OOM
  | RET_ERROR_MISSING
  deriving DecidableEq, Repr

open retvalue

/-- Modelled from the spec: `RET_WAS_ERROR` of `error.h`, true of the error-level codes. -/
def RET_WAS_ERROR : retvalue → Bool
  | RET_NOTHING => false
  | RET_OK => false
  | _ => true

/-- Modelled from the spec: `RET_IS_OK` of `error.h`, true of the code `changed` only. -/
def RET_IS_OK : retvalue → Bool
  | RET_OK => true
  | _ => false

/-- Lists of words, `struct strlist`. -/
abbrev strlist := List String

/-- Modelled from the spec: `strlist_in` of `strlist.c`, membership of a word in a list. -/
def strlist_in (list : strlist) (s : String) : Bool :=
  list.contains s

/-- Modelled from the spec: `strlist_ofs` of `strlist.c`, the position of the first occurrence
of a word (`none` for the C result `-1`). -/
def strlist_ofs (list : strlist) (s : String) : Option Nat :=
  list.findIdx? (fun v => v == s)

/-- Modelled from the spec: `strlist_preparefoundlist` of `strlist.c`, one boolean per needed
literal; with `ignorenone` the literal `none` starts out as found, and so does every repetition
of an earlier literal, so that a literal is reported once. -/
def strlist_preparefoundlist (list : strlist) (ignorenone : Bool) : List Bool :=
  (List.range list.length).map (fun i =>
    match list[i]? with
    | none => false
    | some v => (ignorenone && v == "none") || (list.take i).contains v)

/-- A bucket, `struct target` of `target.h`: the fields `pull.c` reads. -/
structure target where
  component : String
  architecture : String
  packagetype : String
  identifier : String
  deriving DecidableEq, Repr

/-- One distribution, `struct distribution` of `distribution.h`: the fields the planner reads. -/
structure distribution where
  codename : String
  selected : Bool
  architectures : strlist
  components : strlist
  udebcomponents : strlist
  pulls : strlist
  targets : List target
  deriving DecidableEq, Repr

/-- Modelled from the spec: `distribution_getpart` of `distribution.c`, the bucket of a
distribution with the given component, architecture and package type, as a position in the
distribution's bucket list; `none` is the `NULL` of a distribution without such a bucket. -/
def distribution_getpart (d : distribution) (component architecture packagetype : String) :
    Option Nat :=
  d.targets.findIdx? (fun t =>
    t.component == component && t.architecture == architecture && t.packagetype == packagetype)

/-- Modelled from the spec: the verdicts of a name filter, `enum filterlisttype` of
`filterlist.h`. -/
inductive filterlisttype where
  | flt_install
  | flt_purge
  | flt_deinstall
  | flt_hold
  | flt_error
  deriving DecidableEq, Repr

/-- Modelled from the spec: the verdicts of a decision callback, `upgrade_decision` of
`upgradelist.h`. -/
inductive upgrade_decision where
  | UD_ERROR
  | UD_NO
  | UD_UPGRADE
  | UD_HOLD
  deriving DecidableEq, Repr

/-- The lines `pull.c` prints to `stderr`, by the `fprintf` that prints them. -/
inductive message where
  /-- pull.c 204: "Error: Unknown pull rule '%s' in distribution '%s'!" -/
  | unknown_pull_rule (name codename : String)
  /-- pull.c 259: "Error: Unknown distribution '%s' referenced in pull rule '%s'" -/
  | unknown_distribution (from_ name : String)
  /-- pull.c 457: "Warning: pull rule '%s' wants to %s architecture '%s', ..." -/
  | unused_architecture (rulename action architecture : String)
  /-- pull.c 487: "Warning: pull rule '%s' wants to %s component '%s', ..." -/
  | unused_component (rulename action component : String)
  /-- pull.c 517: "Warning: pull rule '%s' wants to %s udeb component '%s', ..." -/
  | unused_udebcomponent (rulename action udebcomponent : String)
  /-- pull.c 545: "Warning: pull rule '%s' wants to get something from %s '%s', ..." -/
  | no_such (rulename what value from_ : String)
  /-- pull.c 640: "Package name marked to be unexpected('error'): '%s'!" -/
  | package_marked_error (package : String)
  deriving DecidableEq, Repr

/-! ## Step one: the rules -/

/-- A pull rule, `struct pull_rule` (pull.c 47-69). `from_` is the field `from`; `distribution`
is the pointer to the source distribution, as a position in the list of all distributions. -/
structure pull_rule (term filterlist : Type) where
  name : String
  from_ : String
  architectures_from : strlist
  architectures_into : strlist
  architectures_set : Bool
  components : strlist
  components_set : Bool
  udebcomponents : strlist
  udebcomponents_set : Bool
  includecondition : Option term
  filterlist : filterlist
  distribution : Option Nat
  used : Bool
  deriving DecidableEq, Repr

/-! ## Step two: one `pull_distribution` per selected distribution with pulls -/

/-- A source of a bucket, `struct pull_source` (pull.c 273-278): `source` and `rule` are both
`none` for a delete marker. -/
structure pull_source where
  source : Option (Nat × Nat)
  rule : Option Nat
  deriving DecidableEq, Repr

/-- A bucket to update, `struct pull_target` (pull.c 279-286). -/
structure pull_target where
  sources : List pull_source
  target : Nat × Nat
  upgradelist : Option Nat
  ignoredelete : Bool
  deriving DecidableEq, Repr

/-- The plan of one distribution, `struct pull_distribution` (pull.c 160-165): `rules` is the
trailing array of rule pointers, one slot per entry of the distribution's `pulls`. -/
structure pull_distribution where
  distribution : Nat
  targets : List pull_target
  rules : List (Option Nat)
  deriving DecidableEq, Repr

variable {term filterlist : Type}

/-- The assignment `rule->used = true` (pull.c 210) to the rule at position `k`. -/
def mark_used (rules : List (pull_rule term filterlist)) (k : Nat) :
    List (pull_rule term filterlist) :=
  match rules[k]? with
  | none => rules
  | some rule => rules.set k { rule with used := true }

/-- The loop of `pull_initdistribution` (pull.c 195-212) over the remaining names of
`distribution->pulls`; `slots` is the part of `p->rules` filled so far. -/
def pull_initdistribution_loop (codename : String) :
    List String → List (pull_rule term filterlist) → List (Option Nat) → List message →
    retvalue × List (pull_rule term filterlist) × List (Option Nat) × List message
  | [], rules, slots, err => (RET_OK, rules, slots, err)
  | name :: rest, rules, slots, err =>
    if name = "-" then
      pull_initdistribution_loop codename rest rules (slots ++ [none]) err
    else
      match rules.findIdx? (fun rule => rule.name == name) with
      | none =>
        (RET_ERROR_MISSING, rules, slots, err ++ [message.unknown_pull_rule name codename])
      | some k =>
        pull_initdistribution_loop codename rest (mark_used rules k) (slots ++ [some k]) err

/-- The function `pull_initdistribution` (pull.c 178-215) for the distribution at position `di`:
the result code, the rules, what is stored in `*pp` if anything, and `stderr`. -/
def pull_initdistribution (di : Nat) (d : distribution)
    (rules : List (pull_rule term filterlist)) (err : List message) :
    retvalue × List (pull_rule term filterlist) × Option pull_distribution × List message :=
  if d.pulls.length = 0 then
    (RET_NOTHING, rules, none, err)
  else
    match pull_initdistribution_loop d.codename d.pulls rules [] err with
    | (RET_OK, rules1, slots, err1) => (RET_OK, rules1, some ⟨di, [], slots⟩, err1)
    | (r, rules1, _, err1) => (r, rules1, none, err1)

/-- The loop of `pull_init` (pull.c 224-236) over the distributions from position `di` on; `p` is
the list built so far. A result without a list is the error return, after which `*pulls` is
not written. -/
def pull_init_loop :
    List distribution → Nat → List (pull_rule term filterlist) → List pull_distribution →
    List message →
    Option (retvalue × List (pull_rule term filterlist) × Option (List pull_distribution) ×
      List message)
  | [], _, rules, p, err => some (RET_OK, rules, some p, err)
  | d :: next, di, rules, p, err =>
    if !d.selected then
      pull_init_loop next (di + 1) rules p err
    else
      match pull_initdistribution di d rules err with
      | (r, rules1, pp, err1) =>
        if RET_WAS_ERROR r then
          some (r, rules1, none, err1)
        else if RET_IS_OK r then
          match pp with
          | none => none
          | some pd => pull_init_loop next (di + 1) rules1 (p ++ [pd]) err1
        else
          pull_init_loop next (di + 1) rules1 p err1

/-- The function `pull_init` (pull.c 217-239). -/
def pull_init (rules : List (pull_rule term filterlist)) (distributions : List distribution)
    (err : List message) :
    Option (retvalue × List (pull_rule term filterlist) × Option (List pull_distribution) ×
      List message) :=
  pull_init_loop distributions 0 rules [] err

/-! ## Step three: binding the source distributions -/

/-- The function `pull_loadsourcedistributions` (pull.c 246-266), as the loop over the remaining
rules; `done` are the rules already passed. -/
def pull_loadsourcedistributions_loop (alldistributions : List distribution) :
    List (pull_rule term filterlist) → List (pull_rule term filterlist) → List message →
    retvalue × List (pull_rule term filterlist) × List message
  | [], done, err => (RET_OK, done, err)
  | rule :: next, done, err =>
    if rule.used && rule.distribution.isNone then
      match alldistributions.findIdx? (fun d => d.codename == rule.from_) with
      | some di =>
        pull_loadsourcedistributions_loop alldistributions next
          (done ++ [{ rule with distribution := some di }]) err
      | none =>
        (RET_ERROR_MISSING, done ++ rule :: next,
          err ++ [message.unknown_distribution rule.from_ rule.name])
    else
      pull_loadsourcedistributions_loop alldistributions next (done ++ [rule]) err

/-- The function `pull_loadsourcedistributions` (pull.c 246-266). -/
def pull_loadsourcedistributions (alldistributions : List distribution)
    (rules : List (pull_rule term filterlist)) (err : List message) :
    retvalue × List (pull_rule term filterlist) × List message :=
  pull_loadsourcedistributions_loop alldistributions rules [] err

/-! ## Step four: the targets and their sources -/

/-- The loop of `pull_createsource` (pull.c 333-349) over the remaining indices `ai`; `k` is the
rule pointer, `di` and `d` the rule's source distribution, `s` the sources appended so far. -/
def pull_createsource_loop (k di : Nat) (d : distribution) (target : target)
    (a_from a_into : strlist) : List Nat → List pull_source → Option (List pull_source)
  | [], s => some s
  | ai :: rest, s =>
    match a_into[ai]? with
    | none => none
    | some into =>
      if into ≠ target.architecture then
        pull_createsource_loop k di d target a_from a_into rest s
      else
        match a_from[ai]? with
        | none => none
        | some frm =>
          pull_createsource_loop k di d target a_from a_into rest
            (s ++ [⟨(distribution_getpart d target.component frm target.packagetype).map
                      (fun j => (di, j)), some k⟩])

/-- The function `pull_createsource` (pull.c 301-351) for the rule at position `k`: the result
code and the source list with what the rule contributes to `target` appended. -/
def pull_createsource (alldistributions : List distribution)
    (rules : List (pull_rule term filterlist)) (k : Nat) (target : target)
    (s : List pull_source) : Option (retvalue × List pull_source) :=
  match rules[k]? with
  | none => none
  | some rule =>
    match rule.distribution with
    | none => none
    | some di =>
      match alldistributions[di]? with
      | none => none
      | some d =>
        let a_from := if rule.architectures_set then rule.architectures_from else d.architectures
        let a_into := if rule.architectures_set then rule.architectures_into else d.architectures
        let c :=
          if target.packagetype = "udeb" then
            (if rule.udebcomponents_set then rule.udebcomponents else d.udebcomponents)
          else
            (if rule.components_set then rule.components else d.components)
        if !strlist_in c target.component then
          some (RET_NOTHING, s)
        else
          match pull_createsource_loop k di d target a_from a_into
              (List.range a_into.length) s with
          | none => none
          | some s1 => some (RET_OK, s1)

/-- The function `pull_createdelete` (pull.c 353-366): one delete marker appended. -/
def pull_createdelete (s : List pull_source) : retvalue × List pull_source :=
  (RET_OK, s ++ [⟨none, none⟩])

/-- The loop of `generatepulltarget` (pull.c 386-395) over the remaining slot indices `i`. -/
def generatepulltarget_loop (alldistributions : List distribution)
    (rules : List (pull_rule term filterlist)) (pd : pull_distribution) (target : target) :
    List Nat → List pull_source → Option (retvalue × List pull_source)
  | [], s => some (RET_OK, s)
  | i :: rest, s =>
    match pd.rules[i]? with
    | none => none
    | some slot =>
      match (match slot with
             | none => some (pull_createdelete s)
             | some k => pull_createsource alldistributions rules k target s) with
      | none => none
      | some (r, s1) =>
        if RET_WAS_ERROR r then
          some (r, s1)
        else
          generatepulltarget_loop alldistributions rules pd target rest s1

/-- The function `generatepulltarget` (pull.c 368-398): `tp` is the pointer to `target`; the new
pull target is put in front of `pd->targets`. -/
def generatepulltarget (alldistributions : List distribution)
    (rules : List (pull_rule term filterlist)) (pd : pull_distribution) (tp : Nat × Nat)
    (target : target) : Option (retvalue × pull_distribution) :=
  match alldistributions[pd.distribution]? with
  | none => none
  | some d =>
    match generatepulltarget_loop alldistributions rules pd target
        (List.range d.pulls.length) [] with
    | none => none
    | some (r, s) => some (r, { pd with targets := ⟨s, tp, none, false⟩ :: pd.targets })

/-- The inner loop of `pull_generatetargets` (pull.c 409-415) over the remaining targets of
`pd->distribution`, the first of them at position `j`. -/
def pull_generatetargets_inner (alldistributions : List distribution)
    (rules : List (pull_rule term filterlist)) :
    List target → Nat → pull_distribution → Option (retvalue × pull_distribution)
  | [], _, pd => some (RET_OK, pd)
  | target :: next, j, pd =>
    match generatepulltarget alldistributions rules pd (pd.distribution, j) target with
    | none => none
    | some (r, pd1) =>
      if RET_WAS_ERROR r then
        some (r, pd1)
      else
        pull_generatetargets_inner alldistributions rules next (j + 1) pd1

/-- The function `pull_generatetargets` (pull.c 400-418). -/
def pull_generatetargets (alldistributions : List distribution)
    (rules : List (pull_rule term filterlist)) :
    List pull_distribution → Option (retvalue × List pull_distribution)
  | [] => some (RET_OK, [])
  | pd :: next =>
    match alldistributions[pd.distribution]? with
    | none => none
    | some d =>
      match pull_generatetargets_inner alldistributions rules d.targets 0 pd with
      | none => none
      | some (r, pd1) =>
        if RET_WAS_ERROR r then
          some (r, pd1 :: next)
        else
          match pull_generatetargets alldistributions rules next with
          | none => none
          | some (r1, next1) => some (r1, pd1 :: next1)

/-! ## The checks against typos -/

/-- The function `markasused` (pull.c 424-436). -/
def markasused (pulls : strlist) (rulename : String) (needed have_ : strlist)
    (found : List Bool) : List Bool :=
  pulls.foldl (fun found p =>
    if p ≠ rulename then found
    else
      have_.foldl (fun found h =>
        match strlist_ofs needed h with
        | some o => found.set o true
        | none => found) found) found

/-- The marking common to `checkifarchitectureisused`, `checkifcomponentisused` and
`checkifudebcomponentisused` (pull.c 446-453): `have_` selects the set of a distribution. -/
def checkifisused_found (needed : strlist) (alldistributions : List distribution)
    (rulename : String) (have_ : distribution → strlist) : List Bool :=
  alldistributions.foldl (fun found d => markasused d.pulls rulename needed (have_ d) found)
    (strlist_preparefoundlist needed true)

/-- The function `checkifarchitectureisused` (pull.c 438-466): the warnings it prints. -/
def checkifarchitectureisused (architectures : strlist) (alldistributions : List distribution)
    (rule : pull_rule term filterlist) (action : String) : List message :=
  if architectures.length = 0 then []
  else
    (architectures.zip
        (checkifisused_found architectures alldistributions rule.name
          (fun d => d.architectures))).filterMap
      (fun vf => if vf.2 then none else some (message.unused_architecture rule.name action vf.1))

/-- The function `checkifcomponentisused` (pull.c 468-496): the warnings it prints. -/
def checkifcomponentisused (components : strlist) (alldistributions : List distribution)
    (rule : pull_rule term filterlist) (action : String) : List message :=
  if components.length = 0 then []
  else
    (components.zip
        (checkifisused_found components alldistributions rule.name
          (fun d => d.components))).filterMap
      (fun vf => if vf.2 then none else some (message.unused_component rule.name action vf.1))

/-- The function `checkifudebcomponentisused` (pull.c 498-526): the warnings it prints. -/
def checkifudebcomponentisused (udebcomponents : strlist)
    (alldistributions : List distribution) (rule : pull_rule term filterlist)
    (action : String) : List message :=
  if udebcomponents.length = 0 then []
  else
    (udebcomponents.zip
        (checkifisused_found udebcomponents alldistributions rule.name
          (fun d => d.udebcomponents))).filterMap
      (fun vf =>
        if vf.2 then none else some (message.unused_udebcomponent rule.name action vf.1))

/-- The function `checksubset` (pull.c 528-552): the warnings it prints. -/
def checksubset (needed have_ : strlist) (rulename from_ what : String) : List message :=
  (List.range needed.length).filterMap (fun i =>
    match needed[i]? with
    | none => none
    | some value =>
      if value = "none" then none
      else if (needed.take i).contains value then none
      else if !strlist_in have_ value then some (message.no_such rulename what value from_)
      else none)

/-- The function `searchunused` (pull.c 554-581): the warnings it prints, or the abort of the
`assert` on a rule without source distribution whose `from` is not `*`. -/
def searchunused (alldistributions : List distribution) (rule : pull_rule term filterlist) :
    Option (List message) :=
  match (match rule.distribution with
         | some di =>
           match alldistributions[di]? with
           | none => none
           | some d =>
             some (checksubset rule.architectures_from d.architectures rule.name rule.from_
                     "architecture" ++
                   checksubset rule.components d.components rule.name rule.from_ "component" ++
                   checksubset rule.udebcomponents d.udebcomponents rule.name rule.from_
                     "udeb component")
         | none =>
           if rule.from_ = "*" then
             some (checkifarchitectureisused rule.architectures_from alldistributions rule
                     "get something from")
           else none) with
  | none => none
  | some w =>
    some (w ++
      checkifarchitectureisused rule.architectures_into alldistributions rule
        "put something into" ++
      checkifcomponentisused rule.components alldistributions rule "put something into" ++
      checkifudebcomponentisused rule.udebcomponents alldistributions rule "put something into")

/-- The function `pull_searchunused` (pull.c 583-592). -/
def pull_searchunused (alldistributions : List distribution) :
    List (pull_rule term filterlist) → List message → Option (List message)
  | [], err => some err
  | rule :: next, err =>
    if !rule.used then
      pull_searchunused alldistributions next err
    else
      match searchunused alldistributions rule with
      | none => none
      | some w => pull_searchunused alldistributions next (err ++ w)

/-! ## The combination of the steps two, three and four -/

/-- What a call of `pull_prepare` leaves behind: the result code, the rules, the plan stored in
`*pd` if one was stored, and what was printed to `stderr`. -/
structure prepare_result (term filterlist : Type) where
  r : retvalue
  rules : List (pull_rule term filterlist)
  pd : Option (List pull_distribution)
  err : List message
  deriving DecidableEq, Repr

/-- The function `pull_prepare` (pull.c 598-621). -/
def pull_prepare (alldistributions : List distribution)
    (rules : List (pull_rule term filterlist)) (fast : Bool) :
    Option (prepare_result term filterlist) :=
  match pull_init rules alldistributions [] with
  | none => none
  | some (r, rules1, pulls, err1) =>
    if RET_WAS_ERROR r then
      some ⟨r, rules1, none, err1⟩
    else
      match pull_loadsourcedistributions alldistributions rules1 err1 with
      | (r2, rules2, err2) =>
        if RET_WAS_ERROR r2 then
          some ⟨r2, rules2, none, err2⟩
        else
          match (if !fast then pull_searchunused alldistributions rules2 err2 else some err2) with
          | none => none
          | some err3 =>
            match pulls with
            | none => none
            | some p =>
              match pull_generatetargets alldistributions rules2 p with
              | none => none
              | some (r4, p4) =>
                if RET_WAS_ERROR r4 then
                  some ⟨r4, rules2, none, err3⟩
                else
                  some ⟨RET_OK, rules2, some p4, err3⟩

/-! ## Step five: deciding what gets pulled -/

open filterlisttype upgrade_decision

/-- The callback `ud_decide_by_rule` (pull.c 628-657): the verdict and what is printed.
`filterlist_find` (filterlist.c) and `term_decidechunk` (terms.c) are the evaluators of the two
other modules. -/
def ud_decide_by_rule (filterlist_find : String → filterlist → filterlisttype)
    (term_decidechunk : term → String → retvalue) (rule : pull_rule term filterlist)
    (package old_version new_version newcontrolchunk : String) :
    upgrade_decision × List message :=
  match filterlist_find package rule.filterlist with
  | flt_deinstall => (UD_NO, [])
  | flt_purge => (UD_NO, [])
  | flt_hold => (UD_HOLD, [])
  | flt_error => (UD_ERROR, [message.package_marked_error package])
  | flt_install =>
    match rule.includecondition with
    | none => (UD_UPGRADE, [])
    | some includecondition =>
      let r := term_decidechunk includecondition newcontrolchunk
      if RET_WAS_ERROR r then (UD_ERROR, [])
      else if r = RET_NOTHING then (UD_NO, [])
      else (UD_UPGRADE, [])

/-- The callback `ud_decide_by_rule` (pull.c 628-657) with the rule as state. `privdata` is
the pointer to a rule of the rule table; `filterlist_find` gets the address of the rule's
filter list and `term_decidechunk` the rule's condition, and either is given back as the
evaluator leaves it. The verdict, what is printed, and the rule table after the call; `none`
is the dereference of a pointer outside the rule table. -/
def ud_decide_by_rule_state
    (filterlist_find : String → filterlist → filterlisttype × filterlist)
    (term_decidechunk : term → String → retvalue × term)
    (rules : List (pull_rule term filterlist)) (privdata : Nat)
    (package old_version new_version newcontrolchunk : String) :
    Option (upgrade_decision × List message × List (pull_rule term filterlist)) :=
  match rules[privdata]? with
  | none => none
  | some rule =>
    let found := filterlist_find package rule.filterlist
    let rule1 := { rule with filterlist := found.2 }
    match found.1 with
    | flt_deinstall => some (UD_NO, [], rules.set privdata rule1)
    | flt_purge => some (UD_NO, [], rules.set privdata rule1)
    | flt_hold => some (UD_HOLD, [], rules.set privdata rule1)
    | flt_error =>
      some (UD_ERROR, [message.package_marked_error package], rules.set privdata rule1)
    | flt_install =>
      match rule1.includecondition with
      | none => some (UD_UPGRADE, [], rules.set privdata rule1)
      | some includecondition =>
        let decided := term_decidechunk includecondition newcontrolchunk
        let rule2 := { rule1 with includecondition := some decided.2 }
        if RET_WAS_ERROR decided.1 then some (UD_ERROR, [], rules.set privdata rule2)
        else if decided.1 = RET_NOTHING then some (UD_NO, [], rules.set privdata rule2)
        else some (UD_UPGRADE, [], rules.set privdata rule2)

/-! ## The update: what the other modules are asked to do -/

/-- Modelled from the spec: the macro `RET_UPDATE` of `error.h`, the three-level merge of a
result into an accumulated one: an error once reached stays, a no-op changes nothing. -/
def RET_UPDATE (ret update : retvalue) : retvalue :=
  if update ≠ RET_NOTHING ∧ RET_WAS_ERROR ret = false then update else ret

/-- The calls of an update into the other modules, with the arguments that tell them apart: a
distribution or its logger is the position of the distribution, an upgrade list the handle
stored in a pull target, the decision callback the rule it is bound to. -/
inductive call where
  | distribution_prepareforwriting (distribution : Nat)
  | upgradelist_initialize (target : Nat × Nat)
  | upgradelist_deleteall (upgradelist : Option Nat)
  | upgradelist_pull (upgradelist : Option Nat) (source : Option (Nat × Nat)) (rule : Nat)
  | upgradelist_install (upgradelist : Option Nat) (logger : Nat) (ignoredelete : Bool)
  | upgradelist_dump (upgradelist : Option Nat)
  | upgradelist_free (upgradelist : Option Nat)
  | logger_wait
  deriving DecidableEq, Repr

/-- One call made, with the result `pull.c` reads from it (`none` where it reads none). -/
structure event where
  call : call
  r : Option retvalue
  deriving DecidableEq, Repr

/-- Modelled from the spec: the other modules as an update sees them (spec 6). After the
events `history`, `retval history c` is the result of the call `c`, `upgradelist history t`
what `upgradelist_initialize` stores as planning handle of the bucket `t`, and
`logger_isprepared history d` what `logger_isprepared` says of the logger of the distribution
at position `d`; `verbose` is the global of that name, which `pull.c` only reads. -/
structure engine where
  retval : List event → call → retvalue
  upgradelist : List event → Nat × Nat → Option Nat
  logger_isprepared : List event → Nat → Bool
  verbose : Int

/-- What an update works on: the plan, the `status` of the distributions by position, and the
calls made so far. -/
structure update_state where
  distributions : List pull_distribution
  status : List retvalue
  events : List event
  deriving DecidableEq, Repr

/-- The loop of `pull_searchformissing` (pull.c 672-695) over the remaining sources of `p`.
With `verbose` above 4 the progress line of pull.c 684-686 reads
`source->source->identifier`: for a source with a rule and without source bucket that is the
dereference of `NULL`, the abort `none`. -/
def pull_searchformissing_loop (e : engine) :
    List pull_source → pull_target → retvalue → List event →
    Option (retvalue × pull_target × List event)
  | [], p, result, events => some (result, p, events)
  | source :: next, p, result, events =>
    match source.rule with
    | none =>
      let r := e.retval events (call.upgradelist_deleteall p.upgradelist)
      let events1 := events ++ [⟨call.upgradelist_deleteall p.upgradelist, some r⟩]
      if RET_WAS_ERROR r then
        some (RET_UPDATE result r, p, events1)
      else
        pull_searchformissing_loop e next { p with ignoredelete := false }
          (RET_UPDATE result r) events1
    | some rule =>
      if e.verbose > 4 ∧ source.source = none then
        none
      else
        let r := e.retval events (call.upgradelist_pull p.upgradelist source.source rule)
        let events1 :=
          events ++ [⟨call.upgradelist_pull p.upgradelist source.source rule, some r⟩]
        if RET_WAS_ERROR r then
          some (RET_UPDATE result r, p, events1)
        else
          pull_searchformissing_loop e next p (RET_UPDATE result r) events1

/-- The function `pull_searchformissing` (pull.c 659-698). -/
def pull_searchformissing (e : engine) (p : pull_target) (events : List event) :
    Option (retvalue × pull_target × List event) :=
  match p.upgradelist with
  | some _ => none
  | none =>
    let r := e.retval events (call.upgradelist_initialize p.target)
    let p1 := { p with upgradelist := e.upgradelist events p.target }
    let events1 := events ++ [⟨call.upgradelist_initialize p.target, some r⟩]
    if RET_WAS_ERROR r then
      some (r, p1, events1)
    else
      pull_searchformissing_loop e p1.sources p1 RET_NOTHING events1

/-- The loop of `pull_search` (pull.c 719-724) over the remaining targets: the result so far,
the targets as the loop leaves them, and the events. -/
def pull_search_loop (e : engine) :
    List pull_target → retvalue → List event →
    Option (retvalue × List pull_target × List event)
  | [], result, events => some (result, [], events)
  | u :: next, result, events =>
    match pull_searchformissing e u events with
    | none => none
    | some (r, u1, events1) =>
      if RET_WAS_ERROR r then
        some (RET_UPDATE result r, u1 :: next, events1)
      else
        match pull_search_loop e next (RET_UPDATE result r) events1 with
        | none => none
        | some (result2, next1, events2) => some (result2, u1 :: next1, events2)

/-- The function `pull_search` (pull.c 700-726). -/
def pull_search (e : engine) (d : pull_distribution) (events : List event) :
    Option (retvalue × pull_distribution × List event) :=
  match pull_search_loop e d.targets RET_NOTHING events with
  | none => none
  | some (result, targets, events1) => some (result, { d with targets := targets }, events1)

/-- The loop of `pull_install` (pull.c 735-746) over the remaining targets of the distribution
at position `di`. -/
def pull_install_loop (e : engine) (di : Nat) :
    List pull_target → List retvalue → retvalue → List event →
    Option (retvalue × List pull_target × List retvalue × List event)
  | [], status, result, events => some (result, [], status, events)
  | u :: next, status, result, events =>
    let r := e.retval events (call.upgradelist_install u.upgradelist di u.ignoredelete)
    match status[di]? with
    | none => none
    | some s =>
      let status1 := status.set di (RET_UPDATE s r)
      let events1 := events ++
        [⟨call.upgradelist_install u.upgradelist di u.ignoredelete, some r⟩,
         ⟨call.upgradelist_free u.upgradelist, none⟩]
      let u1 := { u with upgradelist := none }
      if RET_WAS_ERROR r then
        some (RET_UPDATE result r, u1 :: next, status1, events1)
      else
        match pull_install_loop e di next status1 (RET_UPDATE result r) events1 with
        | none => none
        | some (result2, next1, status2, events2) =>
          some (result2, u1 :: next1, status2, events2)

/-- The function `pull_install` (pull.c 728-748). -/
def pull_install (e : engine) (d : pull_distribution) (status : List retvalue)
    (events : List event) :
    Option (retvalue × pull_distribution × List retvalue × List event) :=
  if !e.logger_isprepared events d.distribution then
    none
  else
    match pull_install_loop e d.distribution d.targets status RET_NOTHING events with
    | none => none
    | some (result, targets, status1, events1) =>
      some (result, { d with targets := targets }, status1, events1)

/-- The loop of `pull_dump` (pull.c 753-760) over the remaining targets. -/
def pull_dump_loop : List pull_target → List event → List pull_target × List event
  | [], events => ([], events)
  | u :: next, events =>
    match u.upgradelist with
    | none =>
      let (next1, events1) := pull_dump_loop next events
      (u :: next1, events1)
    | some _ =>
      let (next1, events1) := pull_dump_loop next
        (events ++ [⟨call.upgradelist_dump u.upgradelist, none⟩,
                    ⟨call.upgradelist_free u.upgradelist, none⟩])
      ({ u with upgradelist := none } :: next1, events1)

/-- The function `pull_dump` (pull.c 750-761). -/
def pull_dump (d : pull_distribution) (events : List event) :
    pull_distribution × List event :=
  let (targets, events1) := pull_dump_loop d.targets events
  ({ d with targets := targets }, events1)

/-- The first loop of `pull_update` (pull.c 767-771): `some r` is the return with the error `r`
of a distribution that could not be opened for writing. -/
def pull_update_prepare (e : engine) :
    List pull_distribution → List event → Option retvalue × List event
  | [], events => (none, events)
  | d :: next, events =>
    let r := e.retval events (call.distribution_prepareforwriting d.distribution)
    let events1 := events ++ [⟨call.distribution_prepareforwriting d.distribution, some r⟩]
    if RET_WAS_ERROR r then
      (some r, events1)
    else
      pull_update_prepare e next events1

/-- The second loop of `pull_update` (pull.c 778-784) over the remaining distributions. -/
def pull_update_search (e : engine) :
    List pull_distribution → retvalue → List event →
    Option (retvalue × List pull_distribution × List event)
  | [], result, events => some (result, [], events)
  | d :: next, result, events =>
    match pull_search e d events with
    | none => none
    | some (r, d1, events1) =>
      if RET_WAS_ERROR r then
        some (RET_UPDATE result r, d1 :: next, events1)
      else
        match pull_update_search e next (RET_UPDATE result r) events1 with
        | none => none
        | some (result2, next1, events2) => some (result2, d1 :: next1, events2)

/-- The inner loop of the release in `pull_update` (pull.c 788-791) over the targets. -/
def pull_update_free_targets : List pull_target → List event → List pull_target × List event
  | [], events => ([], events)
  | u :: next, events =>
    let (next1, events1) := pull_update_free_targets next
      (events ++ [⟨call.upgradelist_free u.upgradelist, none⟩])
    ({ u with upgradelist := none } :: next1, events1)

/-- The release of every planning handle in `pull_update` after a failed search
(pull.c 786-792). -/
def pull_update_free : List pull_distribution → List event →
    List pull_distribution × List event
  | [], events => ([], events)
  | d :: next, events =>
    let (targets, events1) := pull_update_free_targets d.targets events
    let (next1, events2) := pull_update_free next events1
    ({ d with targets := targets } :: next1, events2)

/-- The last loop of `pull_update` (pull.c 798-803) over the remaining distributions. -/
def pull_update_install (e : engine) :
    List pull_distribution → List retvalue → retvalue → List event →
    Option (retvalue × List pull_distribution × List retvalue × List event)
  | [], status, result, events => some (result, [], status, events)
  | d :: next, status, result, events =>
    match pull_install e d status events with
    | none => none
    | some (r, d1, status1, events1) =>
      if RET_WAS_ERROR r then
        some (RET_UPDATE result r, d1 :: next, status1, events1)
      else
        match pull_update_install e next status1 (RET_UPDATE result r) events1 with
        | none => none
        | some (result2, next1, status2, events2) =>
          some (result2, d1 :: next1, status2, events2)

/-- The function `pull_update` (pull.c 763-807). -/
def pull_update (e : engine) (st : update_state) : Option (retvalue × update_state) :=
  match pull_update_prepare e st.distributions st.events with
  | (some r, events1) => some (r, { st with events := events1 })
  | (none, events1) =>
    match pull_update_search e st.distributions RET_NOTHING events1 with
    | none => none
    | some (result, ds2, events2) =>
      if RET_WAS_ERROR result then
        let (ds3, events3) := pull_update_free ds2 events2
        some (result, ⟨ds3, st.status, events3⟩)
      else
        match pull_update_install e ds2 st.status result events2 with
        | none => none
        | some (result4, ds4, status4, events4) =>
          some (result4, ⟨ds4, status4, events4 ++ [⟨call.logger_wait, none⟩]⟩)

/-- The loop of `pull_checkupdate` (pull.c 818-824) over the remaining distributions. -/
def pull_checkupdate_loop (e : engine) :
    List pull_distribution → retvalue → List event →
    Option (retvalue × List pull_distribution × List event)
  | [], result, events => some (result, [], events)
  | d :: next, result, events =>
    match pull_search e d events with
    | none => none
    | some (r, d1, events1) =>
      if RET_WAS_ERROR r then
        some (RET_UPDATE result r, d1 :: next, events1)
      else
        let (d2, events2) := pull_dump d1 events1
        match pull_checkupdate_loop e next (RET_UPDATE result r) events2 with
        | none => none
        | some (result3, next1, events3) => some (result3, d2 :: next1, events3)

/-- The function `pull_checkupdate` (pull.c 809-827). -/
def pull_checkupdate (e : engine) (st : update_state) : Option (retvalue × update_state) :=
  match pull_checkupdate_loop e st.distributions RET_NOTHING st.events with
  | none => none
  | some (result, ds1, events1) => some (result, ⟨ds1, st.status, events1⟩)

/-! ## The plan in the words of the specification -/

/-- The effective component set of a rule for a package type (spec 4.1): the rule's
udeb-component override if set, else the udeb-components of the source distribution `d`, when
the package type is `udeb`; otherwise the rule's component override if set, else the components
of `d`. -/
def effective_components (rule : pull_rule term filterlist) (d : distribution)
    (packagetype : String) : strlist :=
  if packagetype = "udeb" then
    (if rule.udebcomponents_set then rule.udebcomponents else d.udebcomponents)
  else
    (if rule.components_set then rule.components else d.components)

/-- The `from` side of the effective architecture map of a rule (spec 4.1): the rule's override
if set, else the architectures of the source distribution `d`. -/
def effective_from (rule : pull_rule term filterlist) (d : distribution) : strlist :=
  if rule.architectures_set then rule.architectures_from else d.architectures

/-- The `into` side of the effective architecture map of a rule (spec 4.1). -/
def effective_into (rule : pull_rule term filterlist) (d : distribution) : strlist :=
  if rule.architectures_set then rule.architectures_into else d.architectures

/-- The indices `ai` of an into-architecture list whose value is `architecture`, increasing. -/
def matching_indices (a_into : strlist) (architecture : String) : List Nat :=
  (List.range a_into.length).filter (fun ai => a_into[ai]? = some architecture)

/-- The source `src` is the one of rule `k` for the pair `ai` of the architecture map: its source
bucket is the bucket of the source distribution (`d`, at position `di`) with the component and
package type of the target bucket `t` and the architecture `a_from[ai]`. -/
def source_at (k di : Nat) (d : distribution) (t : target) (a_from : strlist) (ai : Nat)
    (src : pull_source) : Prop :=
  ∃ frm, a_from[ai]? = some frm ∧
    src = ⟨(distribution_getpart d t.component frm t.packagetype).map (fun j => (di, j)), some k⟩

/-- The contribution `part` of the rule `rule`, at position `k` and bound to the distribution `d`
at position `di`, to the target bucket `t` (spec 4.1): nothing if the component of `t` is not in
the effective component set, else one source per matching index of the into-architectures. -/
def rule_contributes (k di : Nat) (d : distribution) (rule : pull_rule term filterlist)
    (t : target) (part : List pull_source) : Prop :=
  if t.component ∈ effective_components rule d t.packagetype then
    List.Forall₂ (source_at k di d t (effective_from rule d))
      (matching_indices (effective_into rule d) t.architecture) part
  else part = []

/-- The contribution `part` of a slot of a pull list to the target bucket `t` (spec 4.1): one
delete marker for a delete slot, the contribution of the rule for a rule slot. -/
def slot_contributes (alldistributions : List distribution)
    (rules : List (pull_rule term filterlist)) (t : target) (slot : Option Nat)
    (part : List pull_source) : Prop :=
  match slot with
  | none => part = [⟨none, none⟩]
  | some k =>
    ∃ rule di d, rules[k]? = some rule ∧ rule.distribution = some di ∧
      alldistributions[di]? = some d ∧ rule_contributes k di d rule t part

/-- The pull target `pt` is the one the planner makes for the bucket `t` at position `j` of the
distribution at position `di` with the slots `slots`: no planning handle, `ignoredelete` false,
and as sources the contributions of the slots in slot order. -/
def target_generated (alldistributions : List distribution)
    (rules : List (pull_rule term filterlist)) (di : Nat) (slots : List (Option Nat))
    (jt : Nat × target) (pt : pull_target) : Prop :=
  pt.target = (di, jt.1) ∧ pt.upgradelist = none ∧ pt.ignoredelete = false ∧
    ∃ parts, List.Forall₂ (slot_contributes alldistributions rules jt.2) slots parts ∧
      pt.sources = parts.flatten

/-- The pull distribution `pd1` is `pd` with one pull target generated for each bucket of its
distribution, the target of the last bucket first. -/
def targets_generated (alldistributions : List distribution)
    (rules : List (pull_rule term filterlist)) (pd pd1 : pull_distribution) : Prop :=
  ∃ d pts, alldistributions[pd.distribution]? = some d ∧
    pd1 = { pd with targets := pts.reverse ++ pd.targets } ∧
    List.Forall₂ (target_generated alldistributions rules pd.distribution pd.rules)
      (d.targets.enumFrom 0) pts

/-- The rule table `rules1` is `rules` with the `used` flag of some rules set, everything else
unchanged: what `pull_init` may do to the rules. -/
def used_grows (rules rules1 : List (pull_rule term filterlist)) : Prop :=
  List.Forall₂ (fun rule rule1 => rule1 = rule ∨ rule1 = { rule with used := true }) rules rules1

/-- The slot `slot` is what the name `name` of a pull list resolves to (spec 4.1): the delete
sentinel for the literal `-`, else the first rule of the rule table with that name, which is
then marked as used. -/
def slot_resolves (rules : List (pull_rule term filterlist)) (name : String)
    (slot : Option Nat) : Prop :=
  if name = "-" then slot = none
  else ∃ k rule, slot = some k ∧ rules.findIdx? (fun x => x.name == name) = some k ∧
    rules[k]? = some rule ∧ rule.used = true

/-- The pull distribution `pd` is the one `pull_init` makes for the distribution `id.2` at
position `id.1`: no targets yet, and one resolved slot per name of the pull list. -/
def pd_initialised (rules : List (pull_rule term filterlist)) (id : Nat × distribution)
    (pd : pull_distribution) : Prop :=
  pd.distribution = id.1 ∧ pd.targets = [] ∧
    List.Forall₂ (slot_resolves rules) id.2.pulls pd.rules

/-- Some selected distribution has in its pull list a name other than `-` that is the name of no
rule. -/
def missing_rule (distributions : List distribution)
    (rules : List (pull_rule term filterlist)) : Prop :=
  ∃ d ∈ distributions, d.selected = true ∧
    ∃ name ∈ d.pulls, name ≠ "-" ∧ ∀ x ∈ rules, x.name ≠ name
/-- The rule is used, has no source distribution yet, and its `from` is the codename of no
distribution: what makes `pull_loadsourcedistributions` fail. -/
def unresolved (alldistributions : List distribution) (rule : pull_rule term filterlist) :
    Prop :=
  rule.used = true ∧ rule.distribution = none ∧
    ∀ d ∈ alldistributions, d.codename ≠ rule.from_

/-- The rule after `bindSourceDistributions` (spec 4.1): a used rule without source distribution
is bound to the first distribution whose codename is the rule's `from`, any other rule is left
as it is. -/
def bind_source (alldistributions : List distribution) (rule : pull_rule term filterlist) :
    pull_rule term filterlist :=
  if rule.used = true ∧ rule.distribution = none then
    { rule with distribution := alldistributions.findIdx? (fun d => d.codename == rule.from_) }
  else rule

/-- The distributions that get a pull distribution, with their positions: the selected ones
with a non-empty pull list. -/
def pulling (alldistributions : List distribution) : List (Nat × distribution) :=
  (alldistributions.enumFrom 0).filter (fun id => id.2.selected && !id.2.pulls.isEmpty)
/-- The pull targets `pts` are new pull targets, without planning handle and with `ignoredelete`
false, of the buckets at the positions `j`, `j + 1`, ... of the distribution at position
`di`. -/
def new_targets (di j n : Nat) (pts : List pull_target) : Prop :=
  pts.map (fun pt => pt.target) = (List.range' j n).map (fun i => (di, i)) ∧
    ∀ pt ∈ pts, pt.upgradelist = none ∧ pt.ignoredelete = false

/-- The slot can be expanded: a rule slot points to a rule of the rule table that is bound to a
distribution of the inventory and whose list of from-architectures, when the `Architectures`
field was given, is at least as long as its list of into-architectures. -/
def slot_ready (alldistributions : List distribution)
    (rules : List (pull_rule term filterlist)) (slot : Option Nat) : Prop :=
  ∀ k, slot = some k → ∃ rule di d, rules[k]? = some rule ∧ rule.distribution = some di ∧
    alldistributions[di]? = some d ∧
    (rule.architectures_set = true →
      rule.architectures_into.length ≤ rule.architectures_from.length)

/-! ## The update in the words of the specification -/

/-- The progress line of the search (pull.c 684-686) can be printed for every source of the pull
target: `verbose` is at most 4, so that it is not printed, or every source with a rule has a
source bucket. -/
def sources_printable (e : engine) (u : pull_target) : Prop :=
  e.verbose ≤ 4 ∨ ∀ s ∈ u.sources, s.rule ≠ none → s.source ≠ none

/-- The check can start: every planning handle of the plan is null, and the progress line of
the search can be printed for every source. -/
def check_ready (e : engine) (st : update_state) : Prop :=
  (∀ d ∈ st.distributions, ∀ u ∈ d.targets, u.upgradelist = none) ∧
  ∀ d ∈ st.distributions, ∀ u ∈ d.targets, sources_printable e u

/-- The update can start: the check can, every distribution of the plan has a `status`, and
the logger of a distribution is prepared once the distribution has been opened for writing
without error. -/
def update_ready (e : engine) (st : update_state) : Prop :=
  check_ready e st ∧
  (∀ d ∈ st.distributions, d.distribution < st.status.length) ∧
  ∀ (history : List event) (di : Nat) (r : retvalue),
    ⟨call.distribution_prepareforwriting di, some r⟩ ∈ history → RET_WAS_ERROR r = false →
    e.logger_isprepared history di = true

/-- The call opens a distribution for writing. -/
def is_prepare : call → Bool
  | call.distribution_prepareforwriting _ => true
  | _ => false

/-- The call is a search step: a handle allocation, a delete-all or a pull. -/
def is_search : call → Bool
  | call.upgradelist_initialize _ => true
  | call.upgradelist_deleteall _ => true
  | call.upgradelist_pull _ _ _ => true
  | _ => false

/-- The call is a commit. -/
def is_install : call → Bool
  | call.upgradelist_install _ _ _ => true
  | _ => false

/-- The call releases a handle. -/
def is_free : call → Bool
  | call.upgradelist_free _ => true
  | _ => false

/-- The call is one of those a check makes: handle allocation, delete-all, pull, dump and
release. -/
def is_check : call → Bool
  | call.upgradelist_initialize _ => true
  | call.upgradelist_deleteall _ => true
  | call.upgradelist_pull _ _ _ => true
  | call.upgradelist_dump _ => true
  | call.upgradelist_free _ => true
  | _ => false

/-- The event is a step of the given kind that reported an error. -/
def reports_error (kind : call → Bool) (ev : event) : Prop :=
  kind ev.call = true ∧ ∃ r, ev.r = some r ∧ RET_WAS_ERROR r = true

/-- The result an event contributes to the result of an update, if any: the result of a
delete-all, a pull or a commit, and the error of a failed handle allocation. -/
def counted (ev : event) : Option retvalue :=
  match ev.call with
  | call.upgradelist_initialize _ =>
    match ev.r with
    | some r => if RET_WAS_ERROR r then some r else none
    | none => none
  | call.upgradelist_deleteall _ => ev.r
  | call.upgradelist_pull _ _ _ => ev.r
  | call.upgradelist_install _ _ _ => ev.r
  | _ => none

/-- The three-level merge of results (spec 4.4, glossary): the first error if there is one, else
`changed` if some result is `changed`, else `no-op`. -/
def severity_merge (rs : List retvalue) : retvalue :=
  match rs.find? RET_WAS_ERROR with
  | some r => r
  | none => if RET_OK ∈ rs then RET_OK else RET_NOTHING

/-- The result of an event that is a search step or a commit. -/
def step_result (ev : event) : Option retvalue :=
  if is_search ev.call || is_install ev.call then ev.r else none

/-! ## The typo checks in the words of the specification -/

/-- The literals of `needed` that get reported (spec 4.2): each literal once, at its first
occurrence, if it is `bad`. -/
def first_reports (needed : strlist) (bad : String → Bool) : List String :=
  (List.range needed.length).filterMap (fun i =>
    match needed[i]? with
    | none => none
    | some v => if (needed.take i).contains v then none else if bad v then some v else none)

/-- Some distribution whose pull list names the rule has the literal `v` in its set `have_`
(its architectures, components or udeb-components). -/
def referencing_has (alldistributions : List distribution) (rulename : String)
    (have_ : distribution → strlist) (v : String) : Bool :=
  alldistributions.any (fun d => d.pulls.contains rulename && (have_ d).contains v)

/-- The message is a warning of `checksubset`. -/
def is_no_such : message → Bool
  | message.no_such _ _ _ _ => true
  | _ => false

/-- What `searchunused` prints for a rule bound to the distribution `d` (spec 4.2): the findings
of the checks a. of the explicit lists against the sets of `d`, then those of the checks c. of
the target-facing literals against the distributions naming the rule. -/
def bound_rule_warnings (alldistributions : List distribution)
    (rule : pull_rule term filterlist) (d : distribution) : List message :=
  checksubset rule.architectures_from d.architectures rule.name rule.from_ "architecture" ++
  checksubset rule.components d.components rule.name rule.from_ "component" ++
  checksubset rule.udebcomponents d.udebcomponents rule.name rule.from_ "udeb component" ++
  checkifarchitectureisused rule.architectures_into alldistributions rule
    "put something into" ++
  checkifcomponentisused rule.components alldistributions rule "put something into" ++
  checkifudebcomponentisused rule.udebcomponents alldistributions rule "put something into"

/-- The part `part` of `stderr` is what the typo checks print for the used rule `rule`, which
is bound to a distribution. -/
def rule_warnings (alldistributions : List distribution) (rule : pull_rule term filterlist)
    (part : List message) : Prop :=
  ∃ di d, rule.distribution = some di ∧ alldistributions[di]? = some d ∧
    part = bound_rule_warnings alldistributions rule d

/-- The rule a warning of the typo checks names. -/
def message_rulename : message → Option String
  | message.unused_architecture rulename _ _ => some rulename
  | message.unused_component rulename _ _ => some rulename
  | message.unused_udebcomponent rulename _ _ => some rulename
  | message.no_such rulename _ _ _ => some rulename
  | _ => none

/-- Every used rule is the first rule of its name: what `pull_init` keeps true of a rule table
that starts with no rule used. -/
def used_first (rules : List (pull_rule term filterlist)) : Prop :=
  ∀ (j : Nat) (rule : pull_rule term filterlist), rules[j]? = some rule → rule.used = true →
    ∀ (i : Nat) (x : pull_rule term filterlist), i < j → rules[i]? = some x →
      x.name ≠ rule.name

/-- What the typo checks print for a rule: the warnings for its source distribution if it is
bound to one of the inventory. -/
def rule_output (alldistributions : List distribution) (rule : pull_rule term filterlist) :
    List message :=
  match rule.distribution with
  | none => []
  | some di =>
    match alldistributions[di]? with
    | none => []
    | some d => bound_rule_warnings alldistributions rule d

/-- The findings about the explicit lists of a rule against the sets of its source
distribution `d` (spec 4.2 a.), as they stand in the output `out`: one warning for a literal of
the list that is not `none` and not in the set of `d`, however often the list has it, and none
for any other literal. -/
def source_lists_checked (rule : pull_rule term filterlist) (d : distribution)
    (out : List message) : Prop :=
  ∀ v : String,
    out.count (message.no_such rule.name "architecture" v rule.from_) =
      (if v ∈ rule.architectures_from ∧ v ≠ "none" ∧ v ∉ d.architectures then 1 else 0) ∧
    out.count (message.no_such rule.name "component" v rule.from_) =
      (if v ∈ rule.components ∧ v ≠ "none" ∧ v ∉ d.components then 1 else 0) ∧
    out.count (message.no_such rule.name "udeb component" v rule.from_) =
      (if v ∈ rule.udebcomponents ∧ v ≠ "none" ∧ v ∉ d.udebcomponents then 1 else 0)

/-- The findings about the target-facing literals of a rule (spec 4.2 c.), as they stand in
the output `out`: one warning for a literal other than `none` that no distribution naming the
rule in its pull list has in its set, and none for any other literal. -/
def target_lists_checked (alldistributions : List distribution)
    (rule : pull_rule term filterlist) (out : List message) : Prop :=
  ∀ v : String,
    out.count (message.unused_architecture rule.name "put something into" v) =
      (if v ∈ rule.architectures_into ∧ v ≠ "none" ∧
          ¬ ∃ d ∈ alldistributions, rule.name ∈ d.pulls ∧ v ∈ d.architectures then 1
        else 0) ∧
    out.count (message.unused_component rule.name "put something into" v) =
      (if v ∈ rule.components ∧ v ≠ "none" ∧
          ¬ ∃ d ∈ alldistributions, rule.name ∈ d.pulls ∧ v ∈ d.components then 1
        else 0) ∧
    out.count (message.unused_udebcomponent rule.name "put something into" v) =
      (if v ∈ rule.udebcomponents ∧ v ≠ "none" ∧
          ¬ ∃ d ∈ alldistributions, rule.name ∈ d.pulls ∧ v ∈ d.udebcomponents then 1
        else 0)

/-- The bucket whose planning handle the call allocates, if the call is a handle allocation. -/
def allocated (ev : event) : Option (Nat × Nat) :=
  match ev.call with
  | call.upgradelist_initialize t => some t
  | _ => none

/-- The planning handle and the `ignoredelete` flag the call commits with, if the call is a
commit. -/
def committed (ev : event) : Option (Option Nat × Bool) :=
  match ev.call with
  | call.upgradelist_install h _ ignoredelete => some (h, ignoredelete)
  | _ => none

/-- Every pull target of the plan has `ignoredelete` false. -/
def ignoredelete_clear (ds : List pull_distribution) : Prop :=
  ∀ d ∈ ds, ∀ u ∈ d.targets, u.ignoredelete = false

/-- The states reachable through `pull_prepare`, `pull_update` and `pull_checkupdate`: a plan
stored by `pull_prepare`, before any call is made, and what any number of updates and checks,
with any engines, make of it. -/
inductive reachable (alldistributions : List distribution)
    (rules : List (pull_rule term filterlist)) : update_state → Prop where
  | prepared (fast : Bool) (res : prepare_result term filterlist)
      (plan : List pull_distribution) (status : List retvalue) :
      pull_prepare alldistributions rules fast = some res → res.pd = some plan →
      reachable alldistributions rules ⟨plan, status, []⟩
  | update (e : engine) (st : update_state) (r : retvalue) (st1 : update_state) :
      reachable alldistributions rules st → pull_update e st = some (r, st1) →
      reachable alldistributions rules st1
  | checkupdate (e : engine) (st : update_state) (r : retvalue) (st1 : update_state) :
      reachable alldistributions rules st → pull_checkupdate e st = some (r, st1) →
      reachable alldistributions rules st1

/-- A search step as the spec counts them (spec 4.4): the handle allocation of a bucket, a
delete-all, or the pull of a source bucket with a rule. -/
inductive search_step where
  | allocate (target : Nat × Nat)
  | deleteall
  | pull (source : Option (Nat × Nat)) (rule : Nat)
  deriving DecidableEq, Repr

/-- The search step a call is, if it is one; the planning handle it is made on is left out. -/
def search_step_of (ev : event) : Option search_step :=
  match ev.call with
  | call.upgradelist_initialize t => some (search_step.allocate t)
  | call.upgradelist_deleteall _ => some search_step.deleteall
  | call.upgradelist_pull _ source rule => some (search_step.pull source rule)
  | _ => none

/-- The search step of a source: a delete-all for a delete marker, else the pull of its source
bucket with its rule. -/
def source_step (s : pull_source) : search_step :=
  match s.rule with
  | none => search_step.deleteall
  | some rule => search_step.pull s.source rule

/-- The full search of a pull target: the handle allocation of its bucket, then the step of
each of its sources, in their order. -/
def target_steps (u : pull_target) : List search_step :=
  search_step.allocate u.target :: u.sources.map source_step

/-- The full search of a plan: the full search of every pull target of every pull
distribution, in their order. -/
def plan_steps (ds : List pull_distribution) : List search_step :=
  ds.flatMap (fun d => d.targets.flatMap target_steps)

/-! ## Example inventories and rules -/

/-- Example: a bucket. -/
def exBucket (component architecture packagetype : String) : target :=
  ⟨component, architecture, packagetype, component ++ "|" ++ architecture⟩

/-- Example: the distribution `unstable`, with the one architecture `i386`. -/
def exUnstable : distribution :=
  ⟨"unstable", false, ["i386"], ["main"], [], [], [exBucket "main" "i386" "deb"]⟩

/-- Example: a distribution `unstable` that also has the architecture `arm`. -/
def exUnstableArm : distribution :=
  ⟨"unstable", false, ["i386", "arm"], ["main"], [], [],
    [exBucket "main" "i386" "deb", exBucket "main" "arm" "deb"]⟩

/-- Example: the selected distribution `stable` with pull list `[A]` and a bucket for `i386` and
one for `arm`. -/
def exStable : distribution :=
  ⟨"stable", true, ["i386", "arm"], ["main"], [], ["A"],
    [exBucket "main" "i386" "deb", exBucket "main" "arm" "deb"]⟩

/-- Example: `stable` with the pull list `[-, A]`. -/
def exStableDelete : distribution :=
  { exStable with pulls := ["-", "A"] }

/-- Example: `stable` with a pull list naming a rule that does not exist. -/
def exStableMissing : distribution :=
  { exStable with pulls := ["A", "Z"] }

/-- Example: the rule `A`, from `unstable`, without overrides, as parsed. -/
def exRuleA : pull_rule Unit Unit :=
  ⟨"A", "unstable", [], [], false, [], false, [], false, none, (), none, false⟩

/-- Example: the rule `A` once used and bound to the second distribution of the inventory. -/
def exRuleABound : pull_rule Unit Unit :=
  { exRuleA with distribution := some 1, used := true }

/-- Example: the rule `B`, mapping the architecture `arm` of `unstable` to `armhf`. -/
def exRuleB : pull_rule Unit Unit :=
  ⟨"B", "unstable", ["arm"], ["armhf"], true, [], false, [], false, none, (), some 1, true⟩

/-- Example: the plan of `[exStable, exUnstable]` with the rule `A`. -/
def exPlan : List pull_distribution :=
  [⟨0, [⟨[], (0, 1), none, false⟩, ⟨[⟨some (1, 0), some 0⟩], (0, 0), none, false⟩],
    [some 0]⟩]

/-- Example: the plan of `[exStableDelete, exUnstable]` with the rule `A`. -/
def exPlanDelete : List pull_distribution :=
  [⟨0, [⟨[⟨none, none⟩], (0, 1), none, false⟩,
        ⟨[⟨none, none⟩, ⟨some (1, 0), some 0⟩], (0, 0), none, false⟩],
    [none, some 0]⟩]

/-- Example: a name filter as a list of verdicts by package name, `install` for the others. -/
def exFilterFind (package : String) (l : List (String × filterlisttype)) : filterlisttype :=
  (l.lookup package).getD filterlisttype.flt_install

/-- Example: a condition that is the result of its own evaluation. -/
def exDecideChunk (c : retvalue) (_chunk : String) : retvalue := c

/-- Example: a rule that holds the package `foo` and has a condition that fails to evaluate. -/
def exRuleHold : pull_rule retvalue (List (String × filterlisttype)) :=
  ⟨"A", "unstable", [], [], false, [], false, [], false, some RET_ERROR,
    [("foo", filterlisttype.flt_hold)], none, false⟩

/-- Example: the same rule without condition. -/
def exRuleHoldPlain : pull_rule retvalue (List (String × filterlisttype)) :=
  { exRuleHold with includecondition := none }

/-! ## Example engines and runs -/

/-- Example: an engine where every step succeeds: opening and handle allocation report
`RET_OK`, every other call finds nothing to do; the handle allocated is the number of events
so far, and every logger is prepared. -/
def exEngine : engine :=
  ⟨fun _ c => match c with
      | call.distribution_prepareforwriting _ => RET_OK
      | call.upgradelist_initialize _ => RET_OK
      | _ => RET_NOTHING,
    fun history _ => some history.length, fun _ _ => true, 0⟩

/-- Example: an engine like `exEngine` where every commit fails. -/
def exEngineInstallFails : engine :=
  { exEngine with retval := fun _ c => match c with
      | call.upgradelist_install _ _ _ => RET_ERROR
      | _ => RET_OK }

/-- Example: an engine like `exEngine` where every delete-all fails. -/
def exEngineDeleteFails : engine :=
  { exEngine with retval := fun _ c => match c with
      | call.upgradelist_deleteall _ => RET_ERROR
      | _ => RET_OK }

/-- Example: an engine like `exEngine` where no distribution can be opened for writing. -/
def exEngineOpenFails : engine :=
  { exEngine with retval := fun _ c => match c with
      | call.distribution_prepareforwriting _ => RET_ERROR
      | _ => RET_OK }

/-- Example: a pull target of the first distribution with a delete marker as only source. -/
def exTarget (j : Nat) (upgradelist : Option Nat) : pull_target :=
  ⟨[⟨none, none⟩], (0, j), upgradelist, false⟩

/-- Example: an update of one distribution with one pull target, before it starts. -/
def exStart : update_state :=
  ⟨[⟨0, [exTarget 0 none], [none]⟩], [RET_NOTHING], []⟩

/-- Example: an update of one distribution with two pull targets, before it starts. -/
def exStartTwo : update_state :=
  ⟨[⟨0, [exTarget 1 none, exTarget 0 none], [none]⟩], [RET_NOTHING], []⟩

/-- Example: `exStart` after `pull_update` with `exEngine`. -/
def exEnd : update_state :=
  ⟨[⟨0, [exTarget 0 none], [none]⟩], [RET_NOTHING],
    [⟨call.distribution_prepareforwriting 0, some RET_OK⟩,
     ⟨call.upgradelist_initialize (0, 0), some RET_OK⟩,
     ⟨call.upgradelist_deleteall (some 1), some RET_NOTHING⟩,
     ⟨call.upgradelist_install (some 1) 0 false, some RET_NOTHING⟩,
     ⟨call.upgradelist_free (some 1), none⟩,
     ⟨call.logger_wait, none⟩]⟩

/-- Example: `exStart` after `pull_update` with `exEngineDeleteFails`. -/
def exEndDeleteFails : update_state :=
  ⟨[⟨0, [exTarget 0 none], [none]⟩], [RET_NOTHING],
    [⟨call.distribution_prepareforwriting 0, some RET_OK⟩,
     ⟨call.upgradelist_initialize (0, 0), some RET_OK⟩,
     ⟨call.upgradelist_deleteall (some 1), some RET_ERROR⟩,
     ⟨call.upgradelist_free (some 1), none⟩]⟩

/-- Example: `exStart` after `pull_update` with `exEngineOpenFails`. -/
def exEndOpenFails : update_state :=
  ⟨[⟨0, [exTarget 0 none], [none]⟩], [RET_NOTHING],
    [⟨call.distribution_prepareforwriting 0, some RET_ERROR⟩]⟩

/-- Example: `exStartTwo` after `pull_update` with `exEngineInstallFails`: the second pull
target keeps its handle. -/
def exEndInstallFails : update_state :=
  ⟨[⟨0, [exTarget 1 none, exTarget 0 (some 3)], [none]⟩], [RET_ERROR],
    [⟨call.distribution_prepareforwriting 0, some RET_OK⟩,
     ⟨call.upgradelist_initialize (0, 1), some RET_OK⟩,
     ⟨call.upgradelist_deleteall (some 1), some RET_OK⟩,
     ⟨call.upgradelist_initialize (0, 0), some RET_OK⟩,
     ⟨call.upgradelist_deleteall (some 3), some RET_OK⟩,
     ⟨call.upgradelist_install (some 1) 0 false, some RET_ERROR⟩,
     ⟨call.upgradelist_free (some 1), none⟩,
     ⟨call.logger_wait, none⟩]⟩

/-- Example: `exStart` after `pull_checkupdate` with `exEngine`. -/
def exEndCheck : update_state :=
  ⟨[⟨0, [exTarget 0 none], [none]⟩], [RET_NOTHING],
    [⟨call.upgradelist_initialize (0, 0), some RET_OK⟩,
     ⟨call.upgradelist_deleteall (some 0), some RET_NOTHING⟩,
     ⟨call.upgradelist_dump (some 0), none⟩,
     ⟨call.upgradelist_free (some 0), none⟩]⟩

/-- Example: `exStart` after `pull_checkupdate` with `exEngineDeleteFails`: the pull target
keeps its handle. -/
def exEndCheckDeleteFails : update_state :=
  ⟨[⟨0, [exTarget 0 (some 0)], [none]⟩], [RET_NOTHING],
    [⟨call.upgradelist_initialize (0, 0), some RET_OK⟩,
     ⟨call.upgradelist_deleteall (some 0), some RET_ERROR⟩]⟩

/-! ## Example rules with typos -/

/-- Example: a rule `A` from `unstable` whose lists name the architecture `sparc` twice and the
component `extra`, which `unstable` does not have. -/
def exRuleTypo : pull_rule Unit Unit :=
  ⟨"A", "unstable", ["sparc", "none", "sparc", "i386"], ["sparc", "none", "sparc", "i386"], true,
    ["main", "extra"], true, [], false, none, (), none, false⟩

/-- Example: what `pull_prepare` leaves behind for `[exStable, exUnstable]` and `exRuleTypo`. -/
def exTypoResult : prepare_result Unit Unit :=
  ⟨RET_OK, [{ exRuleTypo with distribution := some 1, used := true }],
    some [⟨0, [⟨[], (0, 1), none, false⟩, ⟨[⟨some (1, 0), some 0⟩], (0, 0), none, false⟩],
      [some 0]⟩],
    [message.no_such "A" "architecture" "sparc" "unstable",
     message.no_such "A" "component" "extra" "unstable",
     message.unused_architecture "A" "put something into" "sparc",
     message.unused_component "A" "put something into" "extra"]⟩

/-- Example: `stable` with the pull list `[B]`. -/
def exStableB : distribution :=
  { exStable with pulls := ["B"] }

/-- Example: the rule `B`, mapping `arm` to `armhf`, as parsed. -/
def exRuleBParsed : pull_rule Unit Unit :=
  { exRuleB with distribution := none, used := false }

/-- Example: what `pull_prepare` leaves behind for `[exStableB, exUnstableArm]` and the rule
`B`: one warning, for `armhf`. -/
def exArmhfResult : prepare_result Unit Unit :=
  ⟨RET_OK, [exRuleB],
    some [⟨0, [⟨[], (0, 1), none, false⟩, ⟨[], (0, 0), none, false⟩], [some 0]⟩],
    [message.unused_architecture "B" "put something into" "armhf"]⟩

/-- Example: `stable` with the pull list `[W]`. -/
def exStableW : distribution :=
  { exStable with pulls := ["W"] }

/-- Example: a rule `W` whose `from` is `*`, with the architecture `sparc` that no
distribution has. -/
def exRuleW : pull_rule Unit Unit :=
  ⟨"W", "*", ["sparc"], ["sparc"], true, [], false, [], false, none, (), none, false⟩

/-- Example: what `pull_prepare` leaves behind for `[exStableW, exUnstable]` and `exRuleW`. -/
def exWildcardResult : prepare_result Unit Unit :=
  ⟨RET_ERROR_MISSING, [{ exRuleW with used := true }], none,
    [message.unknown_distribution "*" "W"]⟩

/-! ## Example rule tables for the slots and the sources -/

/-- Example: a second rule named `A`, from `stable`. -/
def exRuleA2 : pull_rule Unit Unit :=
  { exRuleA with from_ := "stable" }

/-- Example: the pull distribution `pull_init` makes for `exStableDelete`. -/
def exInitDelete : pull_distribution :=
  ⟨0, [], [none, some 0]⟩

/-- Example: a rule `A` that takes the architecture `i386` from the architecture `sparc` of
`unstable`, which `unstable` does not have. -/
def exRuleSparc : pull_rule Unit Unit :=
  ⟨"A", "unstable", ["sparc"], ["i386"], true, [], false, [], false, none, (), none, false⟩

/-- Example: the plan of `[exStable, exUnstable]` with the rule `exRuleSparc`: the source of the
bucket `main|i386` has the rule and no source bucket. -/
def exSparcPlan : List pull_distribution :=
  [⟨0, [⟨[], (0, 1), none, false⟩, ⟨[⟨none, some 0⟩], (0, 0), none, false⟩], [some 0]⟩]

/-- Example: a rule bound to `unstable` whose `Architectures` field was given and is empty. -/
def exRuleEmpty : pull_rule Unit Unit :=
  ⟨"A", "unstable", [], [], true, [], false, [], false, none, (), some 1, true⟩

/-- Example: the plan of `[exStableDelete, exUnstable]` with the rule `A`, before an update. -/
def exStartDelete : update_state :=
  ⟨exPlanDelete, [RET_NOTHING, RET_NOTHING], []⟩

/-- Example: `exStartDelete` after `pull_update` with `exEngine`. -/
def exEndDelete : update_state :=
  ⟨exPlanDelete, [RET_NOTHING, RET_NOTHING],
    [⟨call.distribution_prepareforwriting 0, some RET_OK⟩,
     ⟨call.upgradelist_initialize (0, 1), some RET_OK⟩,
     ⟨call.upgradelist_deleteall (some 1), some RET_NOTHING⟩,
     ⟨call.upgradelist_initialize (0, 0), some RET_OK⟩,
     ⟨call.upgradelist_deleteall (some 3), some RET_NOTHING⟩,
     ⟨call.upgradelist_pull (some 3) (some (1, 0)) 0, some RET_NOTHING⟩,
     ⟨call.upgradelist_install (some 1) 0 false, some RET_NOTHING⟩,
     ⟨call.upgradelist_free (some 1), none⟩,
     ⟨call.upgradelist_install (some 3) 0 false, some RET_NOTHING⟩,
     ⟨call.upgradelist_free (some 3), none⟩,
     ⟨call.logger_wait, none⟩]⟩

/-- Example: the engine `exEngine` with the global `verbose` at 5. -/
def exEngineVerbose : engine :=
  { exEngine with verbose := 5 }

/-- Example: the name filter `exFilterFind` as an evaluator that gives its filter list back as
it got it. -/
def exFilterFindState (package : String) (l : List (String × filterlisttype)) :
    filterlisttype × List (String × filterlisttype) :=
  (exFilterFind package l, l)

/-- Example: the evaluator `exDecideChunk` giving its condition back as it got it. -/
def exDecideChunkState (c : retvalue) (chunk : String) : retvalue × retvalue :=
  (exDecideChunk c chunk, c)

/-- Example: an engine like `exEngineInstallFails` where the logger of a distribution is
prepared by opening the distribution for writing, and not before. -/
def exEngineLogger : engine :=
  { exEngineInstallFails with
    logger_isprepared := fun history di =>
      history.any (fun ev => decide (ev.call = call.distribution_prepareforwriting di)) }

/-! ## Step four: the sources of one rule -/

theorem pull_createsource_loop_spec (k di : Nat) (d : distribution) (t : target)
    (a_from a_into : strlist) (idxs : List Nat) (s s1 : List pull_source)
    (h : pull_createsource_loop k di d t a_from a_into idxs s = some s1) :
    ∃ part, s1 = s ++ part ∧
      List.Forall₂ (source_at k di d t a_from)
        (idxs.filter (fun ai => a_into[ai]? = some t.architecture)) part := by
  induction idxs generalizing s with
  | nil =>
    simp only [pull_createsource_loop, Option.some.injEq] at h
    exact ⟨[], by simp [h], by simp⟩
  | cons ai rest ih =>
    unfold pull_createsource_loop at h
    cases hinto : a_into[ai]? with
    | none => simp [hinto] at h
    | some into =>
      simp only [hinto] at h
      by_cases hne : into = t.architecture
      · cases hfrom : a_from[ai]? with
        | none => simp [hne, hfrom] at h
        | some frm =>
          simp only [hne, hfrom, ne_eq, not_true_eq_false, if_false] at h
          obtain ⟨part, hp, hf⟩ := ih _ h
          refine ⟨⟨(distribution_getpart d t.component frm t.packagetype).map (fun j => (di, j)),
            some k⟩ :: part, by simp [hp], ?_⟩
          simp only [List.filter_cons, hinto, hne, decide_True, if_true]
          exact List.Forall₂.cons ⟨frm, hfrom, rfl⟩ hf
      · simp only [ne_eq, hne, not_false_eq_true, if_true] at h
        obtain ⟨part, hp, hf⟩ := ih _ h
        refine ⟨part, hp, ?_⟩
        simp only [List.filter_cons, hinto, Option.some.injEq, hne, decide_False]
        simpa using hf

theorem pull_createsource_loop_total (k di : Nat) (d : distribution) (t : target)
    (a_from a_into : strlist) (idxs : List Nat) (s : List pull_source)
    (h : ∀ ai ∈ idxs, ai < a_into.length ∧ ai < a_from.length) :
    ∃ s1, pull_createsource_loop k di d t a_from a_into idxs s = some s1 := by
  induction idxs generalizing s with
  | nil => exact ⟨s, rfl⟩
  | cons ai rest ih =>
    have h1 := h ai (List.mem_cons_self _ _)
    have h2 : ∀ a ∈ rest, a < a_into.length ∧ a < a_from.length :=
      fun a ha => h a (List.mem_cons_of_mem _ ha)
    unfold pull_createsource_loop
    rw [List.getElem?_eq_getElem h1.1, List.getElem?_eq_getElem h1.2]
    simp only
    split
    · exact ih _ h2
    · exact ih _ h2

theorem pull_createsource_spec (alldistributions : List distribution)
    (rules : List (pull_rule term filterlist)) (k : Nat) (t : target)
    (s : List pull_source) (r : retvalue) (s1 : List pull_source)
    (h : pull_createsource alldistributions rules k t s = some (r, s1)) :
    RET_WAS_ERROR r = false ∧
      ∃ part, s1 = s ++ part ∧ slot_contributes alldistributions rules t (some k) part := by
  unfold pull_createsource at h
  cases hk : rules[k]? with
  | none => simp [hk] at h
  | some rule =>
    cases hdi : rule.distribution with
    | none => simp [hk, hdi] at h
    | some di =>
      cases hd : alldistributions[di]? with
      | none => simp [hk, hdi, hd] at h
      | some d =>
        simp only [hk, hdi, hd] at h
        by_cases hc : t.component ∈ effective_components rule d t.packagetype
        · have hc1 : strlist_in (if t.packagetype = "udeb" then
              (if rule.udebcomponents_set then rule.udebcomponents else d.udebcomponents)
              else (if rule.components_set then rule.components else d.components))
              t.component = true := by
            simpa [strlist_in, effective_components] using hc
          simp only [hc1, Bool.not_true, Bool.false_eq_true, if_false] at h
          cases hl : pull_createsource_loop k di d t
              (if rule.architectures_set then rule.architectures_from else d.architectures)
              (if rule.architectures_set then rule.architectures_into else d.architectures)
              (List.range (if rule.architectures_set then rule.architectures_into
                else d.architectures).length) s with
          | none => simp [hl] at h
          | some s2 =>
            simp only [hl, Option.some.injEq, Prod.mk.injEq] at h
            obtain ⟨part, hp, hf⟩ := pull_createsource_loop_spec _ _ _ _ _ _ _ _ _ hl
            refine ⟨by rw [← h.1]; rfl, part, by rw [← h.2, hp], rule, di, d, hk, hdi, hd, ?_⟩
            simp only [rule_contributes, hc, if_true]
            exact hf
        · have hc1 : strlist_in (if t.packagetype = "udeb" then
              (if rule.udebcomponents_set then rule.udebcomponents else d.udebcomponents)
              else (if rule.components_set then rule.components else d.components))
              t.component = false := by
            simpa [strlist_in, effective_components] using hc
          simp only [hc1, Bool.not_false, if_true, Option.some.injEq, Prod.mk.injEq] at h
          refine ⟨by rw [← h.1]; rfl, [], by simp [h.2], rule, di, d, hk, hdi, hd, ?_⟩
          simp [rule_contributes, hc]

theorem forall₂_mem_right {α β : Type} {R : α → β → Prop} {l : List α} {m : List β}
    (h : List.Forall₂ R l m) : ∀ b ∈ m, ∃ a ∈ l, R a b := by
  induction h with
  | nil => simp
  | cons hab _ ih =>
    intro b hb
    rcases List.mem_cons.1 hb with rfl | hb
    · exact ⟨_, List.mem_cons_self _ _, hab⟩
    · obtain ⟨a, ha, hr⟩ := ih b hb
      exact ⟨a, List.mem_cons_of_mem _ ha, hr⟩

theorem forall₂_of_range {α β : Type} {R : α → β → Prop} (l : List α) (m : List β)
    (h : List.Forall₂ (fun i b => ∃ a, l[i]? = some a ∧ R a b) (List.range l.length) m) :
    List.Forall₂ R l m := by
  rw [List.forall₂_iff_get] at h ⊢
  obtain ⟨hlen, hget⟩ := h
  rw [List.length_range] at hlen
  refine ⟨hlen, ?_⟩
  intro i h1 h2
  obtain ⟨a, ha, hr⟩ := hget i (by simpa using h1) h2
  simp only [List.get_eq_getElem, List.getElem_range] at ha hr
  rw [List.getElem?_eq_getElem h1, Option.some.injEq] at ha
  simpa [ha] using hr

theorem generatepulltarget_loop_spec (alldistributions : List distribution)
    (rules : List (pull_rule term filterlist)) (pd : pull_distribution) (t : target)
    (idxs : List Nat) (s : List pull_source) (r : retvalue) (s1 : List pull_source)
    (h : generatepulltarget_loop alldistributions rules pd t idxs s = some (r, s1)) :
    r = RET_OK ∧ ∃ parts, s1 = s ++ parts.flatten ∧
      List.Forall₂ (fun i part => ∃ slot, pd.rules[i]? = some slot ∧
        slot_contributes alldistributions rules t slot part) idxs parts := by
  induction idxs generalizing s with
  | nil =>
    simp only [generatepulltarget_loop, Option.some.injEq, Prod.mk.injEq] at h
    exact ⟨h.1.symm, [], by simp [h.2], List.Forall₂.nil⟩
  | cons i rest ih =>
    unfold generatepulltarget_loop at h
    cases hslot : pd.rules[i]? with
    | none => simp [hslot] at h
    | some slot =>
      simp only [hslot] at h
      cases slot with
      | none =>
        simp only [pull_createdelete, RET_WAS_ERROR, Bool.false_eq_true, if_false] at h
        obtain ⟨hr, parts, hp, hf⟩ := ih _ h
        refine ⟨hr, [⟨none, none⟩] :: parts, by simp [hp], ?_⟩
        exact List.Forall₂.cons ⟨none, hslot, rfl⟩ hf
      | some k =>
        cases hc : pull_createsource alldistributions rules k t s with
        | none => simp [hc] at h
        | some rs =>
          obtain ⟨r1, s2⟩ := rs
          obtain ⟨hr1, part, hpart, hcontr⟩ := pull_createsource_spec _ _ _ _ _ _ _ hc
          simp only [hc, hr1, Bool.false_eq_true, if_false] at h
          obtain ⟨hr, parts, hp, hf⟩ := ih _ h
          refine ⟨hr, part :: parts, by simp [hp, hpart], ?_⟩
          exact List.Forall₂.cons ⟨some k, hslot, hcontr⟩ hf

theorem generatepulltarget_loop_congr (alldistributions : List distribution)
    (rules : List (pull_rule term filterlist)) (pd pd1 : pull_distribution) (t : target)
    (hrules : pd1.rules = pd.rules) (idxs : List Nat) (s : List pull_source) :
    generatepulltarget_loop alldistributions rules pd1 t idxs s =
      generatepulltarget_loop alldistributions rules pd t idxs s := by
  induction idxs generalizing s with
  | nil => rfl
  | cons i rest ih =>
    unfold generatepulltarget_loop
    rw [hrules]
    cases pd.rules[i]? with
    | none => rfl
    | some slot =>
      simp only
      split
      · rfl
      · split
        · rfl
        · exact ih _

theorem generatepulltarget_spec (alldistributions : List distribution)
    (rules : List (pull_rule term filterlist)) (pd : pull_distribution) (d : distribution)
    (hd : alldistributions[pd.distribution]? = some d)
    (hlen : pd.rules.length = d.pulls.length) (j : Nat) (t : target) (r : retvalue)
    (pd1 : pull_distribution)
    (h : generatepulltarget alldistributions rules pd (pd.distribution, j) t = some (r, pd1)) :
    r = RET_OK ∧ ∃ pt, pd1 = { pd with targets := pt :: pd.targets } ∧
      target_generated alldistributions rules pd.distribution pd.rules (j, t) pt := by
  unfold generatepulltarget at h
  simp only [hd] at h
  cases hl : generatepulltarget_loop alldistributions rules pd t (List.range d.pulls.length) []
    with
  | none => simp [hl] at h
  | some rs =>
    obtain ⟨r1, s1⟩ := rs
    simp only [hl, Option.some.injEq, Prod.mk.injEq] at h
    obtain ⟨hr, parts, hp, hf⟩ := generatepulltarget_loop_spec _ _ _ _ _ _ _ _ hl
    rw [← hlen] at hf
    refine ⟨by rw [← h.1, hr], ⟨s1, (pd.distribution, j), none, false⟩, h.2.symm, rfl, rfl, rfl,
      parts, forall₂_of_range _ _ hf, by simpa using hp⟩

theorem pull_generatetargets_inner_spec (alldistributions : List distribution)
    (rules : List (pull_rule term filterlist)) (d : distribution) (ts : List target) (j : Nat)
    (pd : pull_distribution) (hd : alldistributions[pd.distribution]? = some d)
    (hlen : pd.rules.length = d.pulls.length) (r : retvalue) (pd1 : pull_distribution)
    (h : pull_generatetargets_inner alldistributions rules ts j pd = some (r, pd1)) :
    r = RET_OK ∧ ∃ pts, pd1 = { pd with targets := pts.reverse ++ pd.targets } ∧
      List.Forall₂ (target_generated alldistributions rules pd.distribution pd.rules)
        (ts.enumFrom j) pts := by
  induction ts generalizing j pd with
  | nil =>
    simp only [pull_generatetargets_inner, Option.some.injEq, Prod.mk.injEq] at h
    exact ⟨h.1.symm, [], by simp [← h.2], List.Forall₂.nil⟩
  | cons t next ih =>
    unfold pull_generatetargets_inner at h
    cases hg : generatepulltarget alldistributions rules pd (pd.distribution, j) t with
    | none => simp [hg] at h
    | some rp =>
      obtain ⟨r1, pd2⟩ := rp
      obtain ⟨hr1, pt, hpd2, hpt⟩ := generatepulltarget_spec _ _ _ _ hd hlen _ _ _ _ hg
      simp only [hg, hr1, RET_WAS_ERROR, Bool.false_eq_true, if_false] at h
      have hd2 : alldistributions[pd2.distribution]? = some d := by rw [hpd2]; exact hd
      have hlen2 : pd2.rules.length = d.pulls.length := by rw [hpd2]; exact hlen
      obtain ⟨hr, pts, hpd1, hf⟩ := ih (j + 1) pd2 hd2 hlen2 h
      refine ⟨hr, pt :: pts, ?_, ?_⟩
      · rw [hpd1, hpd2]; simp
      · rw [hpd2] at hf
        exact List.Forall₂.cons hpt hf

theorem pull_generatetargets_spec (alldistributions : List distribution)
    (rules : List (pull_rule term filterlist)) (p : List pull_distribution)
    (hp : ∀ pd ∈ p, ∀ d, alldistributions[pd.distribution]? = some d →
      pd.rules.length = d.pulls.length)
    (r : retvalue) (p1 : List pull_distribution)
    (h : pull_generatetargets alldistributions rules p = some (r, p1)) :
    r = RET_OK ∧ List.Forall₂ (targets_generated alldistributions rules) p p1 := by
  induction p generalizing r p1 with
  | nil =>
    simp only [pull_generatetargets, Option.some.injEq, Prod.mk.injEq] at h
    exact ⟨h.1.symm, by rw [← h.2]; exact List.Forall₂.nil⟩
  | cons pd next ih =>
    unfold pull_generatetargets at h
    cases hd : alldistributions[pd.distribution]? with
    | none => simp [hd] at h
    | some d =>
      simp only [hd] at h
      cases hi : pull_generatetargets_inner alldistributions rules d.targets 0 pd with
      | none => simp [hi] at h
      | some rp =>
        obtain ⟨r1, pd1⟩ := rp
        obtain ⟨hr1, pts, hpd1, hf⟩ := pull_generatetargets_inner_spec _ _ _ _ _ _ hd
          (hp pd (List.mem_cons_self _ _) d hd) _ _ hi
        simp only [hi, hr1, RET_WAS_ERROR, Bool.false_eq_true, if_false] at h
        cases hn : pull_generatetargets alldistributions rules next with
        | none => simp [hn] at h
        | some rn =>
          obtain ⟨r2, next1⟩ := rn
          simp only [hn, Option.some.injEq, Prod.mk.injEq] at h
          obtain ⟨hr2, hfn⟩ := ih (fun pd hpd => hp pd (List.mem_cons_of_mem _ hpd)) _ _ hn
          refine ⟨by rw [← h.1, hr2], ?_⟩
          rw [← h.2]
          exact List.Forall₂.cons ⟨d, pts, hd, hpd1, hf⟩ hfn

/-! ## Step two: `pull_init` -/

theorem used_grows_refl (rules : List (pull_rule term filterlist)) : used_grows rules rules :=
  List.forall₂_same.2 (fun _ _ => Or.inl rfl)

theorem used_grows_trans {rules rules1 rules2 : List (pull_rule term filterlist)}
    (h1 : used_grows rules rules1) (h2 : used_grows rules1 rules2) : used_grows rules rules2 := by
  unfold used_grows at *
  induction h1 generalizing rules2 with
  | nil => simpa using h2
  | cons hab _ ih =>
    obtain ⟨b, l, hb, hl, rfl⟩ := List.forall₂_cons_left_iff.1 h2
    refine List.Forall₂.cons ?_ (ih hl)
    rcases hab with rfl | rfl <;> rcases hb with rfl | rfl <;> simp

theorem used_grows_mark_used (rules : List (pull_rule term filterlist)) (k : Nat) :
    used_grows rules (mark_used rules k) := by
  unfold mark_used
  cases hk : rules[k]? with
  | none => exact used_grows_refl rules
  | some rule =>
    simp only
    unfold used_grows
    induction rules generalizing k with
    | nil => simp
    | cons x xs ih =>
      cases k with
      | zero =>
        simp only [List.getElem?_cons_zero, Option.some.injEq] at hk
        subst hk
        exact List.Forall₂.cons (Or.inr rfl) (used_grows_refl xs)
      | succ k =>
        simp only [List.getElem?_cons_succ] at hk
        exact List.Forall₂.cons (Or.inl rfl) (ih k hk)

theorem used_grows_findIdx {rules rules1 : List (pull_rule term filterlist)}
    (h : used_grows rules rules1) (name : String) (i : Nat) :
    rules1.findIdx? (fun x => x.name == name) i = rules.findIdx? (fun x => x.name == name) i := by
  unfold used_grows at h
  induction h generalizing i with
  | nil => rfl
  | cons hab _ ih =>
    simp only [List.findIdx?_cons]
    rcases hab with rfl | rfl <;> simp only [ih]

theorem used_grows_getElem {rules rules1 : List (pull_rule term filterlist)}
    (h : used_grows rules rules1) (k : Nat) (rule : pull_rule term filterlist)
    (hk : rules[k]? = some rule) :
    ∃ rule1, rules1[k]? = some rule1 ∧ (rule1 = rule ∨ rule1 = { rule with used := true }) := by
  unfold used_grows at h
  induction h generalizing k with
  | nil => simp at hk
  | cons hab _ ih =>
    cases k with
    | zero =>
      simp only [List.getElem?_cons_zero, Option.some.injEq] at hk
      subst hk
      exact ⟨_, by simp, hab⟩
    | succ k =>
      simp only [List.getElem?_cons_succ] at hk ⊢
      exact ih k hk

theorem used_grows_names {rules rules1 : List (pull_rule term filterlist)}
    (h : used_grows rules rules1) (name : String) :
    (∀ x ∈ rules1, x.name ≠ name) ↔ (∀ x ∈ rules, x.name ≠ name) := by
  have h0 := used_grows_findIdx h name 0
  have e : ∀ l : List (pull_rule term filterlist),
      (∀ x ∈ l, x.name ≠ name) ↔ l.findIdx? (fun x => x.name == name) = none := by
    intro l
    rw [List.findIdx?_eq_none_iff]
    simp
  rw [e, e, h0]

theorem mark_used_getElem (rules : List (pull_rule term filterlist)) (k : Nat)
    (hk : k < rules.length) :
    ∃ rule, (mark_used rules k)[k]? = some rule ∧ rule.used = true := by
  unfold mark_used
  rw [List.getElem?_eq_getElem hk]
  exact ⟨{ rules[k] with used := true }, by simp [hk], rfl⟩

theorem slot_resolves_mono {rules rules1 : List (pull_rule term filterlist)}
    (h : used_grows rules rules1) (name : String) (slot : Option Nat)
    (hs : slot_resolves rules name slot) : slot_resolves rules1 name slot := by
  unfold slot_resolves at *
  by_cases hn : name = "-"
  · simpa [hn] using hs
  · simp only [hn, if_false] at hs ⊢
    obtain ⟨k, rule, hslot, hfind, hk, hused⟩ := hs
    obtain ⟨rule1, hk1, hor⟩ := used_grows_getElem h k rule hk
    refine ⟨k, rule1, hslot, by rw [used_grows_findIdx h]; exact hfind, hk1, ?_⟩
    rcases hor with rfl | rfl
    · exact hused
    · rfl

theorem pull_initdistribution_loop_spec (codename : String) (names : List String)
    (rules : List (pull_rule term filterlist)) (slots : List (Option Nat))
    (err : List message) :
    ∃ r rules1 slots1 err1,
      pull_initdistribution_loop codename names rules slots err = (r, rules1, slots1, err1) ∧
      used_grows rules rules1 ∧
      ((r = RET_OK ∧ err1 = err ∧
          ∃ new, slots1 = slots ++ new ∧ List.Forall₂ (slot_resolves rules1) names new) ∨
        (r = RET_ERROR_MISSING ∧
          ∃ name ∈ names, name ≠ "-" ∧ (∀ x ∈ rules, x.name ≠ name) ∧
            err1 = err ++ [message.unknown_pull_rule name codename])) := by
  induction names generalizing rules slots with
  | nil =>
    exact ⟨RET_OK, rules, slots, err, rfl, used_grows_refl _, Or.inl ⟨rfl, rfl, [], by simp,
      List.Forall₂.nil⟩⟩
  | cons name rest ih =>
    unfold pull_initdistribution_loop
    by_cases hn : name = "-"
    · simp only [hn, if_true]
      obtain ⟨r, rules1, slots1, err1, he, hg, hcase⟩ := ih rules (slots ++ [none])
      refine ⟨r, rules1, slots1, err1, he, hg, ?_⟩
      rcases hcase with ⟨hr, herr, new, hnew, hf⟩ | ⟨hr, nm, hnm, hne, hno, herr⟩
      · refine Or.inl ⟨hr, herr, none :: new, by simp [hnew], List.Forall₂.cons ?_ hf⟩
        simp [slot_resolves]
      · exact Or.inr ⟨hr, nm, List.mem_cons_of_mem _ hnm, hne, hno, herr⟩
    · simp only [hn, if_false]
      cases hfind : rules.findIdx? (fun rule => rule.name == name) with
      | none =>
        refine ⟨_, _, _, _, rfl, used_grows_refl _, Or.inr ⟨rfl, name, List.mem_cons_self _ _,
          hn, ?_, rfl⟩⟩
        rw [List.findIdx?_eq_none_iff] at hfind
        intro x hx
        simpa using hfind x hx
      | some k =>
        simp only
        have hk : k < rules.length := by
          have := List.findIdx?_eq_some_iff_getElem.1 hfind
          exact this.1
        have hm := used_grows_mark_used rules k
        obtain ⟨r, rules1, slots1, err1, he, hg, hcase⟩ :=
          ih (mark_used rules k) (slots ++ [some k])
        refine ⟨r, rules1, slots1, err1, he, used_grows_trans hm hg, ?_⟩
        rcases hcase with ⟨hr, herr, new, hnew, hf⟩ | ⟨hr, nm, hnm, hne, hno, herr⟩
        · refine Or.inl ⟨hr, herr, some k :: new, by simp [hnew], List.Forall₂.cons ?_ hf⟩
          obtain ⟨rule, hrule, hused⟩ := mark_used_getElem rules k hk
          apply slot_resolves_mono hg
          simp only [slot_resolves, hn, if_false]
          exact ⟨k, rule, rfl, by rw [used_grows_findIdx hm]; exact hfind, hrule, hused⟩
        · exact Or.inr ⟨hr, nm, List.mem_cons_of_mem _ hnm, hne,
            (used_grows_names hm nm).1 hno, herr⟩

theorem pull_initdistribution_spec (di : Nat) (d : distribution)
    (rules : List (pull_rule term filterlist)) (err : List message) :
    ∃ r rules1 pp err1,
      pull_initdistribution di d rules err = (r, rules1, pp, err1) ∧
      used_grows rules rules1 ∧
      ((r = RET_NOTHING ∧ d.pulls = [] ∧ pp = none) ∨
        (r = RET_OK ∧ d.pulls ≠ [] ∧ ∃ pd, pp = some pd ∧ pd_initialised rules1 (di, d) pd) ∨
        (r = RET_ERROR_MISSING ∧ pp = none ∧
          ∃ name ∈ d.pulls, name ≠ "-" ∧ ∀ x ∈ rules, x.name ≠ name)) := by
  unfold pull_initdistribution
  by_cases h0 : d.pulls.length = 0
  · simp only [h0, if_true]
    exact ⟨_, _, _, _, rfl, used_grows_refl _, Or.inl ⟨rfl, List.length_eq_zero.1 h0, rfl⟩⟩
  · simp only [h0, if_false]
    obtain ⟨r, rules1, slots1, err1, he, hg, hcase⟩ :=
      pull_initdistribution_loop_spec d.codename d.pulls rules [] err
    rw [he]
    rcases hcase with ⟨hr, _, new, hnew, hf⟩ | ⟨hr, nm, hnm, hne, hno, _⟩
    · subst hr
      refine ⟨_, _, _, _, rfl, hg, Or.inr (Or.inl ⟨rfl, ?_, _, rfl, rfl, rfl, ?_⟩)⟩
      · intro hnil; exact h0 (by simp [hnil])
      · simpa [hnew] using hf
    · subst hr
      exact ⟨_, _, _, _, rfl, hg, Or.inr (Or.inr ⟨rfl, rfl, nm, hnm, hne, hno⟩)⟩

theorem pd_initialised_mono {rules rules1 : List (pull_rule term filterlist)}
    (h : used_grows rules rules1) (id : Nat × distribution) (pd : pull_distribution)
    (hpd : pd_initialised rules id pd) : pd_initialised rules1 id pd :=
  ⟨hpd.1, hpd.2.1, hpd.2.2.imp (fun name slot hs => slot_resolves_mono h name slot hs)⟩

theorem pull_init_loop_spec (ds : List distribution) (di : Nat)
    (rules : List (pull_rule term filterlist)) (p : List pull_distribution)
    (err : List message) :
    ∃ r rules1 pulls err1,
      pull_init_loop ds di rules p err = some (r, rules1, pulls, err1) ∧
      used_grows rules rules1 ∧
      ((r = RET_OK ∧ ∃ new, pulls = some (p ++ new) ∧
          List.Forall₂ (pd_initialised rules1)
            ((ds.enumFrom di).filter (fun id => id.2.selected && !id.2.pulls.isEmpty)) new) ∨
        (r = RET_ERROR_MISSING ∧ pulls = none ∧ missing_rule ds rules)) := by
  induction ds generalizing di rules p err with
  | nil =>
    exact ⟨_, _, _, _, rfl, used_grows_refl _, Or.inl ⟨rfl, [], by simp, List.Forall₂.nil⟩⟩
  | cons d next ih =>
    unfold pull_init_loop
    by_cases hsel : d.selected = true
    · simp only [hsel, Bool.not_true, Bool.false_eq_true, if_false]
      obtain ⟨r, rules1, pp, err1, he, hg, hcase⟩ := pull_initdistribution_spec di d rules err
      rw [he]
      simp only
      rcases hcase with ⟨hr, hnil, hpp⟩ | ⟨hr, hnnil, pd, hpp, hpd⟩ | ⟨hr, hpp, nm, hnm, hne, hno⟩
      · subst hr
        simp only [RET_WAS_ERROR, RET_IS_OK, Bool.false_eq_true, if_false]
        obtain ⟨r2, rules2, pulls2, err2, he2, hg2, hcase2⟩ := ih (di + 1) rules1 p err1
        refine ⟨r2, rules2, pulls2, err2, he2, used_grows_trans hg hg2, ?_⟩
        rcases hcase2 with ⟨hr2, new, hnew, hf⟩ | ⟨hr2, hp2, d2, hd2, hsel2, nm, hnm, hne, hno⟩
        · refine Or.inl ⟨hr2, new, hnew, ?_⟩
          simpa [List.filter_cons, hsel, hnil] using hf
        · exact Or.inr ⟨hr2, hp2, d2, List.mem_cons_of_mem _ hd2, hsel2, nm, hnm, hne,
            (used_grows_names hg nm).1 hno⟩
      · subst hr
        subst hpp
        simp only [RET_WAS_ERROR, RET_IS_OK, Bool.false_eq_true, if_false, if_true]
        obtain ⟨r2, rules2, pulls2, err2, he2, hg2, hcase2⟩ := ih (di + 1) rules1 (p ++ [pd]) err1
        refine ⟨r2, rules2, pulls2, err2, he2, used_grows_trans hg hg2, ?_⟩
        rcases hcase2 with ⟨hr2, new, hnew, hf⟩ | ⟨hr2, hp2, d2, hd2, hsel2, nm, hnm, hne, hno⟩
        · refine Or.inl ⟨hr2, pd :: new, by simp [hnew], ?_⟩
          have hne : d.pulls.isEmpty = false := by
            cases hdp : d.pulls with
            | nil => exact absurd hdp hnnil
            | cons _ _ => rfl
          simp only [List.enumFrom_cons, List.filter_cons, hsel, hne, Bool.not_false,
            Bool.and_self, if_true]
          exact List.Forall₂.cons (pd_initialised_mono hg2 _ _ hpd) hf
        · exact Or.inr ⟨hr2, hp2, d2, List.mem_cons_of_mem _ hd2, hsel2, nm, hnm, hne,
            (used_grows_names hg nm).1 hno⟩
      · subst hr
        simp only [RET_WAS_ERROR, if_true]
        exact ⟨_, _, _, _, rfl, hg, Or.inr ⟨rfl, rfl, d, List.mem_cons_self _ _, hsel, nm, hnm,
          hne, hno⟩⟩
    · simp only [hsel, Bool.not_false, if_true]
      simp only [Bool.not_eq_true] at hsel
      obtain ⟨r2, rules2, pulls2, err2, he2, hg2, hcase2⟩ := ih (di + 1) rules p err
      refine ⟨r2, rules2, pulls2, err2, he2, hg2, ?_⟩
      rcases hcase2 with ⟨hr2, new, hnew, hf⟩ | ⟨hr2, hp2, d2, hd2, hsel2, nm, hnm, hne, hno⟩
      · refine Or.inl ⟨hr2, new, hnew, ?_⟩
        simpa [List.filter_cons, hsel] using hf
      · exact Or.inr ⟨hr2, hp2, d2, List.mem_cons_of_mem _ hd2, hsel2, nm, hnm, hne, hno⟩

/-- In the other direction: when `pull_init` reports no error, no rule is missing. -/
theorem pd_initialised_not_missing (ds : List distribution) (di : Nat)
    (rules : List (pull_rule term filterlist)) (new : List pull_distribution)
    (hf : List.Forall₂ (pd_initialised rules)
      ((ds.enumFrom di).filter (fun id => id.2.selected && !id.2.pulls.isEmpty)) new) :
    ¬ missing_rule ds rules := by
  rintro ⟨d, hd, hsel, nm, hnm, hne, hno⟩
  induction ds generalizing di new with
  | nil => simp at hd
  | cons d0 next ih =>
    simp only [List.enumFrom_cons, List.filter_cons] at hf
    rcases List.mem_cons.1 hd with rfl | hd
    · have hnn : d.pulls.isEmpty = false := by
        cases hdp : d.pulls with
        | nil => rw [hdp] at hnm; simp at hnm
        | cons _ _ => rfl
      simp only [hsel, hnn, Bool.not_false, Bool.and_self, if_true] at hf
      obtain ⟨pd, rest, hpd, _, _⟩ := List.forall₂_cons_left_iff.1 hf
      obtain ⟨_, _, hslots⟩ := hpd
      simp only at hslots
      have key : ∀ (names : List String) (slots : List (Option Nat)),
          List.Forall₂ (slot_resolves rules) names slots → nm ∈ names → False := by
        intro names slots hfs
        induction hfs with
        | nil => simp
        | cons hab _ ih2 =>
          intro hmem
          rcases List.mem_cons.1 hmem with rfl | hmem
          · simp only [slot_resolves, hne, if_false] at hab
            obtain ⟨k, rule, _, hfind, _, _⟩ := hab
            have := List.findIdx?_eq_some_iff_getElem.1 hfind
            obtain ⟨hk, hp, _⟩ := this
            exact hno _ (List.getElem_mem hk) (by simpa using hp)
          · exact ih2 hmem
      exact key _ _ hslots hnm
    · split at hf
      · obtain ⟨pd, rest, _, hrest, _⟩ := List.forall₂_cons_left_iff.1 hf
        exact ih (di + 1) rest hrest hd
      · exact ih (di + 1) new hf hd

/-! ## Step three: `pull_loadsourcedistributions` -/

theorem pull_loadsourcedistributions_loop_spec (alldistributions : List distribution)
    (rest done : List (pull_rule term filterlist)) (err : List message) :
    ∃ r rules1 err1,
      pull_loadsourcedistributions_loop alldistributions rest done err = (r, rules1, err1) ∧
      ((r = RET_OK ∧ rules1 = done ++ rest.map (bind_source alldistributions) ∧ err1 = err ∧
          ∀ rule ∈ rest, ¬ unresolved alldistributions rule) ∨
        (r = RET_ERROR_MISSING ∧ ∃ rule ∈ rest, unresolved alldistributions rule)) := by
  induction rest generalizing done with
  | nil => exact ⟨_, _, _, rfl, Or.inl ⟨rfl, by simp, rfl, by simp⟩⟩
  | cons rule next ih =>
    unfold pull_loadsourcedistributions_loop
    by_cases hu : rule.used = true ∧ rule.distribution = none
    · have hu1 : (rule.used && rule.distribution.isNone) = true := by simp [hu.1, hu.2]
      simp only [hu1, if_true]
      cases hfind : alldistributions.findIdx? (fun d => d.codename == rule.from_) with
      | none =>
        refine ⟨_, _, _, rfl, Or.inr ⟨rfl, rule, List.mem_cons_self _ _, hu.1, hu.2, ?_⟩⟩
        rw [List.findIdx?_eq_none_iff] at hfind
        intro d hd
        simpa using hfind d hd
      | some di =>
        simp only
        obtain ⟨r, rules1, err1, he, hcase⟩ :=
          ih (done ++ [{ rule with distribution := some di }])
        refine ⟨r, rules1, err1, he, ?_⟩
        rcases hcase with ⟨hr, hrules, herr, hno⟩ | ⟨hr, x, hx, hux⟩
        · refine Or.inl ⟨hr, ?_, herr, ?_⟩
          · simp [hrules, bind_source, hu, hfind]
          · intro x hx
            rcases List.mem_cons.1 hx with rfl | hx
            · rintro ⟨_, _, hall⟩
              obtain ⟨hlt, hp, _⟩ := List.findIdx?_eq_some_iff_getElem.1 hfind
              exact hall _ (List.getElem_mem hlt) (by simpa using hp)
            · exact hno x hx
        · exact Or.inr ⟨hr, x, List.mem_cons_of_mem _ hx, hux⟩
    · have hu1 : (rule.used && rule.distribution.isNone) = false := by
        cases hused : rule.used with
        | false => simp
        | true =>
          cases hdist : rule.distribution with
          | none => exact absurd ⟨hused, hdist⟩ hu
          | some _ => simp
      simp only [hu1, Bool.false_eq_true, if_false]
      obtain ⟨r, rules1, err1, he, hcase⟩ := ih (done ++ [rule])
      refine ⟨r, rules1, err1, he, ?_⟩
      rcases hcase with ⟨hr, hrules, herr, hno⟩ | ⟨hr, x, hx, hux⟩
      · refine Or.inl ⟨hr, ?_, herr, ?_⟩
        · simp [hrules, bind_source, hu]
        · intro x hx
          rcases List.mem_cons.1 hx with rfl | hx
          · rintro ⟨h1, h2, _⟩
            exact hu ⟨h1, h2⟩
          · exact hno x hx
      · exact Or.inr ⟨hr, x, List.mem_cons_of_mem _ hx, hux⟩

theorem pull_loadsourcedistributions_spec (alldistributions : List distribution)
    (rules : List (pull_rule term filterlist)) (err : List message) :
    ∃ r rules1 err1,
      pull_loadsourcedistributions alldistributions rules err = (r, rules1, err1) ∧
      ((r = RET_OK ∧ rules1 = rules.map (bind_source alldistributions) ∧ err1 = err ∧
          ∀ rule ∈ rules, ¬ unresolved alldistributions rule) ∨
        (r = RET_ERROR_MISSING ∧ ∃ rule ∈ rules, unresolved alldistributions rule)) := by
  simpa [pull_loadsourcedistributions] using
    pull_loadsourcedistributions_loop_spec alldistributions rules [] err

/-! ## The combination: `pull_prepare` -/

theorem pulling_getElem (alldistributions : List distribution) (id : Nat × distribution)
    (h : id ∈ pulling alldistributions) :
    alldistributions[id.1]? = some id.2 ∧ id.2.selected = true ∧ id.2.pulls ≠ [] := by
  unfold pulling at h
  rw [List.mem_filter] at h
  obtain ⟨hmem, hsel⟩ := h
  have := (List.mk_mem_enumFrom_iff_le_and_getElem?_sub (n := 0) (i := id.1) (x := id.2)
    (l := alldistributions)).1 hmem
  simp only [Bool.and_eq_true, Bool.not_eq_true', List.isEmpty_eq_false] at hsel
  refine ⟨by simpa using this.2, hsel.1, ?_⟩
  intro hnil
  rw [hnil] at hsel
  simp at hsel

theorem forall₂_mem_left {α β : Type} {R : α → β → Prop} {l : List α} {m : List β}
    (h : List.Forall₂ R l m) : ∀ a ∈ l, ∃ b ∈ m, R a b := by
  induction h with
  | nil => simp
  | cons hab _ ih =>
    intro a ha
    rcases List.mem_cons.1 ha with rfl | ha
    · exact ⟨_, List.mem_cons_self _ _, hab⟩
    · obtain ⟨b, hb, hr⟩ := ih a ha
      exact ⟨b, List.mem_cons_of_mem _ hb, hr⟩

theorem pd_initialised_length (alldistributions : List distribution)
    (rules : List (pull_rule term filterlist)) (p : List pull_distribution)
    (hf : List.Forall₂ (pd_initialised rules) (pulling alldistributions) p) :
    ∀ pd ∈ p, ∀ d, alldistributions[pd.distribution]? = some d →
      pd.rules.length = d.pulls.length := by
  intro pd hpd d hd
  obtain ⟨id, hid, hdist, _, hslots⟩ := forall₂_mem_right hf pd hpd
  have := (pulling_getElem alldistributions id hid).1
  rw [← hdist, hd, Option.some.injEq] at this
  rw [this]
  exact hslots.length_eq.symm

/-- The shape of every plan that `pull_prepare` stores. -/
theorem pull_prepare_plan (alldistributions : List distribution)
    (rules : List (pull_rule term filterlist)) (fast : Bool)
    (res : prepare_result term filterlist) (plan : List pull_distribution)
    (h : pull_prepare alldistributions rules fast = some res) (hplan : res.pd = some plan) :
    res.r = RET_OK ∧ ∃ rules1 p, used_grows rules rules1 ∧
      res.rules = rules1.map (bind_source alldistributions) ∧
      (∀ rule ∈ rules1, ¬ unresolved alldistributions rule) ∧
      List.Forall₂ (pd_initialised rules1) (pulling alldistributions) p ∧
      List.Forall₂ (targets_generated alldistributions res.rules) p plan := by
  obtain ⟨r, rules1, pulls, err1, he, hg, hcase⟩ :=
    pull_init_loop_spec alldistributions 0 rules [] []
  unfold pull_prepare pull_init at h
  rw [he] at h
  simp only at h
  rcases hcase with ⟨hr, new, hnew, hf⟩ | ⟨hr, _, _⟩
  · subst hr
    simp only [List.nil_append] at hnew
    subst hnew
    obtain ⟨r2, rules2, err2, he2, hcase2⟩ :=
      pull_loadsourcedistributions_spec alldistributions rules1 err1
    rw [he2] at h
    simp only [RET_WAS_ERROR, Bool.false_eq_true, if_false] at h
    rcases hcase2 with ⟨hr2, hrules2, _, hno⟩ | ⟨hr2, _⟩
    · subst hr2
      simp only [Bool.false_eq_true, if_false] at h
      split at h
      · simp at h
      · cases hgen : pull_generatetargets alldistributions rules2 new with
        | none => simp [hgen] at h
        | some rp =>
          obtain ⟨r4, p4⟩ := rp
          obtain ⟨hr4, hf4⟩ := pull_generatetargets_spec alldistributions rules2 new
            (pd_initialised_length alldistributions rules1 new hf) r4 p4 hgen
          subst hr4
          simp only [hgen, Bool.false_eq_true, if_false, Option.some.injEq] at h
          subst h
          simp only [Option.some.injEq] at hplan
          subst hplan
          exact ⟨rfl, rules1, new, hg, hrules2, hno, hf, hf4⟩
    · subst hr2
      simp only [if_true, Option.some.injEq] at h
      subst h
      simp at hplan
  · subst hr
    simp only [RET_WAS_ERROR, if_true, Option.some.injEq] at h
    subst h
    simp at hplan

/-! ## The claims about the plan -/

/-- What `pull_prepare_plan` says of one pull target of a stored plan. -/
theorem pull_prepare_target (alldistributions : List distribution)
    (rules : List (pull_rule term filterlist)) (fast : Bool)
    (res : prepare_result term filterlist) (plan : List pull_distribution)
    (h : pull_prepare alldistributions rules fast = some res) (hplan : res.pd = some plan)
    (pd : pull_distribution) (hpd : pd ∈ plan) (pt : pull_target) (hpt : pt ∈ pd.targets) :
    ∃ rules1 d jt, used_grows rules rules1 ∧
      res.rules = rules1.map (bind_source alldistributions) ∧
      alldistributions[pd.distribution]? = some d ∧ d.selected = true ∧
      List.Forall₂ (slot_resolves rules1) d.pulls pd.rules ∧
      jt ∈ d.targets.enumFrom 0 ∧
      target_generated alldistributions res.rules pd.distribution pd.rules jt pt := by
  obtain ⟨_, rules1, p, hg, hrules, _, hinit, hgen⟩ :=
    pull_prepare_plan alldistributions rules fast res plan h hplan
  obtain ⟨pd0, hpd0, d, pts, hd, hpd1, hpts⟩ := forall₂_mem_right hgen pd hpd
  obtain ⟨id, hid, hdist, htargets, hslots⟩ := forall₂_mem_right hinit pd0 hpd0
  obtain ⟨hidd, hsel, _⟩ := pulling_getElem alldistributions id hid
  have hdid : id.2 = d := by
    rw [← hdist, hd, Option.some.injEq] at hidd
    exact hidd.symm
  rw [hpd1, htargets, List.append_nil] at hpt
  obtain ⟨jt, hjt, hgenpt⟩ := forall₂_mem_right hpts pt (List.mem_reverse.1 hpt)
  refine ⟨rules1, d, jt, hg, hrules, ?_, by rw [← hdid]; exact hsel, ?_, hjt, ?_⟩
  · rw [hpd1]; exact hd
  · rw [hpd1, ← hdid]; exact hslots
  · rw [hpd1]; exact hgenpt

/-- C1: in every plan built by `pull_prepare`, the source list of every pull target is the
concatenation, in the order of the slots of the owning distribution's pull list, of the
contributions of the slots to the target's bucket: one delete marker for a delete slot; for a
rule slot nothing when the bucket's component is not in the rule's effective component set,
else one source per index of the effective into-architectures whose value is the bucket's
architecture, in increasing order of the index. -/
theorem pull_prepare_sources (alldistributions : List distribution)
    (rules : List (pull_rule term filterlist)) (fast : Bool)
    (res : prepare_result term filterlist) (plan : List pull_distribution)
    (h : pull_prepare alldistributions rules fast = some res) (hplan : res.pd = some plan) :
    ∀ pd ∈ plan, ∀ pt ∈ pd.targets, ∃ d t,
      alldistributions[pd.distribution]? = some d ∧
      pt.target.1 = pd.distribution ∧ d.targets[pt.target.2]? = some t ∧
      pd.rules.length = d.pulls.length ∧
      ∃ parts, List.Forall₂ (slot_contributes alldistributions res.rules t) pd.rules parts ∧
        pt.sources = parts.flatten := by
  intro pd hpd pt hpt
  obtain ⟨rules1, d, jt, _, _, hd, _, hslots, hjt, htarget, _, _, parts, hparts, hsources⟩ :=
    pull_prepare_target alldistributions rules fast res plan h hplan pd hpd pt hpt
  have hj := (List.mk_mem_enumFrom_iff_le_and_getElem?_sub (n := 0) (i := jt.1) (x := jt.2)
    (l := d.targets)).1 hjt
  refine ⟨d, jt.2, hd, by rw [htarget], ?_, hslots.length_eq.symm, parts, hparts, hsources⟩
  rw [htarget]
  simpa using hj.2

/-- C2: for a rule with an explicit architecture remap whose `from` and `into` lists have the
same length, bound to the distribution `d` at position `di`, `pull_createsource` returns, and
every source it appends for a target bucket comes from an index `ai` with `into[ai]` the
bucket's architecture; its source bucket is the one looked up in `d` with the bucket's
component, the architecture `from[ai]` and the bucket's package type. -/
theorem pull_createsource_architectures (alldistributions : List distribution)
    (rules : List (pull_rule term filterlist)) (k : Nat) (t : target)
    (s : List pull_source) (rule : pull_rule term filterlist) (di : Nat) (d : distribution)
    (hk : rules[k]? = some rule) (hset : rule.architectures_set = true)
    (hlen : rule.architectures_from.length = rule.architectures_into.length)
    (hdi : rule.distribution = some di) (hd : alldistributions[di]? = some d) :
    ∃ r new, pull_createsource alldistributions rules k t s = some (r, s ++ new) ∧
      ∀ src ∈ new, ∃ (ai : Nat) (frm : String),
        rule.architectures_into[ai]? = some t.architecture ∧
        rule.architectures_from[ai]? = some frm ∧
        src.rule = some k ∧
        src.source =
          (distribution_getpart d t.component frm t.packagetype).map (fun j => (di, j)) := by
  have htotal : ∃ rs, pull_createsource alldistributions rules k t s = some rs := by
    unfold pull_createsource
    simp only [hk, hdi, hd, hset, if_true]
    obtain ⟨s1, hs1⟩ := pull_createsource_loop_total k di d t rule.architectures_from
      rule.architectures_into (List.range rule.architectures_into.length) s
      (fun ai hai => by
        have := List.mem_range.1 hai
        exact ⟨this, by rw [hlen]; exact this⟩)
    rw [hs1]
    split_ifs <;> exact ⟨_, rfl⟩
  obtain ⟨⟨r, s1⟩, hrs⟩ := htotal
  obtain ⟨_, part, hpart, rule1, di1, d1, hk1, hdi1, hd1, hcontr⟩ :=
    pull_createsource_spec alldistributions rules k t s r s1 hrs
  rw [hk, Option.some.injEq] at hk1
  subst hk1
  rw [hdi, Option.some.injEq] at hdi1
  subst hdi1
  rw [hd, Option.some.injEq] at hd1
  subst hd1
  refine ⟨r, part, by rw [hrs, hpart], ?_⟩
  intro src hsrc
  unfold rule_contributes at hcontr
  split at hcontr
  · obtain ⟨ai, hai, frm, hfrm, hsrceq⟩ := forall₂_mem_right hcontr src hsrc
    simp only [matching_indices, effective_into, hset, if_true, List.mem_filter,
      decide_eq_true_eq] at hai
    simp only [effective_from, hset, if_true] at hfrm
    exact ⟨ai, frm, hai.2, hfrm, by rw [hsrceq], by rw [hsrceq]⟩
  · rw [hcontr] at hsrc
    simp at hsrc

/-- C3: when the component of the target bucket is not in the effective component set of a rule
(bound to the distribution `d` at position `di`), `pull_createsource` appends no source and
returns `RET_NOTHING`. -/
theorem pull_createsource_component_absent (alldistributions : List distribution)
    (rules : List (pull_rule term filterlist)) (k : Nat) (t : target)
    (s : List pull_source) (rule : pull_rule term filterlist) (di : Nat) (d : distribution)
    (hk : rules[k]? = some rule) (hdi : rule.distribution = some di)
    (hd : alldistributions[di]? = some d)
    (hc : t.component ∉ effective_components rule d t.packagetype) :
    pull_createsource alldistributions rules k t s = some (RET_NOTHING, s) := by
  unfold pull_createsource
  simp only [hk, hdi, hd]
  have hc1 : strlist_in (if t.packagetype = "udeb" then
      (if rule.udebcomponents_set then rule.udebcomponents else d.udebcomponents)
      else (if rule.components_set then rule.components else d.components))
      t.component = false := by
    simpa [strlist_in, effective_components] using hc
  simp only [hc1, Bool.not_false, if_true]

/-- C7: `pull_loadsourcedistributions` returns `RET_ERROR_MISSING` exactly when some used rule
without source distribution has a `from` that is the codename of no distribution; otherwise it
returns `RET_OK`, every used rule that had no source distribution is bound to the first
distribution, in the order of the inventory, whose codename is the rule's `from`, and every
other rule is left as it was. -/
theorem pull_loadsourcedistributions_correct (alldistributions : List distribution)
    (rules : List (pull_rule term filterlist)) (err : List message) :
    ((pull_loadsourcedistributions alldistributions rules err).1 = RET_ERROR_MISSING ↔
      ∃ rule ∈ rules, rule.used = true ∧ rule.distribution = none ∧
        ∀ d ∈ alldistributions, d.codename ≠ rule.from_) ∧
    ((pull_loadsourcedistributions alldistributions rules err).1 ≠ RET_ERROR_MISSING →
      (pull_loadsourcedistributions alldistributions rules err).1 = RET_OK ∧
      List.Forall₂ (fun rule rule1 =>
          if rule.used = true ∧ rule.distribution = none then
            ∃ di d, rule1 = { rule with distribution := some di } ∧
              alldistributions[di]? = some d ∧ d.codename = rule.from_ ∧
              ∀ j dj, j < di → alldistributions[j]? = some dj → dj.codename ≠ rule.from_
          else rule1 = rule)
        rules (pull_loadsourcedistributions alldistributions rules err).2.1) := by
  obtain ⟨r, rules1, err1, he, hcase⟩ :=
    pull_loadsourcedistributions_spec alldistributions rules err
  rw [he]
  rcases hcase with ⟨hr, hrules, _, hno⟩ | ⟨hr, hex⟩
  · subst hr
    refine ⟨⟨fun hc => by simp at hc, fun ⟨rule, hrule, hu⟩ => absurd hu (hno rule hrule)⟩, ?_⟩
    intro _
    refine ⟨rfl, ?_⟩
    simp only
    rw [hrules, List.forall₂_map_right_iff, List.forall₂_same]
    intro rule hrule
    by_cases hu : rule.used = true ∧ rule.distribution = none
    · simp only [hu, and_self, if_true, bind_source]
      cases hfind : alldistributions.findIdx? (fun d => d.codename == rule.from_) with
      | none =>
        exfalso
        refine hno rule hrule ⟨hu.1, hu.2, ?_⟩
        rw [List.findIdx?_eq_none_iff] at hfind
        intro d hd
        simpa using hfind d hd
      | some di =>
        obtain ⟨hlt, hp, hfirst⟩ := List.findIdx?_eq_some_iff_getElem.1 hfind
        refine ⟨di, alldistributions[di], rfl, List.getElem?_eq_getElem hlt, by simpa using hp, ?_⟩
        intro j dj hj hdj
        have hjlt : j < alldistributions.length := lt_trans hj hlt
        rw [List.getElem?_eq_getElem hjlt, Option.some.injEq] at hdj
        have := hfirst j hj
        rw [← hdj]
        simpa using this
    · simp only [hu, if_false, bind_source]
  · subst hr
    simp only [ne_eq, not_true_eq_false, false_implies, and_true, true_iff]
    exact hex

/-- C6: when some selected distribution has in its pull list a name other than `-` that is the
name of no rule, `pull_prepare` returns `RET_ERROR_MISSING` and stores no plan; and `pull_init`
returns, with `RET_ERROR_MISSING` in that case only. -/
theorem pull_prepare_missing_rule (alldistributions : List distribution)
    (rules : List (pull_rule term filterlist)) (fast : Bool) :
    (missing_rule alldistributions rules →
      ∃ res, pull_prepare alldistributions rules fast = some res ∧
        res.r = RET_ERROR_MISSING ∧ res.pd = none) ∧
    (∃ r rules1 pulls err1,
      pull_init rules alldistributions [] = some (r, rules1, pulls, err1) ∧
      (r = RET_ERROR_MISSING ↔ missing_rule alldistributions rules)) := by
  obtain ⟨r, rules1, pulls, err1, he, hg, hcase⟩ :=
    pull_init_loop_spec alldistributions 0 rules [] []
  have hiff : r = RET_ERROR_MISSING ↔ missing_rule alldistributions rules := by
    rcases hcase with ⟨hr, new, _, hf⟩ | ⟨hr, _, hmiss⟩
    · subst hr
      refine ⟨fun hc => by simp at hc, fun hmiss => ?_⟩
      obtain ⟨d, hd, hsel, nm, hnm, hne, hno⟩ := hmiss
      exact absurd ⟨d, hd, hsel, nm, hnm, hne, (used_grows_names hg nm).2 hno⟩
        (pd_initialised_not_missing alldistributions 0 rules1 new hf)
    · exact ⟨fun _ => hmiss, fun _ => hr⟩
  refine ⟨fun hmiss => ?_, r, rules1, pulls, err1, he, hiff⟩
  have hr := hiff.2 hmiss
  subst hr
  unfold pull_prepare pull_init
  rw [he]
  exact ⟨_, rfl, rfl, rfl⟩

theorem rule_contributes_rule (k di : Nat) (d : distribution)
    (rule : pull_rule term filterlist) (t : target) (part : List pull_source)
    (h : rule_contributes k di d rule t part) : ∀ src ∈ part, src.rule = some k := by
  unfold rule_contributes at h
  split at h
  · intro src hsrc
    obtain ⟨_, _, _, _, hsrceq⟩ := forall₂_mem_right h src hsrc
    rw [hsrceq]
  · rw [h]; simp

theorem slot_contributes_count (alldistributions : List distribution)
    (rules : List (pull_rule term filterlist)) (t : target) (slots : List (Option Nat))
    (parts : List (List pull_source))
    (h : List.Forall₂ (slot_contributes alldistributions rules t) slots parts) :
    parts.flatten.count ⟨none, none⟩ = slots.count none := by
  induction h with
  | nil => rfl
  | @cons slot part _ _ hab _ ih =>
    rw [List.flatten_cons, List.count_append, ih, List.count_cons]
    cases slot with
    | none =>
      simp only [slot_contributes] at hab
      rw [hab]
      simp [Nat.add_comm]
    | some k =>
      obtain ⟨rule, di, d, _, _, _, hcontr⟩ := hab
      have hz : part.count ⟨none, none⟩ = 0 := by
        rw [List.count_eq_zero]
        intro hmem
        have := rule_contributes_rule k di d rule t part hcontr _ hmem
        simp at this
      simp [hz]

theorem slot_resolves_count (rules : List (pull_rule term filterlist)) (names : List String)
    (slots : List (Option Nat)) (h : List.Forall₂ (slot_resolves rules) names slots) :
    slots.count none = names.count "-" := by
  induction h with
  | nil => rfl
  | @cons name slot _ _ hab _ ih =>
    rw [List.count_cons, List.count_cons, ih]
    unfold slot_resolves at hab
    by_cases hn : name = "-"
    · simp only [hn, if_true] at hab
      simp [hn, hab]
    · simp only [hn, if_false] at hab
      obtain ⟨k, _, hslot, _⟩ := hab
      simp [hn, hslot]

theorem slot_resolves_delete (rules : List (pull_rule term filterlist)) (names : List String)
    (slots : List (Option Nat)) (h : List.Forall₂ (slot_resolves rules) names slots) (i : Nat)
    (hi : names[i]? = some "-") : slots[i]? = some none := by
  induction h generalizing i with
  | nil => simp at hi
  | @cons name slot _ _ hab _ ih =>
    cases i with
    | zero =>
      simp only [List.getElem?_cons_zero, Option.some.injEq] at hi ⊢
      simpa [slot_resolves, hi] using hab
    | succ i =>
      simp only [List.getElem?_cons_succ] at hi ⊢
      exact ih i hi

theorem slot_contributes_delete (alldistributions : List distribution)
    (rules : List (pull_rule term filterlist)) (t : target) (slots : List (Option Nat))
    (parts : List (List pull_source))
    (h : List.Forall₂ (slot_contributes alldistributions rules t) slots parts) (i : Nat)
    (hi : slots[i]? = some none) :
    parts = parts.take i ++ [⟨none, none⟩] :: parts.drop (i + 1) := by
  induction h generalizing i with
  | nil => simp at hi
  | @cons slot part _ _ hab _ ih =>
    cases i with
    | zero =>
      simp only [List.getElem?_cons_zero, Option.some.injEq] at hi
      subst hi
      simp only [slot_contributes] at hab
      simp [hab]
    | succ i =>
      simp only [List.getElem?_cons_succ] at hi
      have := ih i hi
      simp only [List.take_succ_cons, List.drop_succ_cons, List.cons_append, List.cons.injEq,
        true_and]
      exact this

/-- C4: in every plan built by `pull_prepare`, the source list of every pull target has as many
delete markers as the pull list of the owning distribution has `-` slots; and for every `-`
slot, at position `i`, the source list is the contributions of the slots before `i`, then a
delete marker, then the contributions of the slots after `i`, with as many delete markers
before that one as there are `-` slots before `i`. -/
theorem pull_prepare_delete_markers (alldistributions : List distribution)
    (rules : List (pull_rule term filterlist)) (fast : Bool)
    (res : prepare_result term filterlist) (plan : List pull_distribution)
    (h : pull_prepare alldistributions rules fast = some res) (hplan : res.pd = some plan) :
    ∀ pd ∈ plan, ∀ pt ∈ pd.targets, ∃ d t parts,
      alldistributions[pd.distribution]? = some d ∧ d.targets[pt.target.2]? = some t ∧
      List.Forall₂ (slot_contributes alldistributions res.rules t) pd.rules parts ∧
      pt.sources = parts.flatten ∧
      pt.sources.count ⟨none, none⟩ = d.pulls.count "-" ∧
      ∀ i, d.pulls[i]? = some "-" →
        pt.sources = (parts.take i).flatten ++ ⟨none, none⟩ :: (parts.drop (i + 1)).flatten ∧
        List.Forall₂ (slot_contributes alldistributions res.rules t) (pd.rules.take i)
          (parts.take i) ∧
        List.Forall₂ (slot_contributes alldistributions res.rules t) (pd.rules.drop (i + 1))
          (parts.drop (i + 1)) ∧
        (parts.take i).flatten.count ⟨none, none⟩ = (d.pulls.take i).count "-" := by
  intro pd hpd pt hpt
  obtain ⟨rules1, d, jt, _, _, hd, _, hslots, hjt, htarget, _, _, parts, hparts, hsources⟩ :=
    pull_prepare_target alldistributions rules fast res plan h hplan pd hpd pt hpt
  have hj := (List.mk_mem_enumFrom_iff_le_and_getElem?_sub (n := 0) (i := jt.1) (x := jt.2)
    (l := d.targets)).1 hjt
  refine ⟨d, jt.2, parts, hd, by rw [htarget]; simpa using hj.2, hparts, hsources, ?_, ?_⟩
  · rw [hsources, slot_contributes_count _ _ _ _ _ hparts, slot_resolves_count _ _ _ hslots]
  · intro i hi
    have hsi := slot_resolves_delete _ _ _ hslots i hi
    have hsplit := slot_contributes_delete _ _ _ _ _ hparts i hsi
    refine ⟨?_, List.forall₂_take i hparts, List.forall₂_drop (i + 1) hparts, ?_⟩
    · rw [hsources]
      conv_lhs => rw [hsplit]
      simp
    · rw [slot_contributes_count _ _ _ _ _ (List.forall₂_take i hparts),
        slot_resolves_count _ _ _ (List.forall₂_take i hslots)]

theorem matching_indices_length (l : strlist) (a : String) :
    (matching_indices l a).length = l.count a := by
  unfold matching_indices
  induction l using List.reverseRecOn with
  | nil => rfl
  | append_singleton l x ih =>
    rw [List.length_append, List.length_singleton, List.range_succ, List.filter_append,
      List.length_append, List.count_append]
    have e1 : (List.range l.length).filter (fun ai => decide ((l ++ [x])[ai]? = some a)) =
        (List.range l.length).filter (fun ai => decide (l[ai]? = some a)) := by
      apply List.filter_congr
      intro i hi
      rw [List.getElem?_append_left (List.mem_range.1 hi)]
    rw [e1, ih]
    congr 1
    by_cases hx : x = a
    · simp [hx]
    · simp [hx, List.count_cons]

theorem matching_indices_getElem (l : strlist) (a : String) :
    ∀ ai ∈ matching_indices l a, l[ai]? = some a := by
  intro ai hai
  simp only [matching_indices, List.mem_filter, decide_eq_true_eq] at hai
  exact hai.2

/-- C5, amended: let the selected distribution `stable` (at position `si`) have the one-name
pull list `[name]`, let the first rule of that name (at position `k`) be unbound and without
architecture, component or udeb-component override, and let `unstable` (at position `u`) be the
first distribution whose codename is the rule's `from`. Then every plan stored by `pull_prepare`
has a pull distribution for `stable` with a pull target for every bucket of `stable`, and the
source list of the pull target of a bucket is: one entry per occurrence of the bucket's
architecture in the architectures of `unstable` if the bucket's component is in the components
of `unstable` (its udeb-components for a `udeb` bucket), no entry otherwise; and the source
bucket of every entry is the bucket of `unstable` looked up with the same component,
architecture and package type. -/
theorem pull_prepare_single_rule (alldistributions : List distribution)
    (rules : List (pull_rule term filterlist)) (fast : Bool)
    (res : prepare_result term filterlist) (plan : List pull_distribution)
    (si : Nat) (stable : distribution) (name : String) (k : Nat)
    (rule : pull_rule term filterlist) (u : Nat) (unstable : distribution)
    (h : pull_prepare alldistributions rules fast = some res) (hplan : res.pd = some plan)
    (hsi : alldistributions[si]? = some stable) (hsel : stable.selected = true)
    (hpulls : stable.pulls = [name]) (hname : name ≠ "-")
    (hfind : rules.findIdx? (fun x => x.name == name) = some k)
    (hk : rules[k]? = some rule) (hunbound : rule.distribution = none)
    (harch : rule.architectures_set = false) (hcomp : rule.components_set = false)
    (hudeb : rule.udebcomponents_set = false)
    (hu : alldistributions.findIdx? (fun d => d.codename == rule.from_) = some u)
    (hunstable : alldistributions[u]? = some unstable) :
    (∀ j t, stable.targets[j]? = some t →
      ∃ pd ∈ plan, pd.distribution = si ∧ ∃ pt ∈ pd.targets, pt.target = (si, j)) ∧
    (∀ pd ∈ plan, pd.distribution = si → ∀ pt ∈ pd.targets,
      ∃ t, pt.target.1 = si ∧ stable.targets[pt.target.2]? = some t ∧
        pt.sources =
          if t.component ∈
              (if t.packagetype = "udeb" then unstable.udebcomponents
                else unstable.components) then
            List.replicate (unstable.architectures.count t.architecture)
              ⟨(distribution_getpart unstable t.component t.architecture t.packagetype).map
                (fun j => (u, j)), some k⟩
          else []) := by
  constructor
  · intro j t hjt
    obtain ⟨_, rules1, p, _, _, _, hinit, hgen⟩ :=
      pull_prepare_plan alldistributions rules fast res plan h hplan
    have hmem : (si, stable) ∈ pulling alldistributions := by
      unfold pulling
      rw [List.mem_filter]
      refine ⟨?_, by simp [hsel, hpulls]⟩
      rw [List.mk_mem_enumFrom_iff_le_and_getElem?_sub]
      exact ⟨Nat.zero_le _, by simpa using hsi⟩
    obtain ⟨pd0, hpd0, hdist, htargets, _⟩ := forall₂_mem_left hinit _ hmem
    obtain ⟨pd, hpd, d, pts, hd, hpd1, hpts⟩ := forall₂_mem_left hgen pd0 hpd0
    simp only at hdist
    rw [hdist, hsi, Option.some.injEq] at hd
    subst hd
    have hjmem : (j, t) ∈ stable.targets.enumFrom 0 := by
      rw [List.mk_mem_enumFrom_iff_le_and_getElem?_sub]
      exact ⟨Nat.zero_le _, by simpa using hjt⟩
    obtain ⟨pt, hpt, hptt, _⟩ := forall₂_mem_left hpts _ hjmem
    refine ⟨pd, hpd, by rw [hpd1]; exact hdist, pt, ?_, ?_⟩
    · rw [hpd1]
      simp only [List.mem_append, List.mem_reverse]
      exact Or.inl hpt
    · rw [hptt, hdist]
  · intro pd hpd hpdsi pt hpt
    obtain ⟨rules1, d, jt, hg, hrules, hd, _, hslots, hjt, htarget, _, _, parts, hparts,
      hsources⟩ := pull_prepare_target alldistributions rules fast res plan h hplan pd hpd pt hpt
    rw [hpdsi, hsi, Option.some.injEq] at hd
    subst hd
    have hj := (List.mk_mem_enumFrom_iff_le_and_getElem?_sub (n := 0) (i := jt.1) (x := jt.2)
      (l := stable.targets)).1 hjt
    refine ⟨jt.2, by rw [htarget, hpdsi], by rw [htarget]; simpa using hj.2, ?_⟩
    -- the one slot is the rule at position `k`
    rw [hpulls] at hslots
    obtain ⟨slot, rest, hslot, hrest, hpdrules⟩ := List.forall₂_cons_left_iff.1 hslots
    rw [List.forall₂_nil_left_iff] at hrest
    subst hrest
    simp only [slot_resolves, hname, if_false] at hslot
    obtain ⟨k1, rule1, hslotk, hfind1, hk1, hused1⟩ := hslot
    rw [used_grows_findIdx hg, hfind, Option.some.injEq] at hfind1
    subst hfind1
    obtain ⟨rule1a, hk1a, hor⟩ := used_grows_getElem hg k rule hk
    rw [hk1, Option.some.injEq] at hk1a
    subst hk1a
    -- its contribution
    rw [hpdrules, hslotk] at hparts
    obtain ⟨part, prest, hpart, hprest, hpartseq⟩ := List.forall₂_cons_left_iff.1 hparts
    rw [List.forall₂_nil_left_iff] at hprest
    subst hprest
    obtain ⟨rule2, di, d, hk2, hdi, hdd, hcontr⟩ := hpart
    rw [hrules, List.getElem?_map, hk1, Option.map_some', Option.some.injEq] at hk2
    have hdist1 : rule1.distribution = none := by
      rcases hor with rfl | rfl
      · exact hunbound
      · exact hunbound
    have hfrom1 : rule1.from_ = rule.from_ := by rcases hor with rfl | rfl <;> rfl
    have hbind : bind_source alldistributions rule1 = { rule1 with distribution := some u } := by
      simp only [bind_source, hused1, hdist1, and_self, if_true, hfrom1, hu]
    rw [hbind] at hk2
    subst hk2
    simp only [Option.some.injEq] at hdi
    subst hdi
    rw [hunstable, Option.some.injEq] at hdd
    subst hdd
    have ha1 : rule1.architectures_set = false := by rcases hor with rfl | rfl <;> exact harch
    have hc1 : rule1.components_set = false := by rcases hor with rfl | rfl <;> exact hcomp
    have hu1 : rule1.udebcomponents_set = false := by rcases hor with rfl | rfl <;> exact hudeb
    rw [hsources, hpartseq, List.flatten_cons, List.flatten_nil, List.append_nil]
    have hec : effective_components { rule1 with distribution := some u } unstable
        jt.2.packagetype =
        (if jt.2.packagetype = "udeb" then unstable.udebcomponents
          else unstable.components) := by
      simp [effective_components, hc1, hu1]
    have hef : effective_from { rule1 with distribution := some u } unstable =
        unstable.architectures := by
      simp [effective_from, ha1]
    have hei : effective_into { rule1 with distribution := some u } unstable =
        unstable.architectures := by
      simp [effective_into, ha1]
    unfold rule_contributes at hcontr
    rw [hec, hef, hei] at hcontr
    by_cases hin : jt.2.component ∈
        (if jt.2.packagetype = "udeb" then unstable.udebcomponents else unstable.components)
    · rw [if_pos hin] at hcontr
      rw [if_pos hin, List.eq_replicate_iff]
      refine ⟨by rw [← hcontr.length_eq, matching_indices_length], ?_⟩
      intro src hsrc
      obtain ⟨ai, hai, frm, hfrm, hsrceq⟩ := forall₂_mem_right hcontr src hsrc
      have := matching_indices_getElem _ _ ai hai
      rw [this, Option.some.injEq] at hfrm
      rw [hsrceq, hfrm]
    · rw [if_neg hin] at hcontr
      rw [if_neg hin, hcontr]

/-! ## The typo checks do not change the plan -/

theorem searchunused_total (alldistributions : List distribution)
    (rule : pull_rule term filterlist) (di : Nat) (d : distribution)
    (hdi : rule.distribution = some di) (hd : alldistributions[di]? = some d) :
    ∃ w, searchunused alldistributions rule = some w := by
  unfold searchunused
  simp only [hdi, hd]
  exact ⟨_, rfl⟩

theorem pull_searchunused_total (alldistributions : List distribution)
    (rules : List (pull_rule term filterlist)) (err : List message)
    (h : ∀ rule ∈ rules, rule.used = true →
      ∃ di d, rule.distribution = some di ∧ alldistributions[di]? = some d) :
    ∃ err1, pull_searchunused alldistributions rules err = some err1 := by
  induction rules generalizing err with
  | nil => exact ⟨err, rfl⟩
  | cons rule next ih =>
    have hnext : ∀ x ∈ next, x.used = true →
        ∃ di d, x.distribution = some di ∧ alldistributions[di]? = some d :=
      fun x hx => h x (List.mem_cons_of_mem _ hx)
    unfold pull_searchunused
    by_cases hused : rule.used = true
    · obtain ⟨di, d, hdi, hd⟩ := h rule (List.mem_cons_self _ _) hused
      obtain ⟨w, hw⟩ := searchunused_total alldistributions rule di d hdi hd
      simp only [hused, Bool.not_true, Bool.false_eq_true, if_false, hw]
      exact ih _ hnext
    · simp only [hused, Bool.not_false, if_true]
      exact ih _ hnext

theorem used_grows_distribution {rules rules1 : List (pull_rule term filterlist)}
    (h : used_grows rules rules1) (n : Nat)
    (hwf : ∀ rule ∈ rules, ∀ di, rule.distribution = some di → di < n) :
    ∀ rule ∈ rules1, ∀ di, rule.distribution = some di → di < n := by
  intro rule1 hrule1 di hdi
  obtain ⟨rule, hrule, hor⟩ := forall₂_mem_right h rule1 hrule1
  rcases hor with rfl | rfl
  · exact hwf _ hrule di hdi
  · exact hwf _ hrule di hdi

theorem bind_source_bound (alldistributions : List distribution)
    (rules1 : List (pull_rule term filterlist))
    (hwf : ∀ rule ∈ rules1, ∀ di, rule.distribution = some di → di < alldistributions.length)
    (hno : ∀ rule ∈ rules1, ¬ unresolved alldistributions rule) :
    ∀ rule ∈ rules1.map (bind_source alldistributions), rule.used = true →
      ∃ di d, rule.distribution = some di ∧ alldistributions[di]? = some d := by
  intro rule2 hrule2 hused
  obtain ⟨rule1, hrule1, rfl⟩ := List.mem_map.1 hrule2
  unfold bind_source at hused ⊢
  by_cases hu : rule1.used = true ∧ rule1.distribution = none
  · simp only [hu, and_self, if_true]
    cases hfind : alldistributions.findIdx? (fun d => d.codename == rule1.from_) with
    | none =>
      exfalso
      refine hno rule1 hrule1 ⟨hu.1, hu.2, ?_⟩
      rw [List.findIdx?_eq_none_iff] at hfind
      intro d hd
      simpa using hfind d hd
    | some di =>
      obtain ⟨hlt, _, _⟩ := List.findIdx?_eq_some_iff_getElem.1 hfind
      exact ⟨di, alldistributions[di], rfl, List.getElem?_eq_getElem hlt⟩
  · simp only [hu, if_false] at hused ⊢
    cases hdist : rule1.distribution with
    | none => exact absurd ⟨hused, hdist⟩ hu
    | some di =>
      have hlt := hwf rule1 hrule1 di hdist
      exact ⟨di, alldistributions[di], rfl, List.getElem?_eq_getElem hlt⟩

/-- C8: for every inventory and every rule table whose bound rules point into the inventory,
`pull_prepare` with `fast` true and with `fast` false end alike (both return or both abort) and
return the same result code, the same rules and the same plan; only what is printed may
differ. -/
theorem pull_prepare_fast (alldistributions : List distribution)
    (rules : List (pull_rule term filterlist))
    (hwf : ∀ rule ∈ rules, ∀ di, rule.distribution = some di → di < alldistributions.length) :
    (pull_prepare alldistributions rules true).map (fun res => (res.r, res.rules, res.pd)) =
      (pull_prepare alldistributions rules false).map
        (fun res => (res.r, res.rules, res.pd)) := by
  obtain ⟨r, rules1, pulls, err1, he, hg, hcase⟩ :=
    pull_init_loop_spec alldistributions 0 rules [] []
  unfold pull_prepare pull_init
  rw [he]
  simp only
  by_cases hr : RET_WAS_ERROR r = true
  · simp only [hr, if_true]
  · simp only [hr, Bool.false_eq_true, if_false]
    obtain ⟨r2, rules2, err2, he2, hcase2⟩ :=
      pull_loadsourcedistributions_spec alldistributions rules1 err1
    rw [he2]
    simp only
    by_cases hr2 : RET_WAS_ERROR r2 = true
    · simp only [hr2, if_true]
    · simp only [hr2, Bool.false_eq_true, if_false]
      rcases hcase2 with ⟨_, hrules2, _, hno⟩ | ⟨hr2m, _⟩
      · obtain ⟨err3, hs⟩ := pull_searchunused_total alldistributions rules2 err2
          (by
            rw [hrules2]
            exact bind_source_bound alldistributions rules1
              (used_grows_distribution hg _ hwf) hno)
        simp only [Bool.not_true, Bool.false_eq_true, if_false, Bool.not_false, if_true, hs]
        cases pulls with
        | none => rfl
        | some p =>
          simp only
          cases pull_generatetargets alldistributions rules2 p with
          | none => rfl
          | some rp =>
            obtain ⟨r4, p4⟩ := rp
            simp only
            split <;> rfl
      · subst hr2m
        exact absurd rfl hr2

/-! ## Step five: the decision -/

/-- C9: `ud_decide_by_rule` returns `UD_NO` when the name filter says `deinstall` or `purge`,
`UD_HOLD` when it says `hold`, `UD_ERROR` (with a line on `stderr`) when it says `error`; and
when it says `install`: `UD_UPGRADE` when the rule has no condition or the condition evaluates
to `RET_OK`, `UD_NO` when it evaluates to `RET_NOTHING`, `UD_ERROR` when its evaluation fails. -/
theorem ud_decide_by_rule_verdict (filterlist_find : String → filterlist → filterlisttype)
    (term_decidechunk : term → String → retvalue) (rule : pull_rule term filterlist)
    (package old_version new_version newcontrolchunk : String) :
    ((filterlist_find package rule.filterlist = flt_deinstall ∨
        filterlist_find package rule.filterlist = flt_purge) →
      ud_decide_by_rule filterlist_find term_decidechunk rule package old_version new_version
        newcontrolchunk = (UD_NO, [])) ∧
    (filterlist_find package rule.filterlist = flt_hold →
      ud_decide_by_rule filterlist_find term_decidechunk rule package old_version new_version
        newcontrolchunk = (UD_HOLD, [])) ∧
    (filterlist_find package rule.filterlist = flt_error →
      ud_decide_by_rule filterlist_find term_decidechunk rule package old_version new_version
        newcontrolchunk = (UD_ERROR, [message.package_marked_error package])) ∧
    (filterlist_find package rule.filterlist = flt_install →
      (rule.includecondition = none →
        ud_decide_by_rule filterlist_find term_decidechunk rule package old_version new_version
          newcontrolchunk = (UD_UPGRADE, [])) ∧
      (∀ c, rule.includecondition = some c →
        (term_decidechunk c newcontrolchunk = RET_OK →
          ud_decide_by_rule filterlist_find term_decidechunk rule package old_version
            new_version newcontrolchunk = (UD_UPGRADE, [])) ∧
        (term_decidechunk c newcontrolchunk = RET_NOTHING →
          ud_decide_by_rule filterlist_find term_decidechunk rule package old_version
            new_version newcontrolchunk = (UD_NO, [])) ∧
        (RET_WAS_ERROR (term_decidechunk c newcontrolchunk) = true →
          ud_decide_by_rule filterlist_find term_decidechunk rule package old_version
            new_version newcontrolchunk = (UD_ERROR, [])))) := by
  refine ⟨?_, ?_, ?_, ?_⟩
  · rintro (h | h) <;> simp [ud_decide_by_rule, h]
  · intro h; simp [ud_decide_by_rule, h]
  · intro h; simp [ud_decide_by_rule, h]
  · intro h
    refine ⟨?_, ?_⟩
    · intro hc; simp [ud_decide_by_rule, h, hc]
    · intro c hc
      refine ⟨?_, ?_, ?_⟩
      · intro hr; simp [ud_decide_by_rule, h, hc, hr, RET_WAS_ERROR]
      · intro hr; simp [ud_decide_by_rule, h, hc, hr, RET_WAS_ERROR]
      · intro hr; simp [ud_decide_by_rule, h, hc, hr]

/-- C10: when the name filter gives a verdict other than `install` for a package, the result of
`ud_decide_by_rule` is the same for every condition, every evaluator of conditions, every
metadata and all versions; and when the verdict is `hold` the result is `UD_HOLD`, never
`UD_UPGRADE`. -/
theorem ud_decide_by_rule_filter_decisive
    (filterlist_find : String → filterlist → filterlisttype)
    (term_decidechunk term_decidechunk1 : term → String → retvalue)
    (rule rule1 : pull_rule term filterlist)
    (package old_version new_version newcontrolchunk : String)
    (old_version1 new_version1 newcontrolchunk1 : String)
    (hsame : rule1.filterlist = rule.filterlist)
    (hverdict : filterlist_find package rule.filterlist ≠ flt_install) :
    ud_decide_by_rule filterlist_find term_decidechunk1 rule1 package old_version1 new_version1
        newcontrolchunk1 =
      ud_decide_by_rule filterlist_find term_decidechunk rule package old_version new_version
        newcontrolchunk ∧
    (filterlist_find package rule.filterlist = flt_hold →
      (ud_decide_by_rule filterlist_find term_decidechunk rule package old_version new_version
        newcontrolchunk).1 = UD_HOLD ∧
      (ud_decide_by_rule filterlist_find term_decidechunk rule package old_version new_version
        newcontrolchunk).1 ≠ UD_UPGRADE) := by
  constructor
  · unfold ud_decide_by_rule
    rw [hsame]
    cases h : filterlist_find package rule.filterlist <;> simp_all
  · intro h
    simp [ud_decide_by_rule, h]

/-! ## The claims at concrete inputs -/

theorem pull_prepare_sources_witness :
    pull_prepare [exStableDelete, exUnstable] [exRuleA] false =
        some ⟨RET_OK, [exRuleABound], some exPlanDelete, []⟩ ∧
    ∀ pd ∈ exPlanDelete, ∀ pt ∈ pd.targets, ∃ d t,
      [exStableDelete, exUnstable][pd.distribution]? = some d ∧
      pt.target.1 = pd.distribution ∧ d.targets[pt.target.2]? = some t ∧
      pd.rules.length = d.pulls.length ∧
      ∃ parts,
        List.Forall₂ (slot_contributes [exStableDelete, exUnstable] [exRuleABound] t) pd.rules
          parts ∧
        pt.sources = parts.flatten :=
  ⟨by decide,
    pull_prepare_sources [exStableDelete, exUnstable] [exRuleA] false
      ⟨RET_OK, [exRuleABound], some exPlanDelete, []⟩ exPlanDelete (by decide) rfl⟩

theorem pull_createsource_architectures_witness :
    [exRuleB][0]? = some exRuleB ∧ exRuleB.architectures_set = true ∧
    exRuleB.architectures_from.length = exRuleB.architectures_into.length ∧
    exRuleB.distribution = some 1 ∧ [exStable, exUnstableArm][1]? = some exUnstableArm ∧
    ∃ r new,
      pull_createsource [exStable, exUnstableArm] [exRuleB] 0 (exBucket "main" "armhf" "deb")
        [] = some (r, [] ++ new) ∧
      ∀ src ∈ new, ∃ (ai : Nat) (frm : String),
        exRuleB.architectures_into[ai]? = some (exBucket "main" "armhf" "deb").architecture ∧
        exRuleB.architectures_from[ai]? = some frm ∧
        src.rule = some 0 ∧
        src.source =
          (distribution_getpart exUnstableArm (exBucket "main" "armhf" "deb").component frm
            (exBucket "main" "armhf" "deb").packagetype).map (fun j => (1, j)) :=
  ⟨rfl, rfl, rfl, rfl, rfl,
    pull_createsource_architectures [exStable, exUnstableArm] [exRuleB] 0
      (exBucket "main" "armhf" "deb") [] exRuleB 1 exUnstableArm rfl rfl rfl rfl rfl⟩

theorem pull_createsource_component_absent_witness :
    (exBucket "contrib" "i386" "deb").component ∉
        effective_components exRuleABound exUnstable (exBucket "contrib" "i386" "deb").packagetype ∧
    pull_createsource [exStable, exUnstable] [exRuleABound] 0 (exBucket "contrib" "i386" "deb")
        [] = some (RET_NOTHING, []) :=
  ⟨by decide,
    pull_createsource_component_absent [exStable, exUnstable] [exRuleABound] 0
      (exBucket "contrib" "i386" "deb") [] exRuleABound 1 exUnstable rfl rfl rfl (by decide)⟩

theorem pull_prepare_delete_markers_witness :
    pull_prepare [exStableDelete, exUnstable] [exRuleA] true =
        some ⟨RET_OK, [exRuleABound], some exPlanDelete, []⟩ ∧
    ∀ pd ∈ exPlanDelete, ∀ pt ∈ pd.targets, ∃ d t parts,
      [exStableDelete, exUnstable][pd.distribution]? = some d ∧
      d.targets[pt.target.2]? = some t ∧
      List.Forall₂ (slot_contributes [exStableDelete, exUnstable] [exRuleABound] t) pd.rules
        parts ∧
      pt.sources = parts.flatten ∧
      pt.sources.count ⟨none, none⟩ = d.pulls.count "-" ∧
      ∀ i, d.pulls[i]? = some "-" →
        pt.sources = (parts.take i).flatten ++ ⟨none, none⟩ :: (parts.drop (i + 1)).flatten ∧
        List.Forall₂ (slot_contributes [exStableDelete, exUnstable] [exRuleABound] t)
          (pd.rules.take i) (parts.take i) ∧
        List.Forall₂ (slot_contributes [exStableDelete, exUnstable] [exRuleABound] t)
          (pd.rules.drop (i + 1)) (parts.drop (i + 1)) ∧
        (parts.take i).flatten.count ⟨none, none⟩ = (d.pulls.take i).count "-" :=
  ⟨by decide,
    pull_prepare_delete_markers [exStableDelete, exUnstable] [exRuleA] true
      ⟨RET_OK, [exRuleABound], some exPlanDelete, []⟩ exPlanDelete (by decide) rfl⟩

/-- C5 as stated fails: `stable` has the pull list `[A]`, the rule `A` is from `unstable` and has
no override, `pull_prepare` succeeds, and the bucket of `stable` for the architecture `arm`,
which `unstable` does not have, gets no source at all. -/
theorem pull_prepare_single_rule_counterexample :
    pull_prepare [exStable, exUnstable] [exRuleA] false =
        some ⟨RET_OK, [exRuleABound], some exPlan, []⟩ ∧
    ¬ (∀ pd ∈ exPlan, pd.distribution = 0 → ∀ pt ∈ pd.targets, pt.sources.length = 1) := by
  decide

theorem pull_prepare_single_rule_witness :
    pull_prepare [exStable, exUnstable] [exRuleA] false =
        some ⟨RET_OK, [exRuleABound], some exPlan, []⟩ ∧
    [exStable, exUnstable][0]? = some exStable ∧ exStable.selected = true ∧
    exStable.pulls = ["A"] ∧ "A" ≠ "-" ∧
    [exRuleA].findIdx? (fun x => x.name == "A") = some 0 ∧ [exRuleA][0]? = some exRuleA ∧
    exRuleA.distribution = none ∧ exRuleA.architectures_set = false ∧
    exRuleA.components_set = false ∧ exRuleA.udebcomponents_set = false ∧
    [exStable, exUnstable].findIdx? (fun d => d.codename == exRuleA.from_) = some 1 ∧
    [exStable, exUnstable][1]? = some exUnstable ∧
    (∀ j t, exStable.targets[j]? = some t →
      ∃ pd ∈ exPlan, pd.distribution = 0 ∧ ∃ pt ∈ pd.targets, pt.target = (0, j)) ∧
    (∀ pd ∈ exPlan, pd.distribution = 0 → ∀ pt ∈ pd.targets,
      ∃ t, pt.target.1 = 0 ∧ exStable.targets[pt.target.2]? = some t ∧
        pt.sources =
          if t.component ∈
              (if t.packagetype = "udeb" then exUnstable.udebcomponents
                else exUnstable.components) then
            List.replicate (exUnstable.architectures.count t.architecture)
              ⟨(distribution_getpart exUnstable t.component t.architecture t.packagetype).map
                (fun j => (1, j)), some 0⟩
          else []) :=
  ⟨by decide, rfl, rfl, rfl, by decide, by decide, rfl, rfl, rfl, rfl, rfl, by decide, rfl,
    pull_prepare_single_rule [exStable, exUnstable] [exRuleA] false
      ⟨RET_OK, [exRuleABound], some exPlan, []⟩ exPlan 0 exStable "A" 0 exRuleA 1 exUnstable
      (by decide) rfl rfl rfl rfl (by decide) (by decide) rfl rfl rfl rfl rfl (by decide) rfl⟩

theorem pull_prepare_fast_witness :
    (∀ rule ∈ [exRuleABound], ∀ di, rule.distribution = some di →
      di < [exStable, exUnstable].length) ∧
    (pull_prepare [exStable, exUnstable] [exRuleABound] true).map
        (fun res => (res.r, res.rules, res.pd)) =
      (pull_prepare [exStable, exUnstable] [exRuleABound] false).map
        (fun res => (res.r, res.rules, res.pd)) :=
  ⟨by simp [exRuleABound],
    pull_prepare_fast [exStable, exUnstable] [exRuleABound] (by simp [exRuleABound])⟩

theorem ud_decide_by_rule_filter_decisive_witness :
    exRuleHoldPlain.filterlist = exRuleHold.filterlist ∧
    exFilterFind "foo" exRuleHold.filterlist ≠ flt_install ∧
    ud_decide_by_rule exFilterFind (fun _ _ => RET_OK) exRuleHoldPlain "foo" "1" "2" "a" =
      ud_decide_by_rule exFilterFind exDecideChunk exRuleHold "foo" "3" "4" "b" ∧
    (exFilterFind "foo" exRuleHold.filterlist = flt_hold →
      (ud_decide_by_rule exFilterFind exDecideChunk exRuleHold "foo" "3" "4" "b").1 = UD_HOLD ∧
      (ud_decide_by_rule exFilterFind exDecideChunk exRuleHold "foo" "3" "4" "b").1 ≠
        UD_UPGRADE) :=
  ⟨rfl, by decide,
    ud_decide_by_rule_filter_decisive exFilterFind exDecideChunk (fun _ _ => RET_OK) exRuleHold
      exRuleHoldPlain "foo" "3" "4" "b" "1" "2" "a" rfl (by decide)⟩

/-! ## The update -/

theorem RET_UPDATE_error (ret update : retvalue) (h : RET_WAS_ERROR ret = true) :
    RET_UPDATE ret update = ret := by
  simp [RET_UPDATE, h]

theorem RET_UPDATE_nothing (ret : retvalue) : RET_UPDATE ret RET_NOTHING = ret := by
  simp [RET_UPDATE]

theorem RET_UPDATE_of_error (ret update : retvalue) (hret : RET_WAS_ERROR ret = false)
    (h : RET_WAS_ERROR update = true) : RET_UPDATE ret update = update := by
  have : update ≠ RET_NOTHING := by
    intro hu
    rw [hu] at h
    simp [RET_WAS_ERROR] at h
  simp [RET_UPDATE, this, hret]

theorem foldl_RET_UPDATE_error (rs : List retvalue) (a : retvalue)
    (h : RET_WAS_ERROR a = true) : rs.foldl RET_UPDATE a = a := by
  induction rs with
  | nil => rfl
  | cons r rest ih => rw [List.foldl_cons, RET_UPDATE_error a r h, ih]

theorem foldl_RET_UPDATE_merge (rs : List retvalue) (a : retvalue) :
    RET_UPDATE a (rs.foldl RET_UPDATE RET_NOTHING) = rs.foldl RET_UPDATE a := by
  induction rs generalizing a with
  | nil => simp [RET_UPDATE]
  | cons r rest ih =>
    simp only [List.foldl_cons]
    rw [← ih (RET_UPDATE RET_NOTHING r), ← ih (RET_UPDATE a r)]
    cases a <;> cases r <;> cases (List.foldl RET_UPDATE RET_NOTHING rest) <;>
      simp [RET_UPDATE, RET_WAS_ERROR]

theorem foldl_RET_UPDATE_was_error (rs : List retvalue) (a : retvalue) :
    RET_WAS_ERROR (rs.foldl RET_UPDATE a) = true ↔
      RET_WAS_ERROR a = true ∨ ∃ r ∈ rs, RET_WAS_ERROR r = true := by
  induction rs generalizing a with
  | nil => simp
  | cons r rest ih =>
    rw [List.foldl_cons, ih]
    simp only [List.mem_cons, exists_eq_or_imp]
    cases a <;> cases r <;> simp [RET_UPDATE, RET_WAS_ERROR]

theorem foldl_RET_UPDATE_severity (rs : List retvalue) :
    rs.foldl RET_UPDATE RET_NOTHING = severity_merge rs := by
  have key : ∀ (rs : List retvalue) (a : retvalue), RET_WAS_ERROR a = false →
      rs.foldl RET_UPDATE a =
        match rs.find? RET_WAS_ERROR with
        | some r => r
        | none => if RET_OK ∈ rs then RET_OK else a := by
    intro rs
    induction rs with
    | nil => intro a _; rfl
    | cons r rest ih =>
      intro a ha
      rw [List.foldl_cons]
      by_cases hr : RET_WAS_ERROR r = true
      · rw [RET_UPDATE_of_error a r ha hr, foldl_RET_UPDATE_error rest r hr]
        simp [List.find?_cons, hr]
      · simp only [Bool.not_eq_true] at hr
        have hnext : RET_WAS_ERROR (RET_UPDATE a r) = false := by
          cases a <;> cases r <;> simp_all [RET_UPDATE, RET_WAS_ERROR]
        rw [ih _ hnext]
        simp only [List.find?_cons, hr]
        cases hfind : List.find? RET_WAS_ERROR rest with
        | some x => rfl
        | none =>
          simp only
          cases a <;> cases r <;> simp_all [RET_UPDATE, RET_WAS_ERROR]
  rw [key rs RET_NOTHING rfl]
  rfl

theorem pull_searchformissing_loop_spec (e : engine) (srcs : List pull_source)
    (p : pull_target) (result : retvalue) (events : List event) (result1 : retvalue)
    (p1 : pull_target) (events1 : List event)
    (h : pull_searchformissing_loop e srcs p result events = some (result1, p1, events1)) :
    ∃ new, events1 = events ++ new ∧
      (∀ ev ∈ new, is_search ev.call = true) ∧
      result1 = (new.filterMap counted).foldl RET_UPDATE result ∧
      (p1 = p ∨ p1 = { p with ignoredelete := false }) := by
  induction srcs generalizing p result events with
  | nil =>
    simp only [pull_searchformissing_loop, Option.some.injEq, Prod.mk.injEq] at h
    exact ⟨[], by simp [h.2.2], by simp, by simp [h.1], Or.inl h.2.1.symm⟩
  | cons source next ih =>
    unfold pull_searchformissing_loop at h
    cases hrule : source.rule with
    | none =>
      simp only [hrule] at h
      by_cases herr : RET_WAS_ERROR
          (e.retval events (call.upgradelist_deleteall p.upgradelist)) = true
      · rw [if_pos herr] at h
        simp only [Option.some.injEq, Prod.mk.injEq] at h
        exact ⟨[⟨call.upgradelist_deleteall p.upgradelist,
            some (e.retval events (call.upgradelist_deleteall p.upgradelist))⟩], h.2.2.symm,
          by simp [is_search], by simp [counted, h.1], Or.inl h.2.1.symm⟩
      · rw [if_neg herr] at h
        obtain ⟨new, hev, hsearch, hres, hp⟩ := ih _ _ _ h
        refine ⟨⟨call.upgradelist_deleteall p.upgradelist,
            some (e.retval events (call.upgradelist_deleteall p.upgradelist))⟩ :: new,
          by rw [hev]; simp, ?_, ?_, ?_⟩
        · intro ev hmem
          rcases List.mem_cons.1 hmem with rfl | hmem
          · rfl
          · exact hsearch ev hmem
        · rw [hres]; simp [counted]
        · rcases hp with hp | hp
          · exact Or.inr hp
          · exact Or.inr hp
    | some rule =>
      simp only [hrule] at h
      by_cases hnull : e.verbose > 4 ∧ source.source = none
      · rw [if_pos hnull] at h
        cases h
      · rw [if_neg hnull] at h
        by_cases herr : RET_WAS_ERROR
            (e.retval events (call.upgradelist_pull p.upgradelist source.source rule)) = true
        · rw [if_pos herr] at h
          simp only [Option.some.injEq, Prod.mk.injEq] at h
          exact ⟨[⟨call.upgradelist_pull p.upgradelist source.source rule,
              some (e.retval events
                (call.upgradelist_pull p.upgradelist source.source rule))⟩],
            h.2.2.symm, by simp [is_search], by simp [counted, h.1], Or.inl h.2.1.symm⟩
        · rw [if_neg herr] at h
          obtain ⟨new, hev, hsearch, hres, hp⟩ := ih _ _ _ h
          refine ⟨⟨call.upgradelist_pull p.upgradelist source.source rule,
              some (e.retval events
                (call.upgradelist_pull p.upgradelist source.source rule))⟩ :: new,
            by rw [hev]; simp, ?_, ?_, hp⟩
          · intro ev hmem
            rcases List.mem_cons.1 hmem with rfl | hmem
            · rfl
            · exact hsearch ev hmem
          · rw [hres]; simp [counted]

theorem pull_searchformissing_spec (e : engine) (p : pull_target) (events : List event)
    (r : retvalue) (p1 : pull_target) (events1 : List event)
    (h : pull_searchformissing e p events = some (r, p1, events1)) :
    p.upgradelist = none ∧
    ∃ new, events1 = events ++ new ∧ (∀ ev ∈ new, is_search ev.call = true) ∧
      r = (new.filterMap counted).foldl RET_UPDATE RET_NOTHING ∧
      p1.sources = p.sources ∧ p1.target = p.target ∧
      (p.ignoredelete = false → p1.ignoredelete = false) := by
  unfold pull_searchformissing at h
  cases hup : p.upgradelist with
  | some x => simp [hup] at h
  | none =>
    refine ⟨rfl, ?_⟩
    simp only [hup] at h
    by_cases herr : RET_WAS_ERROR (e.retval events (call.upgradelist_initialize p.target)) = true
    · simp only [herr, if_true, Option.some.injEq, Prod.mk.injEq] at h
      obtain ⟨hr, hp1, hev⟩ := h
      refine ⟨[⟨call.upgradelist_initialize p.target,
          some (e.retval events (call.upgradelist_initialize p.target))⟩], hev.symm,
        by simp [is_search], ?_, by rw [← hp1], by rw [← hp1], fun hi => by rw [← hp1]; exact hi⟩
      simp only [List.filterMap_cons, counted, herr, if_true, List.filterMap_nil,
        List.foldl_cons, List.foldl_nil]
      rw [RET_UPDATE_of_error RET_NOTHING _ rfl herr, hr]
    · simp only [herr, Bool.false_eq_true, if_false] at h
      obtain ⟨new, hev, hsearch, hres, hp⟩ := pull_searchformissing_loop_spec e p.sources
        { p with upgradelist := e.upgradelist events p.target } RET_NOTHING
        (events ++ [⟨call.upgradelist_initialize p.target,
          some (e.retval events (call.upgradelist_initialize p.target))⟩]) r p1 events1 h
      refine ⟨⟨call.upgradelist_initialize p.target,
          some (e.retval events (call.upgradelist_initialize p.target))⟩ :: new,
        by rw [hev]; simp, ?_, ?_, ?_, ?_, ?_⟩
      · intro ev hmem
        rcases List.mem_cons.1 hmem with rfl | hmem
        · rfl
        · exact hsearch ev hmem
      · rw [hres]
        simp [counted, herr]
      · rcases hp with hp | hp <;> rw [hp]
      · rcases hp with hp | hp <;> rw [hp]
      · intro hi
        rcases hp with hp | hp
        · rw [hp]; exact hi
        · rw [hp]

theorem foldl_RET_UPDATE_step (result : retvalue) (new1 new2 : List event) :
    (new2.filterMap counted).foldl RET_UPDATE
        (RET_UPDATE result ((new1.filterMap counted).foldl RET_UPDATE RET_NOTHING)) =
      ((new1 ++ new2).filterMap counted).foldl RET_UPDATE result := by
  rw [foldl_RET_UPDATE_merge, List.filterMap_append, List.foldl_append]

theorem pull_search_loop_spec (e : engine) (us : List pull_target) (result : retvalue)
    (events : List event) (result2 : retvalue) (us2 : List pull_target)
    (events2 : List event)
    (h : pull_search_loop e us result events = some (result2, us2, events2)) :
    ∃ new, events2 = events ++ new ∧ (∀ ev ∈ new, is_search ev.call = true) ∧
      result2 = (new.filterMap counted).foldl RET_UPDATE result := by
  induction us generalizing result events result2 us2 events2 with
  | nil =>
    simp only [pull_search_loop, Option.some.injEq, Prod.mk.injEq] at h
    exact ⟨[], by simp [h.2.2], by simp, by simp [h.1]⟩
  | cons u next ih =>
    unfold pull_search_loop at h
    cases hs : pull_searchformissing e u events with
    | none => simp [hs] at h
    | some rp =>
      obtain ⟨r, u1, events1⟩ := rp
      obtain ⟨_, new1, hev1, hsearch1, hr1, _⟩ := pull_searchformissing_spec e u events _ _ _ hs
      simp only [hs] at h
      by_cases herr : RET_WAS_ERROR r = true
      · rw [if_pos herr] at h
        simp only [Option.some.injEq, Prod.mk.injEq] at h
        refine ⟨new1, by rw [← h.2.2, hev1], hsearch1, ?_⟩
        rw [← h.1, hr1, foldl_RET_UPDATE_merge]
      · rw [if_neg herr] at h
        cases hn : pull_search_loop e next (RET_UPDATE result r) events1 with
        | none => simp [hn] at h
        | some rn =>
          obtain ⟨result3, next1, events3⟩ := rn
          simp only [hn, Option.some.injEq, Prod.mk.injEq] at h
          obtain ⟨new2, hev2, hsearch2, hr2⟩ := ih _ _ _ _ _ hn
          refine ⟨new1 ++ new2, by rw [← h.2.2, hev2, hev1, List.append_assoc], ?_, ?_⟩
          · intro ev hmem
            rcases List.mem_append.1 hmem with hmem | hmem
            · exact hsearch1 ev hmem
            · exact hsearch2 ev hmem
          · rw [← h.1, hr2, hr1, foldl_RET_UPDATE_step]

theorem pull_search_spec (e : engine) (d : pull_distribution) (events : List event)
    (r : retvalue) (d1 : pull_distribution) (events1 : List event)
    (h : pull_search e d events = some (r, d1, events1)) :
    d1.distribution = d.distribution ∧
    ∃ new, events1 = events ++ new ∧ (∀ ev ∈ new, is_search ev.call = true) ∧
      r = (new.filterMap counted).foldl RET_UPDATE RET_NOTHING := by
  unfold pull_search at h
  cases hl : pull_search_loop e d.targets RET_NOTHING events with
  | none => simp [hl] at h
  | some rp =>
    obtain ⟨result, targets, events2⟩ := rp
    simp only [hl, Option.some.injEq, Prod.mk.injEq] at h
    obtain ⟨new, hev, hsearch, hr⟩ := pull_search_loop_spec e _ _ _ _ _ _ hl
    exact ⟨by rw [← h.2.1], new, by rw [← h.2.2, hev], hsearch, by rw [← h.1, hr]⟩

theorem pull_update_search_spec (e : engine) (ds : List pull_distribution) (result : retvalue)
    (events : List event) (result2 : retvalue) (ds2 : List pull_distribution)
    (events2 : List event)
    (h : pull_update_search e ds result events = some (result2, ds2, events2)) :
    ds2.map (fun d => d.distribution) = ds.map (fun d => d.distribution) ∧
    ∃ new, events2 = events ++ new ∧ (∀ ev ∈ new, is_search ev.call = true) ∧
      result2 = (new.filterMap counted).foldl RET_UPDATE result := by
  induction ds generalizing result events result2 ds2 events2 with
  | nil =>
    simp only [pull_update_search, Option.some.injEq, Prod.mk.injEq] at h
    exact ⟨by rw [← h.2.1], [], by simp [h.2.2], by simp, by simp [h.1]⟩
  | cons d next ih =>
    unfold pull_update_search at h
    cases hs : pull_search e d events with
    | none => simp [hs] at h
    | some rp =>
      obtain ⟨r, d1, events1⟩ := rp
      obtain ⟨hd1, new1, hev1, hsearch1, hr1⟩ := pull_search_spec e d events _ _ _ hs
      simp only [hs] at h
      by_cases herr : RET_WAS_ERROR r = true
      · rw [if_pos herr] at h
        simp only [Option.some.injEq, Prod.mk.injEq] at h
        refine ⟨by rw [← h.2.1]; simp [hd1], new1, by rw [← h.2.2, hev1], hsearch1, ?_⟩
        rw [← h.1, hr1, foldl_RET_UPDATE_merge]
      · rw [if_neg herr] at h
        cases hn : pull_update_search e next (RET_UPDATE result r) events1 with
        | none => simp [hn] at h
        | some rn =>
          obtain ⟨result3, next1, events3⟩ := rn
          simp only [hn, Option.some.injEq, Prod.mk.injEq] at h
          obtain ⟨hds, new2, hev2, hsearch2, hr2⟩ := ih _ _ _ _ _ hn
          refine ⟨by rw [← h.2.1]; simp [hd1, hds], new1 ++ new2,
            by rw [← h.2.2, hev2, hev1, List.append_assoc], ?_, ?_⟩
          · intro ev hmem
            rcases List.mem_append.1 hmem with hmem | hmem
            · exact hsearch1 ev hmem
            · exact hsearch2 ev hmem
          · rw [← h.1, hr2, hr1, foldl_RET_UPDATE_step]

theorem pull_install_loop_spec (e : engine) (di : Nat) (us : List pull_target)
    (status : List retvalue) (result : retvalue) (events : List event) (result2 : retvalue)
    (us2 : List pull_target) (status2 : List retvalue) (events2 : List event)
    (h : pull_install_loop e di us status result events =
      some (result2, us2, status2, events2)) :
    ∃ new, events2 = events ++ new ∧
      (∀ ev ∈ new, is_install ev.call = true ∨ is_free ev.call = true) ∧
      result2 = (new.filterMap counted).foldl RET_UPDATE result := by
  induction us generalizing status result events result2 us2 status2 events2 with
  | nil =>
    simp only [pull_install_loop, Option.some.injEq, Prod.mk.injEq] at h
    exact ⟨[], by simp [h.2.2.2], by simp, by simp [h.1]⟩
  | cons u next ih =>
    unfold pull_install_loop at h
    cases hst : status[di]? with
    | none => simp [hst] at h
    | some s =>
      simp only [hst] at h
      have hkind : ∀ ev ∈ [(⟨call.upgradelist_install u.upgradelist di u.ignoredelete,
            some (e.retval events
              (call.upgradelist_install u.upgradelist di u.ignoredelete))⟩ : event),
          ⟨call.upgradelist_free u.upgradelist, none⟩],
          is_install ev.call = true ∨ is_free ev.call = true := by
        intro ev hmem
        simp only [List.mem_cons, List.mem_singleton, List.not_mem_nil, or_false] at hmem
        rcases hmem with rfl | rfl
        · exact Or.inl rfl
        · exact Or.inr rfl
      have hcount : ([(⟨call.upgradelist_install u.upgradelist di u.ignoredelete,
            some (e.retval events
              (call.upgradelist_install u.upgradelist di u.ignoredelete))⟩ : event),
          ⟨call.upgradelist_free u.upgradelist, none⟩]).filterMap counted =
          [e.retval events (call.upgradelist_install u.upgradelist di u.ignoredelete)] := by
        simp [counted]
      by_cases herr : RET_WAS_ERROR
          (e.retval events (call.upgradelist_install u.upgradelist di u.ignoredelete)) = true
      · rw [if_pos herr] at h
        simp only [Option.some.injEq, Prod.mk.injEq] at h
        refine ⟨_, h.2.2.2.symm, hkind, ?_⟩
        rw [← h.1, hcount]
        rfl
      · rw [if_neg herr] at h
        cases hn : pull_install_loop e di next
            (status.set di (RET_UPDATE s
              (e.retval events (call.upgradelist_install u.upgradelist di u.ignoredelete))))
            (RET_UPDATE result
              (e.retval events (call.upgradelist_install u.upgradelist di u.ignoredelete)))
            (events ++ [⟨call.upgradelist_install u.upgradelist di u.ignoredelete,
                some (e.retval events
                  (call.upgradelist_install u.upgradelist di u.ignoredelete))⟩,
              ⟨call.upgradelist_free u.upgradelist, none⟩]) with
        | none => simp [hn] at h
        | some rn =>
          obtain ⟨result3, next1, status3, events3⟩ := rn
          simp only [hn, Option.some.injEq, Prod.mk.injEq] at h
          obtain ⟨new2, hev2, hkind2, hr2⟩ := ih _ _ _ _ _ _ _ hn
          refine ⟨[⟨call.upgradelist_install u.upgradelist di u.ignoredelete,
                some (e.retval events
                  (call.upgradelist_install u.upgradelist di u.ignoredelete))⟩,
              ⟨call.upgradelist_free u.upgradelist, none⟩] ++ new2,
            by rw [← h.2.2.2, hev2, List.append_assoc], ?_, ?_⟩
          · intro ev hmem
            rcases List.mem_append.1 hmem with hmem | hmem
            · exact hkind ev hmem
            · exact hkind2 ev hmem
          · rw [← h.1, hr2, List.filterMap_append, hcount, List.foldl_append]
            rfl

theorem pull_install_spec (e : engine) (d : pull_distribution) (status : List retvalue)
    (events : List event) (r : retvalue) (d1 : pull_distribution) (status1 : List retvalue)
    (events1 : List event)
    (h : pull_install e d status events = some (r, d1, status1, events1)) :
    ∃ new, events1 = events ++ new ∧
      (∀ ev ∈ new, is_install ev.call = true ∨ is_free ev.call = true) ∧
      r = (new.filterMap counted).foldl RET_UPDATE RET_NOTHING := by
  unfold pull_install at h
  split at h
  · simp at h
  · cases hl : pull_install_loop e d.distribution d.targets status RET_NOTHING events with
    | none => simp [hl] at h
    | some rp =>
      obtain ⟨result, targets, status2, events2⟩ := rp
      simp only [hl, Option.some.injEq, Prod.mk.injEq] at h
      obtain ⟨new, hev, hkind, hr⟩ := pull_install_loop_spec e _ _ _ _ _ _ _ _ _ hl
      exact ⟨new, by rw [← h.2.2.2, hev], hkind, by rw [← h.1, hr]⟩

theorem pull_update_install_spec (e : engine) (ds : List pull_distribution)
    (status : List retvalue) (result : retvalue) (events : List event) (result2 : retvalue)
    (ds2 : List pull_distribution) (status2 : List retvalue) (events2 : List event)
    (h : pull_update_install e ds status result events =
      some (result2, ds2, status2, events2)) :
    ∃ new, events2 = events ++ new ∧
      (∀ ev ∈ new, is_install ev.call = true ∨ is_free ev.call = true) ∧
      result2 = (new.filterMap counted).foldl RET_UPDATE result := by
  induction ds generalizing status result events result2 ds2 status2 events2 with
  | nil =>
    simp only [pull_update_install, Option.some.injEq, Prod.mk.injEq] at h
    exact ⟨[], by simp [h.2.2.2], by simp, by simp [h.1]⟩
  | cons d next ih =>
    unfold pull_update_install at h
    cases hs : pull_install e d status events with
    | none => simp [hs] at h
    | some rp =>
      obtain ⟨r, d1, status1, events1⟩ := rp
      obtain ⟨new1, hev1, hkind1, hr1⟩ := pull_install_spec e d status events _ _ _ _ hs
      simp only [hs] at h
      by_cases herr : RET_WAS_ERROR r = true
      · rw [if_pos herr] at h
        simp only [Option.some.injEq, Prod.mk.injEq] at h
        refine ⟨new1, by rw [← h.2.2.2, hev1], hkind1, ?_⟩
        rw [← h.1, hr1, foldl_RET_UPDATE_merge]
      · rw [if_neg herr] at h
        cases hn : pull_update_install e next status1 (RET_UPDATE result r) events1 with
        | none => simp [hn] at h
        | some rn =>
          obtain ⟨result3, next1, status3, events3⟩ := rn
          simp only [hn, Option.some.injEq, Prod.mk.injEq] at h
          obtain ⟨new2, hev2, hkind2, hr2⟩ := ih _ _ _ _ _ _ _ hn
          refine ⟨new1 ++ new2, by rw [← h.2.2.2, hev2, hev1, List.append_assoc], ?_, ?_⟩
          · intro ev hmem
            rcases List.mem_append.1 hmem with hmem | hmem
            · exact hkind1 ev hmem
            · exact hkind2 ev hmem
          · rw [← h.1, hr2, hr1, foldl_RET_UPDATE_step]

theorem pull_update_free_targets_spec (us : List pull_target) (events : List event) :
    ∃ new, (pull_update_free_targets us events).2 = events ++ new ∧
      (∀ ev ∈ new, is_free ev.call = true) ∧
      ∀ u ∈ (pull_update_free_targets us events).1, u.upgradelist = none := by
  induction us generalizing events with
  | nil => exact ⟨[], by simp [pull_update_free_targets], by simp,
      by simp [pull_update_free_targets]⟩
  | cons u next ih =>
    obtain ⟨new, hev, hkind, hnull⟩ :=
      ih (events ++ [⟨call.upgradelist_free u.upgradelist, none⟩])
    unfold pull_update_free_targets
    refine ⟨⟨call.upgradelist_free u.upgradelist, none⟩ :: new, by simp [hev], ?_, ?_⟩
    · intro ev hmem
      rcases List.mem_cons.1 hmem with rfl | hmem
      · rfl
      · exact hkind ev hmem
    · intro x hx
      simp only [List.mem_cons] at hx
      rcases hx with rfl | hx
      · rfl
      · exact hnull x hx

theorem pull_update_free_spec (ds : List pull_distribution) (events : List event) :
    ∃ new, (pull_update_free ds events).2 = events ++ new ∧
      (∀ ev ∈ new, is_free ev.call = true) ∧
      ∀ d ∈ (pull_update_free ds events).1, ∀ u ∈ d.targets, u.upgradelist = none := by
  induction ds generalizing events with
  | nil => exact ⟨[], by simp [pull_update_free], by simp, by simp [pull_update_free]⟩
  | cons d next ih =>
    obtain ⟨new1, hev1, hkind1, hnull1⟩ := pull_update_free_targets_spec d.targets events
    obtain ⟨new2, hev2, hkind2, hnull2⟩ := ih (events ++ new1)
    unfold pull_update_free
    refine ⟨new1 ++ new2, by simp [hev1, hev2], ?_, ?_⟩
    · intro ev hmem
      rcases List.mem_append.1 hmem with hmem | hmem
      · exact hkind1 ev hmem
      · exact hkind2 ev hmem
    · intro x hx
      simp only [List.mem_cons] at hx
      rcases hx with rfl | hx
      · exact hnull1
      · rw [hev1] at hx
        exact hnull2 x hx

theorem pull_dump_loop_spec (us : List pull_target) (events : List event) :
    ∃ new, (pull_dump_loop us events).2 = events ++ new ∧
      (∀ ev ∈ new, is_check ev.call = true ∧ counted ev = none) ∧
      ∀ u ∈ (pull_dump_loop us events).1, u.upgradelist = none := by
  induction us generalizing events with
  | nil => exact ⟨[], by simp [pull_dump_loop], by simp, by simp [pull_dump_loop]⟩
  | cons u next ih =>
    unfold pull_dump_loop
    cases hup : u.upgradelist with
    | none =>
      obtain ⟨new, hev, hkind, hnull⟩ := ih events
      refine ⟨new, by simp [hev], hkind, ?_⟩
      intro x hx
      simp only [List.mem_cons] at hx
      rcases hx with rfl | hx
      · exact hup
      · exact hnull x hx
    | some x =>
      obtain ⟨new, hev, hkind, hnull⟩ := ih (events ++ [⟨call.upgradelist_dump (some x), none⟩,
        ⟨call.upgradelist_free (some x), none⟩])
      refine ⟨⟨call.upgradelist_dump (some x), none⟩ ::
        ⟨call.upgradelist_free (some x), none⟩ :: new, by simp [hev], ?_, ?_⟩
      · intro ev hmem
        simp only [List.mem_cons] at hmem
        rcases hmem with rfl | rfl | hmem
        · exact ⟨rfl, rfl⟩
        · exact ⟨rfl, rfl⟩
        · exact hkind ev hmem
      · intro y hy
        simp only [List.mem_cons] at hy
        rcases hy with rfl | hy
        · rfl
        · exact hnull y hy

theorem pull_update_prepare_spec (e : engine) (ds : List pull_distribution)
    (events : List event) :
    ∃ new, (pull_update_prepare e ds events).2 = events ++ new ∧
      new.map (fun ev => ev.call) =
        (ds.take new.length).map (fun d => call.distribution_prepareforwriting d.distribution) ∧
      new.length ≤ ds.length ∧
      ((pull_update_prepare e ds events).1 = none ∧
          (∀ ev ∈ new, ∀ r, ev.r = some r → RET_WAS_ERROR r = false) ∨
        ∃ r init c, (pull_update_prepare e ds events).1 = some r ∧ RET_WAS_ERROR r = true ∧
          new = init ++ [⟨c, some r⟩] ∧
          ∀ ev ∈ init, ∀ r, ev.r = some r → RET_WAS_ERROR r = false) := by
  induction ds generalizing events with
  | nil => exact ⟨[], by simp [pull_update_prepare], by simp, by simp,
      Or.inl ⟨by simp [pull_update_prepare], by simp⟩⟩
  | cons d next ih =>
    unfold pull_update_prepare
    simp only
    by_cases herr : RET_WAS_ERROR
        (e.retval events (call.distribution_prepareforwriting d.distribution)) = true
    · rw [if_pos herr]
      exact ⟨[⟨call.distribution_prepareforwriting d.distribution,
          some (e.retval events (call.distribution_prepareforwriting d.distribution))⟩], rfl,
        by simp, by simp, Or.inr ⟨_, [], _, rfl, herr, rfl, by simp⟩⟩
    · rw [if_neg herr]
      obtain ⟨new, hev, hcalls, hlen, hcase⟩ :=
        ih (events ++ [⟨call.distribution_prepareforwriting d.distribution,
          some (e.retval events (call.distribution_prepareforwriting d.distribution))⟩])
      refine ⟨⟨call.distribution_prepareforwriting d.distribution,
          some (e.retval events (call.distribution_prepareforwriting d.distribution))⟩ :: new,
        by simp [hev], by simp [hcalls], by simpa using hlen, ?_⟩
      rcases hcase with ⟨hres, hok⟩ | ⟨r, init, c, hres, hr, hnew, hok⟩
      · refine Or.inl ⟨hres, ?_⟩
        intro ev hmem r0 hr0
        rcases List.mem_cons.1 hmem with rfl | hmem
        · simp only [Option.some.injEq] at hr0
          rw [← hr0]
          simpa using herr
        · exact hok ev hmem r0 hr0
      · refine Or.inr ⟨r, ⟨call.distribution_prepareforwriting d.distribution,
          some (e.retval events (call.distribution_prepareforwriting d.distribution))⟩ :: init,
          c, hres, hr, by simp [hnew], ?_⟩
        intro ev hmem r0 hr0
        rcases List.mem_cons.1 hmem with rfl | hmem
        · simp only [Option.some.injEq] at hr0
          rw [← hr0]
          simpa using herr
        · exact hok ev hmem r0 hr0

/-! ## The update returns -/

theorem pull_searchformissing_loop_total (e : engine) (srcs : List pull_source)
    (p : pull_target) (result : retvalue) (events : List event)
    (hprint : e.verbose ≤ 4 ∨ ∀ s ∈ srcs, s.rule ≠ none → s.source ≠ none) :
    ∃ x, pull_searchformissing_loop e srcs p result events = some x := by
  induction srcs generalizing p result events with
  | nil => exact ⟨_, rfl⟩
  | cons source next ih =>
    have hnext : e.verbose ≤ 4 ∨ ∀ s ∈ next, s.rule ≠ none → s.source ≠ none := by
      rcases hprint with hv | hs
      · exact Or.inl hv
      · exact Or.inr (fun s hs1 => hs s (List.mem_cons_of_mem _ hs1))
    unfold pull_searchformissing_loop
    cases hrule : source.rule with
    | none =>
      simp only
      split
      · exact ⟨_, rfl⟩
      · exact ih _ _ _ hnext
    | some rule =>
      simp only
      have hnull : ¬ (e.verbose > 4 ∧ source.source = none) := by
        rintro ⟨hv, hs⟩
        rcases hprint with hle | hall
        · exact absurd hv (not_lt.2 hle)
        · exact hall source (List.mem_cons_self _ _) (by rw [hrule]; simp) hs
      rw [if_neg hnull]
      split
      · exact ⟨_, rfl⟩
      · exact ih _ _ _ hnext

theorem pull_searchformissing_total (e : engine) (p : pull_target) (events : List event)
    (hnull : p.upgradelist = none) (hprint : sources_printable e p) :
    ∃ x, pull_searchformissing e p events = some x := by
  unfold pull_searchformissing
  rw [hnull]
  simp only
  split
  · exact ⟨_, rfl⟩
  · exact pull_searchformissing_loop_total e p.sources _ _ _ hprint

theorem pull_search_loop_total (e : engine) (us : List pull_target) (result : retvalue)
    (events : List event) (hnull : ∀ u ∈ us, u.upgradelist = none)
    (hprint : ∀ u ∈ us, sources_printable e u) :
    ∃ x, pull_search_loop e us result events = some x := by
  induction us generalizing result events with
  | nil => exact ⟨_, rfl⟩
  | cons u next ih =>
    unfold pull_search_loop
    obtain ⟨⟨r, u1, events1⟩, hx⟩ :=
      pull_searchformissing_total e u events (hnull u (List.mem_cons_self _ _))
        (hprint u (List.mem_cons_self _ _))
    rw [hx]
    simp only
    split
    · exact ⟨_, rfl⟩
    · obtain ⟨⟨result2, next1, events2⟩, hy⟩ :=
        ih (RET_UPDATE result r) events1 (fun x hx => hnull x (List.mem_cons_of_mem _ hx))
          (fun x hx => hprint x (List.mem_cons_of_mem _ hx))
      rw [hy]
      exact ⟨_, rfl⟩

theorem pull_search_total (e : engine) (d : pull_distribution) (events : List event)
    (hnull : ∀ u ∈ d.targets, u.upgradelist = none)
    (hprint : ∀ u ∈ d.targets, sources_printable e u) :
    ∃ x, pull_search e d events = some x := by
  unfold pull_search
  obtain ⟨⟨result, targets, events1⟩, hx⟩ :=
    pull_search_loop_total e d.targets RET_NOTHING events hnull hprint
  rw [hx]
  exact ⟨_, rfl⟩

theorem pull_update_search_total (e : engine) (ds : List pull_distribution)
    (result : retvalue) (events : List event)
    (hnull : ∀ d ∈ ds, ∀ u ∈ d.targets, u.upgradelist = none)
    (hprint : ∀ d ∈ ds, ∀ u ∈ d.targets, sources_printable e u) :
    ∃ x, pull_update_search e ds result events = some x := by
  induction ds generalizing result events with
  | nil => exact ⟨_, rfl⟩
  | cons d next ih =>
    unfold pull_update_search
    obtain ⟨⟨r, d1, events1⟩, hx⟩ :=
      pull_search_total e d events (hnull d (List.mem_cons_self _ _))
        (hprint d (List.mem_cons_self _ _))
    rw [hx]
    simp only
    split
    · exact ⟨_, rfl⟩
    · obtain ⟨⟨result2, next1, events2⟩, hy⟩ :=
        ih (RET_UPDATE result r) events1 (fun x hx => hnull x (List.mem_cons_of_mem _ hx))
          (fun x hx => hprint x (List.mem_cons_of_mem _ hx))
      rw [hy]
      exact ⟨_, rfl⟩

theorem pull_install_loop_total (e : engine) (di : Nat) (us : List pull_target)
    (status : List retvalue) (result : retvalue) (events : List event)
    (hdi : di < status.length) :
    ∃ result2 us2 status2 events2,
      pull_install_loop e di us status result events =
        some (result2, us2, status2, events2) ∧
      status2.length = status.length := by
  induction us generalizing status result events with
  | nil => exact ⟨_, _, _, _, rfl, rfl⟩
  | cons u next ih =>
    unfold pull_install_loop
    simp only [List.getElem?_eq_getElem hdi]
    split
    · exact ⟨_, _, _, _, rfl, List.length_set _ _ _⟩
    · obtain ⟨result2, next1, status2, events2, hy, hlen⟩ :=
        ih (status.set di (RET_UPDATE status[di]
            (e.retval events (call.upgradelist_install u.upgradelist di u.ignoredelete))))
          (RET_UPDATE result
            (e.retval events (call.upgradelist_install u.upgradelist di u.ignoredelete)))
          (events ++
            [⟨call.upgradelist_install u.upgradelist di u.ignoredelete,
                some (e.retval events
                  (call.upgradelist_install u.upgradelist di u.ignoredelete))⟩,
              ⟨call.upgradelist_free u.upgradelist, none⟩])
          (by rw [List.length_set]; exact hdi)
      rw [hy]
      exact ⟨_, _, _, _, rfl, by rw [hlen, List.length_set]⟩

theorem pull_install_total (e : engine) (d : pull_distribution) (status : List retvalue)
    (events : List event) (hlog : e.logger_isprepared events d.distribution = true)
    (hdi : d.distribution < status.length) :
    ∃ r d1 status1 events1,
      pull_install e d status events = some (r, d1, status1, events1) ∧
      status1.length = status.length := by
  unfold pull_install
  rw [hlog]
  simp only [Bool.not_true, Bool.false_eq_true, if_false]
  obtain ⟨result2, us2, status2, events2, hy, hlen⟩ :=
    pull_install_loop_total e d.distribution d.targets status RET_NOTHING events hdi
  rw [hy]
  exact ⟨_, _, _, _, rfl, hlen⟩

/-- The distribution at position `di` has been opened for writing without error. -/
theorem pull_update_prepare_opened (e : engine) (ds : List pull_distribution)
    (events : List event) (h : (pull_update_prepare e ds events).1 = none) :
    ∀ d ∈ ds, ∃ r, (⟨call.distribution_prepareforwriting d.distribution, some r⟩ : event) ∈
        (pull_update_prepare e ds events).2 ∧ RET_WAS_ERROR r = false := by
  induction ds generalizing events with
  | nil => simp
  | cons d next ih =>
    unfold pull_update_prepare at h ⊢
    simp only at h ⊢
    by_cases herr : RET_WAS_ERROR
        (e.retval events (call.distribution_prepareforwriting d.distribution)) = true
    · rw [if_pos herr] at h
      cases h
    · rw [if_neg herr] at h ⊢
      intro x hx
      rcases List.mem_cons.1 hx with rfl | hx
      · obtain ⟨new, hev, _⟩ := pull_update_prepare_spec e next
          (events ++ [⟨call.distribution_prepareforwriting x.distribution,
            some (e.retval events (call.distribution_prepareforwriting x.distribution))⟩])
        refine ⟨_, ?_, by simpa using herr⟩
        rw [hev]
        simp
      · exact ih _ h x hx

theorem pull_update_install_total (e : engine) (ds : List pull_distribution)
    (status : List retvalue) (result : retvalue) (events : List event)
    (hlog : ∀ (history : List event) (di : Nat) (r : retvalue),
      ⟨call.distribution_prepareforwriting di, some r⟩ ∈ history → RET_WAS_ERROR r = false →
      e.logger_isprepared history di = true)
    (hopened : ∀ d ∈ ds, ∃ r,
      (⟨call.distribution_prepareforwriting d.distribution, some r⟩ : event) ∈ events ∧
        RET_WAS_ERROR r = false)
    (hst : ∀ d ∈ ds, d.distribution < status.length) :
    ∃ x, pull_update_install e ds status result events = some x := by
  induction ds generalizing status result events with
  | nil => exact ⟨_, rfl⟩
  | cons d next ih =>
    unfold pull_update_install
    obtain ⟨r0, hmem0, hr0⟩ := hopened d (List.mem_cons_self _ _)
    obtain ⟨r, d1, status1, events1, hx, hlen⟩ :=
      pull_install_total e d status events (hlog _ _ r0 hmem0 hr0)
        (hst d (List.mem_cons_self _ _))
    obtain ⟨new, hev, _⟩ := pull_install_spec e d status events r d1 status1 events1 hx
    rw [hx]
    simp only
    split
    · exact ⟨_, rfl⟩
    · obtain ⟨⟨result2, next1, status2, events2⟩, hy⟩ :=
        ih status1 (RET_UPDATE result r) events1
          (fun x hx => by
            obtain ⟨rx, hmx, hrx⟩ := hopened x (List.mem_cons_of_mem _ hx)
            exact ⟨rx, by rw [hev]; exact List.mem_append_left _ hmx, hrx⟩)
          (fun x hx => by rw [hlen]; exact hst x (List.mem_cons_of_mem _ hx))
      rw [hy]
      exact ⟨_, rfl⟩

/-- The function `pull_update` returns when the update can start: then no `assert` of the
update fails and no null pointer is dereferenced. -/
theorem pull_update_total (e : engine) (st : update_state) (hready : update_ready e st) :
    ∃ r st1, pull_update e st = some (r, st1) := by
  obtain ⟨⟨hnull, hprint⟩, hst, hlog⟩ := hready
  have hopen := pull_update_prepare_opened e st.distributions st.events
  unfold pull_update
  cases hp : pull_update_prepare e st.distributions st.events with
  | mk rp events1 =>
    rw [hp] at hopen
    simp only at hopen
    cases rp with
    | some r => exact ⟨_, _, rfl⟩
    | none =>
      simp only
      obtain ⟨⟨result, ds2, events2⟩, hs⟩ :=
        pull_update_search_total e st.distributions RET_NOTHING events1 hnull hprint
      obtain ⟨hmap, news, hevs, _, _⟩ := pull_update_search_spec e _ _ _ _ _ _ hs
      rw [hs]
      simp only
      split
      · exact ⟨_, _, rfl⟩
      · have hback : ∀ d ∈ ds2, ∃ d0 ∈ st.distributions, d0.distribution = d.distribution := by
          intro d hd
          have hmem : d.distribution ∈ ds2.map (fun d => d.distribution) :=
            List.mem_map.2 ⟨d, hd, rfl⟩
          rw [hmap] at hmem
          obtain ⟨d0, hd0, heq⟩ := List.mem_map.1 hmem
          exact ⟨d0, hd0, heq⟩
        obtain ⟨⟨result4, ds4, status4, events4⟩, hi⟩ :=
          pull_update_install_total e ds2 st.status result events2 hlog
            (fun d hd => by
              obtain ⟨d0, hd0, heq⟩ := hback d hd
              obtain ⟨r, hm, hr⟩ := hopen rfl d0 hd0
              exact ⟨r, by rw [hevs, ← heq]; exact List.mem_append_left _ hm, hr⟩)
            (fun d hd => by
              obtain ⟨d0, hd0, heq⟩ := hback d hd
              rw [← heq]
              exact hst d0 hd0)
        rw [hi]
        exact ⟨_, _, rfl⟩

/-- The function `pull_checkupdate` returns when the check can start. -/
theorem pull_checkupdate_total (e : engine) (st : update_state) (hready : check_ready e st) :
    ∃ r st1, pull_checkupdate e st = some (r, st1) := by
  obtain ⟨hnull, hprint⟩ := hready
  have hloop : ∀ (ds : List pull_distribution) (result : retvalue) (events : List event),
      (∀ d ∈ ds, ∀ u ∈ d.targets, u.upgradelist = none) →
      (∀ d ∈ ds, ∀ u ∈ d.targets, sources_printable e u) →
      ∃ x, pull_checkupdate_loop e ds result events = some x := by
    intro ds
    induction ds with
    | nil => intro result events _ _; exact ⟨_, rfl⟩
    | cons d next ih =>
      intro result events hn hpr
      unfold pull_checkupdate_loop
      obtain ⟨⟨r, d1, events1⟩, hx⟩ :=
        pull_search_total e d events (hn d (List.mem_cons_self _ _))
          (hpr d (List.mem_cons_self _ _))
      rw [hx]
      simp only
      split
      · exact ⟨_, rfl⟩
      · obtain ⟨⟨result3, next1, events3⟩, hy⟩ :=
          ih (RET_UPDATE result r) (pull_dump d1 events1).2
            (fun x hx => hn x (List.mem_cons_of_mem _ hx))
            (fun x hx => hpr x (List.mem_cons_of_mem _ hx))
        rw [hy]
        exact ⟨_, rfl⟩
  unfold pull_checkupdate
  obtain ⟨⟨result, ds1, events1⟩, hx⟩ :=
    hloop st.distributions RET_NOTHING st.events hnull hprint
  rw [hx]
  exact ⟨_, _, rfl⟩

theorem is_check_of_search (c : call) (h : is_search c = true) : is_check c = true := by
  cases c <;> simp_all [is_search, is_check]

theorem pull_checkupdate_loop_spec (e : engine) (ds : List pull_distribution)
    (result : retvalue) (events : List event) (result2 : retvalue)
    (ds2 : List pull_distribution) (events2 : List event)
    (h : pull_checkupdate_loop e ds result events = some (result2, ds2, events2)) :
    ∃ new, events2 = events ++ new ∧ (∀ ev ∈ new, is_check ev.call = true) ∧
      result2 = (new.filterMap counted).foldl RET_UPDATE result := by
  induction ds generalizing result events result2 ds2 events2 with
  | nil =>
    simp only [pull_checkupdate_loop, Option.some.injEq, Prod.mk.injEq] at h
    exact ⟨[], by simp [h.2.2], by simp, by simp [h.1]⟩
  | cons d next ih =>
    unfold pull_checkupdate_loop at h
    cases hs : pull_search e d events with
    | none => simp [hs] at h
    | some rp =>
      obtain ⟨r, d1, events1⟩ := rp
      obtain ⟨_, new1, hev1, hsearch1, hr1⟩ := pull_search_spec e d events _ _ _ hs
      have hcheck1 : ∀ ev ∈ new1, is_check ev.call = true :=
        fun ev hmem => is_check_of_search _ (hsearch1 ev hmem)
      simp only [hs] at h
      by_cases herr : RET_WAS_ERROR r = true
      · rw [if_pos herr] at h
        simp only [Option.some.injEq, Prod.mk.injEq] at h
        refine ⟨new1, by rw [← h.2.2, hev1], hcheck1, ?_⟩
        rw [← h.1, hr1, foldl_RET_UPDATE_merge]
      · rw [if_neg herr] at h
        obtain ⟨newd, hevd, hkindd, _⟩ := pull_dump_loop_spec d1.targets events1
        have hdump : (pull_dump d1 events1).2 = events1 ++ newd := by
          simp only [pull_dump]
          exact hevd
        cases hpd : pull_dump d1 events1 with
        | mk d2 eventsd =>
          rw [hpd] at hdump
          simp only at hdump
          simp only [hpd] at h
          cases hn : pull_checkupdate_loop e next (RET_UPDATE result r) eventsd with
          | none => simp [hn] at h
          | some rn =>
            obtain ⟨result3, next1, events3⟩ := rn
            simp only [hn, Option.some.injEq, Prod.mk.injEq] at h
            obtain ⟨new2, hev2, hcheck2, hr2⟩ := ih _ _ _ _ _ hn
            have hcd : newd.filterMap counted = [] := by
              rw [List.filterMap_eq_nil_iff]
              intro ev hmem
              exact (hkindd ev hmem).2
            refine ⟨new1 ++ (newd ++ new2),
              by rw [← h.2.2, hev2, hdump, hev1]; simp, ?_, ?_⟩
            · intro ev hmem
              rcases List.mem_append.1 hmem with hmem | hmem
              · exact hcheck1 ev hmem
              · rcases List.mem_append.1 hmem with hmem | hmem
                · exact (hkindd ev hmem).1
                · exact hcheck2 ev hmem
            · rw [← h.1, hr2, hr1, foldl_RET_UPDATE_merge, List.filterMap_append,
                List.filterMap_append, hcd, List.nil_append, List.foldl_append]

/-- The shape of every run of `pull_update`: the distributions are opened, then searched,
then, depending on the result of the search, every handle is released or the distributions are
committed and the logger is flushed. -/
theorem pull_update_run (e : engine) (st : update_state) (r : retvalue) (st1 : update_state)
    (hrun : pull_update e st = some (r, st1)) :
    ∃ newp news newt, st1.events = st.events ++ (newp ++ (news ++ newt)) ∧
      newp.map (fun ev => ev.call) = (st.distributions.take newp.length).map
        (fun d => call.distribution_prepareforwriting d.distribution) ∧
      newp.length ≤ st.distributions.length ∧
      (∀ ev ∈ news, is_search ev.call = true) ∧
      (∀ ev ∈ newt, is_install ev.call = true ∨ is_free ev.call = true ∨
        ev.call = call.logger_wait) ∧
      ((∃ init c, newp = init ++ [⟨c, some r⟩] ∧ RET_WAS_ERROR r = true ∧
          (∀ ev ∈ init, ∀ r0, ev.r = some r0 → RET_WAS_ERROR r0 = false) ∧
          news = [] ∧ newt = [] ∧ st1.distributions = st.distributions ∧
          st1.status = st.status) ∨
        ((∀ ev ∈ newp, ∀ r0, ev.r = some r0 → RET_WAS_ERROR r0 = false) ∧
          r = ((news ++ newt).filterMap counted).foldl RET_UPDATE RET_NOTHING ∧
          (RET_WAS_ERROR ((news.filterMap counted).foldl RET_UPDATE RET_NOTHING) = true →
            (∀ ev ∈ newt, is_free ev.call = true) ∧ st1.status = st.status ∧
            ∀ d ∈ st1.distributions, ∀ u ∈ d.targets, u.upgradelist = none))) := by
  unfold pull_update at hrun
  obtain ⟨newp, hevp, hcalls, hlen, hcase⟩ :=
    pull_update_prepare_spec e st.distributions st.events
  cases hp : pull_update_prepare e st.distributions st.events with
  | mk res events1 =>
    rw [hp] at hevp hcase
    simp only at hevp hcase
    simp only [hp] at hrun
    rcases hcase with ⟨hres, hok⟩ | ⟨r0, init, c, hres, hr0, hnewp, hok⟩
    · subst hres
      simp only at hrun
      cases hs : pull_update_search e st.distributions RET_NOTHING events1 with
      | none => simp [hs] at hrun
      | some rp =>
        obtain ⟨result, ds2, events2⟩ := rp
        obtain ⟨_, news, hevs, hsearch, hrs⟩ := pull_update_search_spec e _ _ _ _ _ _ hs
        simp only [hs] at hrun
        by_cases herr : RET_WAS_ERROR result = true
        · rw [if_pos herr] at hrun
          obtain ⟨newf, hevf, hfree, hnull⟩ := pull_update_free_spec ds2 events2
          cases hf : pull_update_free ds2 events2 with
          | mk ds3 events3 =>
            rw [hf] at hevf hnull
            simp only at hevf hnull
            simp only [hf, Option.some.injEq, Prod.mk.injEq] at hrun
            obtain ⟨hr, hst⟩ := hrun
            subst hst
            have hcf : newf.filterMap counted = [] := by
              rw [List.filterMap_eq_nil_iff]
              intro ev hmem
              have := hfree ev hmem
              cases hc : ev.call <;> simp_all [is_free, counted]
            refine ⟨newp, news, newf, by simp [hevf, hevs, hevp], hcalls, hlen, hsearch,
              fun ev hmem => Or.inr (Or.inl (hfree ev hmem)), Or.inr ⟨hok, ?_, ?_⟩⟩
            · rw [List.filterMap_append, hcf, List.append_nil, ← hrs, hr]
            · intro _
              exact ⟨hfree, rfl, hnull⟩
        · rw [if_neg herr] at hrun
          cases hi : pull_update_install e ds2 st.status result events2 with
          | none => simp [hi] at hrun
          | some ri =>
            obtain ⟨result4, ds4, status4, events4⟩ := ri
            obtain ⟨newi, hevi, hkind, hri⟩ := pull_update_install_spec e _ _ _ _ _ _ _ _ hi
            simp only [hi, Option.some.injEq, Prod.mk.injEq] at hrun
            obtain ⟨hr, hst⟩ := hrun
            subst hst
            refine ⟨newp, news, newi ++ [⟨call.logger_wait, none⟩],
              by simp [hevi, hevs, hevp], hcalls, hlen, hsearch, ?_, Or.inr ⟨hok, ?_, ?_⟩⟩
            · intro ev hmem
              rcases List.mem_append.1 hmem with hmem | hmem
              · rcases hkind ev hmem with hk | hk
                · exact Or.inl hk
                · exact Or.inr (Or.inl hk)
              · simp only [List.mem_singleton] at hmem
                subst hmem
                exact Or.inr (Or.inr rfl)
            · rw [← hr, hri, hrs, List.filterMap_append, List.filterMap_append,
                List.foldl_append, List.foldl_append]
              simp [counted]
            · intro hcontra
              rw [← hrs] at hcontra
              exact absurd hcontra herr
    · subst hres
      simp only [Option.some.injEq, Prod.mk.injEq] at hrun
      obtain ⟨hr, hst⟩ := hrun
      subst hst
      subst hr
      exact ⟨newp, [], [], by simp [hevp], hcalls, hlen, by simp, by simp,
        Or.inl ⟨init, c, hnewp, hr0, hok, rfl, rfl, rfl, rfl⟩⟩

/-! ## The runs of the update -/

theorem prepare_calls (ds : List pull_distribution) (newp : List event)
    (h : newp.map (fun ev => ev.call) =
      (ds.take newp.length).map (fun d => call.distribution_prepareforwriting d.distribution)) :
    ∀ ev ∈ newp, is_prepare ev.call = true := by
  intro ev hev
  have hmem : ev.call ∈ newp.map (fun ev => ev.call) := List.mem_map_of_mem _ hev
  rw [h] at hmem
  obtain ⟨d, _, hd⟩ := List.mem_map.1 hmem
  rw [← hd]
  rfl

theorem call_kinds (c : call) :
    (is_prepare c = true → is_search c = false ∧ is_install c = false ∧ is_free c = false ∧
      c ≠ call.logger_wait) ∧
    (is_search c = true → is_prepare c = false ∧ is_install c = false ∧ is_free c = false ∧
      c ≠ call.logger_wait) ∧
    (is_install c = true → is_prepare c = false ∧ is_search c = false) ∧
    (is_free c = true → is_prepare c = false ∧ is_search c = false ∧ is_install c = false) ∧
    (c = call.logger_wait → is_prepare c = false ∧ is_search c = false ∧
      is_install c = false) := by
  cases c <;> simp [is_prepare, is_search, is_install, is_free]

theorem counted_of_search_error (ev : event) (r : retvalue)
    (hs : is_search ev.call = true) (hr : ev.r = some r) (herr : RET_WAS_ERROR r = true) :
    counted ev = some r := by
  obtain ⟨c, r1⟩ := ev
  simp only at hs hr
  subst hr
  cases c <;> simp_all [is_search, counted]

theorem split_after (α : Type) (A B pre post : List α) (x : α)
    (h : A ++ B = pre ++ x :: post) (hx : x ∉ A) : ∃ b1, B = b1 ++ x :: post := by
  induction A generalizing pre with
  | nil => exact ⟨pre, by simpa using h⟩
  | cons a A1 ih =>
    cases pre with
    | nil =>
      simp only [List.cons_append, List.nil_append, List.cons.injEq] at h
      exact absurd (by rw [h.1]; exact List.mem_cons_self _ _) hx
    | cons p pre1 =>
      simp only [List.cons_append, List.cons.injEq] at h
      exact ih pre1 h.2 (fun hmem => hx (List.mem_cons_of_mem _ hmem))

/-- A run of `pull_update` in which a search step reports an error ends with an error and
without commit; a commit comes after every search step, none of which has reported an
error. -/
theorem search_error_of_run (e : engine) (st : update_state) (r : retvalue)
    (st1 : update_state) (new : List event)
    (hrun : pull_update e st = some (r, st1)) (hnew : st1.events = st.events ++ new) :
    ((∃ ev ∈ new, reports_error is_search ev) →
      RET_WAS_ERROR r = true ∧ ∀ x ∈ new, is_install x.call = false) ∧
    ∀ pre x post, new = pre ++ x :: post → is_install x.call = true →
      (∀ y ∈ new, ¬ reports_error is_search y) ∧ ∀ y ∈ post, is_search y.call = false := by
  obtain ⟨newp, news, newt, hevents, hcalls, _, hsearch, htail, hcase⟩ :=
    pull_update_run e st r st1 hrun
  have hnew1 : new = newp ++ (news ++ newt) := by
    rw [hnew] at hevents
    exact List.append_cancel_left hevents
  have hprep := prepare_calls _ _ hcalls
  have hfirst : (∃ ev ∈ new, reports_error is_search ev) →
      RET_WAS_ERROR r = true ∧ ∀ x ∈ new, is_install x.call = false := by
    rintro ⟨ev, hev, hkind, r0, hr0, herr0⟩
    have hevs : ev ∈ news := by
      rw [hnew1] at hev
      rcases List.mem_append.1 hev with hmem | hmem
      · have := ((call_kinds ev.call).1 (hprep ev hmem)).1
        rw [hkind] at this
        exact absurd this (by simp)
      · rcases List.mem_append.1 hmem with hmem | hmem
        · exact hmem
        · exfalso
          rcases htail ev hmem with hk | hk | hk
          · have := ((call_kinds ev.call).2.2.1 hk).2
            rw [hkind] at this
            exact absurd this (by simp)
          · have := ((call_kinds ev.call).2.2.2.1 hk).2.1
            rw [hkind] at this
            exact absurd this (by simp)
          · have := ((call_kinds ev.call).2.2.2.2 hk).2.1
            rw [hkind] at this
            exact absurd this (by simp)
    rcases hcase with ⟨_, _, _, _, _, hnil, _⟩ | ⟨_, hr, hfree⟩
    · rw [hnil] at hevs
      simp at hevs
    · have hcount := counted_of_search_error ev r0 hkind hr0 herr0
      have hserr :
          RET_WAS_ERROR ((news.filterMap counted).foldl RET_UPDATE RET_NOTHING) = true := by
        rw [foldl_RET_UPDATE_was_error]
        exact Or.inr ⟨r0, List.mem_filterMap.2 ⟨ev, hevs, hcount⟩, herr0⟩
      obtain ⟨hfree1, _, _⟩ := hfree hserr
      refine ⟨?_, ?_⟩
      · rw [hr, foldl_RET_UPDATE_was_error]
        refine Or.inr ⟨r0, List.mem_filterMap.2 ⟨ev, ?_, hcount⟩, herr0⟩
        exact List.mem_append_left _ hevs
      · intro x hx
        rw [hnew1] at hx
        rcases List.mem_append.1 hx with hmem | hmem
        · exact ((call_kinds x.call).1 (hprep x hmem)).2.1
        · rcases List.mem_append.1 hmem with hmem | hmem
          · exact ((call_kinds x.call).2.1 (hsearch x hmem)).2.1
          · exact ((call_kinds x.call).2.2.2.1 (hfree1 x hmem)).2.2
  refine ⟨hfirst, ?_⟩
  intro pre x post hsplit hx
  constructor
  · intro y hy herr
    have := (hfirst ⟨y, hy, herr⟩).2 x (by rw [hsplit]; simp)
    rw [hx] at this
    exact absurd this (by simp)
  · have hxA : x ∉ newp ++ news := by
      intro hmem
      rcases List.mem_append.1 hmem with hmem | hmem
      · have := ((call_kinds x.call).1 (hprep x hmem)).2.1
        rw [hx] at this
        exact absurd this (by simp)
      · have := ((call_kinds x.call).2.1 (hsearch x hmem)).2.1
        rw [hx] at this
        exact absurd this (by simp)
    obtain ⟨b1, hb1⟩ := split_after event (newp ++ news) newt pre post x
      (by rw [← hsplit, hnew1, List.append_assoc]) hxA
    intro y hy
    have hyt : y ∈ newt := by rw [hb1]; simp [hy]
    rcases htail y hyt with hk | hk | hk
    · exact ((call_kinds y.call).2.2.1 hk).2
    · exact ((call_kinds y.call).2.2.2.1 hk).2.1
    · exact ((call_kinds y.call).2.2.2.2 hk).2.1

/-- A run of `pull_checkupdate` leaves every `status` as it was and only allocates, deletes,
pulls, dumps and releases. -/
theorem checkupdate_frame_of_run (e : engine) (st : update_state) (r : retvalue)
    (st1 : update_state) (hrun : pull_checkupdate e st = some (r, st1)) :
    st1.status = st.status ∧
    ∃ new, st1.events = st.events ++ new ∧
      ∀ ev ∈ new, is_check ev.call = true ∧ is_prepare ev.call = false ∧
        is_install ev.call = false := by
  unfold pull_checkupdate at hrun
  cases hl : pull_checkupdate_loop e st.distributions RET_NOTHING st.events with
  | none => simp [hl] at hrun
  | some rp =>
    obtain ⟨result, ds1, events1⟩ := rp
    obtain ⟨new, hev, hcheck, _⟩ := pull_checkupdate_loop_spec e _ _ _ _ _ _ hl
    simp only [hl, Option.some.injEq, Prod.mk.injEq] at hrun
    obtain ⟨_, hst⟩ := hrun
    subst hst
    refine ⟨rfl, new, hev, ?_⟩
    intro ev hmem
    have hc := hcheck ev hmem
    refine ⟨hc, ?_, ?_⟩
    · revert hc
      cases ev.call <;> simp [is_check, is_prepare]
    · revert hc
      cases ev.call <;> simp [is_check, is_install]

/-- The result of a run of `pull_update` in which every distribution is opened for writing is
the three-level merge of the results counted. -/
theorem result_of_run (e : engine) (st : update_state) (r : retvalue)
    (st1 : update_state) (new : List event)
    (hrun : pull_update e st = some (r, st1)) (hnew : st1.events = st.events ++ new)
    (hprep : ∀ ev ∈ new, ¬ reports_error is_prepare ev) :
    r = severity_merge (new.filterMap counted) ∧
    ((∃ ev ∈ new, ∃ r0, counted ev = some r0 ∧ RET_WAS_ERROR r0 = true) →
      RET_WAS_ERROR r = true) ∧
    ∀ ev, counted ev =
      match ev.call, ev.r with
      | call.upgradelist_initialize _, some r0 => if RET_WAS_ERROR r0 then some r0 else none
      | _, _ => step_result ev := by
  obtain ⟨newp, news, newt, hevents, hcalls, _, hsearch, htail, hcase⟩ :=
    pull_update_run e st r st1 hrun
  have hnew1 : new = newp ++ (news ++ newt) := by
    rw [hnew] at hevents
    exact List.append_cancel_left hevents
  have hpcalls := prepare_calls _ _ hcalls
  have hcp : newp.filterMap counted = [] := by
    rw [List.filterMap_eq_nil_iff]
    intro ev hmem
    have := hpcalls ev hmem
    revert this
    unfold counted
    cases ev.call <;> simp [is_prepare]
  have hr : r = (new.filterMap counted).foldl RET_UPDATE RET_NOTHING := by
    rcases hcase with ⟨init, c, hnewp, herr, _, _, _, _, _⟩ | ⟨_, hr, _⟩
    · exfalso
      have hmem : (⟨c, some r⟩ : event) ∈ new := by
        rw [hnew1, hnewp]; simp
      refine hprep _ hmem ⟨?_, r, rfl, herr⟩
      exact hpcalls _ (by rw [hnewp]; simp)
    · rw [hr, hnew1]
      simp only [List.filterMap_append, hcp, List.nil_append]
  refine ⟨by rw [hr, foldl_RET_UPDATE_severity], ?_, ?_⟩
  · rintro ⟨ev, hmem, r0, hc, herr⟩
    rw [hr, foldl_RET_UPDATE_was_error]
    exact Or.inr ⟨r0, List.mem_filterMap.2 ⟨ev, hmem, hc⟩, herr⟩
  · intro ev
    obtain ⟨c, r0⟩ := ev
    cases c <;> cases r0 <;> simp [counted, step_result, is_search, is_install]

/-- A run of `pull_update` in which opening a distribution for writing reports an error ends
with that call and that error, and leaves plan and `status` as they were. -/
theorem prepare_error_of_run (e : engine) (st : update_state) (r : retvalue)
    (st1 : update_state) (new : List event) (ev : event) (r0 : retvalue)
    (hrun : pull_update e st = some (r, st1)) (hnew : st1.events = st.events ++ new)
    (hev : ev ∈ new) (hkind : is_prepare ev.call = true) (hr0 : ev.r = some r0)
    (herr : RET_WAS_ERROR r0 = true) :
    r = r0 ∧ st1.distributions = st.distributions ∧ st1.status = st.status ∧
    (∀ x ∈ new, is_prepare x.call = true) ∧
    new.map (fun x => x.call) = (st.distributions.take new.length).map
      (fun d => call.distribution_prepareforwriting d.distribution) ∧
    new.length ≤ st.distributions.length ∧
    ∃ init, new = init ++ [ev] ∧ ∀ x ∈ init, ∀ rx, x.r = some rx → RET_WAS_ERROR rx = false := by
  obtain ⟨newp, news, newt, hevents, hcalls, hlen, hsearch, htail, hcase⟩ :=
    pull_update_run e st r st1 hrun
  have hnew1 : new = newp ++ (news ++ newt) := by
    rw [hnew] at hevents
    exact List.append_cancel_left hevents
  have hpcalls := prepare_calls _ _ hcalls
  have hevp : ev ∈ newp := by
    rw [hnew1] at hev
    rcases List.mem_append.1 hev with hmem | hmem
    · exact hmem
    · rcases List.mem_append.1 hmem with hmem | hmem
      · exfalso
        have := ((call_kinds ev.call).2.1 (hsearch ev hmem)).1
        rw [hkind] at this
        exact absurd this (by simp)
      · exfalso
        rcases htail ev hmem with hk | hk | hk
        · have := ((call_kinds ev.call).2.2.1 hk).1
          rw [hkind] at this
          exact absurd this (by simp)
        · have := ((call_kinds ev.call).2.2.2.1 hk).1
          rw [hkind] at this
          exact absurd this (by simp)
        · have := ((call_kinds ev.call).2.2.2.2 hk).1
          rw [hkind] at this
          exact absurd this (by simp)
  rcases hcase with ⟨init, c, hnewp, _, hok, hnil, hnilt, hds, hst⟩ | ⟨hok, _, _⟩
  · have hnewp1 : new = newp := by rw [hnew1, hnil, hnilt]; simp
    have hevlast : ev = ⟨c, some r⟩ := by
      rw [hnewp] at hevp
      rcases List.mem_append.1 hevp with hmem | hmem
      · have := hok ev hmem r0 hr0
        rw [this] at herr
        simp at herr
      · simpa using hmem
    refine ⟨?_, hds, hst, by rw [hnewp1]; exact hpcalls, by rw [hnewp1]; exact hcalls,
      by rw [hnewp1]; exact hlen, init, by rw [hnewp1, hnewp, hevlast], hok⟩
    rw [hevlast] at hr0
    simp only [Option.some.injEq] at hr0
    exact hr0
  · have := hok ev hevp r0 hr0
    rw [this] at herr
    simp at herr

/-! ## The search is complete before the first commit -/

theorem RET_UPDATE_was_error (ret update : retvalue) (h : RET_WAS_ERROR update = true) :
    RET_WAS_ERROR (RET_UPDATE ret update) = true := by
  by_cases hret : RET_WAS_ERROR ret = true
  · rw [RET_UPDATE_error ret update hret]
    exact hret
  · rw [RET_UPDATE_of_error ret update (by simpa using hret) h]
    exact h

theorem foldl_RET_UPDATE_keeps_error (rs : List retvalue) (a : retvalue)
    (h : RET_WAS_ERROR a = true) : RET_WAS_ERROR (rs.foldl RET_UPDATE a) = true := by
  rw [foldl_RET_UPDATE_error rs a h]
  exact h

/-- A loop of the search that goes on with an error as result so far ends with an error. -/
theorem pull_searchformissing_loop_keeps_error (e : engine) (srcs : List pull_source)
    (p : pull_target) (result : retvalue) (events : List event) (result1 : retvalue)
    (p1 : pull_target) (events1 : List event)
    (h : pull_searchformissing_loop e srcs p result events = some (result1, p1, events1))
    (herr : RET_WAS_ERROR result = true) : RET_WAS_ERROR result1 = true := by
  obtain ⟨new, _, _, hres, _⟩ := pull_searchformissing_loop_spec e srcs p result events
    result1 p1 events1 h
  rw [hres]
  exact foldl_RET_UPDATE_keeps_error _ _ herr

/-- The steps of the sources a loop of `pull_searchformissing` has made when it ends without
error: the step of every source, in their order. -/
theorem pull_searchformissing_loop_steps (e : engine) (srcs : List pull_source)
    (p : pull_target) (result : retvalue) (events : List event) (result1 : retvalue)
    (p1 : pull_target) (events1 : List event)
    (h : pull_searchformissing_loop e srcs p result events = some (result1, p1, events1))
    (hok : RET_WAS_ERROR result1 = false) :
    ∃ new, events1 = events ++ new ∧ new.filterMap search_step_of = srcs.map source_step := by
  induction srcs generalizing p result events with
  | nil =>
    simp only [pull_searchformissing_loop, Option.some.injEq, Prod.mk.injEq] at h
    exact ⟨[], by simp [h.2.2], rfl⟩
  | cons source next ih =>
    unfold pull_searchformissing_loop at h
    cases hrule : source.rule with
    | none =>
      simp only [hrule] at h
      by_cases herr : RET_WAS_ERROR
          (e.retval events (call.upgradelist_deleteall p.upgradelist)) = true
      · rw [if_pos herr] at h
        simp only [Option.some.injEq, Prod.mk.injEq] at h
        rw [← h.1, RET_UPDATE_was_error _ _ herr] at hok
        cases hok
      · rw [if_neg herr] at h
        obtain ⟨new, hev, hsteps⟩ := ih _ _ _ h
        refine ⟨⟨call.upgradelist_deleteall p.upgradelist,
          some (e.retval events (call.upgradelist_deleteall p.upgradelist))⟩ :: new,
          by rw [hev]; simp, ?_⟩
        rw [List.filterMap_cons]
        simp [search_step_of, source_step, hrule, hsteps]
    | some rule =>
      simp only [hrule] at h
      by_cases hnull : e.verbose > 4 ∧ source.source = none
      · rw [if_pos hnull] at h
        cases h
      · rw [if_neg hnull] at h
        by_cases herr : RET_WAS_ERROR
            (e.retval events (call.upgradelist_pull p.upgradelist source.source rule)) = true
        · rw [if_pos herr] at h
          simp only [Option.some.injEq, Prod.mk.injEq] at h
          rw [← h.1, RET_UPDATE_was_error _ _ herr] at hok
          cases hok
        · rw [if_neg herr] at h
          obtain ⟨new, hev, hsteps⟩ := ih _ _ _ h
          refine ⟨⟨call.upgradelist_pull p.upgradelist source.source rule,
            some (e.retval events
              (call.upgradelist_pull p.upgradelist source.source rule))⟩ :: new,
            by rw [hev]; simp, ?_⟩
          rw [List.filterMap_cons]
          simp [search_step_of, source_step, hrule, hsteps]

/-- The steps `pull_searchformissing` has made when it ends without error: the full search of
the pull target. -/
theorem pull_searchformissing_steps (e : engine) (p : pull_target) (events : List event)
    (r : retvalue) (p1 : pull_target) (events1 : List event)
    (h : pull_searchformissing e p events = some (r, p1, events1))
    (hok : RET_WAS_ERROR r = false) :
    ∃ new, events1 = events ++ new ∧ new.filterMap search_step_of = target_steps p := by
  unfold pull_searchformissing at h
  cases hu : p.upgradelist with
  | some x => simp [hu] at h
  | none =>
    simp only [hu] at h
    by_cases herr : RET_WAS_ERROR (e.retval events (call.upgradelist_initialize p.target)) = true
    · rw [if_pos herr] at h
      simp only [Option.some.injEq, Prod.mk.injEq] at h
      rw [← h.1, herr] at hok
      cases hok
    · rw [if_neg herr] at h
      obtain ⟨new, hev, hsteps⟩ := pull_searchformissing_loop_steps e _ _ _ _ _ _ _ h hok
      refine ⟨⟨call.upgradelist_initialize p.target,
        some (e.retval events (call.upgradelist_initialize p.target))⟩ :: new,
        by rw [hev]; simp, ?_⟩
      rw [List.filterMap_cons]
      simp [search_step_of, target_steps, hsteps]

theorem pull_search_loop_steps (e : engine) (us : List pull_target) (result : retvalue)
    (events : List event) (result2 : retvalue) (us2 : List pull_target)
    (events2 : List event)
    (h : pull_search_loop e us result events = some (result2, us2, events2))
    (hok : RET_WAS_ERROR result2 = false) :
    ∃ new, events2 = events ++ new ∧
      new.filterMap search_step_of = us.flatMap target_steps := by
  induction us generalizing result events result2 us2 events2 with
  | nil =>
    simp only [pull_search_loop, Option.some.injEq, Prod.mk.injEq] at h
    exact ⟨[], by simp [h.2.2], rfl⟩
  | cons u next ih =>
    unfold pull_search_loop at h
    cases hs : pull_searchformissing e u events with
    | none => simp [hs] at h
    | some x =>
      obtain ⟨r, u1, events1⟩ := x
      simp only [hs] at h
      by_cases herr : RET_WAS_ERROR r = true
      · rw [if_pos herr] at h
        simp only [Option.some.injEq, Prod.mk.injEq] at h
        rw [← h.1, RET_UPDATE_was_error _ _ herr] at hok
        cases hok
      · rw [if_neg herr] at h
        cases hl : pull_search_loop e next (RET_UPDATE result r) events1 with
        | none => simp [hl] at h
        | some y =>
          obtain ⟨result3, next1, events3⟩ := y
          simp only [hl, Option.some.injEq, Prod.mk.injEq] at h
          obtain ⟨new1, hev1, hsteps1⟩ :=
            pull_searchformissing_steps e u events r u1 events1 hs (by simpa using herr)
          obtain ⟨new2, hev2, hsteps2⟩ := ih _ _ _ _ _ hl (by rw [h.1]; exact hok)
          refine ⟨new1 ++ new2, by rw [← h.2.2, hev2, hev1, List.append_assoc], ?_⟩
          rw [List.filterMap_append, hsteps1, hsteps2, List.flatMap_cons]

/-- The steps `pull_search` has made when it ends without error: the full search of every pull
target of the pull distribution, in their order. -/
theorem pull_search_steps (e : engine) (d : pull_distribution) (events : List event)
    (r : retvalue) (d1 : pull_distribution) (events1 : List event)
    (h : pull_search e d events = some (r, d1, events1)) (hok : RET_WAS_ERROR r = false) :
    ∃ new, events1 = events ++ new ∧
      new.filterMap search_step_of = d.targets.flatMap target_steps := by
  unfold pull_search at h
  cases hl : pull_search_loop e d.targets RET_NOTHING events with
  | none => simp [hl] at h
  | some x =>
    obtain ⟨result, targets, events2⟩ := x
    simp only [hl, Option.some.injEq, Prod.mk.injEq] at h
    obtain ⟨new, hev, hsteps⟩ :=
      pull_search_loop_steps e _ _ _ _ _ _ hl (by rw [h.1]; exact hok)
    exact ⟨new, by rw [← h.2.2, hev], hsteps⟩

/-- The steps the search loop of `pull_update` has made when it ends without error: the full
search of the plan. -/
theorem pull_update_search_steps (e : engine) (ds : List pull_distribution)
    (result : retvalue) (events : List event) (result2 : retvalue)
    (ds2 : List pull_distribution) (events2 : List event)
    (h : pull_update_search e ds result events = some (result2, ds2, events2))
    (hok : RET_WAS_ERROR result2 = false) :
    ∃ new, events2 = events ++ new ∧ new.filterMap search_step_of = plan_steps ds := by
  induction ds generalizing result events result2 ds2 events2 with
  | nil =>
    simp only [pull_update_search, Option.some.injEq, Prod.mk.injEq] at h
    exact ⟨[], by simp [h.2.2], rfl⟩
  | cons d next ih =>
    unfold pull_update_search at h
    cases hs : pull_search e d events with
    | none => simp [hs] at h
    | some x =>
      obtain ⟨r, d1, events1⟩ := x
      simp only [hs] at h
      by_cases herr : RET_WAS_ERROR r = true
      · rw [if_pos herr] at h
        simp only [Option.some.injEq, Prod.mk.injEq] at h
        rw [← h.1, RET_UPDATE_was_error _ _ herr] at hok
        cases hok
      · rw [if_neg herr] at h
        cases hl : pull_update_search e next (RET_UPDATE result r) events1 with
        | none => simp [hl] at h
        | some y =>
          obtain ⟨result3, next1, events3⟩ := y
          simp only [hl, Option.some.injEq, Prod.mk.injEq] at h
          obtain ⟨new1, hev1, hsteps1⟩ :=
            pull_search_steps e d events r d1 events1 hs (by simpa using herr)
          obtain ⟨new2, hev2, hsteps2⟩ := ih _ _ _ _ _ hl (by rw [h.1]; exact hok)
          refine ⟨new1 ++ new2, by rw [← h.2.2, hev2, hev1, List.append_assoc], ?_⟩
          rw [List.filterMap_append, hsteps1, hsteps2]
          simp [plan_steps, List.flatMap_cons]

theorem search_step_of_none (ev : event) (h : is_search ev.call = false) :
    search_step_of ev = none := by
  obtain ⟨c, r⟩ := ev
  revert h
  cases c <;> simp [is_search, search_step_of]

/-- The shape of a run of `pull_update` with a commit: the distributions are opened, the plan is
searched in full, and only then come the commits, the releases and the flush. -/
theorem pull_update_searched (e : engine) (st : update_state) (r : retvalue)
    (st1 : update_state) (hrun : pull_update e st = some (r, st1)) :
    ∃ newp news newt, st1.events = st.events ++ (newp ++ (news ++ newt)) ∧
      (∀ ev ∈ newp, is_prepare ev.call = true) ∧
      (∀ ev ∈ news, is_search ev.call = true) ∧
      (∀ ev ∈ newt, is_search ev.call = false) ∧
      ((∃ x ∈ newt, is_install x.call = true) →
        news.filterMap search_step_of = plan_steps st.distributions) := by
  unfold pull_update at hrun
  obtain ⟨newp, hevp, hcalls, _, _⟩ :=
    pull_update_prepare_spec e st.distributions st.events
  have hprep := prepare_calls _ _ hcalls
  cases hp : pull_update_prepare e st.distributions st.events with
  | mk res events1 =>
    rw [hp] at hevp
    simp only at hevp
    simp only [hp] at hrun
    cases res with
    | some r0 =>
      simp only [Option.some.injEq, Prod.mk.injEq] at hrun
      rw [← hrun.2]
      exact ⟨newp, [], [], by simp [hevp], hprep, by simp, by simp, by simp⟩
    | none =>
      simp only at hrun
      cases hs : pull_update_search e st.distributions RET_NOTHING events1 with
      | none => simp [hs] at hrun
      | some rp =>
        obtain ⟨result, ds2, events2⟩ := rp
        obtain ⟨_, news, hevs, hsearch, _⟩ := pull_update_search_spec e _ _ _ _ _ _ hs
        simp only [hs] at hrun
        by_cases herr : RET_WAS_ERROR result = true
        · rw [if_pos herr] at hrun
          obtain ⟨newf, hevf, hfree, _⟩ := pull_update_free_spec ds2 events2
          cases hf : pull_update_free ds2 events2 with
          | mk ds3 events3 =>
            rw [hf] at hevf
            simp only at hevf
            simp only [hf, Option.some.injEq, Prod.mk.injEq] at hrun
            rw [← hrun.2]
            refine ⟨newp, news, newf, by simp [hevf, hevs, hevp], hprep, hsearch, ?_, ?_⟩
            · intro ev hmem
              exact ((call_kinds ev.call).2.2.2.1 (hfree ev hmem)).2.1
            · rintro ⟨x, hx, hinst⟩
              have := ((call_kinds x.call).2.2.2.1 (hfree x hx)).2.2
              rw [hinst] at this
              cases this
        · rw [if_neg herr] at hrun
          cases hi : pull_update_install e ds2 st.status result events2 with
          | none => simp [hi] at hrun
          | some ri =>
            obtain ⟨result4, ds4, status4, events4⟩ := ri
            obtain ⟨newi, hevi, hkind, _⟩ := pull_update_install_spec e _ _ _ _ _ _ _ _ hi
            simp only [hi, Option.some.injEq, Prod.mk.injEq] at hrun
            rw [← hrun.2]
            obtain ⟨news1, hevs1, hsteps⟩ :=
              pull_update_search_steps e _ _ _ _ _ _ hs (by simpa using herr)
            have hsame : news1 = news := by
              rw [hevs] at hevs1
              exact (List.append_cancel_left hevs1).symm
            rw [hsame] at hsteps
            refine ⟨newp, news, newi ++ [⟨call.logger_wait, none⟩],
              by simp [hevi, hevs, hevp], hprep, hsearch, ?_, fun _ => hsteps⟩
            intro ev hmem
            rcases List.mem_append.1 hmem with hmem | hmem
            · rcases hkind ev hmem with hk | hk
              · exact ((call_kinds ev.call).2.2.1 hk).2
              · exact ((call_kinds ev.call).2.2.2.1 hk).2.1
            · simp only [List.mem_singleton] at hmem
              subst hmem
              rfl

/-- Before any commit of a run of `pull_update`, the plan has been searched in full: the search
steps made before the commit are the full search of every pull target of every pull
distribution, in plan order. -/
theorem searched_of_run (e : engine) (st : update_state) (r : retvalue)
    (st1 : update_state) (new pre post : List event) (x : event)
    (hrun : pull_update e st = some (r, st1)) (hnew : st1.events = st.events ++ new)
    (hsplit : new = pre ++ x :: post) (hx : is_install x.call = true) :
    pre.filterMap search_step_of = plan_steps st.distributions := by
  obtain ⟨newp, news, newt, hevents, hprep, hsearch, htail, hsteps⟩ :=
    pull_update_searched e st r st1 hrun
  have hnew1 : new = newp ++ (news ++ newt) := by
    rw [hnew] at hevents
    exact List.append_cancel_left hevents
  have hxA : x ∉ newp ++ news := by
    intro hmem
    rcases List.mem_append.1 hmem with hmem | hmem
    · have := ((call_kinds x.call).1 (hprep x hmem)).2.1
      rw [hx] at this
      cases this
    · have := ((call_kinds x.call).2.1 (hsearch x hmem)).2.1
      rw [hx] at this
      cases this
  have hcat : (newp ++ news) ++ newt = pre ++ x :: post := by
    rw [← hsplit, hnew1, List.append_assoc]
  obtain ⟨b1, hb1⟩ := split_after event (newp ++ news) newt pre post x hcat hxA
  have hpre : pre = (newp ++ news) ++ b1 := by
    rw [hb1, ← List.append_assoc] at hcat
    exact (List.append_cancel_right hcat).symm
  have hxt : x ∈ newt := by rw [hb1]; simp
  have hp0 : newp.filterMap search_step_of = [] := by
    rw [List.filterMap_eq_nil_iff]
    intro ev hmem
    exact search_step_of_none ev ((call_kinds ev.call).1 (hprep ev hmem)).1
  have hb0 : b1.filterMap search_step_of = [] := by
    rw [List.filterMap_eq_nil_iff]
    intro ev hmem
    exact search_step_of_none ev (htail ev (by rw [hb1]; simp [hmem]))
  rw [hpre, List.filterMap_append, List.filterMap_append, hp0, hb0, hsteps ⟨x, hxt, hx⟩]
  simp

/-! ## The decision callback and the rule table -/

theorem set_of_getElem? (α : Type) (l : List α) (i : Nat) (a : α) (h : l[i]? = some a) :
    l.set i a = l := by
  induction l generalizing i with
  | nil => rfl
  | cons x xs ih =>
    cases i with
    | zero =>
      simp only [List.getElem?_cons_zero, Option.some.injEq] at h
      simp [h]
    | succ n =>
      simp only [List.getElem?_cons_succ] at h
      simp [ih n h]

/-- What a call of `ud_decide_by_rule` does to the rule table: the rule it is bound to is
replaced by one that differs at most in the filter list and the condition the evaluators were
handed; with evaluators that leave their argument as it is, the rule table is left as it is and
the verdict and what is printed are those of `ud_decide_by_rule` on the rule. -/
theorem ud_decide_by_rule_state_spec
    (filterlist_find : String → filterlist → filterlisttype × filterlist)
    (term_decidechunk : term → String → retvalue × term)
    (rules : List (pull_rule term filterlist)) (privdata : Nat)
    (package old_version new_version newcontrolchunk : String)
    (rule : pull_rule term filterlist) (hrule : rules[privdata]? = some rule) :
    ∃ d out rule1,
      ud_decide_by_rule_state filterlist_find term_decidechunk rules privdata package
        old_version new_version newcontrolchunk = some (d, out, rules.set privdata rule1) ∧
      rule1 = { rule with filterlist := rule1.filterlist,
                          includecondition := rule1.includecondition } ∧
      ((∀ p f, (filterlist_find p f).2 = f) → (∀ c s, (term_decidechunk c s).2 = c) →
        rule1 = rule ∧
        (d, out) = ud_decide_by_rule (fun p f => (filterlist_find p f).1)
          (fun c s => (term_decidechunk c s).1) rule package old_version new_version
          newcontrolchunk) := by
  unfold ud_decide_by_rule_state ud_decide_by_rule
  rw [hrule]
  simp only
  have hsame : ∀ f c, f = rule.filterlist → c = rule.includecondition →
      { rule with filterlist := f, includecondition := c } = rule := by
    intro f c hf hc
    rw [hf, hc]
  cases hfound : (filterlist_find package rule.filterlist).1 with
  | flt_install =>
    simp only
    cases hcond : rule.includecondition with
    | none =>
      simp only
      exact ⟨_, _, _, rfl, rfl, fun hf _ => ⟨hsame _ _ (hf _ _) hcond.symm, rfl⟩⟩
    | some includecondition =>
      simp only
      by_cases herr : RET_WAS_ERROR (term_decidechunk includecondition newcontrolchunk).1 = true
      · rw [if_pos herr]
        refine ⟨_, _, _, rfl, rfl, fun hf ht => ⟨?_, ?_⟩⟩
        · exact hsame _ _ (hf _ _) (by rw [ht, hcond])
        · simp [herr]
      · rw [if_neg herr]
        by_cases hno : (term_decidechunk includecondition newcontrolchunk).1 = RET_NOTHING
        · rw [if_pos hno]
          refine ⟨_, _, _, rfl, rfl, fun hf ht => ⟨?_, ?_⟩⟩
          · exact hsame _ _ (hf _ _) (by rw [ht, hcond])
          · simp [hno, RET_WAS_ERROR]
        · rw [if_neg hno]
          refine ⟨_, _, _, rfl, rfl, fun hf ht => ⟨?_, ?_⟩⟩
          · exact hsame _ _ (hf _ _) (by rw [ht, hcond])
          · simp [herr, hno]
  | flt_deinstall => exact ⟨_, _, _, rfl, rfl, fun hf _ => ⟨hsame _ _ (hf _ _) rfl, rfl⟩⟩
  | flt_purge => exact ⟨_, _, _, rfl, rfl, fun hf _ => ⟨hsame _ _ (hf _ _) rfl, rfl⟩⟩
  | flt_hold => exact ⟨_, _, _, rfl, rfl, fun hf _ => ⟨hsame _ _ (hf _ _) rfl, rfl⟩⟩
  | flt_error => exact ⟨_, _, _, rfl, rfl, fun hf _ => ⟨hsame _ _ (hf _ _) rfl, rfl⟩⟩

/-! ## The claims about the update -/

/-- C11: `ud_decide_by_rule` returns the same verdict, prints the same and leaves the same rule
table whatever old and new version are passed. Called with a pointer to a rule of the rule
table it returns, and the function itself assigns no field of the rule: the rule afterwards
differs at most in the filter list and the condition, the two objects handed to
`filterlist_find` and `term_decidechunk`. With evaluators that leave the object they are handed
as it is, the call leaves every field of the rule and the whole rule table unchanged, its
verdict is the one of the rule, the package name and the metadata, and a second call with the
same rule, package name and metadata and any other versions returns the same. -/
theorem ud_decide_by_rule_versions
    (filterlist_find : String → filterlist → filterlisttype × filterlist)
    (term_decidechunk : term → String → retvalue × term)
    (rules : List (pull_rule term filterlist)) (privdata : Nat)
    (package old_version new_version old_version1 new_version1 newcontrolchunk : String) :
    ud_decide_by_rule_state filterlist_find term_decidechunk rules privdata package old_version
        new_version newcontrolchunk =
      ud_decide_by_rule_state filterlist_find term_decidechunk rules privdata package
        old_version1 new_version1 newcontrolchunk ∧
    ∀ rule, rules[privdata]? = some rule →
      ∃ d out rule1,
        ud_decide_by_rule_state filterlist_find term_decidechunk rules privdata package
          old_version new_version newcontrolchunk = some (d, out, rules.set privdata rule1) ∧
        rule1 = { rule with filterlist := rule1.filterlist,
                            includecondition := rule1.includecondition } ∧
        ((∀ p f, (filterlist_find p f).2 = f) → (∀ c s, (term_decidechunk c s).2 = c) →
          rule1 = rule ∧ rules.set privdata rule1 = rules ∧
          (d, out) = ud_decide_by_rule (fun p f => (filterlist_find p f).1)
            (fun c s => (term_decidechunk c s).1) rule package old_version new_version
            newcontrolchunk ∧
          ud_decide_by_rule_state filterlist_find term_decidechunk (rules.set privdata rule1)
            privdata package old_version1 new_version1 newcontrolchunk =
              some (d, out, rules.set privdata rule1)) := by
  refine ⟨rfl, ?_⟩
  intro rule hrule
  obtain ⟨d, out, rule1, hcall, hfields, hpure⟩ :=
    ud_decide_by_rule_state_spec filterlist_find term_decidechunk rules privdata package
      old_version new_version newcontrolchunk rule hrule
  refine ⟨d, out, rule1, hcall, hfields, ?_⟩
  intro hf ht
  obtain ⟨hsame, hverdict⟩ := hpure hf ht
  have hset : rules.set privdata rule1 = rules := by
    rw [hsame]
    exact set_of_getElem? _ rules privdata rule hrule
  refine ⟨hsame, hset, hverdict, ?_⟩
  rw [hset]
  rw [hset] at hcall
  exact hcall

/-- C12: `pull_update` returns when the update is ready to start: every planning handle is
null, every distribution has its `status`, the logger of a distribution opened without error is
prepared, and no progress line prints a missing source bucket. In every run of
`pull_update`, if some search step (a handle allocation, a delete-all or a pull) reports an
error, the result is an error and no commit is called at all; and when a commit is called, no
search step has reported an error, no search step is made after it, and the search steps made
before it are the full search of the plan: the handle allocation and the step of every source
of every pull target of every pull distribution, in plan order. So the search of the last pull
distribution is over, without error, before the first commit. -/
theorem pull_update_search_error (e : engine) (st : update_state) :
    (update_ready e st → ∃ r st1, pull_update e st = some (r, st1)) ∧
    ∀ r st1 new, pull_update e st = some (r, st1) → st1.events = st.events ++ new →
      ((∃ ev ∈ new, reports_error is_search ev) →
        RET_WAS_ERROR r = true ∧ ∀ x ∈ new, is_install x.call = false) ∧
      ∀ pre x post, new = pre ++ x :: post → is_install x.call = true →
        (∀ y ∈ new, ¬ reports_error is_search y) ∧ (∀ y ∈ post, is_search y.call = false) ∧
        pre.filterMap search_step_of = plan_steps st.distributions :=
  ⟨fun h => pull_update_total e st h,
    fun r st1 new hrun hnew =>
      ⟨(search_error_of_run e st r st1 new hrun hnew).1,
        fun pre x post hsplit hx =>
          ⟨((search_error_of_run e st r st1 new hrun hnew).2 pre x post hsplit hx).1,
            ((search_error_of_run e st r st1 new hrun hnew).2 pre x post hsplit hx).2,
            searched_of_run e st r st1 new pre post x hrun hnew hsplit hx⟩⟩⟩

/-- C13 fails on the code: starting with every planning handle null, `pull_update` with an
engine whose commit fails returns after the commit of the first pull target, and the second
pull target still has the handle allocated by the search. -/
theorem pull_update_install_error_keeps_handle :
    (∀ d ∈ exStartTwo.distributions, ∀ u ∈ d.targets, u.upgradelist = none) ∧
    pull_update exEngineInstallFails exStartTwo = some (RET_ERROR, exEndInstallFails) ∧
    ∃ d ∈ exEndInstallFails.distributions, ∃ u ∈ d.targets, u.upgradelist = some 3 := by
  decide

/-- C14 fails on the code: starting with every planning handle null, `pull_checkupdate` with an
engine whose delete-all fails returns without dump, and the pull target still has the handle
allocated by the search. -/
theorem pull_checkupdate_search_error_keeps_handle :
    (∀ d ∈ exStart.distributions, ∀ u ∈ d.targets, u.upgradelist = none) ∧
    pull_checkupdate exEngineDeleteFails exStart = some (RET_ERROR, exEndCheckDeleteFails) ∧
    ∃ d ∈ exEndCheckDeleteFails.distributions, ∃ u ∈ d.targets, u.upgradelist = some 0 := by
  decide

/-- C15: `pull_checkupdate` returns when every planning handle is null at the start and no
progress line prints a missing source bucket (the global `verbose` is at most 4, or every
source with a rule has a source bucket). In every run of `pull_checkupdate` the `status` of
every distribution is left as it was, and every call made is a handle allocation, a delete-all,
a pull, a dump or a release: none opens a distribution for writing and none is a commit. -/
theorem pull_checkupdate_frame (e : engine) (st : update_state) :
    (check_ready e st → ∃ r st1, pull_checkupdate e st = some (r, st1)) ∧
    ∀ r st1, pull_checkupdate e st = some (r, st1) →
      st1.status = st.status ∧
      ∃ new, st1.events = st.events ++ new ∧
        ∀ ev ∈ new, is_check ev.call = true ∧ is_prepare ev.call = false ∧
          is_install ev.call = false :=
  ⟨pull_checkupdate_total e st, fun r st1 hrun => checkupdate_frame_of_run e st r st1 hrun⟩

/-- C16 as stated fails: with an engine whose handle allocation reports `RET_OK` and whose other
steps find nothing to do, every distribution is opened, the merge of the results of the search
and commit steps is `RET_OK`, and `pull_update` returns `RET_NOTHING`. -/
theorem pull_update_result_counterexample :
    pull_update exEngine exStart = some (RET_NOTHING, exEnd) ∧
    (∀ ev ∈ exEnd.events, is_prepare ev.call = true → ev.r = some RET_OK) ∧
    severity_merge (exEnd.events.filterMap step_result) = RET_OK := by
  decide

/-- C16, amended: `pull_update` returns when the update is ready to start: every planning
handle is null, every distribution has its `status`, the logger of a distribution opened
without error is prepared, and no progress line prints a missing source bucket. In every run of
`pull_update` in which every distribution is opened for writing, the result is the three-level
merge of the results of the delete-all, pull and commit steps made and of the error of a failed
handle allocation (the result of a handle allocation that succeeds is dropped): the first error
if there is one, else `RET_OK` if one of them is `RET_OK`, else `RET_NOTHING`; so one error
among them makes the result an error. -/
theorem pull_update_result (e : engine) (st : update_state) :
    (update_ready e st → ∃ r st1, pull_update e st = some (r, st1)) ∧
    ∀ r st1 new, pull_update e st = some (r, st1) → st1.events = st.events ++ new →
      (∀ ev ∈ new, ¬ reports_error is_prepare ev) →
      r = severity_merge (new.filterMap counted) ∧
      ((∃ ev ∈ new, ∃ r0, counted ev = some r0 ∧ RET_WAS_ERROR r0 = true) →
        RET_WAS_ERROR r = true) ∧
      ∀ ev, counted ev =
        match ev.call, ev.r with
        | call.upgradelist_initialize _, some r0 => if RET_WAS_ERROR r0 then some r0 else none
        | _, _ => step_result ev :=
  ⟨fun h => pull_update_total e st h,
    fun r st1 new hrun hnew hprep => result_of_run e st r st1 new hrun hnew hprep⟩

/-- C17: when the loop of `pull_update` that opens the distributions for writing ends with an
error, `pull_update` returns that error. In every run of `pull_update` in which opening a
distribution for writing reports an error, that error is the result, the failed opening is the
last call made, every call before it opened one of the distributions before that one, in their
order and without error, so that nothing is searched, committed or flushed, no handle is
allocated and no later distribution is opened; and the plan and the `status` of the
distributions are left as they were. -/
theorem pull_update_prepare_error (e : engine) (st : update_state) :
    (∀ r0, (pull_update_prepare e st.distributions st.events).1 = some r0 →
      ∃ st1, pull_update e st = some (r0, st1)) ∧
    ∀ r st1 new ev r0, pull_update e st = some (r, st1) → st1.events = st.events ++ new →
      ev ∈ new → is_prepare ev.call = true → ev.r = some r0 → RET_WAS_ERROR r0 = true →
      r = r0 ∧ st1.distributions = st.distributions ∧ st1.status = st.status ∧
      (∀ x ∈ new, is_prepare x.call = true) ∧
      new.map (fun x => x.call) = (st.distributions.take new.length).map
        (fun d => call.distribution_prepareforwriting d.distribution) ∧
      new.length ≤ st.distributions.length ∧
      ∃ init, new = init ++ [ev] ∧
        ∀ x ∈ init, ∀ rx, x.r = some rx → RET_WAS_ERROR rx = false := by
  refine ⟨?_, fun r st1 new ev r0 hrun hnew hev hkind hr0 herr =>
    prepare_error_of_run e st r st1 new ev r0 hrun hnew hev hkind hr0 herr⟩
  intro r0 hp
  unfold pull_update
  cases hpp : pull_update_prepare e st.distributions st.events with
  | mk rp events1 =>
    rw [hpp] at hp
    simp only at hp
    subst hp
    exact ⟨_, rfl⟩

/-! ## The claims about the update at concrete inputs -/

theorem ud_decide_by_rule_versions_witness :
    [exRuleHold][0]? = some exRuleHold ∧
    (∀ p f, (exFilterFindState p f).2 = f) ∧ (∀ c s, (exDecideChunkState c s).2 = c) ∧
    ud_decide_by_rule_state exFilterFindState exDecideChunkState [exRuleHold] 0 "foo" "1" "2"
      "a" = some (UD_HOLD, [], [exRuleHold]) ∧
    ud_decide_by_rule_state exFilterFindState exDecideChunkState [exRuleHold] 0 "foo" "3" "4"
      "a" = some (UD_HOLD, [], [exRuleHold]) := by
  obtain ⟨d, out, rule1, hcall, _, hpure⟩ :=
    (ud_decide_by_rule_versions exFilterFindState exDecideChunkState [exRuleHold] 0 "foo" "1"
      "2" "3" "4" "a").2 exRuleHold rfl
  obtain ⟨_, hset, hverdict, hsecond⟩ := hpure (fun _ _ => rfl) (fun _ _ => rfl)
  have hd : (d, out) = (UD_HOLD, []) := by
    rw [hverdict]
    decide
  rw [hset] at hcall hsecond
  simp only [Prod.mk.injEq] at hd
  rw [hd.1, hd.2] at hcall hsecond
  exact ⟨rfl, fun _ _ => rfl, fun _ _ => rfl, hcall, hsecond⟩

theorem pull_update_search_error_witness :
    update_ready exEngineDeleteFails exStart ∧
    (∃ r st1, pull_update exEngineDeleteFails exStart = some (r, st1)) ∧
    pull_update exEngineDeleteFails exStart = some (RET_ERROR, exEndDeleteFails) ∧
    (RET_WAS_ERROR RET_ERROR = true ∧
      ∀ x ∈ exEndDeleteFails.events, is_install x.call = false) ∧
    pull_update exEngine exStartDelete = some (RET_NOTHING, exEndDelete) ∧
    ((∀ y ∈ exEndDelete.events, ¬ reports_error is_search y) ∧
      (∀ y ∈ exEndDelete.events.drop 7, is_search y.call = false) ∧
      (exEndDelete.events.take 6).filterMap search_step_of =
        plan_steps exStartDelete.distributions) ∧
    plan_steps exStartDelete.distributions =
      [search_step.allocate (0, 1), search_step.deleteall, search_step.allocate (0, 0),
        search_step.deleteall, search_step.pull (some (1, 0)) 0] :=
  ⟨⟨⟨by decide, fun _ _ _ _ => Or.inl (by decide)⟩, by decide, fun _ _ _ _ _ => rfl⟩,
    (pull_update_search_error exEngineDeleteFails exStart).1
      ⟨⟨by decide, fun _ _ _ _ => Or.inl (by decide)⟩, by decide, fun _ _ _ _ _ => rfl⟩,
    by decide,
    ((pull_update_search_error exEngineDeleteFails exStart).2 RET_ERROR exEndDeleteFails
      exEndDeleteFails.events (by decide) rfl).1
      ⟨⟨call.upgradelist_deleteall (some 1), some RET_ERROR⟩, by decide, rfl, RET_ERROR, rfl,
        rfl⟩,
    by decide,
    ((pull_update_search_error exEngine exStartDelete).2 RET_NOTHING exEndDelete
      exEndDelete.events (by decide) rfl).2 (exEndDelete.events.take 6)
      ⟨call.upgradelist_install (some 1) 0 false, some RET_NOTHING⟩
      (exEndDelete.events.drop 7) rfl rfl,
    by decide⟩

theorem pull_checkupdate_frame_witness :
    check_ready exEngine exStart ∧
    (∃ r st1, pull_checkupdate exEngine exStart = some (r, st1)) ∧
    pull_checkupdate exEngine exStart = some (RET_NOTHING, exEndCheck) ∧
    exEndCheck.status = exStart.status ∧
    ∃ new, exEndCheck.events = exStart.events ++ new ∧
      ∀ ev ∈ new, is_check ev.call = true ∧ is_prepare ev.call = false ∧
        is_install ev.call = false :=
  ⟨⟨by decide, fun _ _ _ _ => Or.inl (by decide)⟩,
    (pull_checkupdate_frame exEngine exStart).1
      ⟨by decide, fun _ _ _ _ => Or.inl (by decide)⟩,
    by decide,
    (pull_checkupdate_frame exEngine exStart).2 RET_NOTHING exEndCheck (by decide)⟩

theorem pull_update_result_witness :
    update_ready exEngineLogger exStartTwo ∧
    exEngineLogger.logger_isprepared [] 0 = false ∧
    (∃ r st1, pull_update exEngineLogger exStartTwo = some (r, st1)) ∧
    pull_update exEngineLogger exStartTwo = some (RET_ERROR, exEndInstallFails) ∧
    exEndInstallFails.events = exStartTwo.events ++ exEndInstallFails.events ∧
    (∀ ev ∈ exEndInstallFails.events, ¬ reports_error is_prepare ev) ∧
    RET_ERROR = severity_merge (exEndInstallFails.events.filterMap counted) ∧
    ((∃ ev ∈ exEndInstallFails.events, ∃ r0, counted ev = some r0 ∧ RET_WAS_ERROR r0 = true) →
      RET_WAS_ERROR RET_ERROR = true) ∧
    ∀ ev, counted ev =
      match ev.call, ev.r with
      | call.upgradelist_initialize _, some r0 => if RET_WAS_ERROR r0 then some r0 else none
      | _, _ => step_result ev :=
  ⟨⟨⟨by decide, fun _ _ _ _ => Or.inl (by decide)⟩, by decide,
      fun _ _ _ hmem _ => List.any_eq_true.2 ⟨_, hmem, by simp⟩⟩,
    rfl,
    (pull_update_result exEngineLogger exStartTwo).1
      ⟨⟨by decide, fun _ _ _ _ => Or.inl (by decide)⟩, by decide,
        fun _ _ _ hmem _ => List.any_eq_true.2 ⟨_, hmem, by simp⟩⟩,
    by decide, rfl, by simp [exEndInstallFails, reports_error, is_prepare, RET_WAS_ERROR],
    (pull_update_result exEngineLogger exStartTwo).2 RET_ERROR exEndInstallFails
      exEndInstallFails.events (by decide) rfl
      (by simp [exEndInstallFails, reports_error, is_prepare, RET_WAS_ERROR])⟩

theorem pull_update_prepare_error_witness :
    (pull_update_prepare exEngineOpenFails exStart.distributions exStart.events).1 =
      some RET_ERROR ∧
    (∃ st1, pull_update exEngineOpenFails exStart = some (RET_ERROR, st1)) ∧
    pull_update exEngineOpenFails exStart = some (RET_ERROR, exEndOpenFails) ∧
    exEndOpenFails.events = exStart.events ++ exEndOpenFails.events ∧
    RET_ERROR = RET_ERROR ∧ exEndOpenFails.distributions = exStart.distributions ∧
    exEndOpenFails.status = exStart.status ∧
    (∀ x ∈ exEndOpenFails.events, is_prepare x.call = true) ∧
    exEndOpenFails.events.map (fun x => x.call) =
      (exStart.distributions.take exEndOpenFails.events.length).map
        (fun d => call.distribution_prepareforwriting d.distribution) ∧
    exEndOpenFails.events.length ≤ exStart.distributions.length ∧
    ∃ init, exEndOpenFails.events =
        init ++ [⟨call.distribution_prepareforwriting 0, some RET_ERROR⟩] ∧
      ∀ x ∈ init, ∀ rx, x.r = some rx → RET_WAS_ERROR rx = false :=
  ⟨by decide, (pull_update_prepare_error exEngineOpenFails exStart).1 RET_ERROR (by decide),
    by decide, rfl,
    (pull_update_prepare_error exEngineOpenFails exStart).2 RET_ERROR exEndOpenFails
      exEndOpenFails.events ⟨call.distribution_prepareforwriting 0, some RET_ERROR⟩ RET_ERROR
      (by decide) rfl (by decide) rfl rfl rfl⟩

/-! ## The typo checks -/

theorem first_reports_append (l : strlist) (x : String) (bad : String → Bool) :
    first_reports (l ++ [x]) bad =
      first_reports l bad ++ (if l.contains x then [] else if bad x then [x] else []) := by
  unfold first_reports
  rw [List.length_append, List.length_singleton, List.range_succ, List.filterMap_append]
  congr 1
  · apply List.filterMap_congr
    intro i hi
    have hi1 := List.mem_range.1 hi
    rw [List.getElem?_append_left hi1, List.take_append_of_le_length (Nat.le_of_lt hi1)]
  · simp only [List.filterMap_cons, List.filterMap_nil]
    rw [List.getElem?_append_right (Nat.le_refl _)]
    simp only [Nat.sub_self, List.getElem?_cons_zero, List.take_left']
    split_ifs <;> simp_all

theorem first_reports_count (needed : strlist) (bad : String → Bool) (v : String) :
    (first_reports needed bad).count v = if v ∈ needed ∧ bad v = true then 1 else 0 := by
  induction needed using List.reverseRecOn with
  | nil => simp [first_reports]
  | append_singleton l x ih =>
    rw [first_reports_append, List.count_append, ih]
    by_cases hx : x = v
    · subst hx
      by_cases hmem : x ∈ l
      · simp [hmem]
      · by_cases hb : bad x = true
        · simp [hmem, hb]
        · simp [hmem, hb]
    · have hvx : ¬ v = x := fun h => hx h.symm
      by_cases hmem : x ∈ l
      · simp [hmem, hvx]
      · by_cases hb : bad x = true
        · simp [hmem, hb, hvx, List.count_cons, hx]
        · simp [hmem, hb, hvx]

theorem first_reports_mem (needed : strlist) (bad : String → Bool) (v : String) :
    v ∈ first_reports needed bad ↔ v ∈ needed ∧ bad v = true := by
  rw [← List.count_pos_iff, first_reports_count]
  split_ifs with h
  · simp [h]
  · simp [h]

theorem checksubset_eq (needed have_ : strlist) (rulename from_ what : String) :
    checksubset needed have_ rulename from_ what =
      (first_reports needed (fun v => v != "none" && !have_.contains v)).map
        (fun v => message.no_such rulename what v from_) := by
  unfold checksubset first_reports
  rw [List.map_filterMap]
  apply List.filterMap_congr
  intro i _
  cases needed[i]? with
  | none => rfl
  | some v =>
    simp only [strlist_in]
    by_cases h1 : v = "none"
    · simp [h1]
    · by_cases h2 : v ∈ List.take i needed
      · simp [h1, h2]
      · by_cases h3 : v ∈ have_
        · simp [h1, h2, h3]
        · simp [h1, h2, h3]

theorem zip_range_filterMap {α β γ : Type} (l : List α) (g : Nat → β)
    (F : α × β → Option γ) :
    (l.zip ((List.range l.length).map g)).filterMap F =
      (List.range l.length).filterMap (fun i =>
        match l[i]? with
        | none => none
        | some v => F (v, g i)) := by
  induction l using List.reverseRecOn with
  | nil => rfl
  | append_singleton l x ih =>
    rw [List.length_append, List.length_singleton, List.range_succ, List.map_append,
      List.zip_append (by simp), List.filterMap_append, List.filterMap_append, ih]
    congr 1
    · apply List.filterMap_congr
      intro i hi
      rw [List.getElem?_append_left (List.mem_range.1 hi)]
    · have hlast : (l ++ [x])[l.length]? = some x := by
        rw [List.getElem?_append_right (Nat.le_refl _)]
        simp
      rw [List.filterMap_cons]
      simp only [hlast, List.filterMap_nil, List.map_cons, List.map_nil, List.zip_cons_cons,
        List.zip_nil_right, List.filterMap_cons]

theorem mark_have_getElem (needed have_ : strlist) (found : List Bool) (i : Nat) :
    (have_.foldl (fun found h =>
        match strlist_ofs needed h with
        | some o => found.set o true
        | none => found) found)[i]? =
      (found[i]?).map (fun b => b || have_.any (fun h => strlist_ofs needed h == some i)) := by
  induction have_ generalizing found with
  | nil => simp
  | cons h rest ih =>
    rw [List.foldl_cons, ih]
    cases hofs : strlist_ofs needed h with
    | none => simp [hofs]
    | some o =>
      simp only [List.getElem?_set, List.any_cons]
      by_cases hoi : o = i
      · subst hoi
        by_cases hlt : o < found.length
        · simp [hlt, List.getElem?_eq_getElem hlt, hofs]
        · simp [hlt, List.getElem?_eq_none (Nat.le_of_not_lt hlt)]
      · cases found[i]? with
        | none => simp [hoi]
        | some b =>
          have hoi1 : (o == i) = false := by simpa using hoi
          simp [hoi, hofs, hoi1]

theorem markasused_getElem (pulls : strlist) (rulename : String) (needed have_ : strlist)
    (found : List Bool) (i : Nat) :
    (markasused pulls rulename needed have_ found)[i]? =
      (found[i]?).map (fun b => b ||
        (pulls.contains rulename && have_.any (fun h => strlist_ofs needed h == some i))) := by
  unfold markasused
  induction pulls generalizing found with
  | nil => simp
  | cons p rest ih =>
    rw [List.foldl_cons, ih]
    by_cases hp : p = rulename
    · subst hp
      simp only [ne_eq, not_true_eq_false, if_false, mark_have_getElem]
      cases found[i]? with
      | none => rfl
      | some b =>
        simp only [Option.map_some', List.contains_cons, beq_self_eq_true, Bool.or_true,
          Bool.true_and, Option.some.injEq]
        cases b <;> cases List.any have_ (fun h => strlist_ofs needed h == some i) <;> simp
    · have hne : (rulename == p) = false := by
        simp only [beq_eq_false_iff_ne, ne_eq]
        exact fun h => hp h.symm
      simp only [ne_eq, hp, not_false_eq_true, if_true, List.contains_cons, hne, Bool.or_false,
        Bool.false_or]

theorem checkifisused_found_getElem (needed : strlist)
    (alldistributions : List distribution) (rulename : String)
    (have_ : distribution → strlist) (i : Nat) :
    (checkifisused_found needed alldistributions rulename have_)[i]? =
      ((strlist_preparefoundlist needed true)[i]?).map (fun b => b ||
        alldistributions.any (fun d => d.pulls.contains rulename &&
          (have_ d).any (fun h => strlist_ofs needed h == some i))) := by
  unfold checkifisused_found
  generalize strlist_preparefoundlist needed true = found
  induction alldistributions generalizing found with
  | nil => simp
  | cons d rest ih =>
    rw [List.foldl_cons, ih, markasused_getElem]
    cases found[i]? with
    | none => rfl
    | some b => simp [Bool.or_assoc]

theorem strlist_ofs_first (needed : strlist) (i : Nat) (v h : String)
    (hv : needed[i]? = some v) (hfirst : v ∉ needed.take i) :
    (strlist_ofs needed h == some i) = (h == v) := by
  have hi : i < needed.length := by
    by_contra hlt
    rw [List.getElem?_eq_none (Nat.le_of_not_lt hlt)] at hv
    simp at hv
  rw [List.getElem?_eq_getElem hi, Option.some.injEq] at hv
  by_cases hhv : h = v
  · subst hhv
    have : strlist_ofs needed h = some i := by
      unfold strlist_ofs
      rw [List.findIdx?_eq_some_iff_getElem]
      refine ⟨hi, by simp [hv], ?_⟩
      intro j hj
      have hjl : j < needed.length := lt_trans hj hi
      simp only [Bool.not_eq_true, beq_eq_false_iff_ne, ne_eq]
      intro hjv
      apply hfirst
      rw [List.mem_take_iff_getElem]
      exact ⟨j, by simp [hj, hjl], hjv⟩
    simp [this]
  · have : strlist_ofs needed h ≠ some i := by
      intro hofs
      unfold strlist_ofs at hofs
      obtain ⟨_, hp, _⟩ := List.findIdx?_eq_some_iff_getElem.1 hofs
      simp only [beq_iff_eq] at hp
      exact hhv (by rw [← hp, hv])
    simp [this, hhv]

theorem checkifisused_found_eq (needed : strlist) (alldistributions : List distribution)
    (rulename : String) (have_ : distribution → strlist) :
    checkifisused_found needed alldistributions rulename have_ =
      (List.range needed.length).map (fun i =>
        match needed[i]? with
        | none => false
        | some v => v == "none" || (needed.take i).contains v ||
            referencing_has alldistributions rulename have_ v) := by
  apply List.ext_getElem?
  intro i
  rw [checkifisused_found_getElem]
  unfold strlist_preparefoundlist
  by_cases hi : i < needed.length
  · rw [List.getElem?_map, List.getElem?_map, List.getElem?_range hi]
    simp only [Option.map_some', List.getElem?_eq_getElem hi, Bool.true_and, Option.some.injEq]
    by_cases hfirst : needed[i] ∈ needed.take i
    · simp [hfirst]
    · have hcongr : ∀ d : distribution,
          (have_ d).any (fun h => strlist_ofs needed h == some i) =
            (have_ d).contains needed[i] := by
        intro d
        rw [List.contains_eq_any_beq]
        congr 1
        funext h
        rw [strlist_ofs_first needed i needed[i] h (List.getElem?_eq_getElem hi) hfirst]
        exact Bool.beq_comm
      simp only [hcongr, referencing_has]
  · have hle := Nat.le_of_not_lt hi
    rw [List.getElem?_eq_none (by simpa using hle), List.getElem?_eq_none (by simpa using hle)]
    rfl

theorem checkifisused_eq {γ : Type} (needed : strlist) (alldistributions : List distribution)
    (rulename : String) (have_ : distribution → strlist) (mk : String → γ) :
    (needed.zip (checkifisused_found needed alldistributions rulename have_)).filterMap
        (fun vf => if vf.2 then none else some (mk vf.1)) =
      (first_reports needed (fun v => v != "none" &&
        !referencing_has alldistributions rulename have_ v)).map mk := by
  rw [checkifisused_found_eq, zip_range_filterMap]
  unfold first_reports
  rw [List.map_filterMap]
  apply List.filterMap_congr
  intro i _
  cases needed[i]? with
  | none => rfl
  | some v =>
    simp only
    by_cases h1 : v = "none"
    · simp [h1]
    · by_cases h2 : v ∈ List.take i needed
      · simp [h1, h2]
      · by_cases h3 : referencing_has alldistributions rulename have_ v = true
        · simp [h1, h2, h3]
        · simp [h1, h2, h3]

theorem used_first_mark_used (rules : List (pull_rule term filterlist)) (name : String)
    (k : Nat) (hinv : used_first rules)
    (hfind : rules.findIdx? (fun x => x.name == name) = some k) :
    used_first (mark_used rules k) := by
  obtain ⟨hk, hp, hmin⟩ := List.findIdx?_eq_some_iff_getElem.1 hfind
  simp only [beq_iff_eq] at hp
  have hnames : ∀ i x, (mark_used rules k)[i]? = some x →
      ∃ y, rules[i]? = some y ∧ x.name = y.name ∧ (i ≠ k → x = y) := by
    intro i x hx
    unfold mark_used at hx
    rw [List.getElem?_eq_getElem hk] at hx
    simp only [List.getElem?_set] at hx
    by_cases hik : k = i
    · subst hik
      simp only [hk, if_true, Option.some.injEq] at hx
      exact ⟨rules[k], List.getElem?_eq_getElem hk, by rw [← hx], fun h => absurd rfl h⟩
    · simp only [hik, if_false] at hx
      exact ⟨x, hx, rfl, fun _ => rfl⟩
  unfold used_first
  intro j rule hj hused i x hij hi
  obtain ⟨y, hy, hyname, _⟩ := hnames i x hi
  obtain ⟨z, hz, hzname, hzeq⟩ := hnames j rule hj
  rw [hyname, hzname]
  by_cases hjk : j = k
  · subst hjk
    have hil : i < rules.length := lt_trans hij hk
    rw [List.getElem?_eq_getElem hil, Option.some.injEq] at hy
    rw [List.getElem?_eq_getElem hk, Option.some.injEq] at hz
    rw [← hy, ← hz, hp]
    have := hmin i hij
    simpa using this
  · have hzr := hzeq hjk
    subst hzr
    exact hinv j rule hz hused i y hij hy

theorem used_first_initdistribution_loop (codename : String) (names : List String)
    (rules : List (pull_rule term filterlist)) (slots : List (Option Nat))
    (err : List message) (hinv : used_first rules) :
    used_first (pull_initdistribution_loop codename names rules slots err).2.1 := by
  induction names generalizing rules slots with
  | nil => exact hinv
  | cons name rest ih =>
    unfold pull_initdistribution_loop
    by_cases hn : name = "-"
    · simp only [hn, if_true]
      exact ih _ _ hinv
    · simp only [hn, if_false]
      cases hfind : rules.findIdx? (fun rule => rule.name == name) with
      | none => exact hinv
      | some k => exact ih _ _ (used_first_mark_used rules name k hinv hfind)

theorem used_first_initdistribution (di : Nat) (d : distribution)
    (rules : List (pull_rule term filterlist)) (err : List message)
    (hinv : used_first rules) : used_first (pull_initdistribution di d rules err).2.1 := by
  unfold pull_initdistribution
  by_cases h0 : d.pulls.length = 0
  · simp only [h0, if_true]
    exact hinv
  · simp only [h0, if_false]
    have := used_first_initdistribution_loop d.codename d.pulls rules [] err hinv
    cases hl : pull_initdistribution_loop d.codename d.pulls rules [] err with
    | mk r rest =>
      obtain ⟨rules1, slots1, err1⟩ := rest
      rw [hl] at this
      cases r <;> exact this

theorem used_first_init_loop (ds : List distribution) (di : Nat)
    (rules : List (pull_rule term filterlist)) (p : List pull_distribution)
    (err : List message) (r : retvalue) (rules1 : List (pull_rule term filterlist))
    (pulls : Option (List pull_distribution)) (err1 : List message)
    (hinv : used_first rules)
    (h : pull_init_loop ds di rules p err = some (r, rules1, pulls, err1)) :
    used_first rules1 := by
  induction ds generalizing di rules p err with
  | nil =>
    simp only [pull_init_loop, Option.some.injEq, Prod.mk.injEq] at h
    rw [← h.2.1]
    exact hinv
  | cons d next ih =>
    unfold pull_init_loop at h
    by_cases hsel : d.selected = true
    · simp only [hsel, Bool.not_true, Bool.false_eq_true, if_false] at h
      have hinv1 := used_first_initdistribution di d rules err hinv
      cases hi : pull_initdistribution di d rules err with
      | mk r0 rest =>
        obtain ⟨rules0, pp, err0⟩ := rest
        rw [hi] at hinv1
        simp only at hinv1
        simp only [hi] at h
        split at h
        · simp only [Option.some.injEq, Prod.mk.injEq] at h
          rw [← h.2.1]
          exact hinv1
        · split at h
          · cases pp with
            | none => simp at h
            | some pd => exact ih _ _ _ _ hinv1 h
          · exact ih _ _ _ _ hinv1 h
    · simp only [hsel, Bool.not_false, if_true] at h
      exact ih _ _ _ _ hinv h

theorem used_first_bind_source (alldistributions : List distribution)
    (rules : List (pull_rule term filterlist)) (hinv : used_first rules) :
    used_first (rules.map (bind_source alldistributions)) := by
  have hb : ∀ rule : pull_rule term filterlist,
      (bind_source alldistributions rule).name = rule.name ∧
        (bind_source alldistributions rule).used = rule.used := by
    intro rule
    unfold bind_source
    split <;> exact ⟨rfl, rfl⟩
  unfold used_first
  intro j rule hj hused i x hij hi
  rw [List.getElem?_map] at hj hi
  cases hrj : rules[j]? with
  | none => simp [hrj] at hj
  | some rj =>
    cases hri : rules[i]? with
    | none => simp [hri] at hi
    | some ri =>
      simp only [hrj, hri, Option.map_some', Option.some.injEq] at hj hi
      rw [← hj, ← hi, (hb rj).1, (hb ri).1]
      refine hinv j rj hrj ?_ i ri hij hri
      rw [← (hb rj).2, hj]
      exact hused

theorem checkifarchitectureisused_eq (architectures : strlist)
    (alldistributions : List distribution) (rule : pull_rule term filterlist)
    (action : String) :
    checkifarchitectureisused architectures alldistributions rule action =
      (first_reports architectures (fun v => v != "none" &&
        !referencing_has alldistributions rule.name (fun d => d.architectures) v)).map
        (message.unused_architecture rule.name action) := by
  unfold checkifarchitectureisused
  split
  · rename_i h0
    rw [List.length_eq_zero.1 h0]
    rfl
  · exact checkifisused_eq _ _ _ _ _

theorem checkifcomponentisused_eq (components : strlist)
    (alldistributions : List distribution) (rule : pull_rule term filterlist)
    (action : String) :
    checkifcomponentisused components alldistributions rule action =
      (first_reports components (fun v => v != "none" &&
        !referencing_has alldistributions rule.name (fun d => d.components) v)).map
        (message.unused_component rule.name action) := by
  unfold checkifcomponentisused
  split
  · rename_i h0
    rw [List.length_eq_zero.1 h0]
    rfl
  · exact checkifisused_eq _ _ _ _ _

theorem checkifudebcomponentisused_eq (udebcomponents : strlist)
    (alldistributions : List distribution) (rule : pull_rule term filterlist)
    (action : String) :
    checkifudebcomponentisused udebcomponents alldistributions rule action =
      (first_reports udebcomponents (fun v => v != "none" &&
        !referencing_has alldistributions rule.name (fun d => d.udebcomponents) v)).map
        (message.unused_udebcomponent rule.name action) := by
  unfold checkifudebcomponentisused
  split
  · rename_i h0
    rw [List.length_eq_zero.1 h0]
    rfl
  · exact checkifisused_eq _ _ _ _ _

theorem searchunused_bound (alldistributions : List distribution)
    (rule : pull_rule term filterlist) (di : Nat) (part : List message)
    (hdi : rule.distribution = some di) (h : searchunused alldistributions rule = some part) :
    rule_warnings alldistributions rule part := by
  unfold searchunused at h
  simp only [hdi] at h
  cases hd : alldistributions[di]? with
  | none => simp [hd] at h
  | some d =>
    simp only [hd, Option.some.injEq] at h
    refine ⟨di, d, hdi, hd, ?_⟩
    rw [← h]
    simp only [bound_rule_warnings, List.append_assoc]

theorem pull_searchunused_spec (alldistributions : List distribution)
    (rules : List (pull_rule term filterlist)) (err err1 : List message)
    (hbound : ∀ rule ∈ rules, rule.used = true → rule.distribution ≠ none)
    (h : pull_searchunused alldistributions rules err = some err1) :
    ∃ parts, List.Forall₂ (rule_warnings alldistributions)
        (rules.filter (fun rule => rule.used)) parts ∧
      err1 = err ++ parts.flatten := by
  induction rules generalizing err with
  | nil =>
    simp only [pull_searchunused, Option.some.injEq] at h
    exact ⟨[], by simp, by simp [h]⟩
  | cons rule next ih =>
    have hnext : ∀ x ∈ next, x.used = true → x.distribution ≠ none :=
      fun x hx => hbound x (List.mem_cons_of_mem _ hx)
    unfold pull_searchunused at h
    by_cases hused : rule.used = true
    · simp only [hused, Bool.not_true, Bool.false_eq_true, if_false] at h
      cases hs : searchunused alldistributions rule with
      | none => simp [hs] at h
      | some w =>
        simp only [hs] at h
        obtain ⟨parts, hf, herr⟩ := ih _ hnext h
        cases hdi : rule.distribution with
        | none => exact absurd hdi (hbound rule (List.mem_cons_self _ _) hused)
        | some di =>
          refine ⟨w :: parts, ?_, by rw [herr]; simp⟩
          rw [List.filter_cons, if_pos hused]
          exact List.Forall₂.cons (searchunused_bound _ _ di w hdi hs) hf
    · simp only [hused, Bool.not_false, if_true] at h
      obtain ⟨parts, hf, herr⟩ := ih _ hnext h
      refine ⟨parts, ?_, herr⟩
      rw [List.filter_cons, if_neg hused]
      exact hf

theorem pull_initdistribution_err (di : Nat) (d : distribution)
    (rules : List (pull_rule term filterlist)) (err : List message) :
    RET_WAS_ERROR (pull_initdistribution di d rules err).1 = false →
      (pull_initdistribution di d rules err).2.2.2 = err := by
  unfold pull_initdistribution
  by_cases h0 : d.pulls.length = 0
  · simp [h0]
  · simp only [h0, if_false]
    obtain ⟨r, rules1, slots1, err1, he, _, hcase⟩ :=
      pull_initdistribution_loop_spec d.codename d.pulls rules [] err
    rw [he]
    rcases hcase with ⟨hr, herr, _⟩ | ⟨hr, _⟩
    · subst hr
      intro _
      exact herr
    · subst hr
      intro h
      simp [RET_WAS_ERROR] at h

theorem pull_init_loop_err (ds : List distribution) (di : Nat)
    (rules : List (pull_rule term filterlist)) (p : List pull_distribution)
    (err : List message) (r : retvalue) (rules1 : List (pull_rule term filterlist))
    (pulls : Option (List pull_distribution)) (err1 : List message)
    (h : pull_init_loop ds di rules p err = some (r, rules1, pulls, err1))
    (hr : RET_WAS_ERROR r = false) : err1 = err := by
  induction ds generalizing di rules p err with
  | nil =>
    simp only [pull_init_loop, Option.some.injEq, Prod.mk.injEq] at h
    exact h.2.2.2.symm
  | cons d next ih =>
    unfold pull_init_loop at h
    by_cases hsel : d.selected = true
    · simp only [hsel, Bool.not_true, Bool.false_eq_true, if_false] at h
      have herr := pull_initdistribution_err di d rules err
      cases hi : pull_initdistribution di d rules err with
      | mk r0 rest =>
        obtain ⟨rules0, pp, err0⟩ := rest
        rw [hi] at herr
        simp only at herr
        simp only [hi] at h
        by_cases hr0 : RET_WAS_ERROR r0 = true
        · rw [if_pos hr0] at h
          simp only [Option.some.injEq, Prod.mk.injEq] at h
          rw [← h.1, hr0] at hr
          simp at hr
        · rw [if_neg hr0] at h
          have herr0 : err0 = err := herr (by simpa using hr0)
          subst herr0
          split at h
          · cases pp with
            | none => simp at h
            | some pd => exact ih _ _ _ _ h
          · exact ih _ _ _ _ h
    · simp only [hsel, Bool.not_false, if_true] at h
      exact ih _ _ _ _ h

theorem bind_source_used (alldistributions : List distribution)
    (rules1 : List (pull_rule term filterlist))
    (hno : ∀ rule ∈ rules1, ¬ unresolved alldistributions rule) :
    ∀ rule ∈ rules1.map (bind_source alldistributions), rule.used = true →
      rule.distribution ≠ none := by
  intro rule2 hrule2 hused
  obtain ⟨rule1, hrule1, rfl⟩ := List.mem_map.1 hrule2
  unfold bind_source at hused ⊢
  by_cases hu : rule1.used = true ∧ rule1.distribution = none
  · simp only [hu, and_self, if_true]
    cases hfind : alldistributions.findIdx? (fun d => d.codename == rule1.from_) with
    | none =>
      exfalso
      refine hno rule1 hrule1 ⟨hu.1, hu.2, ?_⟩
      rw [List.findIdx?_eq_none_iff] at hfind
      intro d hd
      simpa using hfind d hd
    | some di => simp
  · simp only [hu, if_false] at hused ⊢
    intro hdist
    exact hu ⟨hused, hdist⟩

/-- What `pull_prepare` without `fast` has printed when it stores a plan: for every used rule,
in the order of the rule table, the findings of the typo checks for that rule. -/
theorem pull_prepare_warnings (alldistributions : List distribution)
    (rules : List (pull_rule term filterlist))
    (res : prepare_result term filterlist) (plan : List pull_distribution)
    (h : pull_prepare alldistributions rules false = some res) (hplan : res.pd = some plan) :
    res.r = RET_OK ∧ (used_first rules → used_first res.rules) ∧
    ∃ parts, List.Forall₂ (rule_warnings alldistributions)
        (res.rules.filter (fun rule => rule.used)) parts ∧
      res.err = parts.flatten := by
  obtain ⟨r, rules1, pulls, err1, he, hg, hcase⟩ :=
    pull_init_loop_spec alldistributions 0 rules [] []
  have hfirst1 : used_first rules → used_first rules1 :=
    fun hinv => used_first_init_loop _ _ _ _ _ _ _ _ _ hinv he
  unfold pull_prepare pull_init at h
  rw [he] at h
  simp only at h
  rcases hcase with ⟨hr, new, hnew, hf⟩ | ⟨hr, _, _⟩
  · subst hr
    have herr1 : err1 = [] := pull_init_loop_err _ _ _ _ _ _ _ _ _ he rfl
    subst herr1
    obtain ⟨r2, rules2, err2, he2, hcase2⟩ :=
      pull_loadsourcedistributions_spec alldistributions rules1 []
    rw [he2] at h
    simp only [RET_WAS_ERROR, Bool.false_eq_true, if_false] at h
    rcases hcase2 with ⟨hr2, hrules2, herr2, hno⟩ | ⟨hr2, _⟩
    · subst hr2
      subst herr2
      simp only [Bool.false_eq_true, if_false, Bool.not_false, if_true] at h
      cases hs : pull_searchunused alldistributions rules2 [] with
      | none => simp [hs] at h
      | some err3 =>
        simp only [hs] at h
        obtain ⟨parts, hparts, herr3⟩ := pull_searchunused_spec alldistributions rules2 [] err3
          (by rw [hrules2]; exact bind_source_used alldistributions rules1 hno) hs
        cases pulls with
        | none => simp at h
        | some p =>
          simp only at h
          cases hgen : pull_generatetargets alldistributions rules2 p with
          | none => simp [hgen] at h
          | some rp =>
            obtain ⟨r4, p4⟩ := rp
            simp only [hgen] at h
            split at h
            · simp only [Option.some.injEq] at h
              subst h
              simp at hplan
            · simp only [Option.some.injEq] at h
              subst h
              refine ⟨rfl, ?_, parts, hparts, by simpa using herr3⟩
              intro hinv
              simp only
              rw [hrules2]
              exact used_first_bind_source alldistributions rules1 (hfirst1 hinv)
    · subst hr2
      simp only [if_true, Option.some.injEq] at h
      subst h
      simp at hplan
  · subst hr
    simp only [RET_WAS_ERROR, if_true, Option.some.injEq] at h
    subst h
    simp at hplan

theorem referencing_has_iff (alldistributions : List distribution) (rulename : String)
    (have_ : distribution → strlist) (v : String) :
    referencing_has alldistributions rulename have_ v = true ↔
      ∃ d ∈ alldistributions, rulename ∈ d.pulls ∧ v ∈ have_ d := by
  simp [referencing_has, List.any_eq_true]

theorem checksubset_mem (needed have_ : strlist) (rulename from_ what : String)
    (m : message) (h : m ∈ checksubset needed have_ rulename from_ what) :
    ∃ v, m = message.no_such rulename what v from_ := by
  rw [checksubset_eq] at h
  obtain ⟨v, _, hv⟩ := List.mem_map.1 h
  exact ⟨v, hv.symm⟩

theorem checksubset_count (needed have_ : strlist) (rulename from_ what v : String) :
    (checksubset needed have_ rulename from_ what).count
        (message.no_such rulename what v from_) =
      if v ∈ needed ∧ v ≠ "none" ∧ v ∉ have_ then 1 else 0 := by
  rw [checksubset_eq, List.count_map_of_injective _
    (fun v => message.no_such rulename what v from_) (by
    intro a b hab
    simpa using hab) v, first_reports_count]
  by_cases h1 : v ∈ needed <;> by_cases h2 : v = "none" <;> by_cases h3 : v ∈ have_ <;>
    simp [h1, h2, h3]

theorem checkifarchitectureisused_mem (architectures : strlist)
    (alldistributions : List distribution) (rule : pull_rule term filterlist)
    (action : String) (m : message)
    (h : m ∈ checkifarchitectureisused architectures alldistributions rule action) :
    ∃ v, m = message.unused_architecture rule.name action v := by
  rw [checkifarchitectureisused_eq] at h
  obtain ⟨v, _, hv⟩ := List.mem_map.1 h
  exact ⟨v, hv.symm⟩

theorem checkifcomponentisused_mem (components : strlist)
    (alldistributions : List distribution) (rule : pull_rule term filterlist)
    (action : String) (m : message)
    (h : m ∈ checkifcomponentisused components alldistributions rule action) :
    ∃ v, m = message.unused_component rule.name action v := by
  rw [checkifcomponentisused_eq] at h
  obtain ⟨v, _, hv⟩ := List.mem_map.1 h
  exact ⟨v, hv.symm⟩

theorem checkifudebcomponentisused_mem (udebcomponents : strlist)
    (alldistributions : List distribution) (rule : pull_rule term filterlist)
    (action : String) (m : message)
    (h : m ∈ checkifudebcomponentisused udebcomponents alldistributions rule action) :
    ∃ v, m = message.unused_udebcomponent rule.name action v := by
  rw [checkifudebcomponentisused_eq] at h
  obtain ⟨v, _, hv⟩ := List.mem_map.1 h
  exact ⟨v, hv.symm⟩

theorem checkifarchitectureisused_count (architectures : strlist)
    (alldistributions : List distribution) (rule : pull_rule term filterlist)
    (action v : String) :
    (checkifarchitectureisused architectures alldistributions rule action).count
        (message.unused_architecture rule.name action v) =
      if v ∈ architectures ∧ v ≠ "none" ∧
          ¬ ∃ d ∈ alldistributions, rule.name ∈ d.pulls ∧ v ∈ d.architectures then 1
      else 0 := by
  have href := referencing_has_iff alldistributions rule.name (fun d => d.architectures) v
  rw [checkifarchitectureisused_eq, List.count_map_of_injective _
    (fun v => message.unused_architecture rule.name action v) (by
    intro a b hab
    simpa using hab) v, first_reports_count]
  simp only [← href]
  by_cases h1 : v ∈ architectures <;> by_cases h2 : v = "none" <;>
    by_cases h3 : referencing_has alldistributions rule.name (fun d => d.architectures) v = true <;>
    simp [h1, h2, h3]

theorem checkifcomponentisused_count (components : strlist)
    (alldistributions : List distribution) (rule : pull_rule term filterlist)
    (action v : String) :
    (checkifcomponentisused components alldistributions rule action).count
        (message.unused_component rule.name action v) =
      if v ∈ components ∧ v ≠ "none" ∧
          ¬ ∃ d ∈ alldistributions, rule.name ∈ d.pulls ∧ v ∈ d.components then 1
      else 0 := by
  have href := referencing_has_iff alldistributions rule.name (fun d => d.components) v
  rw [checkifcomponentisused_eq, List.count_map_of_injective _
    (fun v => message.unused_component rule.name action v) (by
    intro a b hab
    simpa using hab) v, first_reports_count]
  simp only [← href]
  by_cases h1 : v ∈ components <;> by_cases h2 : v = "none" <;>
    by_cases h3 : referencing_has alldistributions rule.name (fun d => d.components) v = true <;>
    simp [h1, h2, h3]

theorem checkifudebcomponentisused_count (udebcomponents : strlist)
    (alldistributions : List distribution) (rule : pull_rule term filterlist)
    (action v : String) :
    (checkifudebcomponentisused udebcomponents alldistributions rule action).count
        (message.unused_udebcomponent rule.name action v) =
      if v ∈ udebcomponents ∧ v ≠ "none" ∧
          ¬ ∃ d ∈ alldistributions, rule.name ∈ d.pulls ∧ v ∈ d.udebcomponents then 1
      else 0 := by
  have href := referencing_has_iff alldistributions rule.name (fun d => d.udebcomponents) v
  rw [checkifudebcomponentisused_eq, List.count_map_of_injective _
    (fun v => message.unused_udebcomponent rule.name action v) (by
    intro a b hab
    simpa using hab) v, first_reports_count]
  simp only [← href]
  by_cases h1 : v ∈ udebcomponents <;> by_cases h2 : v = "none" <;>
    by_cases h3 :
      referencing_has alldistributions rule.name (fun d => d.udebcomponents) v = true <;>
    simp [h1, h2, h3]

theorem bound_rule_warnings_names (alldistributions : List distribution)
    (rule : pull_rule term filterlist) (d : distribution) (m : message)
    (h : m ∈ bound_rule_warnings alldistributions rule d) :
    message_rulename m = some rule.name := by
  unfold bound_rule_warnings at h
  simp only [List.mem_append] at h
  rcases h with ((((h | h) | h) | h) | h) | h
  · obtain ⟨v, rfl⟩ := checksubset_mem _ _ _ _ _ m h; rfl
  · obtain ⟨v, rfl⟩ := checksubset_mem _ _ _ _ _ m h; rfl
  · obtain ⟨v, rfl⟩ := checksubset_mem _ _ _ _ _ m h; rfl
  · obtain ⟨v, rfl⟩ := checkifarchitectureisused_mem _ _ _ _ m h; rfl
  · obtain ⟨v, rfl⟩ := checkifcomponentisused_mem _ _ _ _ m h; rfl
  · obtain ⟨v, rfl⟩ := checkifudebcomponentisused_mem _ _ _ _ m h; rfl

theorem rule_output_names (alldistributions : List distribution)
    (rule : pull_rule term filterlist) (m : message)
    (h : m ∈ rule_output alldistributions rule) : message_rulename m = some rule.name := by
  unfold rule_output at h
  cases hdi : rule.distribution with
  | none => simp [hdi] at h
  | some di =>
    cases hd : alldistributions[di]? with
    | none => simp [hdi, hd] at h
    | some d =>
      simp only [hdi, hd] at h
      exact bound_rule_warnings_names _ _ _ _ h

theorem rule_warnings_flatten (alldistributions : List distribution)
    (l : List (pull_rule term filterlist)) (parts : List (List message))
    (h : List.Forall₂ (rule_warnings alldistributions) l parts) :
    parts.flatten = l.flatMap (rule_output alldistributions) := by
  induction h with
  | nil => rfl
  | @cons rule part _ _ hab _ ih =>
    obtain ⟨di, d, hdi, hd, hpart⟩ := hab
    rw [List.flatten_cons, List.flatMap_cons, ih, hpart]
    simp only [rule_output, hdi, hd]

theorem rule_output_count_other (alldistributions : List distribution)
    (rules : List (pull_rule term filterlist)) (m : message) (name : String)
    (hm : message_rulename m = some name)
    (hother : ∀ y ∈ rules, y.used = true → y.name ≠ name) :
    ((rules.filter (fun rule => rule.used)).flatMap (rule_output alldistributions)).count m =
      0 := by
  rw [List.count_eq_zero]
  intro hmem
  obtain ⟨y, hy, hmy⟩ := List.mem_flatMap.1 hmem
  rw [List.mem_filter] at hy
  have := rule_output_names alldistributions y m hmy
  rw [hm, Option.some.injEq] at this
  exact hother y hy.1 hy.2 this.symm

/-- With every used rule the first of its name, the warnings naming a used rule are those
printed for that rule. -/
theorem rule_output_count (alldistributions : List distribution)
    (rules : List (pull_rule term filterlist)) (hinv : used_first rules)
    (rule : pull_rule term filterlist) (hrule : rule ∈ rules) (hused : rule.used = true)
    (m : message) (hm : message_rulename m = some rule.name) :
    ((rules.filter (fun rule => rule.used)).flatMap (rule_output alldistributions)).count m =
      (rule_output alldistributions rule).count m := by
  induction rules using List.reverseRecOn with
  | nil => simp at hrule
  | append_singleton l x ih =>
    have hinvl : used_first l := by
      intro j r hj hu i y hij hi
      have hjl : j < l.length := by
        by_contra hlt
        rw [List.getElem?_eq_none (Nat.le_of_not_lt hlt)] at hj
        simp at hj
      refine hinv j r ?_ hu i y hij ?_
      · rw [List.getElem?_append_left hjl]; exact hj
      · rw [List.getElem?_append_left (lt_trans hij hjl)]; exact hi
    have hlast : x.used = true → ∀ y ∈ l, y.name ≠ x.name := by
      intro hxu y hy
      obtain ⟨i, hil, hiy⟩ := List.mem_iff_getElem.1 hy
      refine hinv l.length x ?_ hxu i y hil ?_
      · rw [List.getElem?_append_right (Nat.le_refl _)]; simp
      · rw [List.getElem?_append_left hil, List.getElem?_eq_getElem hil, hiy]
    rw [List.filter_append, List.flatMap_append, List.count_append]
    by_cases hxu : x.used = true
    · by_cases hxn : x.name = rule.name
      · have hzero := rule_output_count_other alldistributions l m rule.name hm
          (fun y hy _ => by rw [← hxn]; exact hlast hxu y hy)
        have hrx : rule = x := by
          rcases List.mem_append.1 hrule with hmem | hmem
          · exact absurd hxn.symm (hlast hxu rule hmem)
          · simpa using hmem
        rw [hzero, hrx]
        simp [hxu]
      · have hrl : rule ∈ l := by
          rcases List.mem_append.1 hrule with hmem | hmem
          · exact hmem
          · simp only [List.mem_singleton] at hmem
            rw [hmem] at hxn
            exact absurd rfl hxn
        rw [ih hinvl hrl]
        have hzero : (List.flatMap (List.filter (fun rule => rule.used) [x])
            (rule_output alldistributions)).count m = 0 := by
          rw [List.count_eq_zero]
          intro hmem
          obtain ⟨y, hy, hmy⟩ := List.mem_flatMap.1 hmem
          rw [List.mem_filter, List.mem_singleton] at hy
          have := rule_output_names alldistributions y m hmy
          rw [hm, Option.some.injEq, hy.1] at this
          exact hxn this.symm
        rw [hzero]
        rfl
    · have hrl : rule ∈ l := by
        rcases List.mem_append.1 hrule with hmem | hmem
        · exact hmem
        · simp only [List.mem_singleton] at hmem
          rw [hmem] at hused
          exact absurd hused hxu
      rw [ih hinvl hrl]
      simp [hxu]

theorem used_first_of_fresh (rules : List (pull_rule term filterlist))
    (hfresh : ∀ rule ∈ rules, rule.used = false) : used_first rules := by
  intro j rule hj hu
  have hmem : rule ∈ rules := (List.mem_iff_getElem?.2 ⟨j, hj⟩)
  rw [hfresh rule hmem] at hu
  exact absurd hu (by decide)

theorem count_zero_of_forall_ne {α : Type} [DecidableEq α] (l : List α) (a : α)
    (h : ∀ x ∈ l, x ≠ a) : l.count a = 0 := by
  rw [List.count_eq_zero]
  intro hmem
  exact h a hmem rfl

theorem checksubset_count_other (needed have_ : strlist) (rulename from_ what : String)
    (m : message) (h : ∀ v, m ≠ message.no_such rulename what v from_) :
    (checksubset needed have_ rulename from_ what).count m = 0 := by
  apply count_zero_of_forall_ne
  intro x hx hxm
  obtain ⟨v, hv⟩ := checksubset_mem _ _ _ _ _ x hx
  exact h v (hxm ▸ hv)

theorem checkifarchitectureisused_count_other (architectures : strlist)
    (alldistributions : List distribution) (rule : pull_rule term filterlist)
    (action : String) (m : message)
    (h : ∀ v, m ≠ message.unused_architecture rule.name action v) :
    (checkifarchitectureisused architectures alldistributions rule action).count m = 0 := by
  apply count_zero_of_forall_ne
  intro x hx hxm
  obtain ⟨v, hv⟩ := checkifarchitectureisused_mem _ _ _ _ x hx
  exact h v (hxm ▸ hv)

theorem checkifcomponentisused_count_other (components : strlist)
    (alldistributions : List distribution) (rule : pull_rule term filterlist)
    (action : String) (m : message)
    (h : ∀ v, m ≠ message.unused_component rule.name action v) :
    (checkifcomponentisused components alldistributions rule action).count m = 0 := by
  apply count_zero_of_forall_ne
  intro x hx hxm
  obtain ⟨v, hv⟩ := checkifcomponentisused_mem _ _ _ _ x hx
  exact h v (hxm ▸ hv)

theorem checkifudebcomponentisused_count_other (udebcomponents : strlist)
    (alldistributions : List distribution) (rule : pull_rule term filterlist)
    (action : String) (m : message)
    (h : ∀ v, m ≠ message.unused_udebcomponent rule.name action v) :
    (checkifudebcomponentisused udebcomponents alldistributions rule action).count m = 0 := by
  apply count_zero_of_forall_ne
  intro x hx hxm
  obtain ⟨v, hv⟩ := checkifudebcomponentisused_mem _ _ _ _ x hx
  exact h v (hxm ▸ hv)

theorem no_such_what_ne (rulename from_ what what1 v w : String) (h : what ≠ what1) :
    message.no_such rulename what v from_ ≠ message.no_such rulename what1 w from_ := by
  intro hw
  injection hw with _ h2
  exact h h2

theorem bound_rule_warnings_source (alldistributions : List distribution)
    (rule : pull_rule term filterlist) (d : distribution) :
    source_lists_checked rule d (bound_rule_warnings alldistributions rule d) := by
  intro v
  unfold bound_rule_warnings
  simp only [List.count_append]
  refine ⟨?_, ?_, ?_⟩
  · rw [checksubset_count,
      checksubset_count_other _ _ _ _ "component" _
        (fun w => no_such_what_ne _ _ _ _ v w (by decide)),
      checksubset_count_other _ _ _ _ "udeb component" _
        (fun w => no_such_what_ne _ _ _ _ v w (by decide)),
      checkifarchitectureisused_count_other _ _ _ _ _ (by intro w hw; cases hw),
      checkifcomponentisused_count_other _ _ _ _ _ (by intro w hw; cases hw),
      checkifudebcomponentisused_count_other _ _ _ _ _ (by intro w hw; cases hw)]
    simp
  · rw [checksubset_count,
      checksubset_count_other _ _ _ _ "architecture" _
        (fun w => no_such_what_ne _ _ _ _ v w (by decide)),
      checksubset_count_other _ _ _ _ "udeb component" _
        (fun w => no_such_what_ne _ _ _ _ v w (by decide)),
      checkifarchitectureisused_count_other _ _ _ _ _ (by intro w hw; cases hw),
      checkifcomponentisused_count_other _ _ _ _ _ (by intro w hw; cases hw),
      checkifudebcomponentisused_count_other _ _ _ _ _ (by intro w hw; cases hw)]
    simp
  · rw [checksubset_count,
      checksubset_count_other _ _ _ _ "architecture" _
        (fun w => no_such_what_ne _ _ _ _ v w (by decide)),
      checksubset_count_other _ _ _ _ "component" _
        (fun w => no_such_what_ne _ _ _ _ v w (by decide)),
      checkifarchitectureisused_count_other _ _ _ _ _ (by intro w hw; cases hw),
      checkifcomponentisused_count_other _ _ _ _ _ (by intro w hw; cases hw),
      checkifudebcomponentisused_count_other _ _ _ _ _ (by intro w hw; cases hw)]
    simp

theorem bound_rule_warnings_target (alldistributions : List distribution)
    (rule : pull_rule term filterlist) (d : distribution) :
    target_lists_checked alldistributions rule
      (bound_rule_warnings alldistributions rule d) := by
  intro v
  unfold bound_rule_warnings
  simp only [List.count_append]
  refine ⟨?_, ?_, ?_⟩
  · rw [checkifarchitectureisused_count,
      checksubset_count_other _ _ _ _ "architecture" _ (by intro w hw; cases hw),
      checksubset_count_other _ _ _ _ "component" _ (by intro w hw; cases hw),
      checksubset_count_other _ _ _ _ "udeb component" _ (by intro w hw; cases hw),
      checkifcomponentisused_count_other _ _ _ _ _ (by intro w hw; cases hw),
      checkifudebcomponentisused_count_other _ _ _ _ _ (by intro w hw; cases hw)]
    simp
  · rw [checkifcomponentisused_count,
      checksubset_count_other _ _ _ _ "architecture" _ (by intro w hw; cases hw),
      checksubset_count_other _ _ _ _ "component" _ (by intro w hw; cases hw),
      checksubset_count_other _ _ _ _ "udeb component" _ (by intro w hw; cases hw),
      checkifarchitectureisused_count_other _ _ _ _ _ (by intro w hw; cases hw),
      checkifudebcomponentisused_count_other _ _ _ _ _ (by intro w hw; cases hw)]
    simp
  · rw [checkifudebcomponentisused_count,
      checksubset_count_other _ _ _ _ "architecture" _ (by intro w hw; cases hw),
      checksubset_count_other _ _ _ _ "component" _ (by intro w hw; cases hw),
      checksubset_count_other _ _ _ _ "udeb component" _ (by intro w hw; cases hw),
      checkifarchitectureisused_count_other _ _ _ _ _ (by intro w hw; cases hw),
      checkifcomponentisused_count_other _ _ _ _ _ (by intro w hw; cases hw)]
    simp

/-! ## The typo checks: what the claims say of `stderr` -/

/-- What `pull_prepare` without `fast` has printed when it stores a plan, rule by rule: every
used rule is bound to a distribution of the inventory, and `stderr` is what the typo checks
print for the used rules, in the order of the rule table. -/
theorem pull_prepare_checked (alldistributions : List distribution)
    (rules : List (pull_rule term filterlist))
    (res : prepare_result term filterlist) (plan : List pull_distribution)
    (h : pull_prepare alldistributions rules false = some res) (hplan : res.pd = some plan) :
    res.r = RET_OK ∧ (used_first rules → used_first res.rules) ∧
    res.err = (res.rules.filter (fun rule => rule.used)).flatMap
      (rule_output alldistributions) ∧
    ∀ rule ∈ res.rules, rule.used = true →
      ∃ di d, rule.distribution = some di ∧ alldistributions[di]? = some d ∧
        rule_output alldistributions rule = bound_rule_warnings alldistributions rule d := by
  obtain ⟨hr, hfirst, parts, hparts, herr⟩ :=
    pull_prepare_warnings alldistributions rules res plan h hplan
  refine ⟨hr, hfirst, ?_, ?_⟩
  · rw [herr, rule_warnings_flatten alldistributions _ parts hparts]
  · intro rule hrule hused
    have hmem : rule ∈ res.rules.filter (fun rule => rule.used) :=
      List.mem_filter.2 ⟨hrule, hused⟩
    obtain ⟨part, _, di, d, hdi, hd, _⟩ := forall₂_mem_left hparts rule hmem
    refine ⟨di, d, hdi, hd, ?_⟩
    simp only [rule_output, hdi, hd]

theorem source_lists_checked_congr (rule : pull_rule term filterlist) (d : distribution)
    (out out1 : List message)
    (hcount : ∀ m, message_rulename m = some rule.name → out1.count m = out.count m)
    (h : source_lists_checked rule d out) : source_lists_checked rule d out1 := by
  intro v
  rw [hcount (message.no_such rule.name "architecture" v rule.from_) rfl,
    hcount (message.no_such rule.name "component" v rule.from_) rfl,
    hcount (message.no_such rule.name "udeb component" v rule.from_) rfl]
  exact h v

theorem target_lists_checked_congr (alldistributions : List distribution)
    (rule : pull_rule term filterlist) (out out1 : List message)
    (hcount : ∀ m, message_rulename m = some rule.name → out1.count m = out.count m)
    (h : target_lists_checked alldistributions rule out) :
    target_lists_checked alldistributions rule out1 := by
  intro v
  rw [hcount (message.unused_architecture rule.name "put something into" v) rfl,
    hcount (message.unused_component rule.name "put something into" v) rfl,
    hcount (message.unused_udebcomponent rule.name "put something into" v) rfl]
  exact h v

/-- The typo checks are not fatal: for a rule table whose bound rules point into the inventory,
when `pull_prepare` with `fast` returns, `pull_prepare` without `fast` returns too, with the
same result code, rules and plan. -/
theorem pull_prepare_checks_return (alldistributions : List distribution)
    (rules : List (pull_rule term filterlist)) (res0 : prepare_result term filterlist)
    (hwf : ∀ rule ∈ rules, ∀ di, rule.distribution = some di → di < alldistributions.length)
    (h0 : pull_prepare alldistributions rules true = some res0) :
    ∃ err, pull_prepare alldistributions rules false =
      some ⟨res0.r, res0.rules, res0.pd, err⟩ := by
  obtain ⟨r, rules1, pulls, err1, he, hg, hcase⟩ :=
    pull_init_loop_spec alldistributions 0 rules [] []
  unfold pull_prepare pull_init at h0 ⊢
  rw [he] at h0 ⊢
  simp only at h0 ⊢
  by_cases hr : RET_WAS_ERROR r = true
  · simp only [hr, if_true, Option.some.injEq] at h0 ⊢
    subst h0
    exact ⟨_, rfl⟩
  · simp only [hr, Bool.false_eq_true, if_false] at h0 ⊢
    obtain ⟨r2, rules2, err2, he2, hcase2⟩ :=
      pull_loadsourcedistributions_spec alldistributions rules1 err1
    rw [he2] at h0 ⊢
    simp only at h0 ⊢
    by_cases hr2 : RET_WAS_ERROR r2 = true
    · simp only [hr2, if_true, Option.some.injEq] at h0 ⊢
      subst h0
      exact ⟨_, rfl⟩
    · simp only [hr2, Bool.false_eq_true, if_false] at h0 ⊢
      rcases hcase2 with ⟨_, hrules2, _, hno⟩ | ⟨hr2m, _⟩
      · obtain ⟨err3, hs⟩ := pull_searchunused_total alldistributions rules2 err2
          (by
            rw [hrules2]
            exact bind_source_bound alldistributions rules1
              (used_grows_distribution hg _ hwf) hno)
        simp only [Bool.not_true, Bool.false_eq_true, if_false, Bool.not_false, if_true,
          hs] at h0 ⊢
        cases pulls with
        | none => simp at h0
        | some p =>
          simp only at h0 ⊢
          cases hgen : pull_generatetargets alldistributions rules2 p with
          | none => simp [hgen] at h0
          | some rp =>
            obtain ⟨r4, p4⟩ := rp
            simp only [hgen] at h0 ⊢
            by_cases hr4 : RET_WAS_ERROR r4 = true
            · simp only [hr4, if_true, Option.some.injEq] at h0 ⊢
              subst h0
              exact ⟨_, rfl⟩
            · simp only [hr4, Bool.false_eq_true, if_false, Option.some.injEq] at h0 ⊢
              subst h0
              exact ⟨_, rfl⟩
      · subst hr2m
        exact absurd rfl hr2

/-- C18: `checksubset` prints, for a literal `v`, one warning if `v` is in the list, is not
`none` and is not in the set it is checked against, and none otherwise, however often the list
has `v`. When `pull_prepare` without `fast` stores a plan, `stderr` is made of one part per used
rule, in the order of the rule table; every used rule is bound to a distribution of the
inventory, and its part has, for each of the lists `architectures_from`, `components` and
`udebcomponents`, exactly these warnings against the architectures, components and
udeb-components of that distribution. If in the rule table handed in every used rule is the
first of its name, as in a table without used rules, the same counts hold in the whole of
`stderr`. -/
theorem checksubset_warnings (alldistributions : List distribution)
    (rules : List (pull_rule term filterlist))
    (res : prepare_result term filterlist) (plan : List pull_distribution)
    (h : pull_prepare alldistributions rules false = some res) (hplan : res.pd = some plan) :
    (∀ (needed have_ : strlist) (rulename from_ what v : String),
      (checksubset needed have_ rulename from_ what).count
          (message.no_such rulename what v from_) =
        if v ∈ needed ∧ v ≠ "none" ∧ v ∉ have_ then 1 else 0) ∧
    (∃ parts, List.Forall₂ (fun rule part =>
          ∃ di d, rule.distribution = some di ∧ alldistributions[di]? = some d ∧
            source_lists_checked rule d part)
        (res.rules.filter (fun rule => rule.used)) parts ∧
      res.err = parts.flatten) ∧
    (used_first rules → ∀ rule ∈ res.rules, rule.used = true →
      ∃ di d, rule.distribution = some di ∧ alldistributions[di]? = some d ∧
        source_lists_checked rule d res.err) := by
  refine ⟨checksubset_count, ?_, ?_⟩
  · obtain ⟨_, _, parts, hparts, herr⟩ :=
      pull_prepare_warnings alldistributions rules res plan h hplan
    refine ⟨parts, hparts.imp ?_, herr⟩
    rintro rule part ⟨di, d, hdi, hd, rfl⟩
    exact ⟨di, d, hdi, hd, bound_rule_warnings_source alldistributions rule d⟩
  · intro hinv rule hrule hused
    obtain ⟨_, hfirst, herr, hbound⟩ :=
      pull_prepare_checked alldistributions rules res plan h hplan
    obtain ⟨di, d, hdi, hd, hout⟩ := hbound rule hrule hused
    refine ⟨di, d, hdi, hd, ?_⟩
    refine source_lists_checked_congr rule d _ _ ?_
      (bound_rule_warnings_source alldistributions rule d)
    intro m hm
    rw [herr, rule_output_count alldistributions res.rules (hfirst hinv) rule hrule hused m hm,
      hout]

/-- C19: the typo checks are not fatal. For a rule table whose bound rules point into the
inventory, whenever `pull_prepare` with `fast`, that is without the checks, stores a plan,
`pull_prepare` without `fast` returns `RET_OK` with the same rules and the same plan, and
`stderr` is made of one part per used rule, in the order of the rule table, in which, for every
literal `v` of `architectures_into`, `components` and `udebcomponents`, there is one warning
naming the rule, `put something into` and `v` if `v` is not `none` and no distribution whose
pull list has the rule's name has `v` in its architectures, components or udeb-components, and
none otherwise. If in the rule table handed in every used rule is the first of its name, as in
a table without used rules, the same counts hold in the whole of `stderr`. -/
theorem checkifisused_warnings (alldistributions : List distribution)
    (rules : List (pull_rule term filterlist))
    (res0 : prepare_result term filterlist) (plan : List pull_distribution)
    (hwf : ∀ rule ∈ rules, ∀ di, rule.distribution = some di → di < alldistributions.length)
    (h0 : pull_prepare alldistributions rules true = some res0)
    (hplan : res0.pd = some plan) :
    ∃ res, pull_prepare alldistributions rules false = some res ∧
      res.r = RET_OK ∧ res.pd = some plan ∧ res.rules = res0.rules ∧
      (∃ parts, List.Forall₂ (fun rule part => target_lists_checked alldistributions rule part)
          (res.rules.filter (fun rule => rule.used)) parts ∧
        res.err = parts.flatten) ∧
      (used_first rules → ∀ rule ∈ res.rules, rule.used = true →
        target_lists_checked alldistributions rule res.err) := by
  obtain ⟨err, h⟩ := pull_prepare_checks_return alldistributions rules res0 hwf h0
  obtain ⟨hr, hfirst, herr, hbound⟩ :=
    pull_prepare_checked alldistributions rules _ plan h hplan
  refine ⟨_, h, hr, hplan, rfl, ?_, ?_⟩
  · obtain ⟨_, _, parts, hparts, herr1⟩ :=
      pull_prepare_warnings alldistributions rules _ plan h hplan
    refine ⟨parts, hparts.imp ?_, herr1⟩
    rintro rule part ⟨di, d, hdi, hd, rfl⟩
    exact bound_rule_warnings_target alldistributions rule d
  · intro hinv rule hrule hused
    obtain ⟨di, d, hdi, hd, hout⟩ := hbound rule hrule hused
    refine target_lists_checked_congr alldistributions rule _ _ ?_
      (bound_rule_warnings_target alldistributions rule d)
    intro m hm
    rw [herr, rule_output_count alldistributions _ (hfirst hinv) rule hrule hused m hm, hout]

theorem checksubset_warnings_witness :
    pull_prepare [exStable, exUnstable] [exRuleTypo] false = some exTypoResult ∧
    exTypoResult.err.count (message.no_such "A" "architecture" "sparc" "unstable") = 1 ∧
    (∀ (needed have_ : strlist) (rulename from_ what v : String),
      (checksubset needed have_ rulename from_ what).count
          (message.no_such rulename what v from_) =
        if v ∈ needed ∧ v ≠ "none" ∧ v ∉ have_ then 1 else 0) ∧
    (∃ parts, List.Forall₂ (fun rule part =>
          ∃ di d, rule.distribution = some di ∧ [exStable, exUnstable][di]? = some d ∧
            source_lists_checked rule d part)
        (exTypoResult.rules.filter (fun rule => rule.used)) parts ∧
      exTypoResult.err = parts.flatten) ∧
    (used_first [exRuleTypo] → ∀ rule ∈ exTypoResult.rules, rule.used = true →
      ∃ di d, rule.distribution = some di ∧ [exStable, exUnstable][di]? = some d ∧
        source_lists_checked rule d exTypoResult.err) :=
  ⟨by decide, by decide,
    checksubset_warnings [exStable, exUnstable] [exRuleTypo] exTypoResult _ (by decide) rfl⟩

theorem checkifisused_warnings_witness :
    pull_prepare [exStableB, exUnstableArm] [exRuleBParsed] true =
      some { exArmhfResult with err := [] } ∧
    pull_prepare [exStableB, exUnstableArm] [exRuleBParsed] false = some exArmhfResult ∧
    exArmhfResult.err = [message.unused_architecture "B" "put something into" "armhf"] ∧
    ∃ res, pull_prepare [exStableB, exUnstableArm] [exRuleBParsed] false = some res ∧
      res.r = RET_OK ∧ res.pd = exArmhfResult.pd ∧ res.rules = exArmhfResult.rules ∧
      (∃ parts, List.Forall₂
          (fun rule part => target_lists_checked [exStableB, exUnstableArm] rule part)
          (res.rules.filter (fun rule => rule.used)) parts ∧
        res.err = parts.flatten) ∧
      (used_first [exRuleBParsed] → ∀ rule ∈ res.rules, rule.used = true →
        target_lists_checked [exStableB, exUnstableArm] rule res.err) :=
  ⟨by decide, by decide, rfl,
    checkifisused_warnings [exStableB, exUnstableArm] [exRuleBParsed]
      { exArmhfResult with err := [] } _ (by decide) (by decide) rfl⟩

/-! ## What the first steps of `pull_prepare` print -/

theorem pull_initdistribution_loop_all (P : message → Prop)
    (hP : ∀ name codename, P (message.unknown_pull_rule name codename))
    (codename : String) (names : List String) (rules : List (pull_rule term filterlist))
    (slots : List (Option Nat)) (err : List message) (herr : ∀ m ∈ err, P m) :
    ∀ m ∈ (pull_initdistribution_loop codename names rules slots err).2.2.2, P m := by
  induction names generalizing rules slots with
  | nil => simpa [pull_initdistribution_loop] using herr
  | cons name rest ih =>
    unfold pull_initdistribution_loop
    by_cases hn : name = "-"
    · simp only [hn, if_true]
      exact ih _ _
    · simp only [hn, if_false]
      cases hfind : rules.findIdx? (fun rule => rule.name == name) with
      | none =>
        simp only
        intro m hm
        rcases List.mem_append.1 hm with hm | hm
        · exact herr m hm
        · rw [List.mem_singleton.1 hm]
          exact hP _ _
      | some k =>
        simp only
        exact ih _ _

theorem pull_initdistribution_all (P : message → Prop)
    (hP : ∀ name codename, P (message.unknown_pull_rule name codename))
    (di : Nat) (d : distribution) (rules : List (pull_rule term filterlist))
    (err : List message) (herr : ∀ m ∈ err, P m) :
    ∀ m ∈ (pull_initdistribution di d rules err).2.2.2, P m := by
  have hloop := pull_initdistribution_loop_all P hP d.codename d.pulls rules [] err herr
  unfold pull_initdistribution
  by_cases h0 : d.pulls.length = 0
  · simpa [h0] using herr
  · simp only [h0, if_false]
    cases hl : pull_initdistribution_loop d.codename d.pulls rules [] err with
    | mk r rest =>
      obtain ⟨rules1, slots1, err1⟩ := rest
      rw [hl] at hloop
      simp only at hloop ⊢
      split
      · rename_i heq
        simp only [Prod.mk.injEq] at heq
        rw [← heq.2.2.2]
        exact hloop
      · rename_i heq
        simp only [Prod.mk.injEq] at heq
        rw [← heq.2.2.2]
        exact hloop

theorem pull_init_loop_all (P : message → Prop)
    (hP : ∀ name codename, P (message.unknown_pull_rule name codename))
    (ds : List distribution) (di : Nat)
    (rules : List (pull_rule term filterlist)) (p : List pull_distribution)
    (err : List message) (r : retvalue) (rules1 : List (pull_rule term filterlist))
    (pulls : Option (List pull_distribution)) (err1 : List message)
    (h : pull_init_loop ds di rules p err = some (r, rules1, pulls, err1))
    (herr : ∀ m ∈ err, P m) : ∀ m ∈ err1, P m := by
  induction ds generalizing di rules p err with
  | nil =>
    simp only [pull_init_loop, Option.some.injEq, Prod.mk.injEq] at h
    rw [← h.2.2.2]
    exact herr
  | cons d next ih =>
    unfold pull_init_loop at h
    by_cases hsel : d.selected = true
    · simp only [hsel, Bool.not_true, Bool.false_eq_true, if_false] at h
      have hall := pull_initdistribution_all P hP di d rules err herr
      cases hi : pull_initdistribution di d rules err with
      | mk r0 rest =>
        obtain ⟨rules0, pp, err0⟩ := rest
        rw [hi] at hall
        simp only at hall
        simp only [hi] at h
        by_cases hr0 : RET_WAS_ERROR r0 = true
        · rw [if_pos hr0] at h
          simp only [Option.some.injEq, Prod.mk.injEq] at h
          rw [← h.2.2.2]
          exact hall
        · rw [if_neg hr0] at h
          by_cases hok : RET_IS_OK r0 = true
          · rw [if_pos hok] at h
            cases pp with
            | none => simp at h
            | some pd => exact ih _ _ _ _ h hall
          · rw [if_neg hok] at h
            exact ih _ _ _ _ h hall
    · simp only [hsel, Bool.not_false, if_true] at h
      exact ih _ _ _ _ h herr

theorem pull_loadsourcedistributions_loop_all (P : message → Prop)
    (hP : ∀ from_ name, P (message.unknown_distribution from_ name))
    (alldistributions : List distribution) (rules done : List (pull_rule term filterlist))
    (err : List message) (herr : ∀ m ∈ err, P m) :
    ∀ m ∈ (pull_loadsourcedistributions_loop alldistributions rules done err).2.2, P m := by
  induction rules generalizing done with
  | nil => simpa [pull_loadsourcedistributions_loop] using herr
  | cons rule next ih =>
    unfold pull_loadsourcedistributions_loop
    split
    · split
      · exact ih _
      · simp only
        intro m hm
        rcases List.mem_append.1 hm with hm | hm
        · exact herr m hm
        · rw [List.mem_singleton.1 hm]
          exact hP _ _
    · exact ih _

/-! ## The wildcard source -/

/-- C20: the claim fails for the rule `W` with `from` `*` in the pull list of `stable`: its
architecture `sparc` is in the set of no distribution naming `W`, yet `pull_prepare` without
`fast` prints no `get something from` warning, returns `RET_ERROR_MISSING` and stores no
plan. -/
theorem pull_prepare_wildcard_counterexample :
    exRuleW.from_ = "*" ∧ exStableW.selected = true ∧ "W" ∈ exStableW.pulls ∧
    "sparc" ∈ exRuleW.architectures_from ∧
    (¬ ∃ d ∈ [exStableW, exUnstable], "W" ∈ d.pulls ∧ "sparc" ∈ d.architectures) ∧
    pull_prepare [exStableW, exUnstable] [exRuleW] false = some exWildcardResult ∧
    exWildcardResult.r = RET_ERROR_MISSING ∧ exWildcardResult.pd = none ∧
    message.unused_architecture "W" "get something from" "sparc" ∉ exWildcardResult.err := by
  decide

/-- C20, amended: `pull_prepare` has no wildcard source. When the pull list of a selected
distribution names a rule without source distribution whose `from` is `*`, and no distribution
has the codename `*`, then `pull_prepare`, with `fast` or without, returns
`RET_ERROR_MISSING`, stores no plan, and prints no warning about an architecture, so none
with `get something from`: `*` is looked up as a codename like any other `from`. -/
theorem pull_prepare_wildcard (alldistributions : List distribution)
    (rules : List (pull_rule term filterlist)) (fast : Bool)
    (di : Nat) (d : distribution) (name : String) (ri : Nat)
    (rule : pull_rule term filterlist)
    (hd : alldistributions[di]? = some d) (hsel : d.selected = true)
    (hname : name ∈ d.pulls) (hne : name ≠ "-")
    (hri : rules.findIdx? (fun x => x.name == name) = some ri)
    (hrule : rules[ri]? = some rule) (hunbound : rule.distribution = none)
    (hwild : rule.from_ = "*") (hnone : ∀ x ∈ alldistributions, x.codename ≠ "*") :
    ∃ res, pull_prepare alldistributions rules fast = some res ∧
      res.r = RET_ERROR_MISSING ∧ res.pd = none ∧
      ∀ rulename action v, message.unused_architecture rulename action v ∉ res.err := by
  obtain ⟨r, rules1, pulls, err1, he, hg, hcase⟩ :=
    pull_init_loop_spec alldistributions 0 rules [] []
  have hall1 := pull_init_loop_all
    (fun m => ∀ rulename action v, m ≠ message.unused_architecture rulename action v)
    (by intro a b rulename action v hm; cases hm)
    alldistributions 0 rules [] [] r rules1 pulls err1 he (by simp)
  unfold pull_prepare pull_init
  rw [he]
  simp only
  rcases hcase with ⟨hr, new, _, hf⟩ | ⟨hr, hpulls, _⟩
  · subst hr
    simp only [RET_WAS_ERROR, Bool.false_eq_true, if_false]
    have hall2 := pull_loadsourcedistributions_loop_all
      (fun m => ∀ rulename action v, m ≠ message.unused_architecture rulename action v)
      (by intro a b rulename action v hm; cases hm)
      alldistributions rules1 [] err1 hall1
    obtain ⟨r2, rules2, err2, he2, hcase2⟩ :=
      pull_loadsourcedistributions_spec alldistributions rules1 err1
    unfold pull_loadsourcedistributions at he2
    unfold pull_loadsourcedistributions
    rw [he2] at hall2
    rw [he2]
    simp only at hall2 ⊢
    rcases hcase2 with ⟨_, _, _, hno⟩ | ⟨hr2, _⟩
    · exfalso
      have hmem : (di, d) ∈
          (alldistributions.enumFrom 0).filter
            (fun id => id.2.selected && !id.2.pulls.isEmpty) := by
        rw [List.mem_filter]
        refine ⟨?_, ?_⟩
        · rw [List.mk_mem_enumFrom_iff_le_and_getElem?_sub]
          exact ⟨Nat.zero_le _, by simpa using hd⟩
        · cases hp : d.pulls with
          | nil => rw [hp] at hname; simp at hname
          | cons a l => simp [hsel, hp]
      obtain ⟨pd0, _, _, _, hslots⟩ := forall₂_mem_left hf _ hmem
      obtain ⟨slot, _, hslot⟩ := forall₂_mem_left hslots name hname
      unfold slot_resolves at hslot
      rw [if_neg hne] at hslot
      obtain ⟨k, rule1, _, hfind, hk, hused⟩ := hslot
      have hfind0 := used_grows_findIdx hg name 0
      rw [hfind0, hri, Option.some.injEq] at hfind
      subst hfind
      obtain ⟨rule2, hk2, hor⟩ := used_grows_getElem hg ri rule hrule
      rw [hk, Option.some.injEq] at hk2
      subst hk2
      refine hno rule1 (List.mem_iff_getElem?.2 ⟨ri, hk⟩) ⟨hused, ?_, ?_⟩
      · rcases hor with rfl | rfl
        · exact hunbound
        · exact hunbound
      · have hfrom : rule1.from_ = "*" := by
          rcases hor with rfl | rfl
          · exact hwild
          · exact hwild
        rw [hfrom]
        exact hnone
    · subst hr2
      simp only [RET_WAS_ERROR, if_true]
      exact ⟨_, rfl, rfl, rfl, fun rulename action v hm => hall2 _ hm rulename action v rfl⟩
  · subst hr
    simp only [RET_WAS_ERROR, if_true]
    exact ⟨_, rfl, rfl, rfl, fun rulename action v hm => hall1 _ hm rulename action v rfl⟩

theorem pull_prepare_wildcard_witness :
    [exStableW, exUnstable][0]? = some exStableW ∧ exStableW.selected = true ∧
    "W" ∈ exStableW.pulls ∧ exRuleW.from_ = "*" ∧
    (∀ x ∈ [exStableW, exUnstable], x.codename ≠ "*") ∧
    ∃ res, pull_prepare [exStableW, exUnstable] [exRuleW] true = some res ∧
      res.r = RET_ERROR_MISSING ∧ res.pd = none ∧
      ∀ rulename action v, message.unused_architecture rulename action v ∉ res.err :=
  ⟨rfl, rfl, by decide, rfl, by decide,
    pull_prepare_wildcard [exStableW, exUnstable] [exRuleW] true 0 exStableW "W" 0 exRuleW
      rfl rfl (by decide) (by decide) (by decide) rfl rfl rfl (by decide)⟩

/-! ## The plan after `pull_init` -/

theorem forall₂_getElem_left {α β : Type} {R : α → β → Prop} {l : List α} {m : List β}
    (h : List.Forall₂ R l m) :
    l.length = m.length ∧ ∀ (i : Nat) (a : α), l[i]? = some a → ∃ b, m[i]? = some b ∧ R a b := by
  induction h with
  | nil => exact ⟨rfl, fun i a hi => by simp at hi⟩
  | cons hab _ ih =>
    refine ⟨by simp [ih.1], ?_⟩
    intro i a hi
    cases i with
    | zero =>
      simp only [List.getElem?_cons_zero, Option.some.injEq] at hi
      subst hi
      exact ⟨_, by simp, hab⟩
    | succ n =>
      simp only [List.getElem?_cons_succ] at hi ⊢
      exact ih.2 n a hi

theorem forall₂_map_eq {α β γ : Type} {R : α → β → Prop} {l : List α} {m : List β}
    (f : α → γ) (g : β → γ) (h : List.Forall₂ R l m) (hfg : ∀ a b, R a b → f a = g b) :
    l.map f = m.map g := by
  induction h with
  | nil => rfl
  | cons hab _ ih => simp [hfg _ _ hab, ih]

theorem pulling_positions (alldistributions : List distribution) :
    (pulling alldistributions).map (fun id => id.1) =
      (List.range alldistributions.length).filter (fun i =>
        match alldistributions[i]? with
        | some d => d.selected && !d.pulls.isEmpty
        | none => false) := by
  unfold pulling
  induction alldistributions using List.reverseRecOn with
  | nil => rfl
  | append_singleton l x ih =>
    rw [List.enumFrom_append, List.filter_append, List.map_append, ih, List.length_append,
      List.length_singleton, List.range_succ, List.filter_append]
    congr 1
    · apply List.filter_congr
      intro i hi
      rw [List.getElem?_append_left (List.mem_range.1 hi)]
    · have hlast : (l ++ [x])[l.length]? = some x := by
        rw [List.getElem?_append_right (Nat.le_refl _)]
        simp
      simp only [List.enumFrom_singleton, Nat.zero_add, List.filter_cons, List.filter_nil,
        hlast]
      split <;> rfl

/-- What `pull_init` returns: it always returns, and with `RET_OK` the list has one initialised
pull distribution per selected distribution with a non-empty pull list, in their order. -/
theorem pull_init_spec (alldistributions : List distribution)
    (rules : List (pull_rule term filterlist)) (err : List message) :
    ∃ r rules1 pulls err1,
      pull_init rules alldistributions err = some (r, rules1, pulls, err1) ∧
      used_grows rules rules1 ∧
      (r = RET_OK → ∃ p, pulls = some p ∧
        List.Forall₂ (pd_initialised rules1) (pulling alldistributions) p) := by
  obtain ⟨r, rules1, pulls, err1, he, hg, hcase⟩ :=
    pull_init_loop_spec alldistributions 0 rules [] err
  refine ⟨r, rules1, pulls, err1, he, hg, ?_⟩
  intro hr
  rcases hcase with ⟨_, new, hnew, hf⟩ | ⟨hr2, _, _⟩
  · exact ⟨new, by simpa using hnew, hf⟩
  · rw [hr] at hr2
    cases hr2

/-- C21: `pull_init` returns, and when it returns `RET_OK` every pull distribution of the list
has as many slots as its distribution has names in its pull list, and at every position: the
slot is the delete sentinel exactly when the name is `-`; for any other name the slot is the
first rule of the rule table, in its order, with that name. -/
theorem pull_init_slots (alldistributions : List distribution)
    (rules : List (pull_rule term filterlist)) (err : List message) :
    ∃ r rules1 pulls err1,
      pull_init rules alldistributions err = some (r, rules1, pulls, err1) ∧
      (r = RET_OK → ∃ p, pulls = some p ∧ ∀ pd ∈ p,
        ∃ d, alldistributions[pd.distribution]? = some d ∧
          pd.rules.length = d.pulls.length ∧
          ∀ (i : Nat) (name : String), d.pulls[i]? = some name →
            (pd.rules[i]? = some none ↔ name = "-") ∧
            (name ≠ "-" → ∃ (k : Nat) (rule : pull_rule term filterlist),
              pd.rules[i]? = some (some k) ∧ rules[k]? = some rule ∧ rule.name = name ∧
              ∀ (j : Nat) (x : pull_rule term filterlist), j < k → rules[j]? = some x →
                x.name ≠ name)) := by
  obtain ⟨r, rules1, pulls, err1, he, hg, hok⟩ := pull_init_spec alldistributions rules err
  refine ⟨r, rules1, pulls, err1, he, ?_⟩
  intro hr
  obtain ⟨p, hp, hf⟩ := hok hr
  refine ⟨p, hp, ?_⟩
  intro pd hpd
  obtain ⟨id, hid, hdist, _, hslots⟩ := forall₂_mem_right hf pd hpd
  obtain ⟨hd, _, _⟩ := pulling_getElem alldistributions id hid
  obtain ⟨hlen, hget⟩ := forall₂_getElem_left hslots
  refine ⟨id.2, by rw [hdist]; exact hd, hlen.symm, ?_⟩
  intro i name hi
  obtain ⟨slot, hslot, hres⟩ := hget i name hi
  unfold slot_resolves at hres
  by_cases hn : name = "-"
  · rw [if_pos hn] at hres
    rw [hres] at hslot
    exact ⟨⟨fun _ => hn, fun _ => hslot⟩, fun hne => absurd hn hne⟩
  · rw [if_neg hn] at hres
    obtain ⟨k, rule1, hk, hfind, _, _⟩ := hres
    rw [hk] at hslot
    rw [used_grows_findIdx hg name 0] at hfind
    obtain ⟨hlt, hname, hmin⟩ := List.findIdx?_eq_some_iff_getElem.1 hfind
    refine ⟨⟨fun hnone => ?_, fun h => absurd h hn⟩, fun _ => ⟨k, rules[k], hslot,
      List.getElem?_eq_getElem hlt, by simpa using hname, ?_⟩⟩
    · rw [hslot] at hnone
      simp at hnone
    · intro j x hj hx
      have hjlt : j < rules.length := lt_trans hj hlt
      have := hmin j hj
      rw [List.getElem?_eq_getElem hjlt, Option.some.injEq] at hx
      rw [← hx]
      simpa using this

/-- C22: `pull_init` returns, and when it returns `RET_OK` the distributions of the pull
distributions of the list are, in the order of the inventory, the positions of the
distributions that are selected and have a non-empty pull list, each once; a distribution that
is not selected or has an empty pull list has none. -/
theorem pull_init_distributions (alldistributions : List distribution)
    (rules : List (pull_rule term filterlist)) (err : List message) :
    ∃ r rules1 pulls err1,
      pull_init rules alldistributions err = some (r, rules1, pulls, err1) ∧
      (r = RET_OK → ∃ p, pulls = some p ∧
        p.map (fun pd => pd.distribution) =
          (List.range alldistributions.length).filter (fun i =>
            match alldistributions[i]? with
            | some d => d.selected && !d.pulls.isEmpty
            | none => false)) := by
  obtain ⟨r, rules1, pulls, err1, he, hg, hok⟩ := pull_init_spec alldistributions rules err
  refine ⟨r, rules1, pulls, err1, he, ?_⟩
  intro hr
  obtain ⟨p, hp, hf⟩ := hok hr
  refine ⟨p, hp, ?_⟩
  rw [← forall₂_map_eq (fun id => id.1) (fun pd => pd.distribution) hf
    (fun id pd hpd => hpd.1.symm)]
  exact pulling_positions alldistributions

/-! ## The targets after `pull_generatetargets` -/

theorem generatepulltarget_frame (alldistributions : List distribution)
    (rules : List (pull_rule term filterlist)) (pd : pull_distribution) (tp : Nat × Nat)
    (t : target) (r : retvalue) (pd1 : pull_distribution)
    (h : generatepulltarget alldistributions rules pd tp t = some (r, pd1)) :
    r = RET_OK ∧ ∃ s, pd1 = { pd with targets := ⟨s, tp, none, false⟩ :: pd.targets } := by
  unfold generatepulltarget at h
  cases hd : alldistributions[pd.distribution]? with
  | none => simp [hd] at h
  | some d =>
    simp only [hd] at h
    cases hl : generatepulltarget_loop alldistributions rules pd t
        (List.range d.pulls.length) [] with
    | none => simp [hl] at h
    | some rs =>
      obtain ⟨r0, s⟩ := rs
      simp only [hl, Option.some.injEq, Prod.mk.injEq] at h
      obtain ⟨hr, _⟩ := generatepulltarget_loop_spec _ _ _ _ _ _ _ _ hl
      exact ⟨by rw [← h.1]; exact hr, s, h.2.symm⟩

theorem pull_generatetargets_inner_frame (alldistributions : List distribution)
    (rules : List (pull_rule term filterlist)) (ts : List target) (j : Nat)
    (pd : pull_distribution) (r : retvalue) (pd1 : pull_distribution)
    (h : pull_generatetargets_inner alldistributions rules ts j pd = some (r, pd1)) :
    r = RET_OK ∧ ∃ pts, pd1 = { pd with targets := pts.reverse ++ pd.targets } ∧
      new_targets pd.distribution j ts.length pts := by
  induction ts generalizing j pd with
  | nil =>
    simp only [pull_generatetargets_inner, Option.some.injEq, Prod.mk.injEq] at h
    exact ⟨h.1.symm, [], by simp [← h.2], by simp [new_targets]⟩
  | cons t next ih =>
    unfold pull_generatetargets_inner at h
    cases hg : generatepulltarget alldistributions rules pd (pd.distribution, j) t with
    | none => simp [hg] at h
    | some rp =>
      obtain ⟨r0, pd0⟩ := rp
      obtain ⟨hr0, s, hpd0⟩ := generatepulltarget_frame _ _ _ _ _ _ _ hg
      subst hr0
      simp only [hg, RET_WAS_ERROR, Bool.false_eq_true, if_false] at h
      obtain ⟨hr, pts, hpd1, hmap, hall⟩ := ih (j + 1) pd0 h
      refine ⟨hr, ⟨s, (pd.distribution, j), none, false⟩ :: pts, ?_, ?_, ?_⟩
      · rw [hpd1, hpd0]
        simp
      · rw [hpd0] at hmap
        simp only [List.map_cons, List.length_cons, List.range'_succ, hmap]
      · intro pt hpt
        rcases List.mem_cons.1 hpt with rfl | hpt
        · exact ⟨rfl, rfl⟩
        · exact hall pt hpt

theorem pull_generatetargets_frame (alldistributions : List distribution)
    (rules : List (pull_rule term filterlist)) (p : List pull_distribution)
    (r : retvalue) (p1 : List pull_distribution)
    (h : pull_generatetargets alldistributions rules p = some (r, p1)) :
    r = RET_OK ∧ List.Forall₂ (fun pd pd1 => ∃ d pts,
      alldistributions[pd.distribution]? = some d ∧
      pd1 = { pd with targets := pts.reverse ++ pd.targets } ∧
      new_targets pd.distribution 0 d.targets.length pts) p p1 := by
  induction p generalizing r p1 with
  | nil =>
    simp only [pull_generatetargets, Option.some.injEq, Prod.mk.injEq] at h
    exact ⟨h.1.symm, by rw [← h.2]; exact List.Forall₂.nil⟩
  | cons pd next ih =>
    unfold pull_generatetargets at h
    cases hd : alldistributions[pd.distribution]? with
    | none => simp [hd] at h
    | some d =>
      simp only [hd] at h
      cases hi : pull_generatetargets_inner alldistributions rules d.targets 0 pd with
      | none => simp [hi] at h
      | some rp =>
        obtain ⟨r0, pd0⟩ := rp
        obtain ⟨hr0, pts, hpd0, hnew⟩ := pull_generatetargets_inner_frame _ _ _ _ _ _ _ hi
        subst hr0
        simp only [hi, RET_WAS_ERROR, Bool.false_eq_true, if_false] at h
        cases hn : pull_generatetargets alldistributions rules next with
        | none => simp [hn] at h
        | some rn =>
          obtain ⟨r1, next1⟩ := rn
          simp only [hn, Option.some.injEq, Prod.mk.injEq] at h
          obtain ⟨hr1, hf⟩ := ih r1 next1 hn
          refine ⟨by rw [← h.1]; exact hr1, ?_⟩
          rw [← h.2]
          exact List.Forall₂.cons ⟨d, pts, hd, hpd0, hnew⟩ hf
/-- The targets of a pull distribution that had none, after `pull_generatetargets`: one new
pull target per bucket of its distribution, the one of the last bucket first. -/
theorem pull_generatetargets_order (alldistributions : List distribution)
    (rules : List (pull_rule term filterlist)) (p : List pull_distribution)
    (r : retvalue) (p1 : List pull_distribution)
    (hempty : ∀ pd ∈ p, pd.targets = [])
    (h : pull_generatetargets alldistributions rules p = some (r, p1)) :
    r = RET_OK ∧ List.Forall₂ (fun pd pd1 =>
      pd1.distribution = pd.distribution ∧ pd1.rules = pd.rules ∧
      ∃ d, alldistributions[pd.distribution]? = some d ∧
        pd1.targets.map (fun pt => pt.target) =
          ((List.range d.targets.length).map (fun j => (pd.distribution, j))).reverse ∧
        ∀ pt ∈ pd1.targets, pt.upgradelist = none ∧ pt.ignoredelete = false) p p1 := by
  obtain ⟨hr, hf⟩ := pull_generatetargets_frame alldistributions rules p r p1 h
  refine ⟨hr, ?_⟩
  have hf2 : List.Forall₂ (fun pd pd1 => pd ∈ p ∧ ∃ d pts,
      alldistributions[pd.distribution]? = some d ∧
      pd1 = { pd with targets := pts.reverse ++ pd.targets } ∧
      new_targets pd.distribution 0 d.targets.length pts) p p1 := by
    clear h hempty
    induction hf with
    | nil => exact List.Forall₂.nil
    | cons hab _ ih =>
      refine List.Forall₂.cons ⟨List.mem_cons_self _ _, hab⟩ (ih.imp ?_)
      intro a b ⟨hmem, hrest⟩
      exact ⟨List.mem_cons_of_mem _ hmem, hrest⟩
  refine hf2.imp ?_
  rintro pd pd1 ⟨hmem, d, pts, hd, hpd1, hmap, hall⟩
  rw [hpd1, hempty pd hmem]
  refine ⟨rfl, rfl, d, hd, ?_, ?_⟩
  · simp only [List.append_nil, List.map_reverse, hmap, List.range_eq_range']
  · intro pt hpt
    simp only [List.append_nil, List.mem_reverse] at hpt
    exact hall pt hpt

/-- C23: when `pull_generatetargets`, started on pull distributions without pull targets,
returns, it returns `RET_OK`, and every pull distribution then has, up to their order, exactly
one pull target for each bucket of the registry of its distribution and no other, each with a
null planning handle and `ignoredelete` false. -/
theorem pull_generatetargets_targets (alldistributions : List distribution)
    (rules : List (pull_rule term filterlist)) (p : List pull_distribution)
    (r : retvalue) (p1 : List pull_distribution)
    (hempty : ∀ pd ∈ p, pd.targets = [])
    (h : pull_generatetargets alldistributions rules p = some (r, p1)) :
    r = RET_OK ∧ List.Forall₂ (fun pd pd1 =>
      pd1.distribution = pd.distribution ∧
      ∃ d, alldistributions[pd.distribution]? = some d ∧
        (pd1.targets.map (fun pt => pt.target)).Perm
          ((List.range d.targets.length).map (fun j => (pd.distribution, j))) ∧
        ∀ pt ∈ pd1.targets, pt.upgradelist = none ∧ pt.ignoredelete = false) p p1 := by
  obtain ⟨hr, hf⟩ := pull_generatetargets_order alldistributions rules p r p1 hempty h
  refine ⟨hr, hf.imp ?_⟩
  rintro pd pd1 ⟨hdist, _, d, hd, hmap, hall⟩
  refine ⟨hdist, d, hd, ?_, hall⟩
  rw [hmap]
  exact List.reverse_perm _

/-! ## The order of the handle allocations and of the commits -/

theorem pull_searchformissing_loop_allocated (e : engine) (srcs : List pull_source)
    (p : pull_target) (result : retvalue) (events : List event) (result1 : retvalue)
    (p1 : pull_target) (events1 : List event)
    (h : pull_searchformissing_loop e srcs p result events = some (result1, p1, events1)) :
    ∃ new, events1 = events ++ new ∧
      new.filterMap allocated = [] ∧ new.filterMap committed = [] := by
  induction srcs generalizing p result events with
  | nil =>
    simp only [pull_searchformissing_loop, Option.some.injEq, Prod.mk.injEq] at h
    exact ⟨[], by simp [h.2.2], rfl, rfl⟩
  | cons source next ih =>
    unfold pull_searchformissing_loop at h
    cases hrule : source.rule with
    | none =>
      simp only [hrule] at h
      split at h
      · simp only [Option.some.injEq, Prod.mk.injEq] at h
        exact ⟨_, h.2.2.symm, rfl, rfl⟩
      · obtain ⟨new, hev, ha, hc⟩ := ih _ _ _ h
        refine ⟨⟨call.upgradelist_deleteall p.upgradelist,
          some (e.retval events (call.upgradelist_deleteall p.upgradelist))⟩ :: new,
          by rw [hev]; simp, ?_, ?_⟩
        · rw [List.filterMap_cons]
          simpa [allocated] using ha
        · rw [List.filterMap_cons]
          simpa [committed] using hc
    | some rule =>
      simp only [hrule] at h
      by_cases hnull : e.verbose > 4 ∧ source.source = none
      · rw [if_pos hnull] at h
        cases h
      · rw [if_neg hnull] at h
        split at h
        · simp only [Option.some.injEq, Prod.mk.injEq] at h
          exact ⟨_, h.2.2.symm, rfl, rfl⟩
        · obtain ⟨new, hev, ha, hc⟩ := ih _ _ _ h
          refine ⟨⟨call.upgradelist_pull p.upgradelist source.source rule,
            some (e.retval events
              (call.upgradelist_pull p.upgradelist source.source rule))⟩ :: new,
            by rw [hev]; simp, ?_, ?_⟩
          · rw [List.filterMap_cons]
            simpa [allocated] using ha
          · rw [List.filterMap_cons]
            simpa [committed] using hc

theorem pull_searchformissing_allocated (e : engine) (p : pull_target) (events : List event)
    (r : retvalue) (p1 : pull_target) (events1 : List event)
    (h : pull_searchformissing e p events = some (r, p1, events1)) :
    ∃ new, events1 = events ++ new ∧ new.filterMap allocated = [p.target] ∧
      new.filterMap committed = [] := by
  unfold pull_searchformissing at h
  cases hu : p.upgradelist with
  | some x => simp [hu] at h
  | none =>
    simp only [hu] at h
    split at h
    · simp only [Option.some.injEq, Prod.mk.injEq] at h
      exact ⟨_, h.2.2.symm, rfl, rfl⟩
    · obtain ⟨new, hev, ha, hc⟩ := pull_searchformissing_loop_allocated e _ _ _ _ _ _ _ h
      refine ⟨⟨call.upgradelist_initialize p.target,
        some (e.retval events (call.upgradelist_initialize p.target))⟩ :: new,
        by rw [hev]; simp, ?_, ?_⟩
      · rw [List.filterMap_cons]
        simp [allocated, ha]
      · rw [List.filterMap_cons]
        simpa [committed] using hc

theorem pull_search_loop_allocated (e : engine) (us : List pull_target) (result : retvalue)
    (events : List event) (result2 : retvalue) (us2 : List pull_target)
    (events2 : List event)
    (h : pull_search_loop e us result events = some (result2, us2, events2)) :
    ∃ new n, events2 = events ++ new ∧
      new.filterMap allocated = (us.take n).map (fun u => u.target) ∧
      new.filterMap committed = [] ∧
      (RET_WAS_ERROR result2 = false → n = us.length) := by
  induction us generalizing result events result2 us2 events2 with
  | nil =>
    simp only [pull_search_loop, Option.some.injEq, Prod.mk.injEq] at h
    exact ⟨[], 0, by simp [h.2.2], rfl, rfl, fun _ => rfl⟩
  | cons u next ih =>
    unfold pull_search_loop at h
    cases hs : pull_searchformissing e u events with
    | none => simp [hs] at h
    | some x =>
      obtain ⟨r, u1, events1⟩ := x
      obtain ⟨new1, hev1, ha1, hc1⟩ := pull_searchformissing_allocated e u events r u1 events1 hs
      simp only [hs] at h
      by_cases herr : RET_WAS_ERROR r = true
      · rw [if_pos herr] at h
        simp only [Option.some.injEq, Prod.mk.injEq] at h
        refine ⟨new1, 1, by rw [← h.2.2]; exact hev1, by simpa using ha1, hc1, ?_⟩
        intro hno
        exfalso
        rw [← h.1] at hno
        by_cases hres : RET_WAS_ERROR result = true
        · rw [RET_UPDATE_error result r hres, hres] at hno
          cases hno
        · rw [RET_UPDATE_of_error result r (by simpa using hres) herr, herr] at hno
          cases hno
      · rw [if_neg herr] at h
        cases hl : pull_search_loop e next (RET_UPDATE result r) events1 with
        | none => simp [hl] at h
        | some y =>
          obtain ⟨result3, next1, events3⟩ := y
          simp only [hl, Option.some.injEq, Prod.mk.injEq] at h
          obtain ⟨new2, n, hev2, ha2, hc2, hn⟩ := ih _ _ _ _ _ hl
          refine ⟨new1 ++ new2, n + 1, ?_, ?_, ?_, ?_⟩
          · rw [← h.2.2, hev2, hev1, List.append_assoc]
          · rw [List.filterMap_append, ha1, ha2]
            simp
          · rw [List.filterMap_append, hc1, hc2]
            rfl
          · intro hno
            rw [← h.1] at hno
            rw [hn hno]
            simp
theorem pull_search_loop_flags (e : engine) (us : List pull_target) (result : retvalue)
    (events : List event) (result2 : retvalue) (us2 : List pull_target)
    (events2 : List event)
    (h : pull_search_loop e us result events = some (result2, us2, events2)) :
    us2.map (fun u => u.target) = us.map (fun u => u.target) ∧
      ((∀ u ∈ us, u.ignoredelete = false) → ∀ u ∈ us2, u.ignoredelete = false) := by
  induction us generalizing result events result2 us2 events2 with
  | nil =>
    simp only [pull_search_loop, Option.some.injEq, Prod.mk.injEq] at h
    rw [← h.2.1]
    exact ⟨rfl, fun hall => hall⟩
  | cons u next ih =>
    unfold pull_search_loop at h
    cases hs : pull_searchformissing e u events with
    | none => simp [hs] at h
    | some x =>
      obtain ⟨r, u1, events1⟩ := x
      obtain ⟨_, _, _, _, _, _, htarget, hflag⟩ :=
        pull_searchformissing_spec e u events r u1 events1 hs
      simp only [hs] at h
      by_cases herr : RET_WAS_ERROR r = true
      · rw [if_pos herr] at h
        simp only [Option.some.injEq, Prod.mk.injEq] at h
        rw [← h.2.1]
        refine ⟨by simp [htarget], ?_⟩
        intro hall x hx
        rcases List.mem_cons.1 hx with rfl | hx
        · exact hflag (hall u (List.mem_cons_self _ _))
        · exact hall x (List.mem_cons_of_mem _ hx)
      · rw [if_neg herr] at h
        cases hl : pull_search_loop e next (RET_UPDATE result r) events1 with
        | none => simp [hl] at h
        | some y =>
          obtain ⟨result3, next1, events3⟩ := y
          simp only [hl, Option.some.injEq, Prod.mk.injEq] at h
          obtain ⟨hmap, hflags⟩ := ih _ _ _ _ _ hl
          rw [← h.2.1]
          refine ⟨by simp [htarget, hmap], ?_⟩
          intro hall x hx
          rcases List.mem_cons.1 hx with rfl | hx
          · exact hflag (hall u (List.mem_cons_self _ _))
          · exact hflags (fun v hv => hall v (List.mem_cons_of_mem _ hv)) x hx

/-- What `pull_search` does to a pull distribution: the handle allocations it makes are, in
their order, those of the buckets of the first pull targets, of all of them when the result is
no error; it makes no commit, and leaves the distribution, the buckets of the pull targets and
an `ignoredelete` that is false everywhere as they are. -/
theorem pull_search_allocated (e : engine) (d : pull_distribution) (events : List event)
    (r : retvalue) (d1 : pull_distribution) (events1 : List event)
    (h : pull_search e d events = some (r, d1, events1)) :
    d1.distribution = d.distribution ∧
    d1.targets.map (fun u => u.target) = d.targets.map (fun u => u.target) ∧
    ((∀ u ∈ d.targets, u.ignoredelete = false) → ∀ u ∈ d1.targets, u.ignoredelete = false) ∧
    ∃ new n, events1 = events ++ new ∧
      new.filterMap allocated = (d.targets.take n).map (fun u => u.target) ∧
      new.filterMap committed = [] ∧
      (RET_WAS_ERROR r = false → n = d.targets.length) := by
  unfold pull_search at h
  cases hl : pull_search_loop e d.targets RET_NOTHING events with
  | none => simp [hl] at h
  | some x =>
    obtain ⟨result, targets, events2⟩ := x
    simp only [hl, Option.some.injEq, Prod.mk.injEq] at h
    obtain ⟨hmap, hflags⟩ := pull_search_loop_flags _ _ _ _ _ _ _ hl
    obtain ⟨new, n, hev, ha, hc, hn⟩ := pull_search_loop_allocated _ _ _ _ _ _ _ hl
    rw [← h.1, ← h.2.1, ← h.2.2]
    exact ⟨rfl, hmap, hflags, new, n, hev, ha, hc, hn⟩

theorem pull_install_loop_committed (e : engine) (di : Nat) (us : List pull_target)
    (status : List retvalue) (result : retvalue) (events : List event) (result2 : retvalue)
    (us2 : List pull_target) (status2 : List retvalue) (events2 : List event)
    (h : pull_install_loop e di us status result events =
      some (result2, us2, status2, events2)) :
    us2.map (fun u => (u.target, u.ignoredelete)) =
      us.map (fun u => (u.target, u.ignoredelete)) ∧
    ∃ new n, events2 = events ++ new ∧
      new.filterMap committed = (us.take n).map (fun u => (u.upgradelist, u.ignoredelete)) ∧
      new.filterMap allocated = [] ∧
      (RET_WAS_ERROR result2 = false → n = us.length) := by
  induction us generalizing status result events result2 us2 status2 events2 with
  | nil =>
    simp only [pull_install_loop, Option.some.injEq, Prod.mk.injEq] at h
    rw [← h.2.1]
    exact ⟨rfl, [], 0, by simp [h.2.2.2], rfl, rfl, fun _ => rfl⟩
  | cons u next ih =>
    unfold pull_install_loop at h
    cases hst : status[di]? with
    | none => simp [hst] at h
    | some s =>
      simp only [hst] at h
      by_cases herr : RET_WAS_ERROR
          (e.retval events (call.upgradelist_install u.upgradelist di u.ignoredelete)) = true
      · rw [if_pos herr] at h
        simp only [Option.some.injEq, Prod.mk.injEq] at h
        rw [← h.2.1]
        refine ⟨by simp, _, 1, h.2.2.2.symm, by simp [committed], by simp [allocated], ?_⟩
        intro hno
        exfalso
        rw [← h.1] at hno
        by_cases hres : RET_WAS_ERROR result = true
        · rw [RET_UPDATE_error result _ hres, hres] at hno
          cases hno
        · rw [RET_UPDATE_of_error result _ (by simpa using hres) herr, herr] at hno
          cases hno
      · rw [if_neg herr] at h
        cases hl : pull_install_loop e di next
            (status.set di (RET_UPDATE s
              (e.retval events (call.upgradelist_install u.upgradelist di u.ignoredelete))))
            (RET_UPDATE result
              (e.retval events (call.upgradelist_install u.upgradelist di u.ignoredelete)))
            (events ++
              [⟨call.upgradelist_install u.upgradelist di u.ignoredelete,
                  some (e.retval events
                    (call.upgradelist_install u.upgradelist di u.ignoredelete))⟩,
                ⟨call.upgradelist_free u.upgradelist, none⟩]) with
        | none => simp [hl] at h
        | some y =>
          obtain ⟨result3, next1, status3, events3⟩ := y
          simp only [hl, Option.some.injEq, Prod.mk.injEq] at h
          obtain ⟨hmap, new2, n, hev2, hc2, ha2, hn⟩ := ih _ _ _ _ _ _ _ hl
          rw [← h.2.1]
          refine ⟨by simp [hmap],
            ⟨call.upgradelist_install u.upgradelist di u.ignoredelete,
                some (e.retval events
                  (call.upgradelist_install u.upgradelist di u.ignoredelete))⟩ ::
              ⟨call.upgradelist_free u.upgradelist, none⟩ :: new2, n + 1, ?_, ?_, ?_, ?_⟩
          · rw [← h.2.2.2, hev2]
            simp
          · simp [List.filterMap_cons, committed, hc2]
          · simp [List.filterMap_cons, allocated, ha2]
          · intro hno
            rw [← h.1] at hno
            rw [hn hno]
            simp

/-- What `pull_install` does to a pull distribution: the commits it makes are, in their order,
those of the planning handles of the first pull targets, each with the `ignoredelete` of its
pull target, of all of them when the result is no error; the buckets and the `ignoredelete` of
the pull targets are left as they are. -/
theorem pull_install_committed (e : engine) (d : pull_distribution) (status : List retvalue)
    (events : List event) (r : retvalue) (d1 : pull_distribution) (status1 : List retvalue)
    (events1 : List event)
    (h : pull_install e d status events = some (r, d1, status1, events1)) :
    d1.distribution = d.distribution ∧
    d1.targets.map (fun u => (u.target, u.ignoredelete)) =
      d.targets.map (fun u => (u.target, u.ignoredelete)) ∧
    ∃ new n, events1 = events ++ new ∧
      new.filterMap committed =
        (d.targets.take n).map (fun u => (u.upgradelist, u.ignoredelete)) ∧
      new.filterMap allocated = [] ∧
      (RET_WAS_ERROR r = false → n = d.targets.length) := by
  unfold pull_install at h
  split at h
  · cases h
  · cases hl : pull_install_loop e d.distribution d.targets status RET_NOTHING events with
    | none => simp [hl] at h
    | some x =>
      obtain ⟨result, targets, status2, events2⟩ := x
      simp only [hl, Option.some.injEq, Prod.mk.injEq] at h
      obtain ⟨hmap, hrest⟩ := pull_install_loop_committed _ _ _ _ _ _ _ _ _ _ hl
      rw [← h.1, ← h.2.1, ← h.2.2.2]
      exact ⟨rfl, hmap, hrest⟩
/-- The pull targets of a plan stored by `pull_prepare`: per pull distribution one for each
bucket of its distribution, the one of the last bucket first, each without planning handle and
with `ignoredelete` false. -/
theorem pull_prepare_targets (alldistributions : List distribution)
    (rules : List (pull_rule term filterlist)) (fast : Bool)
    (res : prepare_result term filterlist) (plan : List pull_distribution)
    (h : pull_prepare alldistributions rules fast = some res) (hplan : res.pd = some plan) :
    ∀ pd ∈ plan, ∃ d, alldistributions[pd.distribution]? = some d ∧
      pd.targets.map (fun pt => pt.target) =
        ((List.range d.targets.length).map (fun j => (pd.distribution, j))).reverse ∧
      ∀ pt ∈ pd.targets, pt.upgradelist = none ∧ pt.ignoredelete = false := by
  obtain ⟨_, rules1, p, _, _, _, hinit, hgen⟩ :=
    pull_prepare_plan alldistributions rules fast res plan h hplan
  intro pd hpd
  obtain ⟨pd0, hpd0, d, pts, hd, hpd1, hpts⟩ := forall₂_mem_right hgen pd hpd
  obtain ⟨id, _, _, hnil, _⟩ := forall₂_mem_right hinit pd0 hpd0
  have hmap := forall₂_map_eq (fun jt : Nat × target => (pd0.distribution, jt.1))
    (fun pt : pull_target => pt.target) hpts (fun jt pt hg => hg.1.symm)
  have henum : (d.targets.enumFrom 0).map (fun jt : Nat × target => (pd0.distribution, jt.1)) =
      (List.range d.targets.length).map (fun j => (pd0.distribution, j)) := by
    rw [List.range_eq_range', ← List.enumFrom_map_fst 0 d.targets, List.map_map]
    rfl
  rw [hpd1, hnil]
  refine ⟨d, hd, ?_, ?_⟩
  · simp only [List.append_nil, List.map_reverse, ← hmap, henum]
  · intro pt hpt
    simp only [List.append_nil, List.mem_reverse] at hpt
    obtain ⟨jt, _, _, hu, hi, _⟩ := forall₂_mem_right hpts pt hpt
    exact ⟨hu, hi⟩

/-- C26 fails as stated: `stable` has the buckets `main|i386` and `main|arm` in this order; in
the plan `pull_prepare` stores the pull target of `main|arm` comes first, and the search
allocates its planning handle first. -/
theorem pull_targets_order_counterexample :
    pull_prepare [exStable, exUnstable] [exRuleA] false =
      some ⟨RET_OK, [exRuleABound], some exPlan, []⟩ ∧
    exStable.targets = [exBucket "main" "i386" "deb", exBucket "main" "arm" "deb"] ∧
    exPlan.map (fun pd => pd.targets.map (fun pt => pt.target)) = [[(0, 1), (0, 0)]] ∧
    (∃ pd ∈ exPlan, pd.targets.map (fun pt => pt.target) ≠
      (List.range exStable.targets.length).map (fun j => (pd.distribution, j))) ∧
    ((pull_checkupdate exEngine ⟨exPlan, [RET_NOTHING], []⟩).map
      (fun x => x.2.events.filterMap allocated)) = some [(0, 1), (0, 0)] := by
  decide

/-- C26, amended: in every plan stored by `pull_prepare`, the buckets of the pull targets of a
pull distribution, in the order of its list of pull targets, are the buckets of the registry of
its distribution in reverse order, the last bucket first. Search and install walk that list in
its order: `pull_search` returns when no progress line prints a missing source bucket (the
global `verbose` is at most 4, or every source with a rule has a source bucket), and in every
run of it that returns it has allocated the planning handles of the pull targets one after the
other in list order, all of them when its result is no error, and left the buckets as they
are; `pull_install` commits the planning handles of the pull targets of any pull distribution
in list order, all of them when its result is no error. -/
theorem pull_targets_order (alldistributions : List distribution)
    (rules : List (pull_rule term filterlist)) (fast : Bool)
    (res : prepare_result term filterlist) (plan : List pull_distribution)
    (h : pull_prepare alldistributions rules fast = some res) (hplan : res.pd = some plan) :
    (∀ pd ∈ plan, ∃ d, alldistributions[pd.distribution]? = some d ∧
      pd.targets.map (fun pt => pt.target) =
        ((List.range d.targets.length).map (fun j => (pd.distribution, j))).reverse ∧
      ∀ (e : engine) (events : List event),
        ((∀ pt ∈ pd.targets, sources_printable e pt) →
          ∃ r pd1 events1, pull_search e pd events = some (r, pd1, events1)) ∧
        ∀ r pd1 events1, pull_search e pd events = some (r, pd1, events1) →
          ∃ new n, events1 = events ++ new ∧
            pd1.targets.map (fun pt => pt.target) = pd.targets.map (fun pt => pt.target) ∧
            new.filterMap allocated = (pd.targets.take n).map (fun pt => pt.target) ∧
            (RET_WAS_ERROR r = false → n = pd.targets.length)) ∧
    ∀ (e : engine) (pd : pull_distribution) (status : List retvalue) (events : List event)
      (r : retvalue) (pd1 : pull_distribution) (status1 : List retvalue)
      (events1 : List event),
      pull_install e pd status events = some (r, pd1, status1, events1) →
      ∃ new n, events1 = events ++ new ∧
        new.filterMap committed =
          (pd.targets.take n).map (fun pt => (pt.upgradelist, pt.ignoredelete)) ∧
        (RET_WAS_ERROR r = false → n = pd.targets.length) := by
  constructor
  · intro pd hpd
    obtain ⟨d, hd, hmap, hall⟩ :=
      pull_prepare_targets alldistributions rules fast res plan h hplan pd hpd
    refine ⟨d, hd, hmap, ?_⟩
    intro e events
    constructor
    · intro hprint
      obtain ⟨⟨r, pd1, events1⟩, hs⟩ :=
        pull_search_total e pd events (fun u hu => (hall u hu).1) hprint
      exact ⟨r, pd1, events1, hs⟩
    · intro r pd1 events1 hs
      obtain ⟨_, htargets, _, new, n, hev, ha, _, hn⟩ :=
        pull_search_allocated e pd events r pd1 events1 hs
      exact ⟨new, n, hev, htargets, ha, hn⟩
  · intro e pd status events r pd1 status1 events1 hi
    obtain ⟨_, _, new, n, hev, hc, _, hn⟩ :=
      pull_install_committed e pd status events r pd1 status1 events1 hi
    exact ⟨new, n, hev, hc, hn⟩

/-! ## The flag `ignoredelete` -/

theorem committed_none (ev : event)
    (h : is_prepare ev.call = true ∨ is_check ev.call = true ∨ ev.call = call.logger_wait) :
    committed ev = none := by
  obtain ⟨c, r⟩ := ev
  simp only at h
  unfold committed
  cases c <;> simp_all [is_prepare, is_check]

theorem no_commit_of_kind (new : List event)
    (h : ∀ ev ∈ new, is_prepare ev.call = true ∨ is_check ev.call = true ∨
      ev.call = call.logger_wait) :
    ∀ ev ∈ new, ∀ c, committed ev = some c → c.2 = false := by
  intro ev hev c hc
  rw [committed_none ev (h ev hev)] at hc
  cases hc

theorem pull_update_search_flags (e : engine) (ds : List pull_distribution)
    (result : retvalue) (events : List event) (result2 : retvalue)
    (ds2 : List pull_distribution) (events2 : List event)
    (h : pull_update_search e ds result events = some (result2, ds2, events2))
    (hclear : ignoredelete_clear ds) : ignoredelete_clear ds2 := by
  induction ds generalizing result events result2 ds2 events2 with
  | nil =>
    simp only [pull_update_search, Option.some.injEq, Prod.mk.injEq] at h
    rw [← h.2.1]
    exact hclear
  | cons d next ih =>
    have hd : ∀ u ∈ d.targets, u.ignoredelete = false := hclear d (List.mem_cons_self _ _)
    have hnext : ignoredelete_clear next := fun x hx => hclear x (List.mem_cons_of_mem _ hx)
    unfold pull_update_search at h
    cases hs : pull_search e d events with
    | none => simp [hs] at h
    | some x =>
      obtain ⟨r, d1, events1⟩ := x
      obtain ⟨_, _, hflags, _⟩ := pull_search_allocated e d events r d1 events1 hs
      simp only [hs] at h
      by_cases herr : RET_WAS_ERROR r = true
      · rw [if_pos herr] at h
        simp only [Option.some.injEq, Prod.mk.injEq] at h
        rw [← h.2.1]
        intro x hx
        rcases List.mem_cons.1 hx with rfl | hx
        · exact hflags hd
        · exact hnext x hx
      · rw [if_neg herr] at h
        cases hl : pull_update_search e next (RET_UPDATE result r) events1 with
        | none => simp [hl] at h
        | some y =>
          obtain ⟨result3, next1, events3⟩ := y
          simp only [hl, Option.some.injEq, Prod.mk.injEq] at h
          rw [← h.2.1]
          intro x hx
          rcases List.mem_cons.1 hx with rfl | hx
          · exact hflags hd
          · exact ih _ _ _ _ _ hl hnext x hx

theorem pull_update_free_targets_flags (us : List pull_target) (events : List event)
    (hclear : ∀ u ∈ us, u.ignoredelete = false) :
    ∀ u ∈ (pull_update_free_targets us events).1, u.ignoredelete = false := by
  induction us generalizing events with
  | nil => simp [pull_update_free_targets]
  | cons u next ih =>
    unfold pull_update_free_targets
    intro x hx
    simp only [List.mem_cons] at hx
    rcases hx with rfl | hx
    · exact hclear u (List.mem_cons_self _ _)
    · exact ih _ (fun v hv => hclear v (List.mem_cons_of_mem _ hv)) x hx

theorem pull_update_free_flags (ds : List pull_distribution) (events : List event)
    (hclear : ignoredelete_clear ds) : ignoredelete_clear (pull_update_free ds events).1 := by
  induction ds generalizing events with
  | nil =>
    intro d hd
    simp [pull_update_free] at hd
  | cons d next ih =>
    unfold pull_update_free
    intro x hx
    simp only [List.mem_cons] at hx
    rcases hx with rfl | hx
    · exact pull_update_free_targets_flags d.targets events (hclear d (List.mem_cons_self _ _))
    · exact ih _ (fun v hv => hclear v (List.mem_cons_of_mem _ hv)) x hx

theorem pull_dump_loop_flags (us : List pull_target) (events : List event)
    (hclear : ∀ u ∈ us, u.ignoredelete = false) :
    ∀ u ∈ (pull_dump_loop us events).1, u.ignoredelete = false := by
  induction us generalizing events with
  | nil => simp [pull_dump_loop]
  | cons u next ih =>
    have hnext : ∀ v ∈ next, v.ignoredelete = false :=
      fun v hv => hclear v (List.mem_cons_of_mem _ hv)
    unfold pull_dump_loop
    cases hu : u.upgradelist with
    | none =>
      intro x hx
      simp only [List.mem_cons] at hx
      rcases hx with rfl | hx
      · exact hclear x (List.mem_cons_self _ _)
      · exact ih _ hnext x hx
    | some handle =>
      intro x hx
      simp only [List.mem_cons] at hx
      rcases hx with rfl | hx
      · exact hclear u (List.mem_cons_self _ _)
      · exact ih _ hnext x hx
theorem pull_install_flags (e : engine) (d : pull_distribution) (status : List retvalue)
    (events : List event) (r : retvalue) (d1 : pull_distribution) (status1 : List retvalue)
    (events1 : List event)
    (h : pull_install e d status events = some (r, d1, status1, events1))
    (hclear : ∀ u ∈ d.targets, u.ignoredelete = false) :
    (∀ u ∈ d1.targets, u.ignoredelete = false) ∧
    ∃ new, events1 = events ++ new ∧ ∀ ev ∈ new, ∀ c, committed ev = some c → c.2 = false := by
  obtain ⟨_, hmap, new, n, hev, hc, _, _⟩ :=
    pull_install_committed e d status events r d1 status1 events1 h
  constructor
  · intro u hu
    have hmem : (u.target, u.ignoredelete) ∈
        d1.targets.map (fun u => (u.target, u.ignoredelete)) := List.mem_map.2 ⟨u, hu, rfl⟩
    rw [hmap] at hmem
    obtain ⟨v, hv, heq⟩ := List.mem_map.1 hmem
    simp only [Prod.mk.injEq] at heq
    rw [← heq.2]
    exact hclear v hv
  · refine ⟨new, hev, ?_⟩
    intro ev hmem c hcev
    have hcm : c ∈ new.filterMap committed := List.mem_filterMap.2 ⟨ev, hmem, hcev⟩
    rw [hc] at hcm
    obtain ⟨v, hv, heq⟩ := List.mem_map.1 hcm
    rw [← heq]
    exact hclear v (List.mem_of_mem_take hv)

theorem pull_update_install_flags (e : engine) (ds : List pull_distribution)
    (status : List retvalue) (result : retvalue) (events : List event) (result2 : retvalue)
    (ds2 : List pull_distribution) (status2 : List retvalue) (events2 : List event)
    (h : pull_update_install e ds status result events =
      some (result2, ds2, status2, events2))
    (hclear : ignoredelete_clear ds) :
    ignoredelete_clear ds2 ∧
    ∃ new, events2 = events ++ new ∧ ∀ ev ∈ new, ∀ c, committed ev = some c → c.2 = false := by
  induction ds generalizing status result events result2 ds2 status2 events2 with
  | nil =>
    simp only [pull_update_install, Option.some.injEq, Prod.mk.injEq] at h
    rw [← h.2.1]
    exact ⟨hclear, [], by simp [h.2.2.2], by simp⟩
  | cons d next ih =>
    have hd : ∀ u ∈ d.targets, u.ignoredelete = false := hclear d (List.mem_cons_self _ _)
    have hnext : ignoredelete_clear next := fun x hx => hclear x (List.mem_cons_of_mem _ hx)
    unfold pull_update_install at h
    cases hs : pull_install e d status events with
    | none => simp [hs] at h
    | some x =>
      obtain ⟨r, d1, status1, events1⟩ := x
      obtain ⟨hflags, new1, hev1, hc1⟩ := pull_install_flags e d status events r d1 status1
        events1 hs hd
      simp only [hs] at h
      by_cases herr : RET_WAS_ERROR r = true
      · rw [if_pos herr] at h
        simp only [Option.some.injEq, Prod.mk.injEq] at h
        rw [← h.2.1, ← h.2.2.2]
        refine ⟨?_, new1, hev1, hc1⟩
        intro x hx
        rcases List.mem_cons.1 hx with rfl | hx
        · exact hflags
        · exact hnext x hx
      · rw [if_neg herr] at h
        cases hl : pull_update_install e next status1 (RET_UPDATE result r) events1 with
        | none => simp [hl] at h
        | some y =>
          obtain ⟨result3, next1, status3, events3⟩ := y
          simp only [hl, Option.some.injEq, Prod.mk.injEq] at h
          obtain ⟨hclear2, new2, hev2, hc2⟩ := ih _ _ _ _ _ _ _ hl hnext
          rw [← h.2.1, ← h.2.2.2]
          refine ⟨?_, new1 ++ new2, by rw [hev2, hev1, List.append_assoc], ?_⟩
          · intro x hx
            rcases List.mem_cons.1 hx with rfl | hx
            · exact hflags
            · exact hclear2 x hx
          · intro ev hmem
            rcases List.mem_append.1 hmem with hmem | hmem
            · exact hc1 ev hmem
            · exact hc2 ev hmem

theorem is_check_of_free (c : call) (h : is_free c = true) : is_check c = true := by
  cases c <;> simp_all [is_free, is_check]

/-- A run of `pull_update` on a plan where `ignoredelete` is false everywhere leaves it false
everywhere, and every commit it makes is called with `ignoredelete` false. -/
theorem pull_update_flags (e : engine) (st : update_state) (r : retvalue)
    (st1 : update_state) (hrun : pull_update e st = some (r, st1))
    (hclear : ignoredelete_clear st.distributions) :
    ignoredelete_clear st1.distributions ∧
    ∃ new, st1.events = st.events ++ new ∧
      ∀ ev ∈ new, ∀ c, committed ev = some c → c.2 = false := by
  obtain ⟨newp, hevp, hcalls, _, _⟩ := pull_update_prepare_spec e st.distributions st.events
  have hprep := prepare_calls _ _ hcalls
  have hcp := no_commit_of_kind newp (fun ev hev => Or.inl (hprep ev hev))
  unfold pull_update at hrun
  cases hp : pull_update_prepare e st.distributions st.events with
  | mk res events1 =>
    rw [hp] at hevp
    simp only at hevp
    simp only [hp] at hrun
    cases res with
    | some r0 =>
      simp only [Option.some.injEq, Prod.mk.injEq] at hrun
      rw [← hrun.2]
      exact ⟨hclear, newp, hevp, hcp⟩
    | none =>
      simp only at hrun
      cases hs : pull_update_search e st.distributions RET_NOTHING events1 with
      | none => simp [hs] at hrun
      | some rp =>
        obtain ⟨result, ds2, events2⟩ := rp
        obtain ⟨_, news, hevs, hsearch, _⟩ := pull_update_search_spec e _ _ _ _ _ _ hs
        have hclear2 := pull_update_search_flags e _ _ _ _ _ _ hs hclear
        have hcs := no_commit_of_kind news
          (fun ev hev => Or.inr (Or.inl (is_check_of_search _ (hsearch ev hev))))
        simp only [hs] at hrun
        by_cases herr : RET_WAS_ERROR result = true
        · rw [if_pos herr] at hrun
          obtain ⟨newf, hevf, hfree, _⟩ := pull_update_free_spec ds2 events2
          have hclear3 := pull_update_free_flags ds2 events2 hclear2
          have hcf := no_commit_of_kind newf
            (fun ev hev => Or.inr (Or.inl (is_check_of_free _ (hfree ev hev))))
          cases hf : pull_update_free ds2 events2 with
          | mk ds3 events3 =>
            rw [hf] at hevf hclear3
            simp only at hevf hclear3
            simp only [hf, Option.some.injEq, Prod.mk.injEq] at hrun
            rw [← hrun.2]
            refine ⟨hclear3, newp ++ (news ++ newf), by simp [hevf, hevs, hevp], ?_⟩
            intro ev hmem
            rcases List.mem_append.1 hmem with hmem | hmem
            · exact hcp ev hmem
            · rcases List.mem_append.1 hmem with hmem | hmem
              · exact hcs ev hmem
              · exact hcf ev hmem
        · rw [if_neg herr] at hrun
          cases hi : pull_update_install e ds2 st.status result events2 with
          | none => simp [hi] at hrun
          | some ri =>
            obtain ⟨result4, ds4, status4, events4⟩ := ri
            obtain ⟨hclear4, newi, hevi, hci⟩ :=
              pull_update_install_flags e _ _ _ _ _ _ _ _ hi hclear2
            simp only [hi, Option.some.injEq, Prod.mk.injEq] at hrun
            rw [← hrun.2]
            refine ⟨hclear4, newp ++ (news ++ (newi ++ [⟨call.logger_wait, none⟩])),
              by simp [hevi, hevs, hevp], ?_⟩
            intro ev hmem
            rcases List.mem_append.1 hmem with hmem | hmem
            · exact hcp ev hmem
            · rcases List.mem_append.1 hmem with hmem | hmem
              · exact hcs ev hmem
              · rcases List.mem_append.1 hmem with hmem | hmem
                · exact hci ev hmem
                · simp only [List.mem_singleton] at hmem
                  subst hmem
                  intro c hc
                  cases hc
theorem pull_checkupdate_loop_flags (e : engine) (ds : List pull_distribution)
    (result : retvalue) (events : List event) (result2 : retvalue)
    (ds2 : List pull_distribution) (events2 : List event)
    (h : pull_checkupdate_loop e ds result events = some (result2, ds2, events2))
    (hclear : ignoredelete_clear ds) : ignoredelete_clear ds2 := by
  induction ds generalizing result events result2 ds2 events2 with
  | nil =>
    simp only [pull_checkupdate_loop, Option.some.injEq, Prod.mk.injEq] at h
    rw [← h.2.1]
    exact hclear
  | cons d next ih =>
    have hd : ∀ u ∈ d.targets, u.ignoredelete = false := hclear d (List.mem_cons_self _ _)
    have hnext : ignoredelete_clear next := fun x hx => hclear x (List.mem_cons_of_mem _ hx)
    unfold pull_checkupdate_loop at h
    cases hs : pull_search e d events with
    | none => simp [hs] at h
    | some x =>
      obtain ⟨r, d1, events1⟩ := x
      obtain ⟨_, _, hflags, _⟩ := pull_search_allocated e d events r d1 events1 hs
      simp only [hs] at h
      by_cases herr : RET_WAS_ERROR r = true
      · rw [if_pos herr] at h
        simp only [Option.some.injEq, Prod.mk.injEq] at h
        rw [← h.2.1]
        intro x hx
        rcases List.mem_cons.1 hx with rfl | hx
        · exact hflags hd
        · exact hnext x hx
      · rw [if_neg herr] at h
        have hdump : ∀ u ∈ (pull_dump d1 events1).1.targets, u.ignoredelete = false := by
          unfold pull_dump
          exact pull_dump_loop_flags d1.targets events1 (hflags hd)
        cases hdd : pull_dump d1 events1 with
        | mk d2 events2 =>
          rw [hdd] at hdump
          simp only [hdd] at h
          cases hl : pull_checkupdate_loop e next (RET_UPDATE result r) events2 with
          | none => simp [hl] at h
          | some y =>
            obtain ⟨result3, next1, events3⟩ := y
            simp only [hl, Option.some.injEq, Prod.mk.injEq] at h
            rw [← h.2.1]
            intro x hx
            rcases List.mem_cons.1 hx with rfl | hx
            · exact hdump
            · exact ih _ _ _ _ _ hl hnext x hx

/-- A run of `pull_checkupdate` on a plan where `ignoredelete` is false everywhere leaves it
false everywhere, and makes no commit. -/
theorem pull_checkupdate_flags (e : engine) (st : update_state) (r : retvalue)
    (st1 : update_state) (hrun : pull_checkupdate e st = some (r, st1))
    (hclear : ignoredelete_clear st.distributions) :
    ignoredelete_clear st1.distributions ∧
    ∃ new, st1.events = st.events ++ new ∧
      ∀ ev ∈ new, ∀ c, committed ev = some c → c.2 = false := by
  unfold pull_checkupdate at hrun
  cases hl : pull_checkupdate_loop e st.distributions RET_NOTHING st.events with
  | none => simp [hl] at hrun
  | some rp =>
    obtain ⟨result, ds1, events1⟩ := rp
    obtain ⟨new, hev, hcheck, _⟩ := pull_checkupdate_loop_spec e _ _ _ _ _ _ hl
    have hclear1 := pull_checkupdate_loop_flags e _ _ _ _ _ _ hl hclear
    simp only [hl, Option.some.injEq, Prod.mk.injEq] at hrun
    rw [← hrun.2]
    exact ⟨hclear1, new, hev,
      no_commit_of_kind new (fun ev hmem => Or.inr (Or.inl (hcheck ev hmem)))⟩

/-- C28: in every state reachable through `pull_prepare`, `pull_update` and `pull_checkupdate`
(a plan stored by `pull_prepare`, then any number of updates and checks with any engines) the
flag `ignoredelete` of every pull target is false, and every commit that was made was called
with `ignoredelete` false. -/
theorem ignoredelete_false (alldistributions : List distribution)
    (rules : List (pull_rule term filterlist)) (st : update_state)
    (h : reachable alldistributions rules st) :
    (∀ d ∈ st.distributions, ∀ u ∈ d.targets, u.ignoredelete = false) ∧
    ∀ ev ∈ st.events, ∀ (handle : Option Nat) (logger : Nat) (ignoredelete : Bool),
      ev.call = call.upgradelist_install handle logger ignoredelete →
      ignoredelete = false := by
  have key : ignoredelete_clear st.distributions ∧
      ∀ ev ∈ st.events, ∀ c, committed ev = some c → c.2 = false := by
    induction h with
    | prepared fast res plan status hp hplan =>
      refine ⟨?_, by simp⟩
      intro d hd u hu
      obtain ⟨_, _, _, hall⟩ :=
        pull_prepare_targets alldistributions rules fast res plan hp hplan d hd
      exact (hall u hu).2
    | update e st r st1 _ hrun ih =>
      obtain ⟨hclear1, new, hev, hc⟩ := pull_update_flags e st r st1 hrun ih.1
      refine ⟨hclear1, ?_⟩
      rw [hev]
      intro ev hmem
      rcases List.mem_append.1 hmem with hmem | hmem
      · exact ih.2 ev hmem
      · exact hc ev hmem
    | checkupdate e st r st1 _ hrun ih =>
      obtain ⟨hclear1, new, hev, hc⟩ := pull_checkupdate_flags e st r st1 hrun ih.1
      refine ⟨hclear1, ?_⟩
      rw [hev]
      intro ev hmem
      rcases List.mem_append.1 hmem with hmem | hmem
      · exact ih.2 ev hmem
      · exact hc ev hmem
  refine ⟨key.1, ?_⟩
  intro ev hmem handle logger ignoredelete hcall
  exact key.2 ev hmem (handle, ignoredelete) (by simp [committed, hcall])

/-! ## A rule with an empty architecture list -/

theorem rule_contributes_empty (k di : Nat) (d : distribution)
    (rule : pull_rule term filterlist) (t : target) (part : List pull_source)
    (hset : rule.architectures_set = true) (hinto : rule.architectures_into = [])
    (h : rule_contributes k di d rule t part) : part = [] := by
  unfold rule_contributes at h
  split at h
  · have hm : matching_indices (effective_into rule d) t.architecture = [] := by
      simp [matching_indices, effective_into, hset, hinto]
    rw [hm] at h
    exact List.forall₂_nil_left_iff.1 h
  · exact h

/-- C27: a rule whose `Architectures` field was given (`architectures_set`) with an empty list of
into-architectures contributes no source, whatever the bucket and whatever the architectures of
its source distribution: `pull_createsource` returns without error and leaves the source list
as it was, the contribution of the rule in the words of the specification is empty, and in a
plan stored by `pull_prepare` with this rule table no source of any pull target has this
rule. -/
theorem pull_createsource_empty_architectures (alldistributions : List distribution)
    (rules : List (pull_rule term filterlist)) (k : Nat) (rule : pull_rule term filterlist)
    (di : Nat) (d : distribution)
    (hk : rules[k]? = some rule) (hdi : rule.distribution = some di)
    (hd : alldistributions[di]? = some d)
    (hset : rule.architectures_set = true) (hinto : rule.architectures_into = []) :
    (∀ (t : target) (s : List pull_source),
      ∃ r, pull_createsource alldistributions rules k t s = some (r, s) ∧
        RET_WAS_ERROR r = false) ∧
    (∀ (t : target) (part : List pull_source),
      rule_contributes k di d rule t part → part = []) ∧
    ∀ (rules0 : List (pull_rule term filterlist)) (fast : Bool)
      (res : prepare_result term filterlist) (plan : List pull_distribution),
      pull_prepare alldistributions rules0 fast = some res → res.pd = some plan →
      res.rules = rules →
      ∀ pd ∈ plan, ∀ pt ∈ pd.targets, ∀ src ∈ pt.sources, src.rule ≠ some k := by
  refine ⟨?_, fun t part h => rule_contributes_empty k di d rule t part hset hinto h, ?_⟩
  · intro t s
    unfold pull_createsource
    simp only [hk, hdi, hd, hset, hinto, if_true, List.length_nil, List.range_zero,
      pull_createsource_loop]
    split <;> split <;> split <;>
      first | exact ⟨RET_NOTHING, rfl, rfl⟩ | exact ⟨RET_OK, rfl, rfl⟩
  · intro rules0 fast res plan h hplan hrules pd hpd pt hpt src hsrc hrule
    obtain ⟨_, _, jt, _, _, _, _, _, _, _, _, _, parts, hparts, hsources⟩ :=
      pull_prepare_target alldistributions rules0 fast res plan h hplan pd hpd pt hpt
    rw [hsources, List.mem_flatten] at hsrc
    obtain ⟨part, hpart, hmem⟩ := hsrc
    obtain ⟨slot, _, hslot⟩ := forall₂_mem_right hparts part hpart
    cases slot with
    | none =>
      simp only [slot_contributes] at hslot
      rw [hslot, List.mem_singleton] at hmem
      rw [hmem] at hrule
      cases hrule
    | some k1 =>
      obtain ⟨rule1, di1, d1, hk1, hdi1, hd1, hcontr⟩ := hslot
      have hr1 := rule_contributes_rule k1 di1 d1 rule1 jt.2 part hcontr src hmem
      rw [hrule, Option.some.injEq] at hr1
      subst hr1
      rw [hrules, hk, Option.some.injEq] at hk1
      subst hk1
      have := rule_contributes_empty k di1 d1 rule jt.2 part hset hinto hcontr
      rw [this] at hmem
      simp at hmem
/-! ## A source without source bucket -/

/-- C24 fails on the code: the rule `A` takes the architecture `i386` from the architecture
`sparc` of `unstable`, which `unstable` does not have. `pull_prepare` returns `RET_OK` and
stores a plan in which the source of the bucket `main|i386` of `stable` has the rule `A` and
no source bucket; the search then calls `upgradelist_pull` with that null source bucket. -/
theorem pull_createsource_null_source :
    pull_prepare [exStable, exUnstable] [exRuleSparc] false =
      some ⟨RET_OK, [{ exRuleSparc with distribution := some 1, used := true }],
        some exSparcPlan, [message.no_such "A" "architecture" "sparc" "unstable"]⟩ ∧
    (∃ pd ∈ exSparcPlan, ∃ pt ∈ pd.targets, ∃ src ∈ pt.sources,
      src.rule = some 0 ∧ src.source = none) ∧
    ((pull_checkupdate exEngine ⟨exSparcPlan, [RET_NOTHING, RET_NOTHING], []⟩).map
      (fun x => x.2.events.map (fun ev => ev.call))) =
      some [call.upgradelist_initialize (0, 1), call.upgradelist_initialize (0, 0),
        call.upgradelist_pull (some 1) none 0, call.upgradelist_dump (some 0),
        call.upgradelist_free (some 0), call.upgradelist_dump (some 1),
        call.upgradelist_free (some 1)] := by
  decide

/-- The progress line of pull.c 684-686: with `verbose` above 4, the search of a source that
has a rule and no source bucket dereferences the null pointer, and does not return. -/
theorem pull_searchformissing_loop_null_source (e : engine) (source : pull_source)
    (next : List pull_source) (p : pull_target) (result : retvalue) (events : List event)
    (rule : Nat) (hrule : source.rule = some rule) (hnull : source.source = none)
    (hverbose : e.verbose > 4) :
    pull_searchformissing_loop e (source :: next) p result events = none := by
  unfold pull_searchformissing_loop
  rw [hrule]
  simp only
  rw [if_pos ⟨hverbose, hnull⟩]

/-- The plan `exSparcPlan`, which `pull_prepare` stores, with `verbose` at 5: neither
`pull_checkupdate` nor `pull_update` returns; with `verbose` at 0 both do. -/
theorem pull_search_null_source_example :
    pull_checkupdate exEngineVerbose ⟨exSparcPlan, [RET_NOTHING, RET_NOTHING], []⟩ = none ∧
    pull_update exEngineVerbose ⟨exSparcPlan, [RET_NOTHING, RET_NOTHING], []⟩ = none ∧
    (pull_checkupdate exEngine ⟨exSparcPlan, [RET_NOTHING, RET_NOTHING], []⟩).isSome = true ∧
    (pull_update exEngine ⟨exSparcPlan, [RET_NOTHING, RET_NOTHING], []⟩).isSome = true := by
  decide

/-! ## The planner returns -/

theorem ite_some {α : Type} (c : Prop) [Decidable c] (a b : α) :
    ∃ x, (if c then some a else some b) = some x := by
  by_cases h : c <;> simp [h]

theorem pull_createsource_total (alldistributions : List distribution)
    (rules : List (pull_rule term filterlist)) (k : Nat) (t : target)
    (s : List pull_source) (h : slot_ready alldistributions rules (some k)) :
    ∃ x, pull_createsource alldistributions rules k t s = some x := by
  obtain ⟨rule, di, d, hk, hdi, hd, hlen⟩ := h k rfl
  unfold pull_createsource
  simp only [hk, hdi, hd]
  obtain ⟨s1, hs1⟩ := pull_createsource_loop_total k di d t
    (if rule.architectures_set then rule.architectures_from else d.architectures)
    (if rule.architectures_set then rule.architectures_into else d.architectures)
    (List.range (if rule.architectures_set then rule.architectures_into
      else d.architectures).length) s
    (by
      intro ai hai
      rw [List.mem_range] at hai
      refine ⟨hai, ?_⟩
      by_cases hset : rule.architectures_set = true
      · simp only [hset, if_true] at hai ⊢
        exact lt_of_lt_of_le hai (hlen hset)
      · simp only [hset, Bool.false_eq_true, if_false] at hai ⊢
        exact hai)
  rw [hs1]
  exact ite_some _ _ _

theorem generatepulltarget_loop_total (alldistributions : List distribution)
    (rules : List (pull_rule term filterlist)) (pd : pull_distribution) (t : target)
    (idxs : List Nat) (s : List pull_source)
    (hidx : ∀ i ∈ idxs, i < pd.rules.length)
    (hready : ∀ slot ∈ pd.rules, slot_ready alldistributions rules slot) :
    ∃ x, generatepulltarget_loop alldistributions rules pd t idxs s = some x := by
  induction idxs generalizing s with
  | nil => exact ⟨_, rfl⟩
  | cons i rest ih =>
    have hi := hidx i (List.mem_cons_self _ _)
    have hrest : ∀ j ∈ rest, j < pd.rules.length :=
      fun j hj => hidx j (List.mem_cons_of_mem _ hj)
    unfold generatepulltarget_loop
    rw [List.getElem?_eq_getElem hi]
    simp only
    cases hslot : pd.rules[i] with
    | none =>
      simp only
      split
      · exact ⟨_, rfl⟩
      · exact ih _ hrest
    | some k =>
      have hmem : some k ∈ pd.rules := by
        rw [← hslot]
        exact List.getElem_mem _
      obtain ⟨⟨r, s1⟩, hx⟩ :=
        pull_createsource_total alldistributions rules k t s (hready _ hmem)
      simp only [hx]
      split
      · exact ⟨_, rfl⟩
      · exact ih _ hrest

theorem generatepulltarget_total (alldistributions : List distribution)
    (rules : List (pull_rule term filterlist)) (pd : pull_distribution) (d : distribution)
    (tp : Nat × Nat) (t : target)
    (hd : alldistributions[pd.distribution]? = some d)
    (hlen : d.pulls.length ≤ pd.rules.length)
    (hready : ∀ slot ∈ pd.rules, slot_ready alldistributions rules slot) :
    ∃ x, generatepulltarget alldistributions rules pd tp t = some x := by
  unfold generatepulltarget
  simp only [hd]
  obtain ⟨⟨r, s⟩, hx⟩ := generatepulltarget_loop_total alldistributions rules pd t
    (List.range d.pulls.length) []
    (fun i hi => lt_of_lt_of_le (List.mem_range.1 hi) hlen) hready
  rw [hx]
  exact ⟨_, rfl⟩

theorem pull_generatetargets_inner_total (alldistributions : List distribution)
    (rules : List (pull_rule term filterlist)) (d : distribution) (ts : List target) (j : Nat)
    (pd : pull_distribution) (hd : alldistributions[pd.distribution]? = some d)
    (hlen : d.pulls.length ≤ pd.rules.length)
    (hready : ∀ slot ∈ pd.rules, slot_ready alldistributions rules slot) :
    ∃ x, pull_generatetargets_inner alldistributions rules ts j pd = some x := by
  induction ts generalizing j pd with
  | nil => exact ⟨_, rfl⟩
  | cons t next ih =>
    unfold pull_generatetargets_inner
    obtain ⟨⟨r, pd1⟩, hx⟩ := generatepulltarget_total alldistributions rules pd d
      (pd.distribution, j) t hd hlen hready
    obtain ⟨_, s, hpd1⟩ := generatepulltarget_frame _ _ _ _ _ _ _ hx
    rw [hx]
    simp only
    split
    · exact ⟨_, rfl⟩
    · exact ih (j + 1) pd1 (by rw [hpd1]; exact hd) (by rw [hpd1]; exact hlen)
        (by rw [hpd1]; exact hready)

theorem pull_generatetargets_total (alldistributions : List distribution)
    (rules : List (pull_rule term filterlist)) (p : List pull_distribution)
    (hp : ∀ pd ∈ p, ∃ d, alldistributions[pd.distribution]? = some d ∧
      d.pulls.length ≤ pd.rules.length ∧
      ∀ slot ∈ pd.rules, slot_ready alldistributions rules slot) :
    ∃ x, pull_generatetargets alldistributions rules p = some x := by
  induction p with
  | nil => exact ⟨_, rfl⟩
  | cons pd next ih =>
    obtain ⟨d, hd, hlen, hready⟩ := hp pd (List.mem_cons_self _ _)
    unfold pull_generatetargets
    simp only [hd]
    obtain ⟨⟨r, pd1⟩, hx⟩ := pull_generatetargets_inner_total alldistributions rules d
      d.targets 0 pd hd hlen hready
    rw [hx]
    simp only
    split
    · exact ⟨_, rfl⟩
    · obtain ⟨⟨r1, next1⟩, hy⟩ := ih (fun x hx => hp x (List.mem_cons_of_mem _ hx))
      rw [hy]
      exact ⟨_, rfl⟩
/-- When `pull_init` and `pull_loadsourcedistributions` have returned without error, which is
when `pull_prepare` goes on to `pull_generatetargets`: every rule in a slot of a pull
distribution is used and bound to a source distribution. -/
theorem slots_bound (alldistributions : List distribution)
    (rules : List (pull_rule term filterlist)) (err : List message)
    (r1 : retvalue) (rules1 : List (pull_rule term filterlist))
    (pulls : Option (List pull_distribution)) (err1 : List message)
    (hinit : pull_init rules alldistributions err = some (r1, rules1, pulls, err1))
    (hr1 : RET_WAS_ERROR r1 = false)
    (r2 : retvalue) (rules2 : List (pull_rule term filterlist)) (err2 : List message)
    (hload : pull_loadsourcedistributions alldistributions rules1 err1 = (r2, rules2, err2))
    (hr2 : RET_WAS_ERROR r2 = false) :
    ∃ p, pulls = some p ∧ used_grows rules rules1 ∧
      List.Forall₂ (pd_initialised rules1) (pulling alldistributions) p ∧
      rules2 = rules1.map (bind_source alldistributions) ∧
      (∀ rule ∈ rules1, ¬ unresolved alldistributions rule) ∧
      ∀ pd ∈ p, ∀ k, some k ∈ pd.rules →
        ∃ rule di, rules2[k]? = some rule ∧ rule.used = true ∧
          rule.distribution = some di := by
  obtain ⟨r, rules1a, pullsa, err1a, he, hg, hcase⟩ :=
    pull_init_loop_spec alldistributions 0 rules [] err
  unfold pull_init at hinit
  rw [he, Option.some.injEq, Prod.mk.injEq, Prod.mk.injEq, Prod.mk.injEq] at hinit
  obtain ⟨rfl, rfl, rfl, rfl⟩ := hinit
  rcases hcase with ⟨_, new, hnew, hf⟩ | ⟨hr, _, _⟩
  · obtain ⟨r2a, rules2a, err2a, he2, hcase2⟩ :=
      pull_loadsourcedistributions_spec alldistributions rules1a err1a
    rw [he2, Prod.mk.injEq, Prod.mk.injEq] at hload
    obtain ⟨rfl, rfl, rfl⟩ := hload
    rcases hcase2 with ⟨_, hrules2, _, hno⟩ | ⟨hr2m, _⟩
    · refine ⟨new, by simpa using hnew, hg, hf, hrules2, hno, ?_⟩
      intro pd hpd k hk
      obtain ⟨id, _, _, _, hslots⟩ := forall₂_mem_right hf pd hpd
      obtain ⟨name, _, hres⟩ := forall₂_mem_right hslots (some k) hk
      unfold slot_resolves at hres
      split at hres
      · cases hres
      · obtain ⟨k1, rule1, hk1, _, hrule1, hused⟩ := hres
        rw [Option.some.injEq] at hk1
        subst hk1
        have hget : rules2a[k]? = some (bind_source alldistributions rule1) := by
          rw [hrules2, List.getElem?_map, hrule1]
          rfl
        have hused2 : (bind_source alldistributions rule1).used = true := by
          unfold bind_source
          split <;> exact hused
        have hmem : bind_source alldistributions rule1 ∈
            rules1a.map (bind_source alldistributions) :=
          List.mem_map.2 ⟨rule1, List.mem_iff_getElem?.2 ⟨k, hrule1⟩, rfl⟩
        have hb := bind_source_used alldistributions rules1a hno _ hmem hused2
        cases hdist : (bind_source alldistributions rule1).distribution with
        | none => exact absurd hdist hb
        | some di => exact ⟨_, di, hget, hused2, hdist⟩
    · rw [hr2m] at hr2
      cases hr2
  · rw [hr] at hr1
    cases hr1
theorem bind_source_architectures (alldistributions : List distribution)
    (rule : pull_rule term filterlist) :
    (bind_source alldistributions rule).architectures_set = rule.architectures_set ∧
    (bind_source alldistributions rule).architectures_into = rule.architectures_into ∧
    (bind_source alldistributions rule).architectures_from = rule.architectures_from := by
  unfold bind_source
  split <;> exact ⟨rfl, rfl, rfl⟩

/-- After `pull_init` and `pull_loadsourcedistributions` without error, for a rule table whose
bound rules point into the inventory and whose architecture lists are pairs: every slot of
every pull distribution can be expanded. -/
theorem slots_ready (alldistributions : List distribution)
    (rules rules1 : List (pull_rule term filterlist)) (p : List pull_distribution)
    (hwf : ∀ rule ∈ rules, ∀ di, rule.distribution = some di → di < alldistributions.length)
    (hpairs : ∀ rule ∈ rules, rule.architectures_set = true →
      rule.architectures_into.length ≤ rule.architectures_from.length)
    (hg : used_grows rules rules1)
    (hf : List.Forall₂ (pd_initialised rules1) (pulling alldistributions) p)
    (hno : ∀ rule ∈ rules1, ¬ unresolved alldistributions rule) :
    ∀ pd ∈ p, ∃ d, alldistributions[pd.distribution]? = some d ∧
      d.pulls.length ≤ pd.rules.length ∧
      ∀ slot ∈ pd.rules,
        slot_ready alldistributions (rules1.map (bind_source alldistributions)) slot := by
  intro pd hpd
  obtain ⟨id, hid, hdist, _, hslots⟩ := forall₂_mem_right hf pd hpd
  obtain ⟨hd, _, _⟩ := pulling_getElem alldistributions id hid
  refine ⟨id.2, by rw [hdist]; exact hd, le_of_eq (forall₂_getElem_left hslots).1, ?_⟩
  intro slot hslot k hk
  subst hk
  obtain ⟨name, _, hres⟩ := forall₂_mem_right hslots (some k) hslot
  unfold slot_resolves at hres
  split at hres
  · cases hres
  · obtain ⟨k1, rule1, hk1, _, hrule1, hused⟩ := hres
    rw [Option.some.injEq] at hk1
    subst hk1
    have hmem1 : rule1 ∈ rules1 := List.mem_iff_getElem?.2 ⟨k, hrule1⟩
    have hmem : bind_source alldistributions rule1 ∈
        rules1.map (bind_source alldistributions) := List.mem_map.2 ⟨rule1, hmem1, rfl⟩
    have hused2 : (bind_source alldistributions rule1).used = true := by
      unfold bind_source
      split <;> exact hused
    obtain ⟨di, d, hdi, hdd⟩ := bind_source_bound alldistributions rules1
      (used_grows_distribution hg _ hwf) hno _ hmem hused2
    refine ⟨bind_source alldistributions rule1, di, d, ?_, hdi, hdd, ?_⟩
    · rw [List.getElem?_map, hrule1]
      rfl
    · obtain ⟨hs, hi, hfr⟩ := bind_source_architectures alldistributions rule1
      rw [hs, hi, hfr]
      obtain ⟨rule, hrule, hor⟩ := forall₂_mem_right hg rule1 hmem1
      rcases hor with rfl | rfl
      · exact hpairs _ hrule
      · exact hpairs rule hrule

/-- The function `pull_prepare` returns, for a rule table whose bound rules point into the
inventory and whose architecture lists are pairs: no `assert` fails and nothing is read out of
bounds. -/
theorem pull_prepare_total (alldistributions : List distribution)
    (rules : List (pull_rule term filterlist)) (fast : Bool)
    (hwf : ∀ rule ∈ rules, ∀ di, rule.distribution = some di → di < alldistributions.length)
    (hpairs : ∀ rule ∈ rules, rule.architectures_set = true →
      rule.architectures_into.length ≤ rule.architectures_from.length) :
    ∃ res, pull_prepare alldistributions rules fast = some res := by
  obtain ⟨r, rules1, pulls, err1, he, hg, _⟩ :=
    pull_init_spec alldistributions rules []
  unfold pull_prepare
  rw [he]
  simp only
  by_cases hr : RET_WAS_ERROR r = true
  · simp only [hr, if_true]
    exact ⟨_, rfl⟩
  · simp only [hr, Bool.false_eq_true, if_false]
    cases hl : pull_loadsourcedistributions alldistributions rules1 err1 with
    | mk r2 rest =>
      obtain ⟨rules2, err2⟩ := rest
      simp only
      by_cases hr2 : RET_WAS_ERROR r2 = true
      · simp only [hr2, if_true]
        exact ⟨_, rfl⟩
      · simp only [hr2, Bool.false_eq_true, if_false]
        obtain ⟨p, hp, _, hf, hrules2, hno, _⟩ := slots_bound alldistributions rules []
          r rules1 pulls err1 he (by simpa using hr) r2 rules2 err2 hl (by simpa using hr2)
        subst hp
        obtain ⟨err3, hs⟩ : ∃ err3,
            (if !fast then pull_searchunused alldistributions rules2 err2 else some err2) =
              some err3 := by
          cases fast with
          | true => exact ⟨err2, rfl⟩
          | false =>
            obtain ⟨err3, hs⟩ := pull_searchunused_total alldistributions rules2 err2
              (by
                rw [hrules2]
                exact bind_source_bound alldistributions rules1
                  (used_grows_distribution hg _ hwf) hno)
            exact ⟨err3, by simpa using hs⟩
        rw [hs]
        simp only
        obtain ⟨⟨r4, p4⟩, hgen⟩ := pull_generatetargets_total alldistributions rules2 p
          (by
            rw [hrules2]
            exact slots_ready alldistributions rules rules1 p hwf hpairs hg hf hno)
        rw [hgen]
        simp only
        split <;> exact ⟨_, rfl⟩
/-- C25: when `pull_init` and `pull_loadsourcedistributions` have returned without error, which
is when `pull_prepare` goes on to `pull_generatetargets` and so to `pull_createsource`, every
rule in a slot of a pull distribution is marked used and bound to a source distribution. So
`pull_prepare` returns, for a rule table whose bound rules point into the inventory and whose
architecture lists are pairs: the `assert` of `pull_createsource` does not fail. And in a plan
stored by `pull_prepare` the rule of every source that has one is bound to a distribution of
the inventory. -/
theorem pull_prepare_bound (alldistributions : List distribution)
    (rules : List (pull_rule term filterlist)) (fast : Bool) :
    (∀ (r1 : retvalue) (rules1 : List (pull_rule term filterlist))
        (pulls : Option (List pull_distribution)) (err1 : List message) (r2 : retvalue)
        (rules2 : List (pull_rule term filterlist)) (err2 : List message),
      pull_init rules alldistributions [] = some (r1, rules1, pulls, err1) →
      RET_WAS_ERROR r1 = false →
      pull_loadsourcedistributions alldistributions rules1 err1 = (r2, rules2, err2) →
      RET_WAS_ERROR r2 = false →
      ∃ p, pulls = some p ∧ ∀ pd ∈ p, ∀ k, some k ∈ pd.rules →
        ∃ rule di, rules2[k]? = some rule ∧ rule.used = true ∧
          rule.distribution = some di) ∧
    ((∀ rule ∈ rules, ∀ di, rule.distribution = some di → di < alldistributions.length) →
      (∀ rule ∈ rules, rule.architectures_set = true →
        rule.architectures_into.length ≤ rule.architectures_from.length) →
      ∃ res, pull_prepare alldistributions rules fast = some res) ∧
    ∀ (res : prepare_result term filterlist) (plan : List pull_distribution),
      pull_prepare alldistributions rules fast = some res → res.pd = some plan →
      ∀ pd ∈ plan, ∀ pt ∈ pd.targets, ∀ src ∈ pt.sources, ∀ k, src.rule = some k →
        ∃ rule di d, res.rules[k]? = some rule ∧ rule.distribution = some di ∧
          alldistributions[di]? = some d := by
  refine ⟨?_, pull_prepare_total alldistributions rules fast, ?_⟩
  · intro r1 rules1 pulls err1 r2 rules2 err2 hinit hr1 hload hr2
    obtain ⟨p, hp, _, _, _, _, hall⟩ := slots_bound alldistributions rules [] r1 rules1 pulls
      err1 hinit hr1 r2 rules2 err2 hload hr2
    exact ⟨p, hp, hall⟩
  · intro res plan h hplan pd hpd pt hpt src hsrc k hrule
    obtain ⟨_, _, jt, _, _, _, _, _, _, _, _, _, parts, hparts, hsources⟩ :=
      pull_prepare_target alldistributions rules fast res plan h hplan pd hpd pt hpt
    rw [hsources, List.mem_flatten] at hsrc
    obtain ⟨part, hpart, hmem⟩ := hsrc
    obtain ⟨slot, _, hslot⟩ := forall₂_mem_right hparts part hpart
    cases slot with
    | none =>
      simp only [slot_contributes] at hslot
      rw [hslot, List.mem_singleton] at hmem
      rw [hmem] at hrule
      cases hrule
    | some k1 =>
      obtain ⟨rule1, di1, d1, hk1, hdi1, hd1, hcontr⟩ := hslot
      have hr1 := rule_contributes_rule k1 di1 d1 rule1 jt.2 part hcontr src hmem
      rw [hrule, Option.some.injEq] at hr1
      subst hr1
      exact ⟨rule1, di1, d1, hk1, hdi1, hd1⟩

/-! ## The claims about the plan graph at concrete inputs -/

theorem pull_init_slots_witness :
    pull_init [exRuleA, exRuleA2] [exStableDelete, exUnstable] [] =
      some (RET_OK, [{ exRuleA with used := true }, exRuleA2], some [exInitDelete], []) ∧
    ∃ r rules1 pulls err1,
      pull_init [exRuleA, exRuleA2] [exStableDelete, exUnstable] [] =
        some (r, rules1, pulls, err1) ∧
      (r = RET_OK → ∃ p, pulls = some p ∧ ∀ pd ∈ p,
        ∃ d, [exStableDelete, exUnstable][pd.distribution]? = some d ∧
          pd.rules.length = d.pulls.length ∧
          ∀ (i : Nat) (name : String), d.pulls[i]? = some name →
            (pd.rules[i]? = some none ↔ name = "-") ∧
            (name ≠ "-" → ∃ (k : Nat) (rule : pull_rule Unit Unit),
              pd.rules[i]? = some (some k) ∧ [exRuleA, exRuleA2][k]? = some rule ∧
              rule.name = name ∧
              ∀ (j : Nat) (x : pull_rule Unit Unit), j < k →
                [exRuleA, exRuleA2][j]? = some x → x.name ≠ name)) :=
  ⟨by decide, pull_init_slots [exStableDelete, exUnstable] [exRuleA, exRuleA2] []⟩

theorem pull_init_distributions_witness :
    pull_init [exRuleA] [exUnstable, exStable] [] =
      some (RET_OK, [{ exRuleA with used := true }], some [⟨1, [], [some 0]⟩], []) ∧
    ∃ r rules1 pulls err1,
      pull_init [exRuleA] [exUnstable, exStable] [] = some (r, rules1, pulls, err1) ∧
      (r = RET_OK → ∃ p, pulls = some p ∧
        p.map (fun pd => pd.distribution) =
          (List.range [exUnstable, exStable].length).filter (fun i =>
            match [exUnstable, exStable][i]? with
            | some d => d.selected && !d.pulls.isEmpty
            | none => false)) :=
  ⟨by decide, pull_init_distributions [exUnstable, exStable] [exRuleA] []⟩
theorem pull_generatetargets_targets_witness :
    (∀ pd ∈ [(⟨0, [], [some 0]⟩ : pull_distribution)], pd.targets = []) ∧
    pull_generatetargets [exStable, exUnstable] [exRuleABound] [⟨0, [], [some 0]⟩] =
      some (RET_OK, exPlan) ∧
    RET_OK = RET_OK ∧ List.Forall₂ (fun pd pd1 =>
      pd1.distribution = pd.distribution ∧
      ∃ d, [exStable, exUnstable][pd.distribution]? = some d ∧
        (pd1.targets.map (fun pt => pt.target)).Perm
          ((List.range d.targets.length).map (fun j => (pd.distribution, j))) ∧
        ∀ pt ∈ pd1.targets, pt.upgradelist = none ∧ pt.ignoredelete = false)
      [(⟨0, [], [some 0]⟩ : pull_distribution)] exPlan :=
  ⟨by decide, by decide,
    pull_generatetargets_targets [exStable, exUnstable] [exRuleABound] [⟨0, [], [some 0]⟩]
      RET_OK exPlan (by decide) (by decide)⟩

theorem pull_prepare_bound_witness :
    (∀ rule ∈ [exRuleA], ∀ di, rule.distribution = some di →
      di < [exStable, exUnstable].length) ∧
    (∀ rule ∈ [exRuleA], rule.architectures_set = true →
      rule.architectures_into.length ≤ rule.architectures_from.length) ∧
    pull_prepare [exStable, exUnstable] [exRuleA] false =
      some ⟨RET_OK, [exRuleABound], some exPlan, []⟩ ∧
    (∃ res, pull_prepare [exStable, exUnstable] [exRuleA] false = some res) ∧
    ∀ pd ∈ exPlan, ∀ pt ∈ pd.targets, ∀ src ∈ pt.sources, ∀ k, src.rule = some k →
      ∃ rule di d, [exRuleABound][k]? = some rule ∧ rule.distribution = some di ∧
        [exStable, exUnstable][di]? = some d :=
  ⟨by simp [exRuleA], by decide, by decide,
    (pull_prepare_bound [exStable, exUnstable] [exRuleA] false).2.1
      (by simp [exRuleA]) (by decide),
    (pull_prepare_bound [exStable, exUnstable] [exRuleA] false).2.2
      ⟨RET_OK, [exRuleABound], some exPlan, []⟩ exPlan (by decide) rfl⟩

theorem pull_targets_order_witness :
    pull_prepare [exStable, exUnstable] [exRuleA] true =
      some ⟨RET_OK, [exRuleABound], some exPlan, []⟩ ∧
    (∀ pd ∈ exPlan, ∃ d, [exStable, exUnstable][pd.distribution]? = some d ∧
      pd.targets.map (fun pt => pt.target) =
        ((List.range d.targets.length).map (fun j => (pd.distribution, j))).reverse ∧
      ∀ (e : engine) (events : List event),
        ((∀ pt ∈ pd.targets, sources_printable e pt) →
          ∃ r pd1 events1, pull_search e pd events = some (r, pd1, events1)) ∧
        ∀ r pd1 events1, pull_search e pd events = some (r, pd1, events1) →
          ∃ new n, events1 = events ++ new ∧
            pd1.targets.map (fun pt => pt.target) = pd.targets.map (fun pt => pt.target) ∧
            new.filterMap allocated = (pd.targets.take n).map (fun pt => pt.target) ∧
            (RET_WAS_ERROR r = false → n = pd.targets.length)) ∧
    ∀ (e : engine) (pd : pull_distribution) (status : List retvalue) (events : List event)
      (r : retvalue) (pd1 : pull_distribution) (status1 : List retvalue)
      (events1 : List event),
      pull_install e pd status events = some (r, pd1, status1, events1) →
      ∃ new n, events1 = events ++ new ∧
        new.filterMap committed =
          (pd.targets.take n).map (fun pt => (pt.upgradelist, pt.ignoredelete)) ∧
        (RET_WAS_ERROR r = false → n = pd.targets.length) :=
  ⟨by decide,
    pull_targets_order [exStable, exUnstable] [exRuleA] true
      ⟨RET_OK, [exRuleABound], some exPlan, []⟩ exPlan (by decide) rfl⟩

theorem pull_createsource_empty_architectures_witness :
    [exRuleEmpty][0]? = some exRuleEmpty ∧ exRuleEmpty.distribution = some 1 ∧
    [exStable, exUnstable][1]? = some exUnstable ∧ exRuleEmpty.architectures_set = true ∧
    exRuleEmpty.architectures_into = [] ∧
    pull_createsource [exStable, exUnstable] [exRuleEmpty] 0 (exBucket "main" "i386" "deb") [] =
      some (RET_OK, []) ∧
    (∀ (t : target) (s : List pull_source),
      ∃ r, pull_createsource [exStable, exUnstable] [exRuleEmpty] 0 t s = some (r, s) ∧
        RET_WAS_ERROR r = false) ∧
    (∀ (t : target) (part : List pull_source),
      rule_contributes 0 1 exUnstable exRuleEmpty t part → part = []) ∧
    ∀ (rules0 : List (pull_rule Unit Unit)) (fast : Bool)
      (res : prepare_result Unit Unit) (plan : List pull_distribution),
      pull_prepare [exStable, exUnstable] rules0 fast = some res → res.pd = some plan →
      res.rules = [exRuleEmpty] →
      ∀ pd ∈ plan, ∀ pt ∈ pd.targets, ∀ src ∈ pt.sources, src.rule ≠ some 0 :=
  ⟨rfl, rfl, rfl, rfl, rfl, by decide,
    pull_createsource_empty_architectures [exStable, exUnstable] [exRuleEmpty] 0 exRuleEmpty 1
      exUnstable rfl rfl rfl rfl rfl⟩

theorem ignoredelete_false_witness :
    reachable [exStableDelete, exUnstable] [exRuleA] exEndDelete ∧
    (∀ d ∈ exEndDelete.distributions, ∀ u ∈ d.targets, u.ignoredelete = false) ∧
    ∀ ev ∈ exEndDelete.events, ∀ (handle : Option Nat) (logger : Nat) (ignoredelete : Bool),
      ev.call = call.upgradelist_install handle logger ignoredelete →
      ignoredelete = false :=
  ⟨reachable.update exEngine exStartDelete RET_NOTHING exEndDelete
      (reachable.prepared false ⟨RET_OK, [exRuleABound], some exPlanDelete, []⟩ exPlanDelete
        [RET_NOTHING, RET_NOTHING] (by decide) rfl) (by decide),
    ignoredelete_false [exStableDelete, exUnstable] [exRuleA] exEndDelete
      (reachable.update exEngine exStartDelete RET_NOTHING exEndDelete
        (reachable.prepared false ⟨RET_OK, [exRuleABound], some exPlanDelete, []⟩ exPlanDelete
          [RET_NOTHING, RET_NOTHING] (by decide) rfl) (by decide))⟩

end Pull
